import Mathlib

/-!
# simpkg: task orchestration and worker registry

A shallow embedding of `tasks/task.go`, `tasks/manager.go` and
`workman/manager.go`, followed by theorems about them.

Modelling conventions.

* Go `int` fields are `Int`; `error` values are `Option Err` (`none` is `nil`).
* A `*Task` is a position in the manager's heap of Task objects (`Ptr`).
* A Go closure is data describing what the closure does when called:
  - a hook is a `Hook` (`nil`, a user function, or the wrapper that
    `Manager.Add` builds around the previous hook);
  - a `Handler` is a function from the number of earlier invocations to the
    outcome of the next one (the returned error, and whether the call
    invoked `Stop()` on the manager that drives the Task).
* Every call that leaves the Task (hooks, the Handler, the sleep of
  `pause`, the end-of-run callback) is recorded as an event, in call order.
-/

namespace Simpkg

abbrev Err := String
abbrev Msg := String
abbrev Ptr := Nat

/-! ## tasks/task.go -/

/-- Status is the Task status (task.go, lines 6-14). -/
inductive Status where
  | pending
  | start
  | retry
  | fail
  | success
  deriving DecidableEq, Repr

/-- What one invocation of a Handler does: `result` is the returned error
(`none` for `nil`), `stop` tells whether the Handler called `Stop()` on the
manager while it ran. -/
structure HandlerRun where
  result : Option Err
  stop : Bool := false
  deriving DecidableEq, Repr

/-- A hook field (`OnStart`, `OnRetry`, `OnError`, `OnSuccess`): `nil`, a
function assigned by the user, or the closure that `Manager.Add` puts in
front of the hook found in the field (manager.go, lines 97-111). -/
inductive Hook where
  | nil
  | user
  | wrap (inner : Hook)
  deriving DecidableEq, Repr

/-- The calls a running Task makes, as seen from outside the Task. -/
inductive TEvent where
  /-- SetStatus(st) -/
  | setStatus (st : Status)
  /-- The wrapper of `Manager.Add` calls `triggerOnTaskStatusChange(task)`;
  `st` is the status the observers find. -/
  | broadcast (st : Status)
  /-- The user's OnStart() -/
  | onStart
  /-- The user's OnRetry(err, index) -/
  | onRetry (err : Option Err) (index : Int)
  /-- The user's OnError(err) -/
  | onError (err : Err)
  /-- The user's OnSuccess() -/
  | onSuccess
  /-- A time.Sleep(RetryDelay) -/
  | sleep (d : Int)
  /-- The Handler is invoked; `call` counts its earlier invocations. -/
  | handler (call : Nat)
  /-- The running Handler calls Stop() on the manager. -/
  | callStop
  /-- The end-of-run callback onRunEnd(task) is invoked; `st` is the status
  it finds in the Task. -/
  | runEnd (st : Status)
  deriving DecidableEq, Repr

/-- What a message producer can read of the Task it is given. -/
structure TaskView where
  Name : String
  Order : Int
  Retries : Int
  status : Status
  attempts : Int
  err : Option Err

/-- Task struct (task.go, lines 28-55). `calls` is the state captured by the
`Handler` closure: how many times it has been invoked. `onRunEnd` tells
whether the private end-of-run callback is set (only `Manager.Add` sets it). -/
structure Task where
  index : Int := 0
  Order : Int := 0
  Name : String := ""
  Label : String := ""
  Handler : Nat → HandlerRun
  calls : Nat := 0
  RetryDelay : Int := 0
  RetryCondition : Option (Err → Int → Bool) := none
  Retries : Int := 0
  Message : Option Msg := none
  StartMessage : Option (TaskView → Msg) := none
  RetryMessage : Option (TaskView → Option Err → Int → Msg) := none
  ErrorMessage : Option (TaskView → Err → Msg) := none
  SuccessMessage : Option (TaskView → Msg) := none
  OnStart : Hook := Hook.nil
  OnRetry : Hook := Hook.nil
  OnError : Hook := Hook.nil
  OnSuccess : Hook := Hook.nil
  onRunEnd : Bool := false
  err : Option Err := none
  status : Status := Status.pending
  executeNextTask : Bool := false
  attempts : Int := 0

namespace Hook

/-- Calling a non-nil hook: a wrapper first broadcasts (`bc`), then calls the
hook it wraps if that one is not nil; a user hook is the event `ue`. -/
def call (bc ue : TEvent) : Hook → List TEvent
  | nil => []
  | user => [ue]
  | wrap inner => bc :: call bc ue inner

end Hook

namespace Task

/-- The snapshot handed to message producers. -/
def view (t : Task) : TaskView :=
  { Name := t.Name, Order := t.Order, Retries := t.Retries, status := t.status,
    attempts := t.attempts, err := t.err }

/-- Status returns task status. -/
def Status (t : Task) : Simpkg.Status := t.status

/-- SetStatus set status. -/
def SetStatus (t : Task) (status : Simpkg.Status) : Task := { t with status := status }

/-- Error returns task err. -/
def Error (t : Task) : Option Err := t.err

/-- Attempts returns task attempts. -/
def Attempts (t : Task) : Int := t.attempts

/-- IsError returns true if task has error. -/
def IsError (t : Task) : Bool := t.err.isSome

/-- IsDone returns true if task is done. -/
def IsDone (t : Task) : Bool := t.status = .success || t.status = .fail

/-- IsSuccess returns true if task is success. -/
def IsSuccess (t : Task) : Bool := t.status = .success

/-- The events of pause (task.go, lines 93-97). -/
def pause (t : Task) : List TEvent :=
  if t.RetryDelay > 0 then [.sleep t.RetryDelay] else []

/-- The reset of task.go, lines 100-105. -/
def reset (t : Task) : Task :=
  { t with err := none, status := .pending, executeNextTask := true, attempts := 0 }

/-- The local closure onTaskEnd of Start (lines 109-113). -/
def onTaskEnd (t : Task) : List TEvent :=
  if t.onRunEnd then [.runEnd t.status] else []

/-- Start, lines 121-132: attempts is cleared, the OnStart branch runs, and
Retries is normalised. -/
def prologue (t : Task) : Task × List TEvent :=
  let t0 := { t with attempts := 0 }
  let r : Task × List TEvent :=
    if t0.OnStart = Hook.nil then (t0, [])
    else
      let t1 := t0.SetStatus .start
      let t2 := match t1.StartMessage with
        | some f => { t1 with Message := some (f t1.view) }
        | none => t1
      (t2, .setStatus .start :: t2.OnStart.call (.broadcast t2.status) .onStart)
  let t3 := if r.1.Retries = 0 then { r.1 with Retries := 1 } else r.1
  (t3, r.2)

/-- Start, lines 155-166: the Handler is invoked and its result recorded.
The Bool says whether the loop is left by `break`. -/
def handlerStep (t : Task) : Task × List TEvent × Bool :=
  let run := t.Handler t.calls
  let ev : List TEvent := .handler t.calls :: (if run.stop then [.callStop] else [])
  let t1 := { t with calls := t.calls + 1 }
  match run.result with
  | none => ({ t1 with err := none }, ev, true)
  | some e =>
    let t2 := { t1 with err := some e }
    let t3 := t2.SetStatus .fail
    let t4 := match t3.ErrorMessage with
      | some f => { t3 with Message := some (f t3.view e) }
      | none => t3
    (t4, ev ++ [.setStatus .fail], false)

/-- Start, lines 135-166: one pass of the retry loop at loop counter
`index`. The Bool says whether the pass left the loop by `break`. -/
def attempt (t : Task) (index : Int) : Task × List TEvent × Bool :=
  let t0 := { t with attempts := t.attempts + 1 }
  if index > 0 then
    let t1 := t0.SetStatus .retry
    let t2 := match t1.RetryMessage with
      | some f => { t1 with Message := some (f t1.view t1.err index) }
      | none => t1
    let veto : Bool := match t2.RetryCondition, t2.err with
      | some cond, some e => !cond e index
      | _, _ => false
    if veto then (t2, [.setStatus .retry], true)
    else
      let evRetry : List TEvent :=
        if t2.OnRetry = Hook.nil then []
        else t2.OnRetry.call (.broadcast t2.status) (.onRetry t2.err index)
      let r := t2.handlerStep
      (r.1, .setStatus .retry :: (t2.pause ++ evRetry ++ r.2.1), r.2.2)
  else t0.handlerStep

/-- Start, line 134: `for index := 0; index < task.Retries; index++`, as the
passes that remain (`n` of them) from loop counter `index` on. -/
def loop : Nat → Int → Task → Task × List TEvent
  | 0, _, t => (t, [])
  | n + 1, index, t =>
    let r := t.attempt index
    if r.2.2 then (r.1, r.2.1)
    else
      let r2 := loop n (index + 1) r.1
      (r2.1, r.2.1 ++ r2.2)

/-- Start, lines 169-189: OnError or OnSuccess, then the final status and
message. -/
def epilogue (t : Task) : Task × List TEvent :=
  match t.err with
  | some e =>
    let ev : List TEvent :=
      if t.OnError = Hook.nil then [] else t.OnError.call (.broadcast t.status) (.onError e)
    let t1 := t.SetStatus .fail
    let t2 := match t1.ErrorMessage with
      | some f => { t1 with Message := some (f t1.view e) }
      | none => t1
    (t2, ev ++ [.setStatus .fail])
  | none =>
    let ev : List TEvent :=
      if t.OnSuccess = Hook.nil then [] else t.OnSuccess.call (.broadcast t.status) .onSuccess
    let t1 := t.SetStatus .success
    let t2 := match t1.SuccessMessage with
      | some f => { t1 with Message := some (f t1.view) }
      | none => t1
    (t2, ev ++ [.setStatus .success])

/-- What Manager.Add assigns to the Task it is given (manager.go, lines
96-128): the status, the wrapped OnStart and OnRetry, and the end-of-run
callback. -/
def added (t : Task) : Task :=
  { t with status := .pending, OnStart := .wrap t.OnStart, OnRetry := .wrap t.OnRetry,
           onRunEnd := true }

/-- Start the task (task.go, lines 108-193). The result is the Task when
Start returns (the effects of the end-of-run callback apart) and the calls
made, the last of which is the end-of-run callback. -/
def Start (t : Task) : Task × List TEvent :=
  if t.IsSuccess then (t, t.onTaskEnd)
  else
    let a := t.prologue
    let b := loop a.1.Retries.toNat 0 a.1
    let c := b.1.epilogue
    (c.1, a.2 ++ b.2 ++ c.2 ++ c.1.onTaskEnd)

end Task

/-- Two states of one Task that differ at most in what Start assigns after
its first lines: `attempts`, `status`, `Message`, `err` and the count of
Handler invocations. -/
def Task.Same (a b : Task) : Prop :=
  a.Handler = b.Handler ∧ a.RetryCondition = b.RetryCondition ∧ a.index = b.index ∧
  a.Order = b.Order ∧ a.Name = b.Name ∧ a.onRunEnd = b.onRunEnd ∧
  a.executeNextTask = b.executeNextTask ∧ a.Retries = b.Retries ∧
  a.RetryDelay = b.RetryDelay ∧ a.OnStart = b.OnStart ∧ a.OnRetry = b.OnRetry ∧
  a.OnError = b.OnError ∧ a.OnSuccess = b.OnSuccess

/-- Two states of one Task object with the same configuration: the fields
that neither Start nor reset assigns agree, and Retries agrees up to the
normalisation of 0 to 1. -/
def Task.Kin (a b : Task) : Prop :=
  a.Handler = b.Handler ∧ a.RetryCondition = b.RetryCondition ∧ a.index = b.index ∧
  a.Order = b.Order ∧ a.Name = b.Name ∧ a.onRunEnd = b.onRunEnd ∧
  (a.Retries = b.Retries ∨ (b.Retries = 0 ∧ a.Retries = 1))

/-- A Task whose Handler succeeds on every invocation, without calling
Stop(), and whose Retries is not negative. -/
def Task.Reliable (t : Task) : Prop :=
  (∀ n, t.Handler n = { result := none, stop := false }) ∧ 0 ≤ t.Retries

/-- The Order of the Task at position `p` of a list of Tasks. -/
def orderAt (ts : List Task) (p : Ptr) : Int :=
  match ts[p]? with
  | some t => t.Order
  | none => 0

/-- Whether an event is a status assignment, a hook call or a sleep. -/
def TEvent.isHook : TEvent → Bool
  | .setStatus _ => true
  | .broadcast _ => true
  | .onStart => true
  | .onRetry _ _ => true
  | .onError _ => true
  | .onSuccess => true
  | .sleep _ => true
  | _ => false

/-- Whether an event is a Handler invocation. -/
def TEvent.isHandler : TEvent → Bool
  | .handler _ => true
  | _ => false

/-- The number of Handler invocations among the events. -/
def handlerCount (ev : List TEvent) : Nat := ev.countP TEvent.isHandler

/-! ## tasks/manager.go -/

/-- The calls made while a manager runs, in call order. -/
inductive Event where
  /-- The manager's onStart() callback. -/
  | onStart
  /-- The manager's onStop() callback. -/
  | onStop
  /-- The manager's onComplete() callback. -/
  | onComplete
  /-- The status observer `observer` is called with the Task `task`, whose
  status is `st`. -/
  | statusChange (observer : Nat) (task : Ptr) (st : Status)
  /-- A call made by the running Task `task`. -/
  | task (task : Ptr) (e : TEvent)
  deriving DecidableEq, Repr

/-- Manager struct (manager.go, lines 27-37). `heap` holds the Task objects
the `*Task` pointers refer to; observers are named by numbers; a callback
field says whether the callback is set; `trace` records the calls made. -/
structure Manager where
  heap : List Task := []
  onTaskStatusChange : List Nat := []
  items : List Ptr := []
  onStart : Bool := false
  onStop : Bool := false
  onComplete : Bool := false
  current : Option Ptr := none
  isSorted : Bool := false
  isStarted : Bool := false
  trace : List Event := []

/-- The sort.Sort of the standard library, applied to Items: from the
sort key of every element (Less compares `Order`) and the slice, the slice
after the call. -/
abbrev Sorter := (Ptr → Int) → List Ptr → List Ptr

/-- The contract of sort.Sort: the result is a rearrangement of the slice in
which no element is Less than an earlier one. -/
def Sorter.Valid (srt : Sorter) : Prop :=
  ∀ key l, (srt key l).Perm l ∧ (srt key l).Pairwise (fun a b => key a ≤ key b)

/-- New returns task manager new instance. -/
def New : Manager := {}

namespace Manager

/-- The Task object behind a pointer. -/
def task? (m : Manager) (p : Ptr) : Option Task := m.heap[p]?

/-- Assignment through a pointer: the Task object at `p` becomes `f` of it. -/
def update (m : Manager) (p : Ptr) (f : Task → Task) : Manager :=
  match m.heap[p]? with
  | some t => { m with heap := m.heap.set p (f t) }
  | none => m

/-- A Task object is created (`&Task{...}`); its pointer is the heap size
before the call. -/
def alloc (m : Manager) (t : Task) : Manager := { m with heap := m.heap ++ [t] }

def IsStarted (m : Manager) : Bool := m.isStarted

def Current (m : Manager) : Option Ptr := m.current

def Items (m : Manager) : List Ptr := m.items

/-- OnStatusChange set on status change. -/
def OnStatusChange (m : Manager) (fn : Nat) : Manager :=
  { m with onTaskStatusChange := m.onTaskStatusChange ++ [fn] }

def OnStart (m : Manager) : Manager := { m with onStart := true }

def OnStop (m : Manager) : Manager := { m with onStop := true }

def OnComplete (m : Manager) : Manager := { m with onComplete := true }

/-- The triggerOnTaskStatusChange of lines 86-92: every observer is called
with the Task, in registration order. -/
def triggerOnTaskStatusChange (m : Manager) (p : Ptr) (st : Status) : Manager :=
  { m with trace := m.trace ++ m.onTaskStatusChange.map (fun o => Event.statusChange o p st) }

/-- Add task (lines 95-132). The body of the end-of-run closure it installs
(lines 114-128) is run by `startTask` below. -/
def Add (m : Manager) (p : Ptr) : Manager :=
  let m1 := m.update p Task.added
  { m1 with items := m1.items ++ [p] }

/-- A new Task object is created and added. -/
def AddNew (m : Manager) (t : Task) : Manager := (m.alloc t).Add m.heap.length

/-- New Task objects are created and added, in list order. -/
def addAll (m : Manager) (ts : List Task) : Manager := ts.foldl AddNew m

/-- Stop stops the tasks (lines 252-257). -/
def Stop (m : Manager) : Manager :=
  { m with isStarted := false, trace := m.trace ++ (if m.onStop then [Event.onStop] else []) }

/-- The manager's side of the calls a running Task makes: each is recorded;
a broadcast calls the observers, a Stop() called by the Handler stops the
manager. -/
def absorb (m : Manager) (p : Ptr) : List TEvent → Manager
  | [] => m
  | e :: es =>
    let m1 := { m with trace := m.trace ++ [Event.task p e] }
    let m2 := match e with
      | .broadcast st => m1.triggerOnTaskStatusChange p st
      | .callStop => m1.Stop
      | _ => m1
    absorb m2 p es

/-- The index of the Task behind a pointer. -/
def indexOf (m : Manager) (p : Ptr) : Option Int := (m.task? p).map (fun t => t.index)

/-- move to the next/prev task (lines 177-198). -/
def move (m : Manager) (next : Bool) (current : Int) : Option Ptr × Bool :=
  let current := if next then current + 1 else (if current - 1 < 0 then 0 else current - 1)
  if current > (m.items.length : Int) - 1 then (none, true)
  else (m.items.find? (fun p => m.indexOf p = some current), false)

/-- SetCurrent set current task. -/
def SetCurrent (m : Manager) (task : Option Ptr) : Manager := { m with current := task }

/-- Get find specified task (lines 206-214). -/
def Get (m : Manager) (name : String) : Option Ptr :=
  m.items.find? (fun p => (m.task? p).map (fun t => t.Name) = some name)

/-- The runNext of lines 135-172, up to its last line: the state reached and
the Task whose Start() line 173 calls, if that line is reached. -/
def advance (m : Manager) (current : Option Ptr) : Manager × Option Ptr :=
  if (current.bind m.task?).any Task.IsError then ({ m with isStarted := false }, none)
  else if !m.isStarted then (m, none)
  else
    let currentIndex : Int := match current.bind m.indexOf with
      | some i => i
      | none => -1
    match m.move true currentIndex with
    | (_, true) =>
      ({ m with isStarted := false,
                trace := m.trace ++ (if m.onComplete then [Event.onComplete] else []) }, none)
    | (none, false) => ({ m with isStarted := false }, none)
    | (some task, false) =>
      let m1 := m.update task Task.reset
      let m2 := match current with
        | some c => m1.update c Task.reset
        | none => m1
      (m2.SetCurrent (some task), some task)

/-- The call task.Start() on the Task behind `p`, the end-of-run closure of
Add (lines 114-128) and the runNext it calls included. `fuel` bounds the
number of Tasks started; `none` means it did not suffice. -/
def startTask : Nat → Manager → Ptr → Option Manager
  | 0, _, _ => none
  | fuel + 1, m, p =>
    match m.task? p with
    | none => some m
    | some t =>
      let r := t.Start
      let m1 := (m.update p (fun _ => r.1)).absorb p r.2
      if r.1.onRunEnd then
        let m2 := m1.triggerOnTaskStatusChange p r.1.status
        if r.1.err.isSome then some { m2 with isStarted := false }
        else if !r.1.executeNextTask then some { m2 with isStarted := false }
        else
          match m2.advance (some p) with
          | (m3, none) => some m3
          | (m3, some q) => startTask fuel m3 q
      else some m1

/-- runNext run next task (lines 135-174). -/
def runNext (fuel : Nat) (m : Manager) (current : Option Ptr) : Option Manager :=
  match m.advance current with
  | (m1, none) => some m1
  | (m1, some q) => startTask fuel m1 q

/-- The loop of sort (lines 272-274): `task.index = index` for every
position of the slice, from position `k` on. -/
def assignIndex (m : Manager) : List Ptr → Nat → Manager
  | [], _ => m
  | p :: ps, k => assignIndex (m.update p (fun t => { t with index := k })) ps (k + 1)

/-- The sort key of Less (line 281): the Order of the Task behind a pointer. -/
def orderKey (m : Manager) (p : Ptr) : Int :=
  match m.task? p with
  | some t => t.Order
  | none => 0

/-- sort TaskItems by order (lines 269-277). -/
def sort (srt : Sorter) (m : Manager) : Manager :=
  if !m.isSorted then
    let m1 := { m with items := srt m.orderKey m.items }
    let m2 := m1.assignIndex m1.items 0
    { m2 with isSorted := true }
  else m

/-- Start, lines 237-240: the manager is marked started and onStart called. -/
def markStarted (m : Manager) : Manager :=
  { m with isStarted := true,
           trace := m.trace ++ (if m.onStart then [Event.onStart] else []) }

/-- Start executes the tasks (lines 231-249). -/
def Start (srt : Sorter) (m : Manager) : Option Manager :=
  let m1 := m.sort srt
  if m1.items.length = 0 then some m1
  else
    let m2 := m1.markStarted
    match m2.current with
    | none => m2.runNext (m2.items.length + 1) none
    | some c => m2.startTask (m2.items.length + 1) c

/-- Reset resets the manager (lines 260-266). -/
def Reset (m : Manager) : Manager :=
  m.items.foldl (fun acc p => acc.update p Task.reset)
    { m with isStarted := false, current := none }

/-- Once run task once (lines 217-228): the state reached and the returned
error; the outer `none` means the fuel of `startTask` did not suffice. -/
def Once (m : Manager) (name : String) : Option (Manager × Option Err) :=
  match m.Get name with
  | none => some (m, some "task not found")
  | some p =>
    let m1 := m.update p Task.reset
    let m2 := m1.update p (fun t => { t with executeNextTask := false })
    match m2.startTask 1 p with
    | none => none
    | some m3 =>
      let m4 := m3.update p (fun t => { t with executeNextTask := true })
      some (m4, (m4.task? p).bind Task.err)

end Manager

/-- What the manager records for the calls of the Task `p`, given its
observers and whether its onStop callback is set. -/
def expandWith (obs : List Nat) (onStop : Bool) (p : Ptr) : List TEvent → List Event
  | [] => []
  | e :: es =>
    (Event.task p e :: (match e with
      | .broadcast st => obs.map (fun o => Event.statusChange o p st)
      | .callStop => if onStop then [Event.onStop] else []
      | _ => [])) ++ expandWith obs onStop p es

/-- What `absorb` appends to the trace for the calls of the Task `p`. -/
def Manager.expand (m : Manager) (p : Ptr) (evs : List TEvent) : List Event :=
  expandWith m.onTaskStatusChange m.onStop p evs

/-- Every position of Items holds a Task that the manager added and whose
index is that position. -/
def Manager.Indexed (m : Manager) : Prop :=
  ∀ (k : Nat) (p : Ptr), m.items[k]? = some p →
    ∃ t, m.task? p = some t ∧ t.index = (k : Int) ∧ t.onRunEnd = true

/-- Items holds distinct Tasks, each of them added by the manager. -/
def Manager.Managed (m : Manager) : Prop :=
  m.items.Nodup ∧ ∀ p ∈ m.items, (m.task? p).map Task.onRunEnd = some true

/-- The number of positions of Items whose Task has an index of at least
`target`: a bound on the Tasks a chain can still reach from there. -/
def Manager.ahead (m : Manager) (target : Int) : Nat :=
  m.items.countP (fun q => match m.indexOf q with
    | some k => decide (target ≤ k)
    | none => false)

/-- Two states of one manager: same Items, observers and callbacks, and
every Task object keeps its configuration. -/
def Manager.Evolves (m m1 : Manager) : Prop :=
  m1.items = m.items ∧ m1.onTaskStatusChange = m.onTaskStatusChange ∧
  m1.onStart = m.onStart ∧ m1.onStop = m.onStop ∧ m1.onComplete = m.onComplete ∧
  m1.isSorted = m.isSorted ∧ m1.heap.length = m.heap.length ∧
  ∀ p t, m.task? p = some t → ∃ t1, m1.task? p = some t1 ∧ Task.Kin t1 t

/-- The state in which the end-of-run closure of the Task `p`, which was
`t` when its Start() was called, has called the observers. -/
def Manager.ran (m : Manager) (p : Ptr) (t : Task) : Manager :=
  ((m.update p (fun _ => t.Start.1)).absorb p t.Start.2).triggerOnTaskStatusChange p
    t.Start.1.status

/-- What the trace gains between `m` and `m.ran p t`. -/
def Manager.ranEvents (m : Manager) (p : Ptr) (t : Task) : List Event :=
  m.expand p t.Start.2 ++
    m.onTaskStatusChange.map (fun o => Event.statusChange o p t.Start.1.status)

/-- The Tasks whose Handler was invoked, in invocation order. -/
def handlerRuns (tr : List Event) : List Ptr :=
  tr.filterMap (fun e => match e with | .task p (.handler _) => some p | _ => none)

/-! ## workman/manager.go -/

namespace Workman

/-- A config payload (`[]byte`). -/
abbrev Config := List Nat

/-- The calls an IWorker object receives from the manager. -/
inductive WCall where
  | Init (data : Config) (fileName : List String)
  | SetIndex (i : Int)
  | SetTaskManager
  | SetClient
  | SetCache (root : String)
  | SetLogger (root : String)
  | RegisterListeners
  | Boot
  | Stop
  deriving DecidableEq, Repr

/-- An object behind the IWorker interface (worker.go, lines 14-32). What
its methods answer is up to the implementation: `InitResult` is what
Init(data, fileName...) returns, `ID` what GetID() reports from Init on,
`BootResult` what Boot() returns. The other fields are what the setters
stored, and `log` the calls received, in call order. -/
structure Worker where
  InitResult : Config → List String → String × Option Err
  ID : String
  BootResult : Option Err
  index : Int := 0
  taskManager : Option Simpkg.Manager := none
  client : Bool := false
  cache : Option String := none
  logger : Option String := none
  log : List WCall := []

namespace Worker

def Init (w : Worker) (data : Config) (fileName : List String) :
    Worker × String × Option Err :=
  ({ w with log := w.log ++ [.Init data fileName] }, w.InitResult data fileName)

def GetID (w : Worker) : String := w.ID

def SetIndex (w : Worker) (i : Int) : Worker :=
  { w with index := i, log := w.log ++ [.SetIndex i] }

def Index (w : Worker) : Int := w.index

def SetTaskManager (w : Worker) (tm : Simpkg.Manager) : Worker :=
  { w with taskManager := some tm, log := w.log ++ [.SetTaskManager] }

def SetClient (w : Worker) : Worker :=
  { w with client := true, log := w.log ++ [.SetClient] }

def SetCache (w : Worker) (root : String) : Worker :=
  { w with cache := some root, log := w.log ++ [.SetCache root] }

def SetLogger (w : Worker) (root : String) : Worker :=
  { w with logger := some root, log := w.log ++ [.SetLogger root] }

def RegisterListeners (w : Worker) : Worker :=
  { w with log := w.log ++ [.RegisterListeners] }

def Boot (w : Worker) : Worker × Option Err :=
  ({ w with log := w.log ++ [.Boot] }, w.BootResult)

def Stop (w : Worker) : Worker := { w with log := w.log ++ [.Stop] }

end Worker

/-- The payloads dispatched on the event bus: WorkerOnAddRemove on topic
EventWorkerAddRemove, WorkerOnUpdate on topic EventWorkerLoad. -/
inductive WEvent where
  | addRemove (Added Removed : Bool) (worker : Worker)
  | load (workers : List Worker)

/-- The sort.Slice of the standard library applied to the workers. -/
abbrev WSorter := (Worker → Int) → List Worker → List Worker

/-- The files the manager reads: filepath.Glob and helpers.ReadFile. -/
structure FS where
  glob : String → Except Err (List String)
  read : String → Except Err Config

/-- Manager struct (workman/manager.go, lines 53-65). `workerBuilder` is
the factory: the Worker object its call number `built` creates. `events`
are the payloads dispatched on the event bus, in dispatch order. -/
structure Manager where
  isDebug : Bool := false
  rootPath : String := ""
  workersDir : String := ""
  workersExt : String := ""
  workerBuilder : Option (Nat → Worker) := none
  built : Nat := 0
  workers : List Worker := []
  events : List WEvent := []
  selectedWorker : Option Worker := none

/-- The elements of a path between its slashes, as strings.Split(path, "/")
yields them: a path without slash is one element, and an empty element
stands between two slashes that follow each other. -/
def splitSlash : List Char → List (List Char)
  | [] => [[]]
  | c :: cs =>
    if c = '/' then [] :: splitSlash cs
    else
      match splitSlash cs with
      | [] => [[c]]
      | e :: es => (c :: e) :: es

/-- One element of the path read by Clean; `out` holds the elements kept so
far, the last one first. An empty element and "." are dropped; ".." takes
back the last element kept unless that is a ".." or there is none, in which
case it is kept when the path is not rooted and dropped when it is. -/
def cleanStep (rooted : Bool) (out : List String) (e : String) : List String :=
  if e = "" ∨ e = "." then out
  else if e = ".." then
    match out with
    | [] => if rooted then [] else [".."]
    | top :: rest => if top = ".." then ".." :: out else rest
  else e :: out

/-- The path.Clean and filepath.Clean of the standard library, on a system
whose separator is the slash: slashes that follow each other count as one,
"." elements are dropped, ".." takes back the element before it, a ".."
that begins a rooted path is dropped, and the empty result is ".". -/
def pathClean (p : String) : String :=
  let rooted : Bool := p.data.head? = some '/'
  let out := ((splitSlash p.data).map String.mk).foldl (cleanStep rooted) []
  let body := "/".intercalate out.reverse
  if rooted then "/" ++ body else if body = "" then "." else body

/-- The path.Join and filepath.Join of the standard library, on a system
whose separator is the slash: the elements from the first non-empty one on
are joined with slashes and the result is cleaned; without a non-empty
element the result is empty. -/
def pathJoin (elems : List String) : String :=
  match elems.dropWhile (fun e => e = "") with
  | [] => ""
  | rest => pathClean ("/".intercalate rest)

/-- NewManager returns new manager instance. -/
def NewManager (builder : Option (Nat → Worker)) : Manager :=
  { workerBuilder := builder, workers := [], workersDir := "workers", workersExt := ".json",
    selectedWorker := none }

namespace Manager

def SetDebug (m : Manager) (isDebug : Bool) : Manager := { m with isDebug := isDebug }

def IsDebug (m : Manager) : Bool := m.isDebug

def SetWorkersDir (m : Manager) (path : String) : Manager := { m with workersDir := path }

def GetExtension (m : Manager) : String := m.workersExt

def SetRootPath (m : Manager) (path : String) : Manager := { m with rootPath := path }

def RootPath (m : Manager) : String := m.rootPath

/-- CachePath returns cache path. -/
def CachePath (m : Manager) : String := pathJoin [m.RootPath, "cache"]

/-- Get returns worker by id (lines 229-241). -/
def Get (m : Manager) (id : String) : Option Worker :=
  m.workers.find? (fun wk => wk.GetID = id)

/-- Add adds worker to manager (lines 140-196): the state reached and the
returned pair, either the error or the Worker. -/
def Add (m : Manager) (index : Int) (data : Config) (fileName : List String) :
    Manager × Except Err Worker :=
  match m.workerBuilder with
  | none => (m, .error "worker type is not set")
  | some builder =>
    let m1 := { m with built := m.built + 1 }
    let r := (builder m.built).Init data fileName
    match r.2.2 with
    | some err => (m1, .error err)
    | none =>
      if (m1.Get r.2.1).isSome then (m1, .error "worker already exists")
      else
        let w1 := ((r.1.SetIndex index).SetTaskManager Simpkg.New).SetClient
        let cachePath := pathJoin [m1.CachePath, "_workers", w1.GetID]
        let w2 := ((w1.SetCache cachePath).SetLogger cachePath).RegisterListeners
        let b := w2.Boot
        match b.2 with
        | some err => (m1, .error err)
        | none =>
          ({ m1 with workers := m1.workers ++ [b.1],
                     events := m1.events ++ [.addRemove true false b.1] }, .ok b.1)

/-- The loop of Remove (lines 204-212): the workers left and the Worker
that was stopped and taken out, if any. -/
def removeFirst (id : String) : List Worker → List Worker × Option Worker
  | [] => ([], none)
  | w :: ws =>
    if w.GetID = id then (ws, some w.Stop)
    else ((removeFirst id ws).1.cons w, (removeFirst id ws).2)

/-- Remove removes worker from manager (lines 199-226). -/
def Remove (m : Manager) (id : String) : Manager × Bool :=
  match removeFirst id m.workers with
  | (_, none) => (m, true)
  | (ws, some wk) =>
    ({ m with workers := ws, events := m.events ++ [.addRemove false true wk] }, true)

/-- Next select workers as circular selection (lines 244-267). -/
def Next (m : Manager) : Manager × Option Worker := (m, m.selectedWorker)

def SelectedWorker (m : Manager) : Option Worker := m.selectedWorker

def Workers (m : Manager) : List Worker := m.workers

def WorkersCount (m : Manager) : Nat := m.workers.length

/-- The loop of Load (lines 295-309) over the files left, `i` being the
position of the first of them. -/
def loadFiles (fs : FS) (m : Manager) : List String → Nat → Manager × Option Err
  | [], _ => (m, none)
  | file :: files, i =>
    match fs.read file with
    | .error err => (m, some err)
    | .ok content =>
      match m.Add i content [file] with
      | (m1, .error err) => (m1, some err)
      | (m1, .ok _) => loadFiles fs m1 files (i + 1)

/-- Load loads workers from config files in directory (lines 285-325). -/
def Load (fs : FS) (wsort : WSorter) (m : Manager) : Manager × Option Err :=
  let workersPath := pathJoin [m.rootPath, m.workersDir, "*" ++ m.workersExt]
  match fs.glob workersPath with
  | .error err => (m, some err)
  | .ok files =>
    if files.length = 0 then (m, some ("no worker file found at " ++ m.RootPath))
    else
      match loadFiles fs m files 0 with
      | (m1, some err) => (m1, some err)
      | (m1, none) =>
        if m1.workers.length = 0 then (m1, some "no worker found")
        else
          let m2 := { m1 with workers := wsort Worker.Index m1.workers }
          ({ m2 with events := m2.events ++ [.load m2.workers] }, none)

/-- GetWorkersPath returns workers path. -/
def GetWorkersPath (m : Manager) : String := pathJoin [m.rootPath, m.workersDir]

/-- Reload workers (lines 338-340). -/
def Reload (fs : FS) (wsort : WSorter) (m : Manager) : Manager × Option Err := m.Load fs wsort

end Manager

end Workman

/-! ## Concrete Tasks and managers used as instances -/

namespace Examples

/-- A Handler outcome: success. -/
def succeed : HandlerRun := { result := none }

/-- A Handler outcome: failure with the given error. -/
def failWith (e : Err) : HandlerRun := { result := some e }

/-- Retries = 3, the Handler fails twice and then succeeds. -/
def failTwice : Task :=
  { Handler := fun n => if n < 2 then failWith "boom" else succeed, Retries := 3 }

/-- Retries = 3, the Handler always fails, the RetryCondition always refuses. -/
def vetoed : Task :=
  { Handler := fun _ => failWith "boom", Retries := 3,
    RetryCondition := some (fun _ _ => false) }

/-- Retries = -1. -/
def negativeRetries : Task := { Handler := fun _ => succeed, Retries := -1 }

/-- Retries = 3, the Handler fails with a different error each time. -/
def alwaysFail : Task :=
  { Handler := fun n => failWith (if n = 2 then "last" else "boom"), Retries := 3 }

/-- A Task in status success that a manager has added. -/
def done : Task :=
  { Handler := fun _ => succeed, Retries := 3, status := .success, attempts := 1,
    onRunEnd := true }

/-- A sort.Sort: insertion sort on the sort key. -/
def insertionSorter : Sorter := fun key l => l.insertionSort (fun a b => key a ≤ key b)

/-- A Task of the given Order and Retries whose Handler always succeeds. -/
def okTask (order retries : Int) : Task :=
  { Handler := fun _ => succeed, Order := order, Retries := retries }

/-- A Task of the given Order, with Retries = 2, whose Handler always fails. -/
def badTask (order : Int) : Task :=
  { Handler := fun _ => failWith "boom", Order := order, Retries := 2 }

/-- Orders 3, 1, 2 added in that order, all Handlers succeed. -/
def chain312 : Manager := New.addAll [okTask 3 1, okTask 1 1, okTask 2 1]

/-- Orders 3, 1, 2 added in that order, all Handlers succeed, and the Task
of Order 1 has Retries = -1. -/
def chainNegative : Manager := New.addAll [okTask 3 1, okTask 1 (-1), okTask 2 1]

/-- Orders 3, 1, 2 added in that order; the Handler of the Task of Order 2
fails; every callback is set and one observer is registered. -/
def chainFailing : Manager :=
  ((((New.addAll [okTask 3 1, okTask 1 1, badTask 2]).OnStatusChange 7).OnStart).OnStop).OnComplete

/-- A Task of the given Name whose Handler always succeeds. -/
def namedTask (name : String) : Task :=
  { Handler := fun _ => succeed, Name := name, Retries := 1 }

/-- Tasks "a", "b", "c" added in that order; the current Task is "b". -/
def chainNamed : Manager :=
  (New.addAll [namedTask "a", namedTask "b", namedTask "c"]).SetCurrent (some 1)

/-- A worker whose Init yields the given id, and whose Boot succeeds. -/
def worker (id : String) : Workman.Worker :=
  { InitResult := fun _ _ => (id, none), ID := id, BootResult := none }

/-- A manager with one registered worker "w1" and a factory of workers that
Init also names "w1". -/
def duplicating : Workman.Manager :=
  { workerBuilder := some (fun _ => worker "w1"), workers := [worker "w1"] }

/-- A directory without files. -/
def emptyDir : Workman.FS :=
  { glob := fun _ => .ok [], read := fun _ => .error "no such file" }

/-- A sort.Slice: insertion sort on the sort key. -/
def workerSorter : Workman.WSorter :=
  fun key l => l.insertionSort (fun a b => key a ≤ key b)

end Examples

/-! ## Further vocabulary for the theorems -/

/-- The number of user functions that a call of the hook reaches: none for
`nil`, one for a function the user assigned, and as many as the wrapped hook
for a wrapper of `Manager.Add`. -/
def Hook.users : Hook → Nat
  | .nil => 0
  | .user => 1
  | .wrap inner => Hook.users inner

/-- Whether an event is a call of the user's OnError or OnSuccess. -/
def TEvent.isOutcome : TEvent → Bool
  | .onError _ => true
  | .onSuccess => true
  | _ => false

/-- The errors handed to the user's OnError, in call order. -/
def onErrorCalls (ev : List TEvent) : List Err :=
  ev.filterMap (fun e => match e with | .onError x => some x | _ => none)

/-- The number of calls of the user's OnSuccess. -/
def onSuccessCalls (ev : List TEvent) : Nat := ev.count .onSuccess

/-- Retries = 3, the Handler always fails, OnError and OnSuccess are set. -/
def Examples.alwaysFailHooked : Task :=
  { Handler := fun n => Examples.failWith (if n = 2 then "last" else "boom"), Retries := 3,
    OnError := .user, OnSuccess := .user }

/-- The events a pass of the retry loop can make. -/
def TEvent.inLoop : TEvent → Bool
  | .setStatus _ => true
  | .broadcast _ => true
  | .onRetry _ _ => true
  | .sleep _ => true
  | .handler _ => true
  | .callStop => true
  | _ => false

/-- The events the first lines of Start can make. -/
def TEvent.inPrologue : TEvent → Bool
  | .setStatus _ => true
  | .broadcast _ => true
  | .onStart => true
  | _ => false

/-- A manager with one registered worker "w1", a factory of workers that
Init names "w2", and the root path "/srv/". -/
def Examples.registry : Workman.Manager :=
  { workerBuilder := some (fun _ => Examples.worker "w2"), workers := [Examples.worker "w1"],
    rootPath := "/srv/" }

/-- A manager with the registered workers "w1", "w2", "w1", the last of
which has index 9. -/
def Examples.threeWorkers : Workman.Manager :=
  { workers := [Examples.worker "w1", Examples.worker "w2",
      { Examples.worker "w1" with index := 9 }] }

/-- A Task of the given Name, with Retries = 2, whose Handler fails with
"first" and then with "second". -/
def Examples.namedFailing (name : String) : Task :=
  { Handler := fun n => Examples.failWith (if n = 0 then "first" else "second"),
    Name := name, Retries := 2 }

/-- Tasks "a", "b", "b" added in that order; the first "b" fails, the
second "b" succeeds. -/
def Examples.chainDuplicateName : Manager :=
  New.addAll [Examples.namedTask "a", Examples.namedFailing "b", Examples.namedTask "b"]

/-- Start() on a fresh manager; then Tasks of Order 2 and of Order 1 are
added, in that order, and onComplete is set. -/
def Examples.addedAfterEmptyStart : Option Manager :=
  (New.Start Examples.insertionSorter).map
    (fun m => (m.addAll [Examples.okTask 2 1, Examples.okTask 1 1]).OnComplete)

/-- What a call of a user hook becomes once `Manager.Add` has wrapped the
hook: OnStart and OnRetry are preceded by the broadcast to the observers,
who find the status that Start has just assigned; other calls are as they
were. -/
def TEvent.wrapped : TEvent → List TEvent
  | .onStart => [.broadcast .start, .onStart]
  | .onRetry err index => [.broadcast .retry, .onRetry err index]
  | e => [e]

/-- The calls of a Task, each seen through the wrappers of `Manager.Add`. -/
def wrapCalls : List TEvent → List TEvent
  | [] => []
  | e :: es => e.wrapped ++ wrapCalls es

/-- The Task with the wrappers and the end-of-run callback of `Manager.Add`
(manager.go, lines 97-128). -/
def Task.wrapHooks (t : Task) : Task :=
  { t with OnStart := .wrap t.OnStart, OnRetry := .wrap t.OnRetry, onRunEnd := true }

/-- Start, lines 135-143, in a pass at a loop counter above 0: the Task
once attempts is incremented and the status and message of a retry are set. -/
def Task.retryState (t : Task) (index : Int) : Task :=
  let t0 := { t with attempts := t.attempts + 1 }
  let t1 := t0.SetStatus .retry
  match t1.RetryMessage with
  | some f => { t1 with Message := some (f t1.view t1.err index) }
  | none => t1

/-- Start, lines 145-147: whether the RetryCondition refuses the retry. -/
def Task.vetoes (t : Task) (index : Int) : Bool :=
  match t.RetryCondition, t.err with
  | some cond, some e => !cond e index
  | _, _ => false

/-- Retries = 3, the Handler fails twice and then succeeds; OnStart and
OnRetry are set by the user. -/
def Examples.failTwiceHooked : Task :=
  { Handler := fun n => if n < 2 then Examples.failWith "boom" else Examples.succeed,
    Retries := 3, OnStart := .user, OnRetry := .user }

/-- The Tasks whose end-of-run callback was invoked, each with the status
the callback found, in call order. -/
def runEnds (tr : List Event) : List (Ptr × Status) :=
  tr.filterMap (fun e => match e with | .task p (.runEnd st) => some (p, st) | _ => none)

/-- The calls of onComplete that a completed chain makes. -/
def Manager.completion (m : Manager) : List Event :=
  if m.onComplete then [Event.onComplete] else []

/-- The run of a chain, case by case, as `startTask` computes it:
`Chain m p m1 evs` says that the call task.Start() on the Task `p` in state
`m` returns in state `m1`, having recorded the calls `evs`. -/
inductive Manager.Chain : Manager → Ptr → Manager → List Event → Prop
  /-- A Task without the end-of-run callback runs alone. -/
  | alone (m : Manager) (p : Ptr) (t : Task) (ht : m.task? p = some t)
      (ho : t.onRunEnd = false) :
      Chain m p ((m.update p (fun _ => t.Start.1)).absorb p t.Start.2) (m.expand p t.Start.2)
  /-- The Task ends with an error (lines 116-119). -/
  | failed (m : Manager) (p : Ptr) (t : Task) (ht : m.task? p = some t)
      (ho : t.onRunEnd = true) (he : t.Start.1.err.isSome = true) :
      Chain m p { (m.ran p t) with isStarted := false } (m.ranEvents p t)
  /-- The Task ends without error and executeNextTask is unset (lines 121-124). -/
  | single (m : Manager) (p : Ptr) (t : Task) (ht : m.task? p = some t)
      (ho : t.onRunEnd = true) (he : t.Start.1.err = none)
      (hx : t.Start.1.executeNextTask = false) :
      Chain m p { (m.ran p t) with isStarted := false } (m.ranEvents p t)
  /-- The manager was stopped while the Task ran (lines 141-144). -/
  | stopped (m : Manager) (p : Ptr) (t : Task) (ht : m.task? p = some t)
      (ho : t.onRunEnd = true) (he : t.Start.1.err = none)
      (hx : t.Start.1.executeNextTask = true) (hs : (m.ran p t).isStarted = false) :
      Chain m p (m.ran p t) (m.ranEvents p t)
  /-- The next index is past the last position (lines 152-159). -/
  | complete (m : Manager) (p : Ptr) (t : Task) (ht : m.task? p = some t)
      (ho : t.onRunEnd = true) (he : t.Start.1.err = none)
      (hx : t.Start.1.executeNextTask = true) (hs : (m.ran p t).isStarted = true)
      (hc : t.index + 1 > ((m.ran p t).items.length : Int) - 1) :
      Chain m p
        { (m.ran p t) with isStarted := false,
                           trace := (m.ran p t).trace ++ (m.ran p t).completion }
        (m.ranEvents p t ++ (m.ran p t).completion)
  /-- No Task has the next index (lines 162-165). -/
  | lost (m : Manager) (p : Ptr) (t : Task) (ht : m.task? p = some t)
      (ho : t.onRunEnd = true) (he : t.Start.1.err = none)
      (hx : t.Start.1.executeNextTask = true) (hs : (m.ran p t).isStarted = true)
      (hc : ¬ t.index + 1 > ((m.ran p t).items.length : Int) - 1)
      (hq : (m.ran p t).items.find?
        (fun q => decide ((m.ran p t).indexOf q = some (t.index + 1))) = none) :
      Chain m p { (m.ran p t) with isStarted := false } (m.ranEvents p t)
  /-- The Task with the next index is reset and started (lines 167-173). -/
  | next (m : Manager) (p : Ptr) (t : Task) (q : Ptr) (m1 : Manager) (evs : List Event)
      (ht : m.task? p = some t) (ho : t.onRunEnd = true) (he : t.Start.1.err = none)
      (hx : t.Start.1.executeNextTask = true) (hs : (m.ran p t).isStarted = true)
      (hc : ¬ t.index + 1 > ((m.ran p t).items.length : Int) - 1)
      (hq : (m.ran p t).items.find?
        (fun q => decide ((m.ran p t).indexOf q = some (t.index + 1))) = some q)
      (hrest : Chain ((((m.ran p t).update q Task.reset).update p Task.reset).SetCurrent
        (some q)) q m1 evs) :
      Chain m p m1 (m.ranEvents p t ++ evs)

/-- The calls recorded for a chain that ends with the Task it began with:
those of a Task that runs alone, or those of a managed Task, followed or not
by onComplete. -/
def Manager.Chain.Last (m : Manager) (p : Ptr) (t : Task) (evs : List Event) : Prop :=
  evs = m.expand p t.Start.2 ∨ evs = m.ranEvents p t ∨
    evs = m.ranEvents p t ++ (m.ran p t).completion

/-- A Task of the given Order whose Handler calls Stop() on the manager and
succeeds. -/
def Examples.stopTask (order : Int) : Task :=
  { Handler := fun _ => { result := none, stop := true }, Order := order, Retries := 1 }

/-- Orders 1, 2, 3; the Handler of the Task of Order 2 calls Stop(); onStop
and onComplete are set. -/
def Examples.chainStopped : Manager :=
  ((New.addAll [Examples.okTask 1 1, Examples.stopTask 2, Examples.okTask 3 1]).OnStop).OnComplete

/-- The call of onStart that Start makes (lines 238-240). -/
def Manager.starting (m : Manager) : List Event :=
  if m.onStart then [Event.onStart] else []

/-- A sort that keeps ties in place, for a slice whose pointers are in
increasing order (the order in which `addAll` creates and adds Tasks):
elements with equal keys stay in increasing order. -/
def Sorter.KeepsTies (srt : Sorter) : Prop :=
  ∀ key l, l.Pairwise (fun a b => a < b) →
    (srt key l).Pairwise (fun a b => key a = key b → a < b)

/-! ## sort.Sort of the standard library (sort/zsortinterface.go, Go 1.19 and later)

The slice is the list of the Task pointers; `key` gives the Order behind a
pointer, so that `less` is the Less of Items (tasks/manager.go, line 281).
A loop whose number of passes is bounded by its indices takes that bound as
its first argument; pdqsort and the loops of partition, which are left by
`return` or `break`, take fuel and answer `none` when it does not suffice. -/

namespace GoSort

/-- The call data.Less(i, j). -/
def less (key : Ptr → Int) (d : List Ptr) (i j : Nat) : Bool :=
  decide (key (d.getD i 0) < key (d.getD j 0))

/-- The call data.Swap(i, j). -/
def swap (d : List Ptr) (i j : Nat) : List Ptr :=
  (d.set i (d.getD j 0)).set j (d.getD i 0)

/-- The inner loop of insertionSort:
`for j := i; j > a && data.Less(j, j-1); j-- { data.Swap(j, j-1) }`. -/
def insertDown (key : Ptr → Int) (a : Nat) : Nat → List Ptr → Nat → List Ptr
  | 0, d, _ => d
  | n + 1, d, j =>
    if j > a ∧ less key d j (j - 1) then insertDown key a n (swap d j (j - 1)) (j - 1) else d

/-- The outer loop of insertionSort: `for i := a + 1; i < b; i++`. -/
def insertionLoop (key : Ptr → Int) (a b : Nat) : Nat → List Ptr → Nat → List Ptr
  | 0, d, _ => d
  | n + 1, d, i =>
    if i < b then insertionLoop key a b n (insertDown key a (i - a) d i) (i + 1) else d

/-- insertionSort sorts data[a:b] using insertion sort. -/
def insertionSort (key : Ptr → Int) (d : List Ptr) (a b : Nat) : List Ptr :=
  insertionLoop key a b (b - (a + 1)) d (a + 1)

/-- siftDown implements the heap property on data[lo:hi]; `first` is the
offset of the root of the heap. The argument `root` is the loop variable. -/
def siftDown (key : Ptr → Int) (hi first : Nat) : Nat → List Ptr → Nat → List Ptr
  | 0, d, _ => d
  | n + 1, d, root =>
    let child := 2 * root + 1
    if child ≥ hi then d
    else
      let child := if child + 1 < hi ∧ less key d (first + child) (first + child + 1)
        then child + 1 else child
      if !less key d (first + root) (first + child) then d
      else siftDown key hi first n (swap d (first + root) (first + child)) child

/-- The first loop of heapSort:
`for i := (hi - 1) / 2; i >= 0; i-- { siftDown(data, i, hi, first) }`. -/
def heapBuild (key : Ptr → Int) (hi first : Nat) : Nat → List Ptr → List Ptr
  | 0, d => siftDown key hi first hi d 0
  | i + 1, d => heapBuild key hi first i (siftDown key hi first hi d (i + 1))

/-- The second loop of heapSort: `for i := hi - 1; i >= 0; i--
{ data.Swap(first, first+i); siftDown(data, lo, i, first) }`. -/
def heapPop (key : Ptr → Int) (first : Nat) : Nat → List Ptr → List Ptr
  | 0, d => siftDown key 0 first 0 (swap d first first) 0
  | i + 1, d =>
    heapPop key first i (siftDown key (i + 1) first (i + 1) (swap d first (first + (i + 1))) 0)

/-- heapSort sorts data[a:b]. -/
def heapSort (key : Ptr → Int) (d : List Ptr) (a b : Nat) : List Ptr :=
  let hi := b - a
  let d1 := heapBuild key hi a ((hi - 1) / 2) d
  if hi = 0 then d1 else heapPop key a (hi - 1) d1

/-- The bits.Len of the standard library: the number of bits needed to
write `n`. -/
def bitsLen : Nat → Nat → Nat
  | 0, _ => 0
  | f + 1, n => if n = 0 then 0 else bitsLen f (n / 2) + 1

/-- nextPowerOfTwo: `1 << bits.Len(uint(length))`. -/
def nextPowerOfTwo (length : Nat) : Nat := 1 <<< bitsLen length length

/-- The Next of xorshift, on 64 bits. -/
def xorshiftNext (r : Nat) : Nat :=
  let r1 := r ^^^ ((r <<< 13) % 2 ^ 64)
  let r2 := r1 ^^^ (r1 >>> 7)
  r2 ^^^ ((r2 <<< 17) % 2 ^ 64)

/-- The loop of breakPatterns: three swaps, `i` counting them. -/
def breakLoop (a length modulus idx : Nat) : Nat → Nat → Nat → List Ptr → List Ptr
  | 0, _, _, d => d
  | n + 1, i, random, d =>
    let random := xorshiftNext random
    let other := random &&& (modulus - 1)
    let other := if other ≥ length then other - length else other
    breakLoop a length modulus idx n (i + 1) random (swap d (idx - 1 + i) (a + other))

/-- breakPatterns scatters some elements around. -/
def breakPatterns (d : List Ptr) (a b : Nat) : List Ptr :=
  let length := b - a
  if length ≥ 8 then
    breakLoop a length (nextPowerOfTwo length) (a + (length / 4) * 2 - 1) 3 0 length d
  else d

/-- The hint that choosePivot returns. -/
inductive SortedHint where
  | unknownHint
  | increasingHint
  | decreasingHint
  deriving DecidableEq, Repr

/-- order2 returns x, y where data[x] <= data[y], and the count of swaps. -/
def order2 (key : Ptr → Int) (d : List Ptr) (a b swaps : Nat) : Nat × Nat × Nat :=
  if less key d b a then (b, a, swaps + 1) else (a, b, swaps)

/-- median returns x where data[x] is the median of data[a], data[b],
data[c], and the count of swaps. -/
def median (key : Ptr → Int) (d : List Ptr) (a b c swaps : Nat) : Nat × Nat :=
  let r1 := order2 key d a b swaps
  let r2 := order2 key d r1.2.1 c r1.2.2
  let r3 := order2 key d r1.1 r2.1 r2.2.2
  (r3.2.1, r3.2.2)

/-- medianAdjacent finds the median of data[a - 1], data[a], data[a + 1]. -/
def medianAdjacent (key : Ptr → Int) (d : List Ptr) (a swaps : Nat) : Nat × Nat :=
  median key d (a - 1) a (a + 1) swaps

/-- choosePivot chooses a pivot in data[a:b]. -/
def choosePivot (key : Ptr → Int) (d : List Ptr) (a b : Nat) : Nat × SortedHint :=
  let l := b - a
  let i := a + l / 4 * 1
  let j := a + l / 4 * 2
  let k := a + l / 4 * 3
  let r : Nat × Nat :=
    if l ≥ 8 then
      if l ≥ 50 then
        let ri := medianAdjacent key d i 0
        let rj := medianAdjacent key d j ri.2
        let rk := medianAdjacent key d k rj.2
        median key d ri.1 rj.1 rk.1 rk.2
      else median key d i j k 0
    else (j, 0)
  if r.2 = 0 then (r.1, .increasingHint)
  else if r.2 = 4 * 3 then (r.1, .decreasingHint)
  else (r.1, .unknownHint)

/-- The loop of reverseRange: `for i < j { data.Swap(i, j); i++; j-- }`. -/
def reverseLoop : Nat → List Ptr → Nat → Nat → List Ptr
  | 0, d, _, _ => d
  | n + 1, d, i, j => if i < j then reverseLoop n (swap d i j) (i + 1) (j - 1) else d

/-- reverseRange reverses data[a:b]. -/
def reverseRange (d : List Ptr) (a b : Nat) : List Ptr := reverseLoop (b - a) d a (b - 1)

/-- The loop `for i < b && !data.Less(i, i-1) { i++ }`. -/
def scanOrdered (key : Ptr → Int) (d : List Ptr) (b : Nat) : Nat → Nat → Nat
  | 0, i => i
  | n + 1, i => if i < b ∧ !less key d i (i - 1) then scanOrdered key d b n (i + 1) else i

/-- The loop `for j := i - 1; j >= 1; j-- { if !data.Less(j, j-1) { break };
data.Swap(j, j-1) }`. -/
def shiftLeft (key : Ptr → Int) : Nat → List Ptr → Nat → List Ptr
  | 0, d, _ => d
  | n + 1, d, j =>
    if j ≥ 1 then
      if !less key d j (j - 1) then d else shiftLeft key n (swap d j (j - 1)) (j - 1)
    else d

/-- The loop `for j := i + 1; j < b; j++ { if !data.Less(j, j-1) { break };
data.Swap(j, j-1) }`. -/
def shiftRight (key : Ptr → Int) (b : Nat) : Nat → List Ptr → Nat → List Ptr
  | 0, d, _ => d
  | n + 1, d, j =>
    if j < b then
      if !less key d j (j - 1) then d else shiftRight key b n (swap d j (j - 1)) (j + 1)
    else d

/-- The loop of partialInsertionSort, `steps` passes being left of its five. -/
def partialLoop (key : Ptr → Int) (a b : Nat) : Nat → List Ptr → Nat → List Ptr × Bool
  | 0, d, _ => (d, false)
  | steps + 1, d, i =>
    let i := scanOrdered key d b (b - i) i
    if i = b then (d, true)
    else if b - a < 50 then (d, false)
    else
      let d1 := swap d i (i - 1)
      let d2 := if i - a ≥ 2 then shiftLeft key (i - 1) d1 (i - 1) else d1
      let d3 := if b - i ≥ 2 then shiftRight key b (b - (i + 1)) d2 (i + 1) else d2
      partialLoop key a b steps d3 i

/-- partialInsertionSort partially sorts a slice, returns true if the slice
is sorted at the end. -/
def partialInsertionSort (key : Ptr → Int) (d : List Ptr) (a b : Nat) : List Ptr × Bool :=
  partialLoop key a b 5 d (a + 1)

/-- The loop `for i <= j && data.Less(i, a) { i++ }`. -/
def scanLess (key : Ptr → Int) (d : List Ptr) (a j : Nat) : Nat → Nat → Nat
  | 0, i => i
  | n + 1, i => if i ≤ j ∧ less key d i a then scanLess key d a j n (i + 1) else i

/-- The loop `for i <= j && !data.Less(j, a) { j-- }`. -/
def scanNotLess (key : Ptr → Int) (d : List Ptr) (a i : Nat) : Nat → Nat → Nat
  | 0, j => j
  | n + 1, j => if i ≤ j ∧ !less key d j a then scanNotLess key d a i n (j - 1) else j

/-- The loop `for i <= j && !data.Less(a, i) { i++ }` of partitionEqual. -/
def scanNotGreater (key : Ptr → Int) (d : List Ptr) (a j : Nat) : Nat → Nat → Nat
  | 0, i => i
  | n + 1, i => if i ≤ j ∧ !less key d a i then scanNotGreater key d a j n (i + 1) else i

/-- The loop `for i <= j && data.Less(a, j) { j-- }` of partitionEqual. -/
def scanGreater (key : Ptr → Int) (d : List Ptr) (a i : Nat) : Nat → Nat → Nat
  | 0, j => j
  | n + 1, j => if i ≤ j ∧ less key d a j then scanGreater key d a i n (j - 1) else j

/-- The `for` loop of partitionEqual; it returns `i`. -/
def partitionEqualLoop (key : Ptr → Int) (a : Nat) :
    Nat → List Ptr → Nat → Nat → Option (List Ptr × Nat)
  | 0, _, _, _ => none
  | n + 1, d, i, j =>
    let i := scanNotGreater key d a j (j + 1 - i) i
    let j := scanGreater key d a i (j + 1 - i) j
    if i > j then some (d, i)
    else partitionEqualLoop key a n (swap d i j) (i + 1) (j - 1)

/-- partitionEqual partitions data[a:b] into elements equal to data[pivot]
followed by elements greater than data[pivot]. -/
def partitionEqual (key : Ptr → Int) (d : List Ptr) (a b pivot : Nat) :
    Option (List Ptr × Nat) :=
  partitionEqualLoop key a (b - a + 1) (swap d a pivot) (a + 1) (b - 1)

/-- The second `for` loop of partition; it returns `j`. -/
def partitionLoop (key : Ptr → Int) (a : Nat) :
    Nat → List Ptr → Nat → Nat → Option (List Ptr × Nat)
  | 0, _, _, _ => none
  | n + 1, d, i, j =>
    let i := scanLess key d a j (j + 1 - i) i
    let j := scanNotLess key d a i (j + 1 - i) j
    if i > j then some (d, j)
    else partitionLoop key a n (swap d i j) (i + 1) (j - 1)

/-- partition does one quicksort partition: the slice, the new position of
the pivot, and whether the slice was already partitioned. -/
def partition (key : Ptr → Int) (d : List Ptr) (a b pivot : Nat) :
    Option (List Ptr × Nat × Bool) :=
  let d := swap d a pivot
  let i := a + 1
  let j := b - 1
  let i := scanLess key d a j (j + 1 - i) i
  let j := scanNotLess key d a i (j + 1 - i) j
  if i > j then some (swap d j a, j, true)
  else
    match partitionLoop key a (b - a + 1) (swap d i j) (i + 1) (j - 1) with
    | none => none
    | some (d1, j1) => some (swap d1 j1 a, j1, false)

/-- pdqsort sorts data[a:b]; `limit` is the number of allowed bad pivots
before falling back to heapsort. The arguments `wasBalanced` and
`wasPartitioned` are the variables of its `for` loop, and each pass of the
loop and each call of pdqsort takes one unit of fuel. -/
def pdqsort (key : Ptr → Int) :
    Nat → List Ptr → Nat → Nat → Nat → Bool → Bool → Option (List Ptr)
  | 0, _, _, _, _, _, _ => none
  | fuel + 1, d, a, b, limit, wasBalanced, wasPartitioned =>
    let length := b - a
    if length ≤ 12 then some (insertionSort key d a b)
    else if limit = 0 then some (heapSort key d a b)
    else
      let d := if !wasBalanced then breakPatterns d a b else d
      let limit := if !wasBalanced then limit - 1 else limit
      let c := choosePivot key d a b
      let rev : Bool := c.2 = .decreasingHint
      let d := if rev then reverseRange d a b else d
      let pivot := if rev then (b - 1) - (c.1 - a) else c.1
      let hint := if rev then SortedHint.increasingHint else c.2
      let r : List Ptr × Bool :=
        if wasBalanced ∧ wasPartitioned ∧ hint = .increasingHint
        then partialInsertionSort key d a b else (d, false)
      if r.2 then some r.1
      else
        let d := r.1
        if a > 0 ∧ !less key d (a - 1) pivot then
          match partitionEqual key d a b pivot with
          | none => none
          | some (d1, mid) => pdqsort key fuel d1 mid b limit wasBalanced wasPartitioned
        else
          match partition key d a b pivot with
          | none => none
          | some (d1, mid, alreadyPartitioned) =>
            let leftLen := mid - a
            let rightLen := b - mid
            let balanceThreshold := length / 8
            if leftLen < rightLen then
              match pdqsort key fuel d1 a mid limit true true with
              | none => none
              | some d2 =>
                pdqsort key fuel d2 (mid + 1) b limit (decide (leftLen ≥ balanceThreshold))
                  alreadyPartitioned
            else
              match pdqsort key fuel d1 (mid + 1) b limit true true with
              | none => none
              | some d2 =>
                pdqsort key fuel d2 a mid limit (decide (rightLen ≥ balanceThreshold))
                  alreadyPartitioned

/-- Sort sorts data in ascending order as determined by the Less method. -/
def sort (key : Ptr → Int) (d : List Ptr) : Option (List Ptr) :=
  let n := d.length
  if n ≤ 1 then some d
  else pdqsort key (n + 1) d 0 n (bitsLen n n) true true

end GoSort

/-- The sort.Sort of Go 1.19 and later as the sort of a manager; the slice
is left as it is if the fuel of the model does not suffice. -/
def goSorter : Sorter := fun key l => (GoSort.sort key l).getD l

/-- A Task of Order 2 and then twelve Tasks of Order 1, added in that
order. -/
def Examples.thirteen : Manager :=
  New.addAll (Examples.okTask 2 1 :: List.replicate 12 (Examples.okTask 1 1))

/-- A Task whose Handler succeeds on every invocation, without calling
Stop(). -/
def Task.Succeeds (t : Task) : Prop :=
  ∀ n, t.Handler n = { result := none, stop := false }

/-- The statuses handed to the end-of-run callback, in call order. -/
def endStatuses (ev : List TEvent) : List Status :=
  ev.filterMap (fun e => match e with | .runEnd st => some st | _ => none)

/-- The manager once observers and callbacks are registered with
OnStatusChange, OnStart, OnStop and OnComplete (a callback is `true` when it
is registered). -/
def Manager.configure (m : Manager) (obs : List Nat) (onStart onStop onComplete : Bool) :
    Manager :=
  { m with onTaskStatusChange := obs, onStart := onStart, onStop := onStop,
           onComplete := onComplete }

/-- Orders 3, 1, 2 added in that order, all Handlers succeed; one observer
and every callback are registered. -/
def Examples.chainConfigured : Manager :=
  (New.addAll [Examples.okTask 3 1, Examples.okTask 1 1, Examples.okTask 2 1]).configure
    [7] true true true

/-- A Task of the given Order, with Retries = 2, whose Handler fails on its
first two invocations and succeeds from the third on. -/
def Examples.flakyTask (order : Int) : Task :=
  { Handler := fun n => if n < 2 then Examples.failWith "boom" else Examples.succeed,
    Order := order, Retries := 2 }

/-- Orders 1, 2, 3; the Handler of the Task of Order 2 fails twice and then
succeeds; every callback is registered. -/
def Examples.chainFlaky : Manager :=
  (New.addAll [Examples.okTask 1 1, Examples.flakyTask 2, Examples.okTask 3 1]).configure
    [] true true true

namespace Workman

/-- The contract of sort.Slice: the result is a rearrangement of the slice
in which no element has a smaller key than an earlier one. -/
def WSorter.Valid (wsort : WSorter) : Prop :=
  ∀ key l, (wsort key l).Perm l ∧ (wsort key l).Pairwise (fun a b => key a ≤ key b)

/-- The calls of the registry interface that a caller can make. -/
inductive Call where
  | add (index : Int) (data : Config) (fileName : List String)
  | remove (id : String)
  | load (fs : FS) (wsort : WSorter)
  | reload (fs : FS) (wsort : WSorter)
  | next
  | selectedWorker

/-- The manager after one call. -/
def Manager.apply (m : Manager) : Call → Manager
  | .add index data fileName => (m.Add index data fileName).1
  | .remove id => (m.Remove id).1
  | .load fs wsort => (m.Load fs wsort).1
  | .reload fs wsort => (m.Reload fs wsort).1
  | .next => m.Next.1
  | .selectedWorker => m

/-- The manager after a sequence of calls. -/
def Manager.applyAll (m : Manager) (calls : List Call) : Manager := calls.foldl Manager.apply m

/-- The first part of Add (lines 141-157): the factory call, Init, and the
duplicate check, which takes and releases the lock inside Get. The Worker
after Init, or the error returned. -/
def Manager.addCheck (m : Manager) (data : Config) (fileName : List String) :
    Manager × Except Err Worker :=
  match m.workerBuilder with
  | none => (m, .error "worker type is not set")
  | some builder =>
    let m1 := { m with built := m.built + 1 }
    let r := (builder m.built).Init data fileName
    match r.2.2 with
    | some err => (m1, .error err)
    | none =>
      if (m1.Get r.2.1).isSome then (m1, .error "worker already exists")
      else (m1, .ok r.1)

/-- The second part of Add (lines 160-195), for the Worker that passed the
duplicate check: the setters, Boot, the append, which takes the lock again,
and the event. -/
def Manager.addRegister (m : Manager) (index : Int) (w : Worker) :
    Manager × Except Err Worker :=
  let w1 := ((w.SetIndex index).SetTaskManager Simpkg.New).SetClient
  let cachePath := pathJoin [m.CachePath, "_workers", w1.GetID]
  let w2 := ((w1.SetCache cachePath).SetLogger cachePath).RegisterListeners
  let b := w2.Boot
  match b.2 with
  | some err => (m, .error err)
  | none =>
    ({ m with workers := m.workers ++ [b.1],
              events := m.events ++ [.addRemove true false b.1] }, .ok b.1)

/-- Two calls of Add made by two goroutines A and B, in the schedule in
which B runs its first part after the first part of A and before the second
part of A. The state reached, what A returns and what B returns. -/
def Manager.addRace (m : Manager) (iA iB : Int) (dA dB : Config) (fA fB : List String) :
    Manager × Except Err Worker × Except Err Worker :=
  match m.addCheck dA fA with
  | (m1, .error eA) => ((m1.Add iB dB fB).1, .error eA, (m1.Add iB dB fB).2)
  | (m1, .ok wA) =>
    match m1.addCheck dB fB with
    | (m2, .error eB) => ((m2.addRegister iA wA).1, (m2.addRegister iA wA).2, .error eB)
    | (m2, .ok wB) =>
      (((m2.addRegister iA wA).1.addRegister iB wB).1, (m2.addRegister iA wA).2,
        ((m2.addRegister iA wA).1.addRegister iB wB).2)

end Workman

namespace Examples

/-- The Worker of worker.go: Init returns the empty ID and no error, Boot
returns no error, and GetID reports eight hexadecimal digits. -/
def baseWorker : Workman.Worker :=
  { InitResult := fun _ _ => ("", none), ID := "0f3a9c1e", BootResult := none }

/-- A directory with the one file "a.json". -/
def oneFile : Workman.FS :=
  { glob := fun _ => .ok ["a.json"], read := fun _ => .ok [] }

/-- A directory with the files "a.json", "b.json" and "c.json". -/
def threeFiles : Workman.FS :=
  { glob := fun _ => .ok ["a.json", "b.json", "c.json"], read := fun _ => .ok [] }

/-- A Worker that takes the file name as its ID. -/
def fileWorker (name : String) (boot : Option Err) : Workman.Worker :=
  { InitResult := fun _ fileName => (fileName.headD "", none), ID := name, BootResult := boot }

/-- A factory whose first Worker is for "a.json" and whose other Workers are
for "b.json", with a Boot that fails. -/
def failingSecond : Nat → Workman.Worker :=
  fun n => if n = 0 then fileWorker "a.json" none else fileWorker "b.json" (some "boot failed")

/-- A factory whose first Worker is for "a.json". -/
def fileBuilder : Nat → Workman.Worker :=
  fun _ => fileWorker "a.json" none

end Examples

/-- The statuses that the calls of SetStatus assign, in call order. -/
def statusesSet (evs : List TEvent) : List Status :=
  evs.filterMap (fun e => match e with | .setStatus st => some st | _ => none)

/-- The statuses `a`, `b` set `k` times in a row. -/
def alternation (a b : Status) (k : Nat) : List Status := (List.replicate k [a, b]).flatten

/-- Tasks "a", "b", "c" with "b" current, while a chain is running. -/
def Examples.chainRunning : Manager := { Examples.chainNamed with isStarted := true }

/-- Orders 1 and 2 added in that order, the first with Retries = -1, and
the first one designated with SetCurrent; onComplete is registered. -/
def Examples.designatedNegative : Manager :=
  ((New.addAll [Examples.okTask 1 (-1), Examples.okTask 2 1]).OnComplete).SetCurrent (some 0)

/-- Orders 1 and 2 added in that order, and the first one designated with
SetCurrent; onComplete is registered. -/
def Examples.designated : Manager :=
  ((New.addAll [Examples.okTask 1 1, Examples.okTask 2 1]).OnComplete).SetCurrent (some 0)

/-- The calls Start(), Stop() and Reset() of a manager. -/
inductive Manager.Op where
  | start
  | stop
  | reset
  deriving DecidableEq, Repr

/-- The manager after one of the calls; `none` when the fuel of Start did
not suffice. -/
def Manager.step (srt : Sorter) (m : Manager) : Manager.Op → Option Manager
  | .start => m.Start srt
  | .stop => some m.Stop
  | .reset => some m.Reset

/-- The manager after a sequence of calls. -/
def Manager.steps (srt : Sorter) : Manager → List Manager.Op → Option Manager
  | m, [] => some m
  | m, o :: os => (m.step srt o).bind (fun m1 => Manager.steps srt m1 os)

/-- The Items of a sorted manager to which the Task `pt` was added after
the sort: `front` holds the Tasks that were sorted, each with its position
as index, and `pt` comes last with the index 0 of a new Task object. -/
def Manager.Late (m : Manager) (front : List Ptr) (pt : Ptr) : Prop :=
  m.items = front ++ [pt] ∧ pt ∉ front ∧ m.indexOf pt = some 0 ∧
  ∀ (k : Nat) (p : Ptr), front[k]? = some p →
    ∃ u, m.task? p = some u ∧ u.index = (k : Int) ∧ u.onRunEnd = true


/-! ## Task.Start: what each phase keeps and does -/

@[simp] theorem handlerCount_nil : handlerCount [] = 0 := rfl

@[simp] theorem handlerCount_cons (e : TEvent) (es : List TEvent) :
    handlerCount (e :: es) = (if e.isHandler then 1 else 0) + handlerCount es := by
  unfold handlerCount
  rw [List.countP_cons, Nat.add_comm]

@[simp] theorem handlerCount_append (a b : List TEvent) :
    handlerCount (a ++ b) = handlerCount a + handlerCount b := by
  simp [handlerCount]

@[simp] theorem Hook.handlerCount_call (st : Status) (ue : TEvent)
    (hu : ue.isHandler = false) (h : Hook) :
    handlerCount (Hook.call (.broadcast st) ue h) = 0 := by
  induction h with
  | nil => rfl
  | user => simp [Hook.call, hu]
  | wrap inner ih => simpa [Hook.call, TEvent.isHandler] using ih

namespace Task

@[simp] theorem handlerCount_pause (t : Task) : handlerCount t.pause = 0 := by
  unfold pause; split <;> simp [TEvent.isHandler]

@[simp] theorem handlerCount_onTaskEnd (t : Task) : handlerCount t.onTaskEnd = 0 := by
  unfold onTaskEnd; split <;> simp [TEvent.isHandler]

theorem prologue_spec (t : Task) :
    t.prologue.1.Handler = t.Handler ∧ t.prologue.1.calls = t.calls ∧
    t.prologue.1.RetryCondition = t.RetryCondition ∧ t.prologue.1.attempts = 0 ∧
    t.prologue.1.err = t.err ∧
    t.prologue.1.Retries = (if t.Retries = 0 then 1 else t.Retries) ∧
    handlerCount t.prologue.2 = 0 := by
  unfold prologue
  by_cases h : t.OnStart = Hook.nil <;> by_cases h0 : t.Retries = 0 <;>
    cases hm : t.StartMessage <;>
    simp [h, h0, hm, SetStatus, TEvent.isHandler]

theorem handlerStep_ok (t : Task) (h : (t.Handler t.calls).result = none) :
    t.handlerStep.2.2 = true ∧ t.handlerStep.1.err = none ∧
    t.handlerStep.1 = { t with calls := t.calls + 1, err := none } ∧
    handlerCount t.handlerStep.2.1 = 1 := by
  unfold handlerStep
  simp only [h]
  cases (t.Handler t.calls).stop <;> simp [TEvent.isHandler]

theorem handlerStep_fail (t : Task) (e : Err) (h : (t.Handler t.calls).result = some e) :
    t.handlerStep.2.2 = false ∧ t.handlerStep.1.err = some e ∧
    t.handlerStep.1.calls = t.calls + 1 ∧ t.handlerStep.1.attempts = t.attempts ∧
    t.handlerStep.1.Handler = t.Handler ∧
    t.handlerStep.1.RetryCondition = t.RetryCondition ∧
    t.handlerStep.1.status = .fail ∧
    handlerCount t.handlerStep.2.1 = 1 := by
  unfold handlerStep
  simp only [h]
  cases (t.Handler t.calls).stop <;> cases t.ErrorMessage <;> simp [TEvent.isHandler, SetStatus]

end Task
namespace Task

theorem same_refl (t : Task) : Same t t := by simp [Same]

theorem same_trans {a b c : Task} (h1 : Same a b) (h2 : Same b c) : Same a c := by
  simp only [Same] at *
  obtain ⟨a1, a2, a3, a4, a5, a6, a7, a8, a9, a10, a11, a12, a13⟩ := h1
  obtain ⟨b1, b2, b3, b4, b5, b6, b7, b8, b9, b10, b11, b12, b13⟩ := h2
  exact ⟨a1.trans b1, a2.trans b2, a3.trans b3, a4.trans b4, a5.trans b5, a6.trans b6,
    a7.trans b7, a8.trans b8, a9.trans b9, a10.trans b10, a11.trans b11, a12.trans b12,
    a13.trans b13⟩

theorem handlerStep_same (t : Task) : Same t.handlerStep.1 t := by
  unfold handlerStep
  rcases h : (t.Handler t.calls).result with _ | e <;> rcases hm : t.ErrorMessage with _ | f <;>
    simp [Same, SetStatus, hm, h]

theorem attempt_same (t : Task) (i : Int) : Same (t.attempt i).1 t := by
  unfold attempt
  by_cases hi : i > 0
  · simp only [hi, if_true]
    split
    · rcases hm : t.RetryMessage with _ | f <;> simp [Same, SetStatus]
    · refine same_trans (handlerStep_same _) ?_
      rcases hm : t.RetryMessage with _ | f <;> simp [Same, SetStatus]
  · simp only [hi, if_false]
    exact same_trans (handlerStep_same _) (by simp [Same])

theorem loop_break (n : Nat) (i : Int) (t : Task) (h : (t.attempt i).2.2 = true) :
    loop (n + 1) i t = ((t.attempt i).1, (t.attempt i).2.1) := by
  simp [loop, h]

theorem loop_continue (n : Nat) (i : Int) (t : Task) (h : (t.attempt i).2.2 = false) :
    loop (n + 1) i t = ((loop n (i + 1) (t.attempt i).1).1,
      (t.attempt i).2.1 ++ (loop n (i + 1) (t.attempt i).1).2) := by
  simp [loop, h]

theorem loop_same : ∀ (n : Nat) (i : Int) (t : Task), Same (loop n i t).1 t
  | 0, _, t => same_refl t
  | n + 1, i, t => by
    rcases hb : (t.attempt i).2.2 with _ | _
    · rw [loop_continue n i t hb]
      exact same_trans (loop_same n (i + 1) _) (attempt_same t i)
    · rw [loop_break n i t hb]
      exact attempt_same t i

theorem epilogue_same (t : Task) : Same t.epilogue.1 t := by
  unfold epilogue
  rcases he : t.err with _ | e
  · rcases hm : t.SuccessMessage with _ | f <;> simp [Same, SetStatus, hm]
  · rcases hm : t.ErrorMessage with _ | f <;> simp [Same, SetStatus, hm]

theorem epilogue_spec (t : Task) :
    t.epilogue.1.err = t.err ∧ t.epilogue.1.attempts = t.attempts ∧
    t.epilogue.1.calls = t.calls ∧
    t.epilogue.1.status = (if t.err = none then Status.success else Status.fail) ∧
    handlerCount t.epilogue.2 = 0 := by
  unfold epilogue
  rcases he : t.err with _ | e
  · rcases hm : t.SuccessMessage with _ | f <;> by_cases ho : t.OnSuccess = Hook.nil <;>
      simp [SetStatus, hm, ho, he, TEvent.isHandler]
  · rcases hm : t.ErrorMessage with _ | f <;> by_cases ho : t.OnError = Hook.nil <;>
      simp [SetStatus, hm, ho, he, TEvent.isHandler]

/-- Start on a Task that is not in status success, phase by phase. -/
theorem Start_eq (t : Task) (h : t.status ≠ .success) :
    t.Start = ((loop t.prologue.1.Retries.toNat 0 t.prologue.1).1.epilogue.1,
      t.prologue.2 ++ (loop t.prologue.1.Retries.toNat 0 t.prologue.1).2 ++
        (loop t.prologue.1.Retries.toNat 0 t.prologue.1).1.epilogue.2 ++
        (loop t.prologue.1.Retries.toNat 0 t.prologue.1).1.epilogue.1.onTaskEnd) := by
  simp [Start, IsSuccess, h]

/-- Without a RetryCondition, a pass whose Handler invocation succeeds. -/
theorem attempt_ok (t : Task) (i : Int) (hc : t.RetryCondition = none)
    (h : (t.Handler t.calls).result = none) :
    (t.attempt i).2.2 = true ∧ (t.attempt i).1.err = none ∧
    (t.attempt i).1.attempts = t.attempts + 1 ∧ (t.attempt i).1.calls = t.calls + 1 ∧
    handlerCount (t.attempt i).2.1 = 1 := by
  unfold attempt
  by_cases hi : i > 0
  · rcases hm : t.RetryMessage with _ | f <;> by_cases ho : t.OnRetry = Hook.nil <;>
      rcases hs : (t.Handler t.calls).stop with _ | _ <;>
      simp [hi, hc, hm, ho, hs, h, SetStatus, handlerStep, TEvent.isHandler, pause]
    all_goals split <;> simp [TEvent.isHandler]
  · rcases hs : (t.Handler t.calls).stop with _ | _ <;>
      simp [hi, h, hs, handlerStep, TEvent.isHandler]

/-- Without a RetryCondition, a pass whose Handler invocation fails. -/
theorem attempt_fail (t : Task) (i : Int) (e : Err) (hc : t.RetryCondition = none)
    (h : (t.Handler t.calls).result = some e) :
    (t.attempt i).2.2 = false ∧ (t.attempt i).1.err = some e ∧
    (t.attempt i).1.attempts = t.attempts + 1 ∧ (t.attempt i).1.calls = t.calls + 1 ∧
    handlerCount (t.attempt i).2.1 = 1 := by
  unfold attempt
  by_cases hi : i > 0
  · rcases hm : t.RetryMessage with _ | f <;> by_cases ho : t.OnRetry = Hook.nil <;>
      rcases hs : (t.Handler t.calls).stop with _ | _ <;>
      rcases hem : t.ErrorMessage with _ | g <;>
      simp [hi, hc, hm, ho, hs, h, hem, SetStatus, handlerStep, TEvent.isHandler, pause]
    all_goals split <;> simp [TEvent.isHandler]
  · rcases hs : (t.Handler t.calls).stop with _ | _ <;>
      rcases hem : t.ErrorMessage with _ | g <;>
      simp [hi, h, hs, hem, handlerStep, TEvent.isHandler, SetStatus]

end Task
namespace Task

theorem handlerStep_attempts (t : Task) : t.handlerStep.1.attempts = t.attempts := by
  unfold handlerStep
  rcases h : (t.Handler t.calls).result with _ | e <;>
    rcases hem : t.ErrorMessage with _ | g <;> simp [SetStatus, h, hem]

theorem attempt_attempts (t : Task) (i : Int) :
    (t.attempt i).1.attempts = t.attempts + 1 := by
  unfold attempt
  by_cases hi : i > 0
  · rcases hm : t.RetryMessage with _ | f <;>
      simp only [hi, if_true, SetStatus, hm] <;> split <;> simp [handlerStep_attempts]
  · simp [hi, handlerStep_attempts]

theorem loop_attempts_le : ∀ (n : Nat) (i : Int) (t : Task),
    (loop n i t).1.attempts ≤ t.attempts + n ∧
    (1 ≤ n → t.attempts + 1 ≤ (loop n i t).1.attempts)
  | 0, _, t => by simp [loop]
  | n + 1, i, t => by
    have ha := attempt_attempts t i
    rcases hb : (t.attempt i).2.2 with _ | _
    · rw [loop_continue n i t hb]
      have ih := loop_attempts_le n (i + 1) (t.attempt i).1
      simp only at ih ⊢
      rcases Nat.eq_zero_or_pos n with h0 | h0
      · subst h0
        simp [loop, ha]
      · have := ih.2 h0
        push_cast
        omega
    · rw [loop_break n i t hb]
      simp only [ha]
      push_cast
      omega

/-- The Handler fails `k` times and then succeeds, within the passes left. -/
theorem loop_succeeds_after : ∀ (k n : Nat) (i : Int) (t : Task),
    t.RetryCondition = none → k < n →
    (∀ j < k, (t.Handler (t.calls + j)).result ≠ none) →
    (t.Handler (t.calls + k)).result = none →
    (loop n i t).1.err = none ∧ (loop n i t).1.attempts = t.attempts + (k + 1 : Nat) ∧
    (loop n i t).1.calls = t.calls + (k + 1) ∧ handlerCount (loop n i t).2 = k + 1
  | 0, n, i, t, hc, hn, _, hok => by
    obtain ⟨n, rfl⟩ : ∃ n', n = n' + 1 := ⟨n - 1, by omega⟩
    obtain ⟨hb, he, ha, hcl, hh⟩ := attempt_ok t i hc (by simpa using hok)
    rw [loop_break n i t hb]
    simp [he, ha, hcl, hh]
  | k + 1, n, i, t, hc, hn, hfail, hok => by
    obtain ⟨n, rfl⟩ : ∃ n', n = n' + 1 := ⟨n - 1, by omega⟩
    have h0 := hfail 0 (by omega)
    rcases hr : (t.Handler t.calls).result with _ | e
    · simp [hr] at h0
    obtain ⟨hb, _, ha, hcl, hh⟩ := attempt_fail t i e hc hr
    have hs := attempt_same t i
    rw [loop_continue n i t hb]
    have ih := loop_succeeds_after k n (i + 1) (t.attempt i).1 (by rw [hs.2.1, hc]) (by omega)
      (by
        intro j hj
        rw [hs.1, hcl]
        have := hfail (j + 1) (by omega)
        rwa [show t.calls + (j + 1) = t.calls + 1 + j by omega] at this)
      (by
        rw [hs.1, hcl]
        rwa [show t.calls + (k + 1) = t.calls + 1 + k by omega] at hok)
    obtain ⟨i1, i2, i3, i4⟩ := ih
    refine ⟨i1, ?_, ?_, ?_⟩
    · rw [i2, ha]; push_cast; omega
    · rw [i3, hcl]; omega
    · simp only [handlerCount_append, hh, i4]; omega

/-- The Handler fails on every pass. -/
theorem loop_always_fails : ∀ (n : Nat) (i : Int) (t : Task),
    t.RetryCondition = none →
    (∀ j < n, (t.Handler (t.calls + j)).result ≠ none) →
    (loop n i t).1.attempts = t.attempts + n ∧
    (loop n i t).1.calls = t.calls + n ∧ handlerCount (loop n i t).2 = n ∧
    (1 ≤ n → (loop n i t).1.err = (t.Handler (t.calls + (n - 1))).result)
  | 0, _, t, _, _ => by simp [loop]
  | n + 1, i, t, hc, hfail => by
    have h0 := hfail 0 (by omega)
    rcases hr : (t.Handler t.calls).result with _ | e
    · simp [hr] at h0
    obtain ⟨hb, he, ha, hcl, hh⟩ := attempt_fail t i e hc hr
    have hs := attempt_same t i
    rw [loop_continue n i t hb]
    have ih := loop_always_fails n (i + 1) (t.attempt i).1 (by rw [hs.2.1, hc])
      (by
        intro j hj
        rw [hs.1, hcl]
        have := hfail (j + 1) (by omega)
        rwa [show t.calls + (j + 1) = t.calls + 1 + j by omega] at this)
    obtain ⟨i1, i2, i3, i4⟩ := ih
    refine ⟨?_, ?_, ?_, ?_⟩
    · rw [i1, ha]; push_cast; omega
    · rw [i2, hcl]; omega
    · simp only [handlerCount_append, hh, i3]; omega
    · intro _
      rcases Nat.eq_zero_or_pos n with hz | hp
      · subst hz
        simp [loop, he, hr]
      · rw [i4 hp, hs.1, hcl]
        congr 2
        omega

/-- The first pass of the loop when the Handler invocation fails. -/
theorem attempt_first_fail (t : Task) (e : Err) (h : (t.Handler t.calls).result = some e) :
    (t.attempt 0).2.2 = false ∧ (t.attempt 0).1.err = some e ∧
    (t.attempt 0).1.attempts = t.attempts + 1 ∧ (t.attempt 0).1.calls = t.calls + 1 ∧
    handlerCount (t.attempt 0).2.1 = 1 := by
  unfold attempt
  rcases hs : (t.Handler t.calls).stop with _ | _ <;>
    rcases hem : t.ErrorMessage with _ | g <;>
    simp [h, hs, hem, handlerStep, TEvent.isHandler, SetStatus]

/-- A later pass that the RetryCondition refuses. -/
theorem attempt_veto (t : Task) (i : Int) (e : Err) (rc : Err → Int → Bool) (hi : i > 0)
    (hrc : t.RetryCondition = some rc) (he : t.err = some e) (hv : rc e i = false) :
    (t.attempt i).2.2 = true ∧ (t.attempt i).1.err = some e ∧
    (t.attempt i).1.attempts = t.attempts + 1 ∧ (t.attempt i).1.calls = t.calls ∧
    handlerCount (t.attempt i).2.1 = 0 := by
  unfold attempt
  rcases hm : t.RetryMessage with _ | g <;>
    simp [hi, hrc, he, hv, hm, SetStatus, TEvent.isHandler]

end Task
/-! ## The manager: pointers, the trace, and one Task's run -/

namespace Manager

theorem task?_update (m : Manager) (p q : Ptr) (f : Task → Task) :
    (m.update p f).task? q = if q = p then (m.task? p).map f else m.task? q := by
  unfold update task?
  rcases h : m.heap[p]? with _ | t
  · by_cases hq : q = p
    · subst hq; simp [h]
    · simp [hq]
  · by_cases hq : q = p
    · subst hq
      have hlt : q < m.heap.length := by
        rcases Nat.lt_or_ge q m.heap.length with h1 | h1
        · exact h1
        · rw [List.getElem?_eq_none h1] at h; cases h
      simp [h, hlt]
    · simp [hq, List.getElem?_set_ne (Ne.symm hq)]

@[simp] theorem update_items (m : Manager) (p : Ptr) (f : Task → Task) :
    (m.update p f).items = m.items := by
  unfold update; split <;> rfl

@[simp] theorem update_trace (m : Manager) (p : Ptr) (f : Task → Task) :
    (m.update p f).trace = m.trace := by
  unfold update; split <;> rfl

@[simp] theorem update_current (m : Manager) (p : Ptr) (f : Task → Task) :
    (m.update p f).current = m.current := by
  unfold update; split <;> rfl

@[simp] theorem update_isStarted (m : Manager) (p : Ptr) (f : Task → Task) :
    (m.update p f).isStarted = m.isStarted := by
  unfold update; split <;> rfl

@[simp] theorem update_isSorted (m : Manager) (p : Ptr) (f : Task → Task) :
    (m.update p f).isSorted = m.isSorted := by
  unfold update; split <;> rfl

@[simp] theorem update_observers (m : Manager) (p : Ptr) (f : Task → Task) :
    (m.update p f).onTaskStatusChange = m.onTaskStatusChange := by
  unfold update; split <;> rfl

@[simp] theorem update_onStart (m : Manager) (p : Ptr) (f : Task → Task) :
    (m.update p f).onStart = m.onStart := by
  unfold update; split <;> rfl

@[simp] theorem update_onStop (m : Manager) (p : Ptr) (f : Task → Task) :
    (m.update p f).onStop = m.onStop := by
  unfold update; split <;> rfl

@[simp] theorem update_onComplete (m : Manager) (p : Ptr) (f : Task → Task) :
    (m.update p f).onComplete = m.onComplete := by
  unfold update; split <;> rfl

theorem expandWith_append (obs : List Nat) (onStop : Bool) (p : Ptr) (a b : List TEvent) :
    expandWith obs onStop p (a ++ b) = expandWith obs onStop p a ++ expandWith obs onStop p b := by
  induction a with
  | nil => rfl
  | cons e es ih => simp [expandWith, ih]

theorem expand_append (m : Manager) (p : Ptr) (a b : List TEvent) :
    m.expand p (a ++ b) = m.expand p a ++ m.expand p b :=
  expandWith_append _ _ p a b

/-- The state `absorb` reaches, in closed form. -/
theorem absorb_eq : ∀ (evs : List TEvent) (m : Manager) (p : Ptr),
    m.absorb p evs = { m with trace := m.trace ++ m.expand p evs,
                              isStarted := m.isStarted && !evs.contains TEvent.callStop }
  | [], m, p => by simp [absorb, expand, expandWith]
  | e :: es, m, p => by
    unfold absorb
    simp only
    rw [absorb_eq es]
    cases e <;>
      simp [expand, expandWith, triggerOnTaskStatusChange, Stop, List.contains_cons]

end Manager

/-! ## Task.Start: configuration and the shape of the calls -/

namespace Task

theorem kin_refl (t : Task) : Kin t t := by simp [Kin]

theorem kin_trans {a b c : Task} (h1 : Kin a b) (h2 : Kin b c) : Kin a c := by
  simp only [Kin] at *
  obtain ⟨a1, a2, a3, a4, a5, a6, a7⟩ := h1
  obtain ⟨b1, b2, b3, b4, b5, b6, b7⟩ := h2
  refine ⟨a1.trans b1, a2.trans b2, a3.trans b3, a4.trans b4, a5.trans b5, a6.trans b6, ?_⟩
  omega

theorem Kin.of_same {a b : Task} (h : Same a b) : Kin a b := by
  simp only [Same, Kin] at *
  obtain ⟨a1, a2, a3, a4, a5, a6, _, a8, _⟩ := h
  exact ⟨a1, a2, a3, a4, a5, a6, Or.inl a8⟩

theorem Kin.retries_nonneg {a b : Task} (h : Kin a b) (hb : 0 ≤ b.Retries) : 0 ≤ a.Retries := by
  have := h.2.2.2.2.2.2
  omega

theorem reset_kin (t : Task) : Kin t.reset t := by simp [Kin, reset]

theorem prologue_kin (t : Task) :
    Kin t.prologue.1 t ∧ t.prologue.1.executeNextTask = t.executeNextTask := by
  unfold prologue
  by_cases h : t.OnStart = Hook.nil <;> by_cases h0 : t.Retries = 0 <;>
    rcases hm : t.StartMessage with _ | f <;>
    simp [h, h0, hm, SetStatus, Kin]

theorem Start_kin (t : Task) :
    Kin t.Start.1 t ∧ t.Start.1.executeNextTask = t.executeNextTask := by
  by_cases hs : t.status = .success
  · simp [Start, IsSuccess, hs, kin_refl]
  · rw [Start_eq t hs]
    have h1 := epilogue_same (loop t.prologue.1.Retries.toNat 0 t.prologue.1).1
    have h2 := loop_same t.prologue.1.Retries.toNat 0 t.prologue.1
    have h3 := prologue_kin t
    exact ⟨kin_trans (Kin.of_same (same_trans h1 h2)) h3.1,
      (h1.2.2.2.2.2.2.1.trans h2.2.2.2.2.2.2.1).trans h3.2⟩

theorem hook_events (st : Simpkg.Status) (ue : TEvent) (hu : ue.isHook = true) (h : Hook) :
    ∀ e ∈ Hook.call (.broadcast st) ue h, e.isHook = true := by
  induction h with
  | nil => simp [Hook.call]
  | user => simp [Hook.call, hu]
  | wrap inner ih =>
    intro e he
    simp only [Hook.call, List.mem_cons] at he
    rcases he with rfl | he
    · rfl
    · exact ih e he

theorem prologue_events (t : Task) : ∀ e ∈ t.prologue.2, e.isHook = true := by
  unfold prologue
  by_cases h : t.OnStart = Hook.nil
  · simp [h]
  · intro e he
    simp only [h, if_false, List.mem_cons] at he
    rcases he with rfl | he
    · rfl
    · exact hook_events _ _ (by rfl) _ e he

theorem epilogue_events (t : Task) : ∀ e ∈ t.epilogue.2, e.isHook = true := by
  unfold epilogue
  intro e
  rcases he : t.err with _ | x
  · by_cases ho : t.OnSuccess = Hook.nil
    · simp only [ho, if_true, List.nil_append, List.mem_singleton]
      rintro rfl; rfl
    · simp only [ho, if_false, List.mem_append, List.mem_singleton]
      rintro (h | rfl)
      · exact hook_events _ _ (by rfl) _ e h
      · rfl
  · by_cases ho : t.OnError = Hook.nil
    · simp only [ho, if_true, List.nil_append, List.mem_singleton]
      rintro rfl; rfl
    · simp only [ho, if_false, List.mem_append, List.mem_singleton]
      rintro (h | rfl)
      · exact hook_events _ _ (by rfl) _ e h
      · rfl

theorem handlerStep_events_eq (t : Task) :
    t.handlerStep.2.1 = TEvent.handler t.calls ::
      ((if (t.Handler t.calls).stop then [TEvent.callStop] else []) ++
       (if (t.Handler t.calls).result.isSome then [TEvent.setStatus .fail] else [])) := by
  unfold handlerStep
  rcases hr : (t.Handler t.calls).result with _ | x <;> simp [hr]

theorem handlerStep_events (t : Task) : ∀ e ∈ t.handlerStep.2.1,
    e.isHook = true ∨ (∃ c, e = .handler c) ∨
      (e = .callStop ∧ (t.Handler t.calls).stop = true) := by
  rw [handlerStep_events_eq]
  intro e he
  simp only [List.mem_cons, List.mem_append] at he
  rcases he with rfl | he | he
  · exact Or.inr (Or.inl ⟨_, rfl⟩)
  · split at he
    · simp only [List.mem_singleton] at he
      exact Or.inr (Or.inr ⟨he, by assumption⟩)
    · simp at he
  · split at he
    · simp only [List.mem_singleton] at he
      subst he; exact Or.inl rfl
    · simp at he

theorem pause_events (t : Task) : ∀ e ∈ t.pause, e.isHook = true := by
  unfold pause
  intro e
  split
  · simp only [List.mem_singleton]; rintro rfl; rfl
  · simp

theorem attempt_events (t : Task) (i : Int) : ∀ e ∈ (t.attempt i).2.1,
    e.isHook = true ∨ (∃ c, e = .handler c) ∨
      (e = .callStop ∧ ∃ c, (t.Handler c).stop = true) := by
  have hstep : ∀ u : Task, u.Handler = t.Handler → ∀ e ∈ u.handlerStep.2.1,
      e.isHook = true ∨ (∃ c, e = .handler c) ∨
        (e = .callStop ∧ ∃ c, (t.Handler c).stop = true) := by
    intro u hu e he
    rcases handlerStep_events u e he with h | h | ⟨h1, h2⟩
    · exact Or.inl h
    · exact Or.inr (Or.inl h)
    · exact Or.inr (Or.inr ⟨h1, u.calls, by rw [← hu]; exact h2⟩)
  unfold attempt
  intro e
  by_cases hi : i > 0
  · simp only [hi, if_true]
    split
    · simp only [List.mem_singleton]; rintro rfl; exact Or.inl rfl
    · simp only [List.mem_cons, List.mem_append]
      rintro (rfl | (h | h) | h)
      · exact Or.inl rfl
      · exact Or.inl (pause_events _ e h)
      · split at h
        · simp at h
        · exact Or.inl (hook_events _ _ (by rfl) _ e h)
      · refine hstep _ ?_ e h
        rcases hm : t.RetryMessage with _ | f <;> simp [SetStatus]
  · simp only [hi, if_false]
    exact hstep { t with attempts := t.attempts + 1 } rfl e

theorem loop_events : ∀ (n : Nat) (i : Int) (t : Task), ∀ e ∈ (loop n i t).2,
    e.isHook = true ∨ (∃ c, e = .handler c) ∨
      (e = .callStop ∧ ∃ c, (t.Handler c).stop = true)
  | 0, _, _ => by simp [loop]
  | n + 1, i, t => by
    intro e
    rcases hb : (t.attempt i).2.2 with _ | _
    · rw [loop_continue n i t hb]
      simp only [List.mem_append]
      rintro (h | h)
      · exact attempt_events t i e h
      · have := loop_events n (i + 1) (t.attempt i).1 e h
        rwa [(attempt_same t i).1] at this
    · rw [loop_break n i t hb]
      exact attempt_events t i e

/-- The calls of Start: status assignments, hooks and sleeps, Handler
invocations, a Stop() when some Handler invocation makes one, and the
end-of-run callback with the final status when it is set. -/
theorem Start_events (t : Task) : ∀ e ∈ t.Start.2,
    e.isHook = true ∨ (∃ c, e = .handler c) ∨
      (e = .callStop ∧ ∃ c, (t.Handler c).stop = true) ∨
      (e = .runEnd t.Start.1.status ∧ t.onRunEnd = true) := by
  intro e
  by_cases hs : t.status = .success
  · simp only [Start, IsSuccess, hs, decide_True, if_true, onTaskEnd]
    split
    · simp only [List.mem_singleton]
      rintro rfl
      exact Or.inr (Or.inr (Or.inr ⟨rfl, by assumption⟩))
    · simp
  · have hk := Start_kin t
    rw [Start_eq t hs] at hk ⊢
    simp only [List.mem_append]
    rintro (((h | h) | h) | h)
    · exact Or.inl (prologue_events t e h)
    · rcases loop_events _ _ _ e h with h1 | h1 | ⟨h1, c, h2⟩
      · exact Or.inl h1
      · exact Or.inr (Or.inl h1)
      · exact Or.inr (Or.inr (Or.inl ⟨h1, c, by rw [← (prologue_kin t).1.1]; exact h2⟩))
    · exact Or.inl (epilogue_events _ e h)
    · unfold onTaskEnd at h
      split at h
      · simp only [List.mem_singleton] at h
        refine Or.inr (Or.inr (Or.inr ⟨h, ?_⟩))
        rw [← hk.1.2.2.2.2.2.1]
        assumption
      · simp at h

/-- When Start returns on a Task that was not in status success, the status
is success with a nil error, or fail with an error. -/
theorem Start_outcome (t : Task) (hs : t.status ≠ .success) :
    (t.Start.1.status = .success ∧ t.Start.1.err = none) ∨
    (t.Start.1.status = .fail ∧ t.Start.1.err.isSome = true) := by
  rw [Start_eq t hs]
  obtain ⟨e1, _, _, e4, _⟩ :=
    epilogue_spec (loop t.prologue.1.Retries.toNat 0 t.prologue.1).1
  rcases he : (loop t.prologue.1.Retries.toNat 0 t.prologue.1).1.err with _ | x
  · left; simp [e1, e4, he]
  · right; simp [e1, e4, he]

/-- A failed end of run is reported to the callback only with an error set. -/
theorem Start_runEnd_fail (t : Task) (h : TEvent.runEnd .fail ∈ t.Start.2) :
    t.Start.1.err.isSome = true := by
  rcases Start_events t _ h with h1 | ⟨c, h1⟩ | ⟨h1, _⟩ | ⟨h1, _⟩
  · simp [TEvent.isHook] at h1
  · cases h1
  · cases h1
  · have hst : t.Start.1.status = .fail := by
      injection h1 with h2; exact h2.symm
    by_cases hs : t.status = .success
    · have : t.Start.1 = t := by simp [Start, IsSuccess, hs]
      rw [this, hs] at hst; cases hst
    · rcases Start_outcome t hs with ⟨h3, _⟩ | ⟨_, h4⟩
      · rw [h3] at hst; cases hst
      · exact h4

/-- The first pass of the loop when the Handler invocation succeeds. -/
theorem attempt_first_ok (t : Task) (h : (t.Handler t.calls).result = none) :
    (t.attempt 0).2.2 = true ∧ (t.attempt 0).1.err = none ∧
    (t.attempt 0).1.calls = t.calls + 1 ∧ handlerCount (t.attempt 0).2.1 = 1 := by
  unfold attempt
  rcases hs : (t.Handler t.calls).stop with _ | _ <;>
    simp [h, hs, handlerStep, TEvent.isHandler]

/-- A Task not in status success, with Retries not negative, whose next
Handler invocation succeeds: one invocation, status success, no error. -/
theorem Start_first_ok (t : Task) (hs : t.status ≠ .success) (hR : 0 ≤ t.Retries)
    (h : (t.Handler t.calls).result = none) :
    t.Start.1.err = none ∧ t.Start.1.status = .success ∧ handlerCount t.Start.2 = 1 := by
  rw [Start_eq t hs]
  obtain ⟨pH, pc, _, _, _, pR, ph⟩ := prologue_spec t
  obtain ⟨n, hn⟩ : ∃ n, t.prologue.1.Retries.toNat = n + 1 := by
    refine ⟨t.prologue.1.Retries.toNat - 1, ?_⟩
    rw [pR]; split <;> omega
  obtain ⟨a1, a2, _, a4⟩ := attempt_first_ok t.prologue.1 (by rw [pH, pc]; exact h)
  rw [hn, loop_break _ _ _ a1]
  obtain ⟨e1, _, _, e4, e5⟩ := epilogue_spec (t.prologue.1.attempt 0).1
  simp [e1, e4, e5, a2, a4, ph]

end Task

/-! ## The manager: invariants and one step of the chain -/

theorem handlerRuns_append (a b : List Event) :
    handlerRuns (a ++ b) = handlerRuns a ++ handlerRuns b := by
  simp [handlerRuns]

theorem mem_expandWith (obs : List Nat) (onStop : Bool) (p : Ptr) (ev : Event) :
    ∀ evs : List TEvent, ev ∈ expandWith obs onStop p evs →
      (∃ e ∈ evs, ev = Event.task p e) ∨ (∃ o st, ev = Event.statusChange o p st) ∨
        ev = Event.onStop
  | [] => by simp [expandWith]
  | e :: es => by
    intro h
    simp only [expandWith, List.cons_append, List.mem_cons, List.mem_append] at h
    rcases h with rfl | h | h
    · exact Or.inl ⟨e, by simp, rfl⟩
    · cases e <;> simp at h
      · obtain ⟨o, _, rfl⟩ := h
        exact Or.inr (Or.inl ⟨o, _, rfl⟩)
      · exact Or.inr (Or.inr h.2)
    · rcases mem_expandWith obs onStop p ev es h with ⟨e1, h1, h2⟩ | h1 | h1
      · exact Or.inl ⟨e1, by simp [h1], h2⟩
      · exact Or.inr (Or.inl h1)
      · exact Or.inr (Or.inr h1)

theorem handlerRuns_statusChange (p : Ptr) (st : Status) : ∀ obs : List Nat,
    handlerRuns (obs.map (fun o => Event.statusChange o p st)) = []
  | [] => rfl
  | o :: os => by
    have ih := handlerRuns_statusChange p st os
    simp only [handlerRuns, List.map_cons, List.filterMap_cons] at ih ⊢
    exact ih

theorem handlerRuns_cons_task (p : Ptr) (e : TEvent) (tr : List Event) :
    handlerRuns (Event.task p e :: tr) =
      (if e.isHandler then [p] else []) ++ handlerRuns tr := by
  cases e <;> simp [handlerRuns, TEvent.isHandler]

theorem handlerRuns_expandWith (obs : List Nat) (onStop : Bool) (p : Ptr) :
    ∀ evs : List TEvent,
      handlerRuns (expandWith obs onStop p evs) = List.replicate (handlerCount evs) p
  | [] => rfl
  | e :: es => by
    have ih := handlerRuns_expandWith obs onStop p es
    simp only [expandWith, List.cons_append, handlerCount_cons, handlerRuns_cons_task,
      handlerRuns_append, ih]
    have hmid : handlerRuns (match e with
        | .broadcast st => obs.map (fun o => Event.statusChange o p st)
        | .callStop => if onStop then [Event.onStop] else []
        | _ => []) = [] := by
      cases e <;> simp only [handlerRuns_statusChange] <;>
        first
          | rfl
          | (cases onStop <;> rfl)
    rw [hmid]
    cases h : e.isHandler <;> simp [List.replicate_succ, Nat.add_comm 1]

theorem exists_getElem?_of_lt {α : Type} {l : List α} {i : Nat} (h : i < l.length) :
    ∃ a, l[i]? = some a :=
  ⟨l[i], List.getElem?_eq_getElem h⟩

theorem find?_first {α : Type} (P : α → Bool) : ∀ (l : List α) (k : Nat) (a : α),
    l[k]? = some a → P a = true → (∀ i b, i < k → l[i]? = some b → P b = false) →
    l.find? P = some a
  | [], k, a, h, _, _ => by simp at h
  | x :: xs, 0, a, h, hP, _ => by
    simp only [List.getElem?_cons_zero, Option.some.injEq] at h
    subst h
    simp [List.find?, hP]
  | x :: xs, k + 1, a, h, hP, hlt => by
    have hx : P x = false := hlt 0 x (by omega) (by simp)
    simp only [List.find?, hx]
    refine find?_first P xs k a (by simpa using h) hP ?_
    intro i b hi hb
    exact hlt (i + 1) b (by omega) (by simpa using hb)

namespace Manager

theorem evolves_refl (m : Manager) : m.Evolves m :=
  ⟨rfl, rfl, rfl, rfl, rfl, rfl, rfl, fun _ t h => ⟨t, h, Task.kin_refl t⟩⟩

theorem evolves_trans {a b c : Manager} (h1 : a.Evolves b) (h2 : b.Evolves c) : a.Evolves c := by
  obtain ⟨a1, a2, a3, a4, a5, a6, a7, a8⟩ := h1
  obtain ⟨b1, b2, b3, b4, b5, b6, b7, b8⟩ := h2
  refine ⟨b1.trans a1, b2.trans a2, b3.trans a3, b4.trans a4, b5.trans a5, b6.trans a6,
    b7.trans a7, ?_⟩
  intro p t ht
  obtain ⟨t1, ht1, k1⟩ := a8 p t ht
  obtain ⟨t2, ht2, k2⟩ := b8 p t1 ht1
  exact ⟨t2, ht2, Task.kin_trans k2 k1⟩

/-- A Task object of an evolved state was there before, with the same
configuration. -/
theorem Evolves.back {m m1 : Manager} (h : m.Evolves m1) {p : Ptr} {u : Task}
    (hu : m1.task? p = some u) : ∃ t, m.task? p = some t ∧ Task.Kin u t := by
  have hlt : p < m.heap.length := by
    rw [← h.2.2.2.2.2.2.1]
    rcases Nat.lt_or_ge p m1.heap.length with h1 | h1
    · exact h1
    · unfold task? at hu
      rw [List.getElem?_eq_none h1] at hu; cases hu
  have ht : m.task? p = some m.heap[p] := by
    unfold task?
    exact List.getElem?_eq_getElem hlt
  obtain ⟨t1, ht1, kin⟩ := h.2.2.2.2.2.2.2 p _ ht
  rw [hu] at ht1
  exact ⟨_, ht, by rw [Option.some.inj ht1]; exact kin⟩

theorem update_heap_length (m : Manager) (p : Ptr) (f : Task → Task) :
    (m.update p f).heap.length = m.heap.length := by
  unfold update; split <;> simp

theorem evolves_update (m : Manager) (p : Ptr) (f : Task → Task)
    (hf : ∀ t, m.task? p = some t → Task.Kin (f t) t) : m.Evolves (m.update p f) := by
  refine ⟨by simp, by simp, by simp, by simp, by simp, by simp, update_heap_length m p f, ?_⟩
  intro q t ht
  rw [task?_update]
  by_cases hq : q = p
  · subst hq
    simp only [if_true, ht, Option.map_some']
    exact ⟨_, rfl, hf t ht⟩
  · simp only [hq, if_false]
    exact ⟨t, ht, Task.kin_refl t⟩

theorem Indexed.of_evolves {m m1 : Manager} (h : m.Indexed) (he : m.Evolves m1) : m1.Indexed := by
  intro k p hk
  rw [he.1] at hk
  obtain ⟨t, ht, hi, hr⟩ := h k p hk
  obtain ⟨t1, ht1, kin⟩ := he.2.2.2.2.2.2.2 p t ht
  exact ⟨t1, ht1, kin.2.2.1.trans hi, kin.2.2.2.2.2.1.trans hr⟩

/-- Under the invariant a Task sits at one position only. -/
theorem Indexed.position_unique {m : Manager} (h : m.Indexed) {i j : Nat} {p : Ptr}
    (hi : m.items[i]? = some p) (hj : m.items[j]? = some p) : i = j := by
  obtain ⟨t, ht, h1, _⟩ := h i p hi
  obtain ⟨t1, ht1, h2, _⟩ := h j p hj
  rw [ht] at ht1
  injection ht1 with h3
  subst h3
  omega

/-- Under the invariant `move` forward from position `j` yields the Task at
position `j + 1`, or reports completion past the last position. -/
theorem move_next {m : Manager} (h : m.Indexed) (j : Nat) :
    m.move true (j : Int) =
      if j + 1 < m.items.length then (m.items[j + 1]?, false) else (none, true) := by
  unfold move
  by_cases hlt : j + 1 < m.items.length
  · have h1 : ¬ ((j : Int) + 1 > (m.items.length : Int) - 1) := by omega
    simp only [if_true, h1, if_false, hlt]
    obtain ⟨q, hq⟩ : ∃ q, m.items[j + 1]? = some q :=
      ⟨m.items[j + 1], List.getElem?_eq_getElem hlt⟩
    rw [hq]
    congr 1
    refine find?_first _ m.items (j + 1) q hq ?_ ?_
    · obtain ⟨t, ht, hi, _⟩ := h (j + 1) q hq
      simp [indexOf, ht, hi]
    · intro i b hi hb
      obtain ⟨t, ht, hti, _⟩ := h i b hb
      simp only [indexOf, ht, Option.map_some', decide_eq_false_iff_not, Option.some.injEq]
      omega
  · have h1 : (j : Int) + 1 > (m.items.length : Int) - 1 := by omega
    simp [h1, hlt]

end Manager

namespace Manager

theorem ran_eq (m : Manager) (p : Ptr) (t : Task) :
    m.ran p t = { m.update p (fun _ => t.Start.1) with
      trace := m.trace ++ m.ranEvents p t,
      isStarted := m.isStarted && !t.Start.2.contains TEvent.callStop } := by
  unfold ran ranEvents
  rw [absorb_eq]
  simp [triggerOnTaskStatusChange, expand]

theorem ran_trace (m : Manager) (p : Ptr) (t : Task) :
    (m.ran p t).trace = m.trace ++ m.ranEvents p t := by
  rw [ran_eq]

theorem ran_isStarted (m : Manager) (p : Ptr) (t : Task) :
    (m.ran p t).isStarted = (m.isStarted && !t.Start.2.contains TEvent.callStop) := by
  rw [ran_eq]

theorem ran_current (m : Manager) (p : Ptr) (t : Task) : (m.ran p t).current = m.current := by
  rw [ran_eq]; simp

theorem ran_items (m : Manager) (p : Ptr) (t : Task) : (m.ran p t).items = m.items := by
  rw [ran_eq]; simp

theorem task?_ran (m : Manager) (p q : Ptr) (t : Task) :
    (m.ran p t).task? q = (m.update p (fun _ => t.Start.1)).task? q := by
  rw [ran_eq]; rfl

theorem task?_ran_self (m : Manager) (p : Ptr) (t : Task) (ht : m.task? p = some t) :
    (m.ran p t).task? p = some t.Start.1 := by
  rw [task?_ran, task?_update]; simp [ht]

theorem ran_evolves (m : Manager) (p : Ptr) (t : Task) (ht : m.task? p = some t) :
    m.Evolves (m.ran p t) := by
  have h := evolves_update m p (fun _ => t.Start.1) (by
    intro u hu
    rw [ht] at hu
    injection hu with hu
    subst hu
    exact (Task.Start_kin t).1)
  rw [ran_eq]
  exact h

theorem mem_ranEvents (m : Manager) (p : Ptr) (t : Task) (ev : Event)
    (h : ev ∈ m.ranEvents p t) :
    (∃ e ∈ t.Start.2, ev = Event.task p e) ∨ (∃ o st, ev = Event.statusChange o p st) ∨
      ev = Event.onStop := by
  unfold ranEvents expand at h
  rcases List.mem_append.1 h with h | h
  · exact mem_expandWith _ _ p ev _ h
  · obtain ⟨o, _, rfl⟩ := List.mem_map.1 h
    exact Or.inr (Or.inl ⟨o, _, rfl⟩)

theorem handlerRuns_ranEvents (m : Manager) (p : Ptr) (t : Task) :
    handlerRuns (m.ranEvents p t) = List.replicate (handlerCount t.Start.2) p := by
  unfold ranEvents expand
  rw [handlerRuns_append, handlerRuns_expandWith, handlerRuns_statusChange, List.append_nil]

/-- The call task.Start() on a Task the manager added, step by step. -/
theorem startTask_succ (fuel : Nat) (m : Manager) (p : Ptr) (t : Task)
    (ht : m.task? p = some t) (hr : t.onRunEnd = true) :
    m.startTask (fuel + 1) p =
      if t.Start.1.err.isSome then some { m.ran p t with isStarted := false }
      else if !t.Start.1.executeNextTask then some { m.ran p t with isStarted := false }
      else match (m.ran p t).advance (some p) with
        | (m3, none) => some m3
        | (m3, some q) => startTask fuel m3 q := by
  have hk : t.Start.1.onRunEnd = true := (Task.Start_kin t).1.2.2.2.2.2.1.trans hr
  simp only [startTask, ht, hk, if_true, ran]

theorem advance_stopped (m : Manager) (p : Ptr) (t : Task) (ht : m.task? p = some t)
    (he : t.err = none) (hs : m.isStarted = false) : m.advance (some p) = (m, none) := by
  simp [advance, ht, Task.IsError, he, hs]

theorem advance_complete (m : Manager) (p : Ptr) (t : Task) (j : Nat) (hI : m.Indexed)
    (ht : m.task? p = some t) (he : t.err = none) (hs : m.isStarted = true)
    (hj : t.index = (j : Int)) (hlen : ¬ j + 1 < m.items.length) :
    m.advance (some p) =
      ({ m with isStarted := false,
                trace := m.trace ++ (if m.onComplete then [Event.onComplete] else []) },
        none) := by
  simp [advance, ht, Task.IsError, he, hs, indexOf, hj, move_next hI j, hlen]

theorem advance_next (m : Manager) (p q : Ptr) (t : Task) (j : Nat) (hI : m.Indexed)
    (ht : m.task? p = some t) (he : t.err = none) (hs : m.isStarted = true)
    (hj : t.index = (j : Int)) (hq : m.items[j + 1]? = some q) :
    m.advance (some p) =
      (((m.update q Task.reset).update p Task.reset).SetCurrent (some q), some q) := by
  have hlen : j + 1 < m.items.length := by
    rcases Nat.lt_or_ge (j + 1) m.items.length with h | h
    · exact h
    · rw [List.getElem?_eq_none h] at hq; cases hq
  simp [advance, ht, Task.IsError, he, hs, indexOf, hj, move_next hI j, hlen, hq]

/-- The state from which the next Task is started evolves from the one
before, with the same trace and flags. -/
theorem next_evolves (m : Manager) (p q : Ptr) :
    m.Evolves (((m.update q Task.reset).update p Task.reset).SetCurrent (some q)) := by
  have h1 := evolves_update m q Task.reset (fun t _ => Task.reset_kin t)
  have h2 := evolves_update (m.update q Task.reset) p Task.reset (fun t _ => Task.reset_kin t)
  exact evolves_trans h1 h2

/-- The Task that `advance` hands over has been reset. -/
theorem task?_next_target (m : Manager) (p q : Ptr) (u : Task)
    (h : ((m.update q Task.reset).update p Task.reset).task? q = some u) :
    u.status ≠ .success ∧ u.executeNextTask = true := by
  rw [task?_update] at h
  by_cases hqp : q = p
  · simp only [hqp, if_true] at h
    obtain ⟨w, _, rfl⟩ := Option.map_eq_some'.1 h
    simp [Task.reset]
  · simp only [hqp, if_false] at h
    rw [task?_update] at h
    simp only [if_true] at h
    obtain ⟨w, _, rfl⟩ := Option.map_eq_some'.1 h
    simp [Task.reset]

end Manager

theorem mem_handlerRuns (tr : List Event) (q : Ptr) :
    q ∈ handlerRuns tr ↔ ∃ c, Event.task q (.handler c) ∈ tr := by
  unfold handlerRuns
  rw [List.mem_filterMap]
  constructor
  · rintro ⟨ev, hev, h⟩
    cases ev with
    | task p e =>
      cases e <;> simp at h
      subst h
      exact ⟨_, hev⟩
    | _ => simp at h
  · rintro ⟨c, h⟩
    exact ⟨_, h, rfl⟩

namespace Manager

/-- A state that differs from an evolved one in the trace, the flags and
the current Task only. -/
theorem Evolves.frame {m m1 : Manager} (h : m.Evolves m1) (m2 : Manager)
    (hh : m2.heap = m1.heap) (hi : m2.items = m1.items)
    (ho : m2.onTaskStatusChange = m1.onTaskStatusChange) (h1 : m2.onStart = m1.onStart)
    (h2 : m2.onStop = m1.onStop) (h3 : m2.onComplete = m1.onComplete)
    (h4 : m2.isSorted = m1.isSorted) : m.Evolves m2 := by
  refine ⟨hi.trans h.1, ho.trans h.2.1, h1.trans h.2.2.1, h2.trans h.2.2.2.1,
    h3.trans h.2.2.2.2.1, h4.trans h.2.2.2.2.2.1, by rw [hh]; exact h.2.2.2.2.2.2.1, ?_⟩
  intro p t ht
  obtain ⟨t1, ht1, k⟩ := h.2.2.2.2.2.2.2 p t ht
  exact ⟨t1, by simpa [task?, hh] using ht1, k⟩

/-- A chain that reaches the Task at position `j`: it returns, every Task
call it records is a call of a Task at position `j` or later, and if a Task
ends in fail, no Handler of a Task at a later position has been invoked,
onComplete has not been called, and the manager is stopped. -/
theorem chain_fail_stops : ∀ (d : Nat) (m : Manager) (j : Nat) (p : Ptr) (fuel : Nat),
    m.Indexed → m.items[j]? = some p → m.items.length ≤ j + d → d ≤ fuel →
    ∃ m1 evs, m.startTask fuel p = some m1 ∧ m1.trace = m.trace ++ evs ∧ m.Evolves m1 ∧
      (∀ q e, Event.task q e ∈ evs → ∃ k, j ≤ k ∧ m.items[k]? = some q) ∧
      (∀ (i : Nat) (q : Ptr), m.items[i]? = some q →
        Event.task q (.runEnd .fail) ∈ evs →
        (∀ r ∈ handlerRuns evs, ∃ k, k ≤ i ∧ m.items[k]? = some r) ∧
        Event.onComplete ∉ evs ∧ m1.isStarted = false)
  | 0, m, j, p, _, _, hj, hlen, _ => by
    have : j < m.items.length := by
      rcases Nat.lt_or_ge j m.items.length with h | h
      · exact h
      · rw [List.getElem?_eq_none h] at hj; cases hj
    omega
  | d + 1, m, j, p, fuel, hI, hj, hlen, hf => by
    obtain ⟨f, rfl⟩ : ∃ f, fuel = f + 1 := ⟨fuel - 1, by omega⟩
    obtain ⟨t, ht, hti, hto⟩ := hI j p hj
    rw [startTask_succ f m p t ht hto]
    have hE := ran_evolves m p t ht
    have hI2 : (m.ran p t).Indexed := hI.of_evolves hE
    have ht2 := task?_ran_self m p t ht
    have hk := Task.Start_kin t
    have hmem : ∀ q e, Event.task q e ∈ m.ranEvents p t → q = p ∧ e ∈ t.Start.2 := by
      intro q e h
      rcases mem_ranEvents m p t _ h with ⟨e1, h1, h2⟩ | ⟨o, st, h2⟩ | h2
      · injection h2 with h3 h4
        subst h3 h4
        exact ⟨rfl, h1⟩
      · cases h2
      · cases h2
    have hnc : Event.onComplete ∉ m.ranEvents p t := by
      intro h
      rcases mem_ranEvents m p t _ h with ⟨e1, _, h2⟩ | ⟨o, st, h2⟩ | h2 <;> cases h2
    have hruns : ∀ r ∈ handlerRuns (m.ranEvents p t), r = p := by
      rw [handlerRuns_ranEvents]
      intro r h
      exact List.eq_of_mem_replicate h
    have terminal : ∀ m1 : Manager, m1.trace = m.trace ++ m.ranEvents p t → m.Evolves m1 →
        m1.isStarted = false →
        ∃ m2 evs, some m1 = some m2 ∧ m2.trace = m.trace ++ evs ∧ m.Evolves m2 ∧
          (∀ q e, Event.task q e ∈ evs → ∃ k, j ≤ k ∧ m.items[k]? = some q) ∧
          (∀ (i : Nat) (q : Ptr), m.items[i]? = some q →
            Event.task q (.runEnd .fail) ∈ evs →
            (∀ r ∈ handlerRuns evs, ∃ k, k ≤ i ∧ m.items[k]? = some r) ∧
            Event.onComplete ∉ evs ∧ m2.isStarted = false) := by
      intro m1 h1 h2 h3
      refine ⟨m1, m.ranEvents p t, rfl, h1, h2, ?_, ?_⟩
      · intro q e h
        obtain ⟨rfl, _⟩ := hmem q e h
        exact ⟨j, Nat.le_refl j, hj⟩
      · intro i q hi h
        obtain ⟨rfl, _⟩ := hmem q _ h
        have hij : i = j := hI.position_unique hi hj
        subst hij
        refine ⟨?_, hnc, h3⟩
        intro r hr
        rw [hruns r hr]
        exact ⟨i, Nat.le_refl i, hi⟩
    by_cases he : t.Start.1.err.isSome = true
    · simp only [he, if_true]
      exact terminal _ (by simp [ran_trace]) (hE.frame _ rfl rfl rfl rfl rfl rfl rfl) rfl
    simp only [he, if_false]
    have he0 : t.Start.1.err = none := by
      rcases h : t.Start.1.err with _ | x
      · rfl
      · simp [h] at he
    by_cases hx : t.Start.1.executeNextTask = true
    swap
    · simp only [hx, Bool.not_false, if_true]
      exact terminal _ (by simp [ran_trace]) (hE.frame _ rfl rfl rfl rfl rfl rfl rfl) rfl
    simp only [hx, Bool.not_true, if_false]
    have hidx : t.Start.1.index = (j : Int) := hk.1.2.2.1.trans hti
    rcases hs : (m.ran p t).isStarted with _ | _
    · rw [advance_stopped _ p _ ht2 he0 hs]
      exact terminal _ (ran_trace m p t) hE hs
    by_cases hnext : j + 1 < m.items.length
    swap
    · rw [advance_complete _ p _ j hI2 ht2 he0 hs hidx (by rw [ran_items]; exact hnext)]
      refine ⟨_, m.ranEvents p t ++ (if (m.ran p t).onComplete then [Event.onComplete] else []),
        rfl, by simp [ran_trace], hE.frame _ rfl rfl rfl rfl rfl rfl rfl, ?_, ?_⟩
      · intro q e h
        rcases List.mem_append.1 h with h | h
        · obtain ⟨rfl, _⟩ := hmem q e h
          exact ⟨j, Nat.le_refl j, hj⟩
        · split at h <;> simp at h
      · intro i q _ h
        rcases List.mem_append.1 h with h | h
        · have h1 := Task.Start_runEnd_fail t (hmem q _ h).2
          rw [he0] at h1
          cases h1
        · split at h <;> simp at h
    obtain ⟨q, hq⟩ : ∃ q, m.items[j + 1]? = some q :=
      ⟨m.items[j + 1], List.getElem?_eq_getElem hnext⟩
    rw [advance_next _ p q _ j hI2 ht2 he0 hs hidx (by rw [ran_items]; exact hq)]
    simp only
    have hE3 := next_evolves (m.ran p t) p q
    have hE03 := evolves_trans hE hE3
    have hitems : (((m.ran p t).update q Task.reset).update p Task.reset).items = m.items := by
      simp [ran_items]
    obtain ⟨m1, evs, hst, htr, hEv, hP2, hP3⟩ := chain_fail_stops d
      ((((m.ran p t).update q Task.reset).update p Task.reset).SetCurrent (some q)) (j + 1) q f
      (hI.of_evolves hE03) (by simpa [SetCurrent, ran_items] using hq)
      (by simp only [SetCurrent, hitems]; omega) (by omega)
    simp only [SetCurrent, hitems] at hP2 hP3
    refine ⟨m1, m.ranEvents p t ++ evs, hst, ?_, evolves_trans hE03 hEv, ?_, ?_⟩
    · rw [htr]
      simp [SetCurrent, ran_trace, List.append_assoc]
    · intro r e h
      rcases List.mem_append.1 h with h | h
      · obtain ⟨rfl, _⟩ := hmem r e h
        exact ⟨j, Nat.le_refl j, hj⟩
      · obtain ⟨k, hk1, hk2⟩ := hP2 r e h
        exact ⟨k, by omega, hk2⟩
    · intro i r hi h
      rcases List.mem_append.1 h with h | h
      · have h1 := Task.Start_runEnd_fail t (hmem r _ h).2
        rw [he0] at h1
        cases h1
      · obtain ⟨k, hk1, hk2⟩ := hP2 r _ h
        have hik : i = k := hI.position_unique hi hk2
        subst hik
        obtain ⟨g1, g2, g3⟩ := hP3 i r hi h
        refine ⟨?_, ?_, g3⟩
        · intro r1 hr1
          rw [handlerRuns_append] at hr1
          rcases List.mem_append.1 hr1 with hr1 | hr1
          · rw [hruns r1 hr1]
            exact ⟨j, by omega, hj⟩
          · exact g1 r1 hr1
        · intro h1
          rcases List.mem_append.1 h1 with h1 | h1
          · exact hnc h1
          · exact g2 h1

end Manager

/-! ## The chain from any state -/

theorem countP_lt_of_imp {α : Type} (P Q : α → Bool) (himp : ∀ x, P x = true → Q x = true) :
    ∀ (l : List α) (a : α), a ∈ l → Q a = true → P a = false → l.countP P < l.countP Q
  | [], a, h, _, _ => by simp at h
  | x :: xs, a, h, hQ, hP => by
    have hle : xs.countP P ≤ xs.countP Q := List.countP_mono_left (fun y _ hy => himp y hy)
    rcases List.mem_cons.1 h with rfl | h1
    · simp only [List.countP_cons, hQ, hP, if_true]
      simp
      omega
    · have ih := countP_lt_of_imp P Q himp xs a h1 hQ hP
      simp only [List.countP_cons]
      rcases hx : P x with _ | _
      · simp only [Bool.false_eq_true, if_false]
        split <;> omega
      · simp only [himp x hx, if_true]
        omega

namespace Manager

theorem Evolves.indexOf_eq {m m1 : Manager} (h : m.Evolves m1) (q : Ptr) :
    m1.indexOf q = m.indexOf q := by
  unfold indexOf
  rcases h1 : m1.task? q with _ | u
  · rcases h0 : m.task? q with _ | t
    · rfl
    · obtain ⟨t1, ht1, _⟩ := h.2.2.2.2.2.2.2 q t h0
      rw [h1] at ht1; cases ht1
  · obtain ⟨t, ht, kin⟩ := h.back h1
    simp [ht, kin.2.2.1]

theorem Evolves.ahead_eq {m m1 : Manager} (h : m.Evolves m1) (target : Int) :
    m1.ahead target = m.ahead target := by
  unfold ahead
  rw [h.1]
  congr 1
  funext q
  rw [h.indexOf_eq q]

theorem ahead_le_length (m : Manager) (target : Int) : m.ahead target ≤ m.items.length :=
  List.countP_le_length _

/-- A Task of Items with index `c + 1` is counted from `c + 1` on, not from
`c + 2` on. -/
theorem ahead_lt (m : Manager) (q : Ptr) (c : Int) (hq : q ∈ m.items)
    (hi : m.indexOf q = some (c + 1)) : m.ahead (c + 1 + 1) < m.ahead (c + 1) := by
  unfold ahead
  refine countP_lt_of_imp _ _ ?_ m.items q hq ?_ ?_
  · intro x hx
    rcases h : m.indexOf x with _ | k
    · simp [h] at hx
    · simp only [h, decide_eq_true_eq] at hx ⊢
      omega
  · simp [hi]
  · simp [hi]

/-- The runNext of a Task that ended without error while the manager is
started, up to its last line. -/
theorem advance_ok (m : Manager) (p : Ptr) (t : Task) (ht : m.task? p = some t)
    (he : t.err = none) (hs : m.isStarted = true) :
    m.advance (some p) =
      if t.index + 1 > (m.items.length : Int) - 1 then
        ({ m with isStarted := false,
                  trace := m.trace ++ (if m.onComplete then [Event.onComplete] else []) }, none)
      else match m.items.find? (fun q => m.indexOf q = some (t.index + 1)) with
        | none => ({ m with isStarted := false }, none)
        | some q => (((m.update q Task.reset).update p Task.reset).SetCurrent (some q), some q) := by
  simp only [advance, Option.bind, ht, Option.any_some, Task.IsError, he, Option.isSome_none,
    Bool.false_eq_true, if_false, hs, Bool.not_true, indexOf, Option.map_some', move, if_true]
  by_cases hc : t.index + 1 > (m.items.length : Int) - 1
  · simp [hc]
  · simp only [hc, if_false]
    rcases hf : m.items.find? (fun q => decide ((m.task? q).map (fun t => t.index) =
        some (t.index + 1))) with _ | q <;> simp [hf]

/-- A chain from any state and any Task object: it returns within the
Tasks ahead; every Task call it records is a call of a Task whose index is
at least that of the first one; and if a Task ends in fail, no Handler of a
Task with a greater index has been invoked, onComplete has not been called,
and the manager is stopped. -/
theorem chain_fail_stops_any : ∀ (fuel : Nat) (m : Manager) (p : Ptr) (t : Task),
    m.task? p = some t → m.ahead (t.index + 1) < fuel →
    ∃ m1 evs, m.startTask fuel p = some m1 ∧ m1.trace = m.trace ++ evs ∧ m.Evolves m1 ∧
      (∀ q e, Event.task q e ∈ evs → ∃ k, m.indexOf q = some k ∧ t.index ≤ k) ∧
      (∀ (q : Ptr) (i : Int), m.indexOf q = some i →
        Event.task q (.runEnd .fail) ∈ evs →
        (∀ r ∈ handlerRuns evs, ∃ k, m.indexOf r = some k ∧ k ≤ i) ∧
        Event.onComplete ∉ evs ∧ m1.isStarted = false)
  | 0, _, _, _, _, hfuel => by omega
  | f + 1, m, p, t, ht, hfuel => by
    have hk := Task.Start_kin t
    have hip : m.indexOf p = some t.index := by simp [indexOf, ht]
    by_cases hto : t.onRunEnd = true
    swap
    · -- a Task the manager has not added runs alone
      have ho1 : t.Start.1.onRunEnd = false := by
        rw [hk.1.2.2.2.2.2.1]; simpa using hto
      have hE : m.Evolves (m.update p (fun _ => t.Start.1)) :=
        evolves_update m p _ (fun u hu => by
          rw [ht] at hu
          rw [← Option.some.inj hu]
          exact hk.1)
      simp only [startTask, ht, ho1, Bool.false_eq_true, if_false]
      rw [absorb_eq]
      have hmem : ∀ q e, Event.task q e ∈ m.expand p t.Start.2 → q = p ∧ e ∈ t.Start.2 := by
        intro q e h
        rcases mem_expandWith _ _ p _ _ h with ⟨e1, h1, h2⟩ | ⟨o, st, h2⟩ | h2
        · injection h2 with h3 h4
          subst h3 h4
          exact ⟨rfl, h1⟩
        · cases h2
        · cases h2
      refine ⟨_, m.expand p t.Start.2, rfl, by simp [expand],
        hE.frame _ rfl rfl rfl rfl rfl rfl rfl, ?_, ?_⟩
      · intro q e h
        obtain ⟨rfl, _⟩ := hmem q e h
        exact ⟨t.index, hip, le_refl _⟩
      · intro q i _ h
        obtain ⟨_, h1⟩ := hmem q _ h
        rcases Task.Start_events t _ h1 with h2 | ⟨c, h2⟩ | ⟨h2, _⟩ | ⟨_, h2⟩
        · simp [TEvent.isHook] at h2
        · cases h2
        · cases h2
        · exact absurd h2 hto
    rw [startTask_succ f m p t ht hto]
    have hE := ran_evolves m p t ht
    have ht2 := task?_ran_self m p t ht
    have hmem : ∀ q e, Event.task q e ∈ m.ranEvents p t → q = p ∧ e ∈ t.Start.2 := by
      intro q e h
      rcases mem_ranEvents m p t _ h with ⟨e1, h1, h2⟩ | ⟨o, st, h2⟩ | h2
      · injection h2 with h3 h4
        subst h3 h4
        exact ⟨rfl, h1⟩
      · cases h2
      · cases h2
    have hnc : Event.onComplete ∉ m.ranEvents p t := by
      intro h
      rcases mem_ranEvents m p t _ h with ⟨e1, _, h2⟩ | ⟨o, st, h2⟩ | h2 <;> cases h2
    have hruns : ∀ r ∈ handlerRuns (m.ranEvents p t), r = p := by
      rw [handlerRuns_ranEvents]
      intro r h
      exact List.eq_of_mem_replicate h
    have terminal : ∀ m1 : Manager, m1.trace = m.trace ++ m.ranEvents p t → m.Evolves m1 →
        m1.isStarted = false →
        ∃ m2 evs, some m1 = some m2 ∧ m2.trace = m.trace ++ evs ∧ m.Evolves m2 ∧
          (∀ q e, Event.task q e ∈ evs → ∃ k, m.indexOf q = some k ∧ t.index ≤ k) ∧
          (∀ (q : Ptr) (i : Int), m.indexOf q = some i →
            Event.task q (.runEnd .fail) ∈ evs →
            (∀ r ∈ handlerRuns evs, ∃ k, m.indexOf r = some k ∧ k ≤ i) ∧
            Event.onComplete ∉ evs ∧ m2.isStarted = false) := by
      intro m1 h1 h2 h3
      refine ⟨m1, m.ranEvents p t, rfl, h1, h2, ?_, ?_⟩
      · intro q e h
        obtain ⟨rfl, _⟩ := hmem q e h
        exact ⟨t.index, hip, le_refl _⟩
      · intro q i hi h
        obtain ⟨rfl, _⟩ := hmem q _ h
        refine ⟨?_, hnc, h3⟩
        intro r hr
        rw [hruns r hr]
        exact ⟨i, hi, le_refl _⟩
    by_cases he : t.Start.1.err.isSome = true
    · simp only [he, if_true]
      exact terminal _ (by simp [ran_trace]) (hE.frame _ rfl rfl rfl rfl rfl rfl rfl) rfl
    simp only [he, if_false]
    have he0 : t.Start.1.err = none := by
      rcases h : t.Start.1.err with _ | x
      · rfl
      · simp [h] at he
    by_cases hx : t.Start.1.executeNextTask = true
    swap
    · simp only [hx, Bool.not_false, if_true]
      exact terminal _ (by simp [ran_trace]) (hE.frame _ rfl rfl rfl rfl rfl rfl rfl) rfl
    simp only [hx, Bool.not_true, if_false]
    have hidx : t.Start.1.index = t.index := hk.1.2.2.1
    rcases hs : (m.ran p t).isStarted with _ | _
    · rw [advance_stopped _ p _ ht2 he0 hs]
      exact terminal _ (ran_trace m p t) hE hs
    rw [advance_ok _ p _ ht2 he0 hs, hidx]
    by_cases hc : t.index + 1 > ((m.ran p t).items.length : Int) - 1
    · -- the chain is complete
      simp only [hc, if_true]
      refine ⟨_, m.ranEvents p t ++ (if (m.ran p t).onComplete then [Event.onComplete] else []),
        rfl, by simp [ran_trace], hE.frame _ rfl rfl rfl rfl rfl rfl rfl, ?_, ?_⟩
      · intro q e h
        rcases List.mem_append.1 h with h | h
        · obtain ⟨rfl, _⟩ := hmem q e h
          exact ⟨t.index, hip, le_refl _⟩
        · split at h <;> simp at h
      · intro q i _ h
        rcases List.mem_append.1 h with h | h
        · have h1 := Task.Start_runEnd_fail t (hmem q _ h).2
          rw [he0] at h1
          cases h1
        · split at h <;> simp at h
    simp only [hc, if_false]
    rcases hfind : (m.ran p t).items.find?
        (fun q => decide ((m.ran p t).indexOf q = some (t.index + 1))) with _ | q
    · exact terminal _ (by simp [ran_trace]) (hE.frame _ rfl rfl rfl rfl rfl rfl rfl) rfl
    simp only
    have hqi2 : (m.ran p t).indexOf q = some (t.index + 1) := by
      simpa using List.find?_some hfind
    have hqi : m.indexOf q = some (t.index + 1) := by rw [← hE.indexOf_eq q]; exact hqi2
    have hqmem : q ∈ m.items := by
      rw [← ran_items m p t]
      exact List.mem_of_find?_eq_some hfind
    have hE3 := next_evolves (m.ran p t) p q
    have hE03 : m.Evolves ((((m.ran p t).update q Task.reset).update p Task.reset).SetCurrent
        (some q)) := (evolves_trans hE hE3).frame _ rfl rfl rfl rfl rfl rfl rfl
    obtain ⟨tq, htq⟩ : ∃ tq, ((((m.ran p t).update q Task.reset).update p Task.reset).SetCurrent
        (some q)).task? q = some tq ∧ tq.index = t.index + 1 := by
      have h1 := hE03.indexOf_eq q
      rw [hqi] at h1
      unfold indexOf at h1
      rcases h2 : ((((m.ran p t).update q Task.reset).update p Task.reset).SetCurrent
        (some q)).task? q with _ | tq
      · rw [h2] at h1; cases h1
      · rw [h2] at h1
        exact ⟨tq, rfl, Option.some.inj h1⟩
    obtain ⟨m1, evs, hst, htr, hEv, hP2, hP3⟩ := chain_fail_stops_any f _ q tq htq.1
      (by
        rw [hE03.ahead_eq, htq.2]
        have := ahead_lt m q t.index hqmem hqi
        omega)
    simp only [hE03.indexOf_eq, htq.2] at hP2 hP3
    refine ⟨m1, m.ranEvents p t ++ evs, hst, ?_, evolves_trans hE03 hEv, ?_, ?_⟩
    · rw [htr]
      simp [SetCurrent, ran_trace, List.append_assoc]
    · intro r e h
      rcases List.mem_append.1 h with h | h
      · obtain ⟨rfl, _⟩ := hmem r e h
        exact ⟨t.index, hip, le_refl _⟩
      · obtain ⟨k, hk1, hk2⟩ := hP2 r e h
        exact ⟨k, hk1, by omega⟩
    · intro r i hi h
      rcases List.mem_append.1 h with h | h
      · have h1 := Task.Start_runEnd_fail t (hmem r _ h).2
        rw [he0] at h1
        cases h1
      · obtain ⟨k, hk1, hk2⟩ := hP2 r _ h
        have hik : i = k := by rw [hi] at hk1; exact Option.some.inj hk1
        subst hik
        obtain ⟨g1, g2, g3⟩ := hP3 r i hi h
        refine ⟨?_, ?_, g3⟩
        · intro r1 hr1
          rw [handlerRuns_append] at hr1
          rcases List.mem_append.1 hr1 with hr1 | hr1
          · rw [hruns r1 hr1]
            exact ⟨t.index, hip, by omega⟩
          · exact g1 r1 hr1
        · intro h1
          rcases List.mem_append.1 h1 with h1 | h1
          · exact hnc h1
          · exact g2 h1

end Manager

/-! ## The manager: sort -/

namespace Manager

@[simp] theorem assignIndex_items : ∀ (l : List Ptr) (k : Nat) (m : Manager),
    (m.assignIndex l k).items = m.items
  | [], _, _ => rfl
  | a :: as, k, m => by simp [assignIndex, assignIndex_items as]

@[simp] theorem assignIndex_trace : ∀ (l : List Ptr) (k : Nat) (m : Manager),
    (m.assignIndex l k).trace = m.trace
  | [], _, _ => rfl
  | a :: as, k, m => by simp [assignIndex, assignIndex_trace as]

@[simp] theorem assignIndex_current : ∀ (l : List Ptr) (k : Nat) (m : Manager),
    (m.assignIndex l k).current = m.current
  | [], _, _ => rfl
  | a :: as, k, m => by simp [assignIndex, assignIndex_current as]

@[simp] theorem assignIndex_isStarted : ∀ (l : List Ptr) (k : Nat) (m : Manager),
    (m.assignIndex l k).isStarted = m.isStarted
  | [], _, _ => rfl
  | a :: as, k, m => by simp [assignIndex, assignIndex_isStarted as]

@[simp] theorem assignIndex_observers : ∀ (l : List Ptr) (k : Nat) (m : Manager),
    (m.assignIndex l k).onTaskStatusChange = m.onTaskStatusChange
  | [], _, _ => rfl
  | a :: as, k, m => by simp [assignIndex, assignIndex_observers as]

@[simp] theorem assignIndex_onStart : ∀ (l : List Ptr) (k : Nat) (m : Manager),
    (m.assignIndex l k).onStart = m.onStart
  | [], _, _ => rfl
  | a :: as, k, m => by simp [assignIndex, assignIndex_onStart as]

@[simp] theorem assignIndex_onStop : ∀ (l : List Ptr) (k : Nat) (m : Manager),
    (m.assignIndex l k).onStop = m.onStop
  | [], _, _ => rfl
  | a :: as, k, m => by simp [assignIndex, assignIndex_onStop as]

@[simp] theorem assignIndex_onComplete : ∀ (l : List Ptr) (k : Nat) (m : Manager),
    (m.assignIndex l k).onComplete = m.onComplete
  | [], _, _ => rfl
  | a :: as, k, m => by simp [assignIndex, assignIndex_onComplete as]

theorem assignIndex_heap_length : ∀ (l : List Ptr) (k : Nat) (m : Manager),
    (m.assignIndex l k).heap.length = m.heap.length
  | [], _, _ => rfl
  | a :: as, k, m => by
    simp [assignIndex, assignIndex_heap_length as, update_heap_length]

/-- The loop of sort changes nothing but the index of the Tasks of the
slice, which becomes the position (when the slice has no Task twice). -/
theorem assignIndex_task : ∀ (l : List Ptr) (k : Nat) (m : Manager), l.Nodup →
    ∀ p t, m.task? p = some t →
      ∃ i : Int, (m.assignIndex l k).task? p = some { t with index := i } ∧
        (p ∉ l → i = t.index) ∧ (∀ j : Nat, l[j]? = some p → i = ((k + j : Nat) : Int))
  | [], k, m, _, p, t, ht => ⟨t.index, by simpa [assignIndex] using ht, fun _ => rfl, by simp⟩
  | a :: as, k, m, hnd, p, t, ht => by
    obtain ⟨ha, has⟩ := List.nodup_cons.1 hnd
    simp only [assignIndex]
    by_cases hp : p = a
    · subst hp
      have h1 : (m.update p (fun t => { t with index := (k : Int) })).task? p =
          some { t with index := (k : Int) } := by
        rw [task?_update]; simp [ht]
      obtain ⟨i, hi1, hi2, _⟩ := assignIndex_task as (k + 1) _ has p _ h1
      refine ⟨i, hi1, ?_, ?_⟩
      · intro h; simp at h
      · intro j hj
        have hi := hi2 ha
        simp only at hi
        cases j with
        | zero => simp [hi]
        | succ j =>
          simp only [List.getElem?_cons_succ] at hj
          exact absurd (List.getElem?_mem hj) ha
    · have h1 : (m.update a (fun t => { t with index := (k : Int) })).task? p = some t := by
        rw [task?_update]; simp [hp, ht]
      obtain ⟨i, hi1, hi2, hi3⟩ := assignIndex_task as (k + 1) _ has p _ h1
      refine ⟨i, hi1, ?_, ?_⟩
      · intro h
        exact hi2 (fun h2 => h (List.mem_cons_of_mem _ h2))
      · intro j hj
        cases j with
        | zero =>
          simp only [List.getElem?_cons_zero, Option.some.injEq] at hj
          exact absurd hj.symm hp
        | succ j =>
          simp only [List.getElem?_cons_succ] at hj
          rw [hi3 j hj]
          push_cast
          omega

theorem sort_sorted (srt : Sorter) (m : Manager) (h : m.isSorted = true) : m.sort srt = m := by
  simp [sort, h]

theorem sort_unsorted (srt : Sorter) (m : Manager) (h : m.isSorted = false) :
    m.sort srt =
      { ({ m with items := srt m.orderKey m.items } : Manager).assignIndex
          (srt m.orderKey m.items) 0 with isSorted := true } := by
  simp [sort, h]

/-- What sort establishes and what it keeps. -/
theorem sort_spec (srt : Sorter) (hsrt : srt.Valid) (m : Manager) (hm : m.Managed)
    (hidx : m.isSorted = true → m.Indexed) :
    (m.sort srt).Indexed ∧ (m.sort srt).trace = m.trace ∧
    (m.sort srt).current = m.current ∧ (m.sort srt).onStart = m.onStart ∧
    (m.sort srt).onComplete = m.onComplete ∧
    (m.sort srt).items.Perm m.items ∧
    (m.isSorted = false → (m.sort srt).items = srt m.orderKey m.items) ∧
    (m.sort srt).heap.length = m.heap.length ∧
    (∀ p t, m.task? p = some t → ∃ i : Int, (m.sort srt).task? p = some { t with index := i }) := by
  by_cases hs : m.isSorted = true
  · rw [sort_sorted srt m hs]
    exact ⟨hidx hs, rfl, rfl, rfl, rfl, List.Perm.refl _, fun h => (by rw [hs] at h; cases h),
      rfl, fun p t ht => ⟨t.index, ht⟩⟩
  · have hs0 : m.isSorted = false := by simpa using hs
    rw [sort_unsorted srt m hs0]
    obtain ⟨hperm, _⟩ := hsrt m.orderKey m.items
    have hnd : (srt m.orderKey m.items).Nodup := hperm.nodup_iff.2 hm.1
    have key := assignIndex_task (srt m.orderKey m.items) 0
      { m with items := srt m.orderKey m.items } hnd
    refine ⟨?_, by simp, by simp, by simp, by simp, by simpa using hperm, fun _ => by simp,
      by simp [assignIndex_heap_length], ?_⟩
    · intro k p hk
      simp only [assignIndex_items] at hk
      have hp : p ∈ m.items := hperm.mem_iff.1 (List.getElem?_mem hk)
      have hman := hm.2 p hp
      rcases ht : m.task? p with _ | t
      · simp [ht] at hman
      · simp only [ht, Option.map_some', Option.some.injEq] at hman
        obtain ⟨i, hi1, _, hi3⟩ := key p t ht
        refine ⟨_, hi1, ?_, hman⟩
        simp only
        rw [hi3 k hk]
        simp
    · intro p t ht
      obtain ⟨i, hi1, _, _⟩ := key p t ht
      exact ⟨i, hi1⟩

end Manager

/-! ## Start of the manager: first Task, sort instance -/

namespace Manager

theorem Indexed.congr {m m2 : Manager} (h : m.Indexed) (hh : m2.heap = m.heap)
    (hi : m2.items = m.items) : m2.Indexed := by
  intro k p hk
  rw [hi] at hk
  obtain ⟨t, ht, h1, h2⟩ := h k p hk
  exact ⟨t, by simpa [task?, hh] using ht, h1, h2⟩

/-- Under the invariant `move` forward from no Task yields the Task at
position 0. -/
theorem move_first {m : Manager} (h : m.Indexed) (q : Ptr) (hq : m.items[0]? = some q) :
    m.move true (-1) = (some q, false) := by
  unfold move
  have hlen : 0 < m.items.length := by
    rcases Nat.lt_or_ge 0 m.items.length with h1 | h1
    · exact h1
    · rw [List.getElem?_eq_none h1] at hq; cases hq
  have h1 : ¬ ((-1 : Int) + 1 > (m.items.length : Int) - 1) := by omega
  simp only [if_true, h1, if_false]
  congr 1
  refine find?_first _ m.items 0 q hq ?_ ?_
  · obtain ⟨t, ht, hi, _⟩ := h 0 q hq
    simp [indexOf, ht, hi]
  · intro i b hi _
    omega

theorem advance_first (m : Manager) (q : Ptr) (hI : m.Indexed) (hs : m.isStarted = true)
    (hq : m.items[0]? = some q) :
    m.advance none = ((m.update q Task.reset).SetCurrent (some q), some q) := by
  simp [advance, hs, move_first hI q hq]

end Manager

theorem Examples.insertionSorter_valid : Examples.insertionSorter.Valid := by
  intro key l
  haveI : IsTotal Ptr (fun a b => key a ≤ key b) := ⟨fun a b => le_total (key a) (key b)⟩
  haveI : IsTrans Ptr (fun a b => key a ≤ key b) := ⟨fun a b c h1 h2 => le_trans h1 h2⟩
  exact ⟨List.perm_insertionSort _ l, List.sorted_insertionSort _ l⟩

/-! ## A chain whose Handlers all succeed -/

namespace Manager

/-- The manager reached from New by adding new Tasks, in closed form. -/
theorem addAll_eq (ts : List Task) :
    New.addAll ts = { heap := ts.map Task.added, items := List.range ts.length } := by
  induction ts using List.reverseRecOn with
  | nil => rfl
  | append_singleton ts t ih =>
    have hstep : New.addAll (ts ++ [t]) = (New.addAll ts).AddNew t := by
      simp [addAll, List.foldl_append]
    rw [hstep, ih]
    have hget : (List.map Task.added ts ++ [t])[(List.map Task.added ts).length]? = some t := by
      simp
    simp only [AddNew, alloc, Add, update, hget]
    simp [List.range_succ]

theorem task?_addAll (ts : List Task) (p : Ptr) :
    (New.addAll ts).task? p = (ts[p]?).map Task.added := by
  rw [addAll_eq]
  simp [task?]

theorem managed_addAll (ts : List Task) : (New.addAll ts).Managed := by
  refine ⟨by rw [addAll_eq]; exact List.nodup_range _, ?_⟩
  intro p hp
  rw [task?_addAll]
  rw [addAll_eq] at hp
  have hlt : p < ts.length := List.mem_range.1 hp
  simp [List.getElem?_eq_getElem hlt, Task.added]

end Manager

theorem Task.Reliable.of_kin {a b : Task} (h : Task.Kin a b) (hb : b.Reliable) : a.Reliable :=
  ⟨fun n => by rw [h.1]; exact hb.1 n, h.retries_nonneg hb.2⟩

/-- The run of a reliable Task that is not in status success: one Handler
invocation, no Stop(), no error. -/
theorem Task.Reliable.run {t : Task} (h : t.Reliable) (hs : t.status ≠ .success) :
    t.Start.1.err = none ∧ handlerCount t.Start.2 = 1 ∧
    t.Start.2.contains TEvent.callStop = false := by
  obtain ⟨h1, _, h3⟩ := Task.Start_first_ok t hs h.2 (by rw [h.1])
  refine ⟨h1, h3, ?_⟩
  rcases hc : t.Start.2.contains TEvent.callStop with _ | _
  · rfl
  · have hmem : TEvent.callStop ∈ t.Start.2 := by simpa using hc
    rcases Task.Start_events t _ hmem with h4 | ⟨c, h4⟩ | ⟨_, c, h4⟩ | ⟨h4, _⟩
    · simp [TEvent.isHook] at h4
    · cases h4
    · rw [h.1] at h4; cases h4
    · cases h4

namespace Manager

/-- A chain that reaches the Task at position `j` while the manager is
started and every Task is reliable: the Handlers of the Tasks at positions
`j`, `j + 1`, ... are invoked once each, in that order, and the manager is
stopped at the end. -/
theorem chain_all_succeed : ∀ (d : Nat) (m : Manager) (j : Nat) (p : Ptr) (fuel : Nat),
    m.Indexed → m.items[j]? = some p → m.items.length ≤ j + d → d ≤ fuel →
    m.isStarted = true →
    (∀ q t, m.task? q = some t → t.Reliable) →
    (∀ t, m.task? p = some t → t.status ≠ .success ∧ t.executeNextTask = true) →
    ∃ m1 evs, m.startTask fuel p = some m1 ∧ m1.trace = m.trace ++ evs ∧ m.Evolves m1 ∧
      handlerRuns evs = m.items.drop j ∧ m1.isStarted = false
  | 0, m, j, p, _, _, hj, hlen, _, _, _, _ => by
    have : j < m.items.length := by
      rcases Nat.lt_or_ge j m.items.length with h | h
      · exact h
      · rw [List.getElem?_eq_none h] at hj; cases hj
    omega
  | d + 1, m, j, p, fuel, hI, hj, hlen, hf, hst, hrel, hp => by
    obtain ⟨f, rfl⟩ : ∃ f, fuel = f + 1 := ⟨fuel - 1, by omega⟩
    obtain ⟨t, ht, hti, hto⟩ := hI j p hj
    obtain ⟨hps, hpx⟩ := hp t ht
    obtain ⟨he0, hcount, hnostop⟩ := (hrel p t ht).run hps
    have hjlt : j < m.items.length := by
      rcases Nat.lt_or_ge j m.items.length with h | h
      · exact h
      · rw [List.getElem?_eq_none h] at hj; cases hj
    have hpj : m.items[j] = p := by
      rw [List.getElem?_eq_getElem hjlt] at hj
      exact Option.some.inj hj
    rw [startTask_succ f m p t ht hto]
    have hE := ran_evolves m p t ht
    have hI2 : (m.ran p t).Indexed := hI.of_evolves hE
    have ht2 := task?_ran_self m p t ht
    have hk := Task.Start_kin t
    have hx : t.Start.1.executeNextTask = true := hk.2.trans hpx
    have hs2 : (m.ran p t).isStarted = true := by rw [ran_isStarted, hst, hnostop]; rfl
    have hidx : t.Start.1.index = (j : Int) := hk.1.2.2.1.trans hti
    have hruns : handlerRuns (m.ranEvents p t) = [p] := by
      rw [handlerRuns_ranEvents, hcount]; rfl
    simp only [he0, Option.isSome_none, Bool.false_eq_true, if_false, hx, Bool.not_true]
    by_cases hnext : j + 1 < m.items.length
    swap
    · rw [advance_complete _ p _ j hI2 ht2 he0 hs2 hidx (by rw [ran_items]; exact hnext)]
      refine ⟨_, m.ranEvents p t ++ (if (m.ran p t).onComplete then [Event.onComplete] else []),
        rfl, by simp [ran_trace], hE.frame _ rfl rfl rfl rfl rfl rfl rfl, ?_, rfl⟩
      rw [handlerRuns_append, hruns]
      have h1 : handlerRuns (if (m.ran p t).onComplete then [Event.onComplete] else []) = [] := by
        split <;> rfl
      rw [h1, List.append_nil, List.drop_eq_getElem_cons hjlt, hpj,
        List.drop_eq_nil_of_le (by omega)]
    obtain ⟨q, hq⟩ : ∃ q, m.items[j + 1]? = some q :=
      ⟨m.items[j + 1], List.getElem?_eq_getElem hnext⟩
    rw [advance_next _ p q _ j hI2 ht2 he0 hs2 hidx (by rw [ran_items]; exact hq)]
    simp only
    have hE3 := next_evolves (m.ran p t) p q
    have hE03 := evolves_trans hE hE3
    have hitems : (((m.ran p t).update q Task.reset).update p Task.reset).items = m.items := by
      simp [ran_items]
    obtain ⟨m1, evs, hst1, htr, hEv, hruns3, hstop⟩ := chain_all_succeed d
      ((((m.ran p t).update q Task.reset).update p Task.reset).SetCurrent (some q)) (j + 1) q f
      (hI.of_evolves hE03) (by simpa [SetCurrent, ran_items] using hq)
      (by simp only [SetCurrent, hitems]; omega) (by omega)
      (by simpa [SetCurrent] using hs2)
      (by
        intro r u hu
        obtain ⟨u0, hu0, kin⟩ := (Evolves.frame hE03 _ rfl rfl rfl rfl rfl rfl rfl).back hu
        exact Task.Reliable.of_kin kin (hrel r u0 hu0))
      (fun u hu => task?_next_target (m.ran p t) p q u hu)
    simp only [SetCurrent, hitems] at hruns3
    refine ⟨m1, m.ranEvents p t ++ evs, hst1, ?_, evolves_trans hE03 hEv, ?_, hstop⟩
    · rw [htr]
      simp [SetCurrent, ran_trace, List.append_assoc]
    · rw [handlerRuns_append, hruns, hruns3, List.drop_eq_getElem_cons hjlt, hpj]
      rfl

end Manager

namespace Manager

theorem orderKey_addAll (ts : List Task) : (New.addAll ts).orderKey = orderAt ts := by
  funext p
  unfold orderKey orderAt
  rw [task?_addAll]
  rcases h : ts[p]? with _ | t <;> simp [Task.added]

end Manager

/-- Tasks with Retries not negative whose Handlers all succeed, added to a
fresh manager: Start returns, the Handlers invoked are those of the Tasks of
Items(), once each and in the order of Items(), which holds every added Task
once, in non-decreasing Order. -/
theorem Start_runs_every_task_in_order (srt : Sorter) (hsrt : srt.Valid) (ts : List Task)
    (hne : ts ≠ []) (hrel : ∀ t ∈ ts, t.Reliable) :
    ∃ m1, (New.addAll ts).Start srt = some m1 ∧ handlerRuns m1.trace = m1.Items ∧
      m1.Items.Perm (List.range ts.length) ∧
      m1.Items.Pairwise (fun a b => orderAt ts a ≤ orderAt ts b) ∧ m1.IsStarted = false := by
  have hm := Manager.managed_addAll ts
  have hunsorted : (New.addAll ts).isSorted = false := by rw [Manager.addAll_eq]
  obtain ⟨sI, str, scur, son, _, sperm, sitems, slen, stask⟩ :=
    Manager.sort_spec srt hsrt (New.addAll ts) hm (fun h => by rw [hunsorted] at h; cases h)
  have sitems' := sitems hunsorted
  rw [Manager.orderKey_addAll] at sitems'
  have hitems0 : (New.addAll ts).items = List.range ts.length := by rw [Manager.addAll_eq]
  have htr0 : (New.addAll ts).trace = [] := by rw [Manager.addAll_eq]
  have hon0 : (New.addAll ts).onStart = false := by rw [Manager.addAll_eq]
  have hcur0 : (New.addAll ts).current = none := by rw [Manager.addAll_eq]
  rw [hitems0] at sperm
  have hlen : (Manager.sort srt (New.addAll ts)).items.length = ts.length := by
    rw [sperm.length_eq, List.length_range]
  have hpos : 0 < ts.length := List.length_pos.2 hne
  -- every Task object of the sorted manager is reliable
  have hrelS : ∀ q u, (Manager.sort srt (New.addAll ts)).task? q = some u → u.Reliable := by
    intro q u hu
    have hq : q < ts.length := by
      have h1 : q < (Manager.sort srt (New.addAll ts)).heap.length := by
        rcases Nat.lt_or_ge q (Manager.sort srt (New.addAll ts)).heap.length with h | h
        · exact h
        · unfold Manager.task? at hu
          rw [List.getElem?_eq_none h] at hu; cases hu
      rw [slen, Manager.addAll_eq] at h1
      simpa using h1
    have h0 : (New.addAll ts).task? q = some (Task.added ts[q]) := by
      rw [Manager.task?_addAll, List.getElem?_eq_getElem hq]; rfl
    obtain ⟨i, hi⟩ := stask q _ h0
    rw [hu] at hi
    rw [Option.some.inj hi]
    exact hrel ts[q] (List.getElem_mem hq)
  unfold Manager.Start
  simp only
  have hne0 : ¬ (Manager.sort srt (New.addAll ts)).items.length = 0 := by omega
  simp only [hne0, if_false]
  have hcs : (Manager.sort srt (New.addAll ts)).markStarted.current = none := by
    simp [Manager.markStarted, scur, hcur0]
  rw [hcs]
  simp only
  have hI2 : (Manager.sort srt (New.addAll ts)).markStarted.Indexed := sI.congr rfl rfl
  obtain ⟨q, hq⟩ : ∃ q, (Manager.sort srt (New.addAll ts)).items[0]? = some q :=
    exists_getElem?_of_lt (by omega)
  unfold Manager.runNext
  rw [Manager.advance_first _ q hI2 rfl hq]
  simp only
  have hE := Manager.evolves_update (Manager.sort srt (New.addAll ts)).markStarted q Task.reset
    (fun t _ => Task.reset_kin t)
  have hE' : (Manager.sort srt (New.addAll ts)).Evolves
      (((Manager.sort srt (New.addAll ts)).markStarted.update q Task.reset).SetCurrent
        (some q)) :=
    (Manager.evolves_trans (Manager.Evolves.frame (Manager.evolves_refl _)
      (Manager.sort srt (New.addAll ts)).markStarted rfl rfl rfl rfl rfl rfl rfl) hE).frame _
      rfl rfl rfl rfl rfl rfl rfl
  obtain ⟨m1, evs, hst, htr, hEv, hruns, hstop⟩ := Manager.chain_all_succeed
    (Manager.sort srt (New.addAll ts)).items.length _ 0 q
    ((Manager.sort srt (New.addAll ts)).items.length + 1) (sI.of_evolves hE')
    (by simpa [Manager.SetCurrent, Manager.markStarted] using hq)
    (by simp [Manager.SetCurrent, Manager.markStarted]) (by omega)
    (by simp [Manager.SetCurrent, Manager.markStarted])
    (by
      intro r u hu
      obtain ⟨u0, hu0, kin⟩ := hE'.back hu
      exact Task.Reliable.of_kin kin (hrelS r u0 hu0))
    (by
      intro u hu
      have h3 : ((Manager.sort srt (New.addAll ts)).markStarted.update q Task.reset).task? q =
          some u := hu
      rw [Manager.task?_update] at h3
      simp only [if_true] at h3
      obtain ⟨w, _, rfl⟩ := Option.map_eq_some'.1 h3
      simp [Task.reset])
  have hit : m1.items = (Manager.sort srt (New.addAll ts)).items := by
    rw [hEv.1]; simp [Manager.SetCurrent, Manager.markStarted]
  refine ⟨m1, hst, ?_, ?_, ?_, hstop⟩
  · rw [htr]
    simp only [Manager.SetCurrent, Manager.markStarted, Manager.update_trace, str, htr0, son,
      hon0, Bool.false_eq_true, if_false, List.append_nil, List.nil_append]
    rw [hruns]
    simp [Manager.Items, hit, Manager.SetCurrent, Manager.markStarted]
  · simp only [Manager.Items, hit]
    exact sperm
  · simp only [Manager.Items, hit, sitems']
    exact (hsrt (orderAt ts) (New.addAll ts).items).2

/-! ## Once -/

namespace Manager

/-- The call task.Start() on a Task whose executeNextTask is false: it
returns without starting another Task. Only that Task makes calls and
changes; Items and the current Task stay. -/
theorem startTask_isolated (fuel : Nat) (m : Manager) (p : Ptr) (t : Task)
    (ht : m.task? p = some t) (hx : t.executeNextTask = false) :
    ∃ m1 evs, m.startTask (fuel + 1) p = some m1 ∧ m1.trace = m.trace ++ evs ∧
      m1.current = m.current ∧ m1.items = m.items ∧
      (∀ r ∈ handlerRuns evs, r = p) ∧ Event.onComplete ∉ evs ∧
      (∀ q, q ≠ p → m1.task? q = m.task? q) ∧ m1.task? p = some t.Start.1 ∧
      (t.onRunEnd = true → m1.isStarted = false) := by
  have hk := Task.Start_kin t
  have hx1 : t.Start.1.executeNextTask = false := hk.2.trans hx
  have hother : ∀ q, q ≠ p → (m.update p (fun _ => t.Start.1)).task? q = m.task? q := by
    intro q hq
    rw [task?_update]; simp [hq]
  have hself : (m.update p (fun _ => t.Start.1)).task? p = some t.Start.1 := by
    rw [task?_update]; simp [ht]
  have hruns : ∀ r ∈ handlerRuns (m.ranEvents p t), r = p := by
    rw [handlerRuns_ranEvents]
    intro r h
    exact List.eq_of_mem_replicate h
  have hnc : Event.onComplete ∉ m.ranEvents p t := by
    intro h
    rcases mem_ranEvents m p t _ h with ⟨e1, _, h2⟩ | ⟨o, st, h2⟩ | h2 <;> cases h2
  by_cases ho : t.onRunEnd = true
  · rw [startTask_succ fuel m p t ht ho]
    have hres : (if t.Start.1.err.isSome = true then some { m.ran p t with isStarted := false }
        else if (!t.Start.1.executeNextTask) = true then
          some { m.ran p t with isStarted := false }
        else match (m.ran p t).advance (some p) with
          | (m3, none) => some m3
          | (m3, some q) => startTask fuel m3 q) =
        some { m.ran p t with isStarted := false } := by
      by_cases he : t.Start.1.err.isSome = true
      · simp [he]
      · simp [he, hx1]
    rw [hres]
    refine ⟨_, m.ranEvents p t, rfl, by simp [ran_trace], by simp [ran_current],
      by simp [ran_items], hruns, hnc, ?_, ?_, fun _ => rfl⟩
    · intro q hq
      have h1 : (m.ran p t).task? q = m.task? q := by rw [task?_ran]; exact hother q hq
      exact h1
    · exact task?_ran_self m p t ht
  · have ho1 : t.Start.1.onRunEnd = false := by
      rw [hk.1.2.2.2.2.2.1]; simpa using ho
    simp only [startTask, ht, ho1, Bool.false_eq_true, if_false]
    rw [absorb_eq]
    refine ⟨_, m.expand p t.Start.2, rfl, by simp [expand], by simp, by simp, ?_, ?_, ?_, ?_, ?_⟩
    · intro r hr
      unfold expand at hr
      rw [handlerRuns_expandWith] at hr
      exact List.eq_of_mem_replicate hr
    · intro h
      rcases mem_expandWith _ _ p _ _ h with ⟨e1, _, h2⟩ | ⟨o, st, h2⟩ | h2 <;> cases h2
    · intro q hq
      exact hother q hq
    · exact hself
    · intro h; exact absurd h ho

end Manager

/-! ## Task.Start: the retry loop -/

namespace Task

/-- Start on a Task with non-negative Retries that is not in status success:
Retries ends at least 1 and Attempts lies between 1 and max(Retries, 1). -/
theorem Start_attempts_bounds (t : Task) (hs : t.status ≠ .success) (hR : 0 ≤ t.Retries) :
    1 ≤ t.Start.1.Retries ∧ 1 ≤ t.Start.1.Attempts ∧
    t.Start.1.Attempts ≤ max t.Retries 1 := by
  rw [Start_eq t hs]
  obtain ⟨_, _, _, pa, _, pR, _⟩ := prologue_spec t
  have hl := loop_attempts_le t.prologue.1.Retries.toNat 0 t.prologue.1
  have hsame := loop_same t.prologue.1.Retries.toNat 0 t.prologue.1
  have hes := epilogue_same (loop t.prologue.1.Retries.toNat 0 t.prologue.1).1
  obtain ⟨_, ea, _, _, _⟩ := epilogue_spec (loop t.prologue.1.Retries.toNat 0 t.prologue.1).1
  have hR1 : 1 ≤ t.prologue.1.Retries := by
    rw [pR]; split <;> omega
  have hmax : t.prologue.1.Retries = max t.Retries 1 := by
    rw [pR]; split <;> omega
  simp only [Attempts]
  refine ⟨?_, ?_, ?_⟩
  · rw [hes.2.2.2.2.2.2.2.1, hsame.2.2.2.2.2.2.2.1]; exact hR1
  · rw [ea]
    have := hl.2 (by omega)
    omega
  · rw [ea, ← hmax]
    have := hl.1
    omega

/-- Start on a Task with negative Retries that is not in status success:
Retries stays negative, no pass of the loop runs, the Handler is not invoked
and Attempts is 0; the Task ends in status success when it had no error. -/
theorem Start_negative_retries (t : Task) (hs : t.status ≠ .success) (hR : t.Retries < 0) :
    t.Start.1.Retries = t.Retries ∧ t.Start.1.Attempts = 0 ∧ handlerCount t.Start.2 = 0 ∧
    (t.err = none → t.Start.1.Status = .success) := by
  rw [Start_eq t hs]
  obtain ⟨_, _, _, pa, pe, pR, ph⟩ := prologue_spec t
  have hR1 : t.prologue.1.Retries = t.Retries := by
    rw [pR]; split <;> omega
  have hn : t.prologue.1.Retries.toNat = 0 := by rw [hR1]; omega
  rw [hn]
  have hes := epilogue_same (loop 0 0 t.prologue.1).1
  obtain ⟨e1, e2, _, e4, e5⟩ := epilogue_spec (loop 0 0 t.prologue.1).1
  simp only [Attempts, Status, handlerCount_append, ph, e5, handlerCount_onTaskEnd, e2, e4, e1]
  refine ⟨?_, ?_, ?_, ?_⟩
  · rw [hes.2.2.2.2.2.2.2.1]; simpa [loop] using hR1
  · simpa [loop] using pa
  · simp [loop]
  · intro h
    simp [loop, pe, h]

end Task

/-! ## Start: a failed Task stops the chain -/

namespace Manager

theorem sort_trace (srt : Sorter) (m : Manager) : (m.sort srt).trace = m.trace := by
  by_cases hs : m.isSorted = true
  · rw [sort_sorted srt m hs]
  · rw [sort_unsorted srt m (by simpa using hs)]
    simp

/-- The runNext of Start on a started manager with at least one Task, up to
its last line. -/
theorem advance_none (m : Manager) (hs : m.isStarted = true) (hlen : 0 < m.items.length) :
    m.advance none =
      match m.items.find? (fun q => m.indexOf q = some 0) with
      | none => ({ m with isStarted := false }, none)
      | some q => ((m.update q Task.reset).SetCurrent (some q), some q) := by
  have hc : ¬ ((-1 : Int) + 1 > (m.items.length : Int) - 1) := by omega
  simp only [advance, Option.bind, Option.any_none, Bool.false_eq_true, if_false, hs,
    Bool.not_true, move, if_true, hc]
  have h0 : ((-1 : Int) + 1) = 0 := by omega
  rw [h0]
  rcases hf : m.items.find? (fun q => decide (m.indexOf q = some 0)) with _ | q <;> simp [hf]

/-- Start returns from every state, and a Task that ends in fail is the
last Task started: no Handler of a Task with a greater index is invoked,
onComplete is not called, and the manager is stopped. -/
theorem Start_failure_any (srt : Sorter) (m : Manager) :
    ∃ m1 evs, m.Start srt = some m1 ∧ m1.trace = m.trace ++ evs ∧
      ∀ (p : Ptr) (i : Int), m1.indexOf p = some i →
        Event.task p (.runEnd .fail) ∈ evs →
        (∀ r ∈ handlerRuns evs, ∃ k, m1.indexOf r = some k ∧ k ≤ i) ∧
        Event.onComplete ∉ evs ∧ m1.IsStarted = false := by
  have str := sort_trace srt m
  unfold Start
  simp only
  by_cases hlen : (m.sort srt).items.length = 0
  · simp only [hlen, if_true]
    refine ⟨_, [], rfl, by simp [str], ?_⟩
    intro p i _ h
    simp at h
  simp only [hlen, if_false]
  have hpre : ∀ r, r ∈ handlerRuns ((if (m.sort srt).onStart then [Event.onStart] else []))
      → False := by
    intro r hr
    split at hr <;> simp [handlerRuns] at hr
  -- the manager stops before any Task is started
  have idle : ∀ m1 : Manager,
      m1.trace = m.trace ++ (if (m.sort srt).onStart then [Event.onStart] else []) →
      ∃ m2 evs2, some m1 = some m2 ∧ m2.trace = m.trace ++ evs2 ∧
        ∀ (p : Ptr) (i : Int), m2.indexOf p = some i →
          Event.task p (.runEnd .fail) ∈ evs2 →
          (∀ r ∈ handlerRuns evs2, ∃ k, m2.indexOf r = some k ∧ k ≤ i) ∧
          Event.onComplete ∉ evs2 ∧ m2.IsStarted = false := by
    intro m1 h1
    refine ⟨m1, _, rfl, h1, ?_⟩
    intro p i _ h
    split at h <;> simp at h
  -- a chain has been started from the state m0
  have finish : ∀ (m0 m1 : Manager) (evs : List Event),
      m0.trace = m.trace ++ (if (m.sort srt).onStart then [Event.onStart] else []) →
      m1.trace = m0.trace ++ evs → m0.Evolves m1 →
      (∀ (q : Ptr) (i : Int), m0.indexOf q = some i →
        Event.task q (.runEnd .fail) ∈ evs →
        (∀ r ∈ handlerRuns evs, ∃ k, m0.indexOf r = some k ∧ k ≤ i) ∧
        Event.onComplete ∉ evs ∧ m1.isStarted = false) →
      ∃ m2 evs2, some m1 = some m2 ∧ m2.trace = m.trace ++ evs2 ∧
        ∀ (p : Ptr) (i : Int), m2.indexOf p = some i →
          Event.task p (.runEnd .fail) ∈ evs2 →
          (∀ r ∈ handlerRuns evs2, ∃ k, m2.indexOf r = some k ∧ k ≤ i) ∧
          Event.onComplete ∉ evs2 ∧ m2.IsStarted = false := by
    intro m0 m1 evs htr0 htr1 hEv hP
    refine ⟨m1, (if (m.sort srt).onStart then [Event.onStart] else []) ++ evs, rfl, ?_, ?_⟩
    · rw [htr1, htr0, List.append_assoc]
    · intro p i hi h
      simp only [hEv.indexOf_eq] at hi ⊢
      have h1 : Event.task p (.runEnd .fail) ∈ evs := by
        rcases List.mem_append.1 h with h | h
        · split at h <;> simp at h
        · exact h
      obtain ⟨g1, g2, g3⟩ := hP p i hi h1
      refine ⟨?_, ?_, g3⟩
      · intro r hr
        rw [handlerRuns_append] at hr
        rcases List.mem_append.1 hr with hr | hr
        · exact absurd hr (hpre r)
        · exact g1 r hr
      · intro h2
        rcases List.mem_append.1 h2 with h2 | h2
        · split at h2 <;> simp at h2
        · exact g2 h2
  have hcs : (m.sort srt).markStarted.current = (m.sort srt).current := rfl
  have hls : (m.sort srt).markStarted.items = (m.sort srt).items := rfl
  have htr2 : (m.sort srt).markStarted.trace =
      m.trace ++ (if (m.sort srt).onStart then [Event.onStart] else []) := by
    simp [markStarted, str]
  rw [hcs, hls]
  rcases hc : (m.sort srt).current with _ | c
  · simp only
    unfold runNext
    rw [advance_none _ rfl (by rw [hls]; omega)]
    rcases hfind : (m.sort srt).markStarted.items.find?
        (fun q => decide ((m.sort srt).markStarted.indexOf q = some 0)) with _ | q
    · simp only
      exact idle _ htr2
    simp only
    have hqi : (m.sort srt).markStarted.indexOf q = some 0 := by
      simpa using List.find?_some hfind
    have hE : (m.sort srt).markStarted.Evolves
        (((m.sort srt).markStarted.update q Task.reset).SetCurrent (some q)) :=
      (evolves_update _ q Task.reset (fun t _ => Task.reset_kin t)).frame _
        rfl rfl rfl rfl rfl rfl rfl
    obtain ⟨tq, htq, hti⟩ : ∃ tq,
        (((m.sort srt).markStarted.update q Task.reset).SetCurrent (some q)).task? q = some tq ∧
        tq.index = 0 := by
      have h1 := hE.indexOf_eq q
      rw [hqi] at h1
      unfold indexOf at h1
      rcases h2 : (((m.sort srt).markStarted.update q Task.reset).SetCurrent
        (some q)).task? q with _ | tq
      · rw [h2] at h1; cases h1
      · rw [h2] at h1
        exact ⟨tq, rfl, Option.some.inj h1⟩
    obtain ⟨m1, evs, hst, htr, hEv, _, hP3⟩ := chain_fail_stops_any
      ((m.sort srt).items.length + 1) _ q tq htq
      (by
        have h1 := ahead_le_length
          (((m.sort srt).markStarted.update q Task.reset).SetCurrent (some q)) (tq.index + 1)
        have h2 : (((m.sort srt).markStarted.update q Task.reset).SetCurrent
            (some q)).items.length = (m.sort srt).items.length := by
          simp [SetCurrent, hls]
        omega)
    rw [hst]
    exact finish _ m1 evs (by simp [SetCurrent, htr2]) htr hEv hP3
  · simp only
    rcases htc : (m.sort srt).markStarted.task? c with _ | tc
    · have h0 : (m.sort srt).markStarted.startTask ((m.sort srt).items.length + 1) c =
          some (m.sort srt).markStarted := by
        simp [startTask, htc]
      rw [h0]
      exact idle _ htr2
    · obtain ⟨m1, evs, hst, htr, hEv, _, hP3⟩ := chain_fail_stops_any
        ((m.sort srt).items.length + 1) (m.sort srt).markStarted c tc htc
        (by
          have := ahead_le_length (m.sort srt).markStarted (tc.index + 1)
          rw [hls] at this
          omega)
      rw [hst]
      exact finish _ m1 evs htr2 htr hEv hP3

end Manager

/-- Start on a manager whose Items are distinct Tasks added with Add, none
of them after the sort, and whose current Task, if designated, is one of
them: every Task of Items() has its position as index afterwards, and if
the Task at position i ends in fail during the call, every Handler invoked
in the call belongs to a Task at a position up to i, onComplete is not
called, and IsStarted() is false afterwards. -/
theorem Start_failure_by_position (srt : Sorter) (hsrt : srt.Valid) (m : Manager)
    (hm : m.Managed) (hidx : m.isSorted = true → m.Indexed)
    (hcur : ∀ c, m.current = some c → c ∈ m.items) :
    ∃ m1 evs, m.Start srt = some m1 ∧ m1.trace = m.trace ++ evs ∧ m1.Indexed ∧
      ∀ (i : Nat) (p : Ptr), m1.Items[i]? = some p →
        Event.task p (.runEnd .fail) ∈ evs →
        (∀ r ∈ handlerRuns evs, ∃ k, k ≤ i ∧ m1.Items[k]? = some r) ∧
        Event.onComplete ∉ evs ∧ m1.IsStarted = false := by
  obtain ⟨sI, str, scur, son, _, sperm, _, _, _⟩ := Manager.sort_spec srt hsrt m hm hidx
  unfold Manager.Start
  simp only
  by_cases hlen : (m.sort srt).items.length = 0
  · simp only [hlen, if_true]
    refine ⟨_, [], rfl, by simp [str], sI, ?_⟩
    intro i p _ h
    simp at h
  simp only [hlen, if_false]
  have hI2 : (m.sort srt).markStarted.Indexed := sI.congr rfl rfl
  have hpre : ∀ r, r ∈ handlerRuns ((if (m.sort srt).onStart then [Event.onStart] else []))
      → False := by
    intro r hr
    split at hr <;> simp [handlerRuns] at hr
  have finish : ∀ (m0 m1 : Manager) (evs : List Event),
      m0.items = (m.sort srt).items → m0.Indexed →
      m0.trace = m.trace ++ (if (m.sort srt).onStart then [Event.onStart] else []) →
      m1.trace = m0.trace ++ evs → m0.Evolves m1 →
      (∀ (i : Nat) (q : Ptr), m0.items[i]? = some q →
        Event.task q (.runEnd .fail) ∈ evs →
        (∀ r ∈ handlerRuns evs, ∃ k, k ≤ i ∧ m0.items[k]? = some r) ∧
        Event.onComplete ∉ evs ∧ m1.isStarted = false) →
      ∃ m2 evs2, some m1 = some m2 ∧ m2.trace = m.trace ++ evs2 ∧ m2.Indexed ∧
        ∀ (i : Nat) (p : Ptr), m2.Items[i]? = some p →
          Event.task p (.runEnd .fail) ∈ evs2 →
          (∀ r ∈ handlerRuns evs2, ∃ k, k ≤ i ∧ m2.Items[k]? = some r) ∧
          Event.onComplete ∉ evs2 ∧ m2.IsStarted = false := by
    intro m0 m1 evs hit hI0 htr0 htr1 hEv hP
    refine ⟨m1, (if (m.sort srt).onStart then [Event.onStart] else []) ++ evs, rfl, ?_,
      hI0.of_evolves hEv, ?_⟩
    · rw [htr1, htr0, List.append_assoc]
    · intro i p hi h
      simp only [Manager.Items, hEv.1] at hi ⊢
      have h1 : Event.task p (.runEnd .fail) ∈ evs := by
        rcases List.mem_append.1 h with h | h
        · split at h <;> simp at h
        · exact h
      obtain ⟨g1, g2, g3⟩ := hP i p hi h1
      refine ⟨?_, ?_, g3⟩
      · intro r hr
        rw [handlerRuns_append] at hr
        rcases List.mem_append.1 hr with hr | hr
        · exact absurd hr (hpre r)
        · exact g1 r hr
      · intro h2
        rcases List.mem_append.1 h2 with h2 | h2
        · split at h2 <;> simp at h2
        · exact g2 h2
  have hcs : (m.sort srt).markStarted.current = (m.sort srt).current := rfl
  have hls : (m.sort srt).markStarted.items = (m.sort srt).items := rfl
  rw [hcs, hls]
  rcases hc : (m.sort srt).current with _ | c
  · simp only
    obtain ⟨q, hq⟩ : ∃ q, (m.sort srt).items[0]? = some q :=
      exists_getElem?_of_lt (by omega)
    unfold Manager.runNext
    rw [Manager.advance_first _ q hI2 rfl hq]
    simp only
    have hE := Manager.evolves_update (m.sort srt).markStarted q Task.reset
      (fun t _ => Task.reset_kin t)
    have hI3 : (((m.sort srt).markStarted.update q Task.reset).SetCurrent (some q)).Indexed :=
      (hI2.of_evolves hE).congr rfl rfl
    obtain ⟨m1, evs, hst, htr, hEv, _, hP3⟩ := Manager.chain_fail_stops
      (m.sort srt).items.length _ 0 q ((m.sort srt).items.length + 1) hI3
      (by simpa [Manager.SetCurrent, Manager.markStarted] using hq)
      (by simp [Manager.SetCurrent, Manager.markStarted]) (by omega)
    rw [hst]
    exact finish _ m1 evs (by simp [Manager.SetCurrent, Manager.markStarted]) hI3
      (by simp [Manager.SetCurrent, Manager.markStarted, str]) htr hEv hP3
  · simp only
    have hcm : c ∈ (m.sort srt).items := by
      rw [scur] at hc
      exact sperm.mem_iff.2 (hcur c hc)
    obtain ⟨j, hj⟩ := List.mem_iff_getElem?.1 hcm
    have hjlt : j < (m.sort srt).items.length := by
      rcases Nat.lt_or_ge j (m.sort srt).items.length with h1 | h1
      · exact h1
      · rw [List.getElem?_eq_none h1] at hj; cases hj
    obtain ⟨m1, evs, hst, htr, hEv, _, hP3⟩ := Manager.chain_fail_stops
      (m.sort srt).items.length _ j c ((m.sort srt).items.length + 1) hI2 hj
      (by simp only [Manager.markStarted]; omega) (by omega)
    rw [hst]
    exact finish (m.sort srt).markStarted m1 evs rfl hI2
      (by simp [Manager.markStarted, str]) htr hEv hP3

/-! ## The calls of OnError and OnSuccess -/

theorem onErrorCalls_append (a b : List TEvent) :
    onErrorCalls (a ++ b) = onErrorCalls a ++ onErrorCalls b := by
  simp [onErrorCalls]

theorem onSuccessCalls_append (a b : List TEvent) :
    onSuccessCalls (a ++ b) = onSuccessCalls a + onSuccessCalls b := by
  simp [onSuccessCalls]

theorem outcome_free (ev : List TEvent) (h : ∀ e ∈ ev, e.isOutcome = false) :
    onErrorCalls ev = [] ∧ onSuccessCalls ev = 0 := by
  constructor
  · unfold onErrorCalls
    rw [List.filterMap_eq_nil_iff]
    intro e he
    have := h e he
    cases e <;> simp_all [TEvent.isOutcome]
  · unfold onSuccessCalls
    rw [List.count_eq_zero]
    intro he
    have := h _ he
    simp [TEvent.isOutcome] at this

theorem Hook.call_onError (st : Status) (x : Err) (h : Hook) :
    onErrorCalls (Hook.call (.broadcast st) (.onError x) h) = List.replicate h.users x ∧
    onSuccessCalls (Hook.call (.broadcast st) (.onError x) h) = 0 := by
  induction h with
  | nil => simp [Hook.call, Hook.users, onErrorCalls, onSuccessCalls]
  | user => simp [Hook.call, Hook.users, onErrorCalls, onSuccessCalls]
  | wrap inner ih =>
    simp only [Hook.call, Hook.users]
    simpa [onErrorCalls, onSuccessCalls] using ih

theorem Hook.call_onSuccess (st : Status) (h : Hook) :
    onErrorCalls (Hook.call (.broadcast st) .onSuccess h) = [] ∧
    onSuccessCalls (Hook.call (.broadcast st) .onSuccess h) = h.users := by
  induction h with
  | nil => simp [Hook.call, Hook.users, onErrorCalls, onSuccessCalls]
  | user => simp [Hook.call, Hook.users, onErrorCalls, onSuccessCalls]
  | wrap inner ih =>
    simp only [Hook.call, Hook.users]
    simpa [onErrorCalls, onSuccessCalls] using ih



theorem Hook.call_mem (st : Status) (ue : TEvent) (h : Hook) :
    ∀ e ∈ Hook.call (.broadcast st) ue h, e = .broadcast st ∨ e = ue := by
  induction h with
  | nil => simp [Hook.call]
  | user => simp [Hook.call]
  | wrap inner ih =>
    intro e he
    simp only [Hook.call, List.mem_cons] at he
    rcases he with rfl | he
    · exact Or.inl rfl
    · exact ih e he

namespace Task

theorem prologue_inPrologue (t : Task) : ∀ e ∈ t.prologue.2, e.inPrologue = true := by
  unfold prologue
  by_cases h : t.OnStart = Hook.nil
  · simp [h]
  · intro e he
    simp only [h, if_false, List.mem_cons] at he
    rcases he with rfl | he
    · rfl
    · rcases Hook.call_mem _ _ _ e he with rfl | rfl <;> rfl

theorem handlerStep_inLoop (t : Task) : ∀ e ∈ t.handlerStep.2.1, e.inLoop = true := by
  rw [handlerStep_events_eq]
  intro e he
  simp only [List.mem_cons, List.mem_append] at he
  rcases he with rfl | he | he
  · rfl
  · split at he
    · simp only [List.mem_singleton] at he; subst he; rfl
    · simp at he
  · split at he
    · simp only [List.mem_singleton] at he; subst he; rfl
    · simp at he

theorem attempt_inLoop (t : Task) (i : Int) : ∀ e ∈ (t.attempt i).2.1, e.inLoop = true := by
  unfold attempt
  intro e
  by_cases hi : i > 0
  · simp only [hi, if_true]
    split
    · simp only [List.mem_singleton]; rintro rfl; rfl
    · simp only [List.mem_cons, List.mem_append]
      rintro (rfl | (h | h) | h)
      · rfl
      · unfold pause at h
        split at h
        · simp only [List.mem_singleton] at h; subst h; rfl
        · simp at h
      · split at h
        · simp at h
        · rcases Hook.call_mem _ _ _ e h with rfl | rfl <;> rfl
      · exact handlerStep_inLoop _ e h
  · simp only [hi, if_false]
    exact handlerStep_inLoop _ e

theorem loop_inLoop : ∀ (n : Nat) (i : Int) (t : Task), ∀ e ∈ (loop n i t).2, e.inLoop = true
  | 0, _, _ => by simp [loop]
  | n + 1, i, t => by
    intro e
    rcases hb : (t.attempt i).2.2 with _ | _
    · rw [loop_continue n i t hb]
      simp only [List.mem_append]
      rintro (h | h)
      · exact attempt_inLoop t i e h
      · exact loop_inLoop n (i + 1) (t.attempt i).1 e h
    · rw [loop_break n i t hb]
      exact attempt_inLoop t i e

/-- The calls of the user's OnError and OnSuccess that the last lines of
Start make: the hook that matches the error state, with that error. -/
theorem epilogue_outcome (t : Task) :
    onErrorCalls t.epilogue.2 =
      (match t.err with
        | some e => List.replicate t.OnError.users e
        | none => []) ∧
    onSuccessCalls t.epilogue.2 = (if t.err = none then t.OnSuccess.users else 0) := by
  unfold epilogue
  rcases he : t.err with _ | x
  · by_cases ho : t.OnSuccess = Hook.nil
    · simp [ho, onErrorCalls, onSuccessCalls, Hook.users]
    · have := Hook.call_onSuccess t.status t.OnSuccess
      simp only [ho, if_false, onErrorCalls_append, onSuccessCalls_append, this.1, this.2]
      simp [onErrorCalls, onSuccessCalls]
  · by_cases ho : t.OnError = Hook.nil
    · simp [ho, onErrorCalls, onSuccessCalls, Hook.users]
    · have := Hook.call_onError t.status x t.OnError
      simp only [ho, if_false, onErrorCalls_append, onSuccessCalls_append, this.1, this.2]
      simp [onErrorCalls, onSuccessCalls]

theorem prologue_hooks (t : Task) :
    t.prologue.1.OnStart = t.OnStart ∧ t.prologue.1.OnRetry = t.OnRetry ∧
    t.prologue.1.OnError = t.OnError ∧ t.prologue.1.OnSuccess = t.OnSuccess := by
  unfold prologue
  by_cases h : t.OnStart = Hook.nil <;> by_cases h0 : t.Retries = 0 <;>
    rcases hm : t.StartMessage with _ | f <;>
    simp [h, h0, hm, SetStatus]

/-- The calls of the user's OnError and OnSuccess in a whole Start. -/
theorem Start_outcome_hooks (t : Task) (hs : t.status ≠ .success) :
    onErrorCalls t.Start.2 =
      (match t.Start.1.err with
        | some e => List.replicate t.OnError.users e
        | none => []) ∧
    onSuccessCalls t.Start.2 = (if t.Start.1.err = none then t.OnSuccess.users else 0) := by
  have h1 := outcome_free t.prologue.2 (fun e he => by
    have := prologue_inPrologue t e he
    cases e <;> simp_all [TEvent.inPrologue, TEvent.isOutcome])
  have h2 := outcome_free (loop t.prologue.1.Retries.toNat 0 t.prologue.1).2 (fun e he => by
    have := loop_inLoop _ _ _ e he
    cases e <;> simp_all [TEvent.inLoop, TEvent.isOutcome])
  have h3 := epilogue_outcome (loop t.prologue.1.Retries.toNat 0 t.prologue.1).1
  have h4 : onErrorCalls (loop t.prologue.1.Retries.toNat 0 t.prologue.1).1.epilogue.1.onTaskEnd
      = [] ∧
      onSuccessCalls (loop t.prologue.1.Retries.toNat 0 t.prologue.1).1.epilogue.1.onTaskEnd
      = 0 := by
    unfold onTaskEnd; split <;> simp [onErrorCalls, onSuccessCalls]
  have hl := loop_same t.prologue.1.Retries.toNat 0 t.prologue.1
  have hp := prologue_hooks t
  have hE : (loop t.prologue.1.Retries.toNat 0 t.prologue.1).1.OnError = t.OnError :=
    hl.2.2.2.2.2.2.2.2.2.2.2.1.trans hp.2.2.1
  have hS : (loop t.prologue.1.Retries.toNat 0 t.prologue.1).1.OnSuccess = t.OnSuccess :=
    hl.2.2.2.2.2.2.2.2.2.2.2.2.trans hp.2.2.2
  obtain ⟨e1, _⟩ := epilogue_spec (loop t.prologue.1.Retries.toNat 0 t.prologue.1).1
  rw [Start_eq t hs]
  simp only [onErrorCalls_append, onSuccessCalls_append, h1.1, h1.2, h2.1, h2.2, h3.1, h3.2,
    h4.1, h4.2, e1, hE, hS, List.nil_append, List.append_nil, zero_add, add_zero]
  trivial

end Task

/-! ## workman: the loop of Remove -/

namespace Workman

theorem removeFirst_found (id : String) (w : Worker) (bs : List Worker) (hw : w.GetID = id) :
    ∀ as : List Worker, (∀ a ∈ as, a.GetID ≠ id) →
      Manager.removeFirst id (as ++ w :: bs) = (as ++ bs, some w.Stop)
  | [], _ => by simp [Manager.removeFirst, hw]
  | a :: as, h => by
    have ha : a.GetID ≠ id := h a (List.mem_cons_self _ _)
    have ih := removeFirst_found id w bs hw as (fun x hx => h x (List.mem_cons_of_mem _ hx))
    simp [Manager.removeFirst, ha, ih]

theorem removeFirst_absent (id : String) :
    ∀ ws : List Worker, (∀ a ∈ ws, a.GetID ≠ id) → Manager.removeFirst id ws = (ws, none)
  | [], _ => rfl
  | a :: as, h => by
    have ha : a.GetID ≠ id := h a (List.mem_cons_self _ _)
    have ih := removeFirst_absent id as (fun x hx => h x (List.mem_cons_of_mem _ hx))
    simp [Manager.removeFirst, ha, ih]

/-- Clean on the table of cases of the standard library's own test. -/
theorem pathClean_table :
    [pathClean "", pathClean "abc", pathClean "abc/def", pathClean ".", pathClean "..",
      pathClean "../../abc", pathClean "/abc", pathClean "/", pathClean "abc/",
      pathClean "../../", pathClean "/abc/", pathClean "abc//def//ghi", pathClean "//abc//",
      pathClean "abc/./def", pathClean "/./abc/def", pathClean "abc/def/ghi/../jkl",
      pathClean "abc/def/../..", pathClean "/abc/def/../..", pathClean "abc/def/../../..",
      pathClean "/abc/def/../../..", pathClean "abc/def/../../../ghi/jkl/../../../mno",
      pathClean "abc/./../def", pathClean "abc/../../././../def"] =
    [".", "abc", "abc/def", ".", "..", "../../abc", "/abc", "/", "abc", "../..", "/abc",
      "abc/def/ghi", "/abc", "abc/def", "/abc/def", "abc/def/jkl", ".", "/", "..", "/",
      "../../mno", "def", "../../def"] := by
  decide

/-- Join on elements with redundant slashes and on empty elements. -/
theorem pathJoin_table :
    [pathJoin [], pathJoin [""], pathJoin ["a"], pathJoin ["a", "b"], pathJoin ["a", ""],
      pathJoin ["", "b"], pathJoin ["/", "a"], pathJoin ["/", ""], pathJoin ["a/", "b"],
      pathJoin ["", ""], pathJoin ["/srv/", "cache"], pathJoin ["", "workers", "*.json"],
      pathJoin ["/srv/cache", "_workers", "w2"]] =
    ["", "", "a", "a/b", "a", "b", "/a", "/", "a/b", "", "/srv/cache", "workers/*.json",
      "/srv/cache/_workers/w2"] := by
  decide

end Workman

/-! ## The error a Task is left with -/

namespace Task

theorem handlerStep_last (t : Task) :
    t.handlerStep.1.calls = t.calls + 1 ∧ t.handlerStep.1.err = (t.Handler t.calls).result := by
  unfold handlerStep
  rcases hr : (t.Handler t.calls).result with _ | x
  · simp [hr]
  · rcases hm : t.ErrorMessage with _ | f <;> simp [hr, hm, SetStatus]

theorem attempt_last (t : Task) (i : Int) :
    ((t.attempt i).1.calls = t.calls ∧ (t.attempt i).1.err = t.err) ∨
    ((t.attempt i).1.calls = t.calls + 1 ∧
      (t.attempt i).1.err = (t.Handler t.calls).result) := by
  have key : ∀ u : Task, u.calls = t.calls → u.Handler = t.Handler →
      (u.handlerStep.1.calls = t.calls + 1 ∧
        u.handlerStep.1.err = (t.Handler t.calls).result) := by
    intro u h1 h2
    have := handlerStep_last u
    rw [h1, h2] at this
    exact this
  unfold attempt
  by_cases hi : i > 0
  · simp only [hi, if_true]
    split
    · left
      rcases hm : t.RetryMessage with _ | f <;> simp [SetStatus]
    · right
      refine key _ ?_ ?_ <;> rcases hm : t.RetryMessage with _ | f <;> simp [SetStatus]
  · right
    simp only [hi, if_false]
    exact key _ rfl rfl

/-- After the retry loop the error is the one found before it, when no
Handler invocation took place, and else the result of the last invocation. -/
theorem loop_last : ∀ (n : Nat) (i : Int) (t : Task),
    ((loop n i t).1.calls = t.calls ∧ (loop n i t).1.err = t.err) ∨
    (t.calls < (loop n i t).1.calls ∧
      (loop n i t).1.err = (t.Handler ((loop n i t).1.calls - 1)).result)
  | 0, _, t => by simp [loop]
  | n + 1, i, t => by
    have hH : (t.attempt i).1.Handler = t.Handler := (attempt_same t i).1
    rcases hb : (t.attempt i).2.2 with _ | _
    · have hl : (loop (n + 1) i t).1 = (loop n (i + 1) (t.attempt i).1).1 := by
        rw [loop_continue n i t hb]
      rw [hl]
      rcases loop_last n (i + 1) (t.attempt i).1 with ⟨h1, h2⟩ | ⟨h1, h2⟩
      · rcases attempt_last t i with ⟨a1, a2⟩ | ⟨a1, a2⟩
        · left; exact ⟨h1.trans a1, h2.trans a2⟩
        · right
          refine ⟨by omega, ?_⟩
          rw [h2, a2, h1, a1]; simp
      · right
        rw [hH] at h2
        refine ⟨?_, h2⟩
        rcases attempt_last t i with ⟨a1, _⟩ | ⟨a1, _⟩ <;> omega
    · have hl : (loop (n + 1) i t).1 = (t.attempt i).1 := by
        rw [loop_break n i t hb]
      rw [hl]
      rcases attempt_last t i with ⟨a1, a2⟩ | ⟨a1, a2⟩
      · left; exact ⟨a1, a2⟩
      · right
        refine ⟨by omega, ?_⟩
        rw [a2, a1]; simp

/-- A Task that Start leaves with an error, having found none: the error is
the result of the last Handler invocation of that Start. -/
theorem Start_last_error (t : Task) (hs : t.status ≠ .success) (he : t.err = none) (e : Err)
    (h : t.Start.1.err = some e) :
    t.calls < t.Start.1.calls ∧ (t.Handler (t.Start.1.calls - 1)).result = some e := by
  obtain ⟨pH, pc, _, _, pe, _, _⟩ := prologue_spec t
  obtain ⟨e1, _, e3, _, _⟩ := epilogue_spec (loop t.prologue.1.Retries.toNat 0 t.prologue.1).1
  rw [Start_eq t hs] at h ⊢
  simp only [e1, e3] at h ⊢
  rcases loop_last t.prologue.1.Retries.toNat 0 t.prologue.1 with ⟨h1, h2⟩ | ⟨h1, h2⟩
  · rw [h2, pe, he] at h; cases h
  · rw [pc] at h1
    rw [pH] at h2
    exact ⟨h1, h2.symm.trans h⟩

end Task

namespace Manager

/-- Get returns the first Task in list order that has the name. -/
theorem Get_first (m : Manager) (name : String) (front back : List Ptr) (p : Ptr) (t : Task)
    (hi : m.items = front ++ p :: back)
    (hf : ∀ q ∈ front, (m.task? q).map (fun u => u.Name) ≠ some name)
    (ht : m.task? p = some t) (hn : t.Name = name) : m.Get name = some p := by
  unfold Get
  rw [hi, List.find?_append]
  have h1 : front.find? (fun p => (m.task? p).map (fun t => t.Name) = some name) = none := by
    rw [List.find?_eq_none]
    intro q hq
    simpa using hf q hq
  rw [h1]
  simp [ht, hn]

theorem Get_none (m : Manager) (name : String)
    (hf : ∀ q ∈ m.items, (m.task? q).map (fun u => u.Name) ≠ some name) : m.Get name = none := by
  unfold Get
  rw [List.find?_eq_none]
  intro q hq
  simpa using hf q hq

end Manager

/-! ## Start on an empty list -/

namespace Manager

/-- Start() on a manager without Tasks returns before any callback, and
leaves the manager marked as sorted. -/
theorem Start_empty (srt : Sorter) (hsrt : srt.Valid) (m : Manager) (h : m.items = []) :
    m.Start srt = some { m with isSorted := true } := by
  have hs : m.sort srt = { m with isSorted := true } := by
    rcases hb : m.isSorted with _ | _
    · have hnil : srt m.orderKey [] = [] := List.Perm.eq_nil (hsrt m.orderKey []).1
      simp [sort, hb, h, hnil, assignIndex]
    · simp only [sort, hb]
      cases m
      simp_all
  simp [Start, hs, h]

end Manager

/-! ## The wrappers of Add -/

theorem wrapCalls_append (a b : List TEvent) :
    wrapCalls (a ++ b) = wrapCalls a ++ wrapCalls b := by
  induction a with
  | nil => rfl
  | cons e es ih => simp [wrapCalls, ih]

/-- Calls that are neither OnStart nor OnRetry are not changed. -/
theorem wrapCalls_id (ev : List TEvent)
    (h : ∀ e ∈ ev, e ≠ .onStart ∧ ∀ x i, e ≠ .onRetry x i) : wrapCalls ev = ev := by
  induction ev with
  | nil => rfl
  | cons e es ih =>
    have h1 := h e (List.mem_cons_self _ _)
    have h2 := ih (fun x hx => h x (List.mem_cons_of_mem _ hx))
    cases e <;> simp_all [wrapCalls, TEvent.wrapped]

namespace Task

theorem wrapHooks_prologue (t : Task) (hS : t.OnStart = .user) :
    t.wrapHooks.prologue = (t.prologue.1.wrapHooks, wrapCalls t.prologue.2) := by
  unfold prologue
  by_cases h0 : t.Retries = 0 <;> rcases hm : t.StartMessage with _ | f <;>
    simp [wrapHooks, hS, h0, hm, SetStatus, Hook.call, wrapCalls, TEvent.wrapped, view]

theorem wrapHooks_handlerStep (t : Task) :
    t.wrapHooks.handlerStep =
      (t.handlerStep.1.wrapHooks, wrapCalls t.handlerStep.2.1, t.handlerStep.2.2) := by
  have hw : wrapCalls t.handlerStep.2.1 = t.handlerStep.2.1 := by
    rw [handlerStep_events_eq]
    rcases (t.Handler t.calls).stop with _ | _ <;>
      rcases (t.Handler t.calls).result with _ | x <;>
      simp [wrapCalls, TEvent.wrapped]
  rw [hw]
  unfold handlerStep
  rcases hr : (t.Handler t.calls).result with _ | x
  · simp [wrapHooks, hr]
  · rcases hm : t.ErrorMessage with _ | f <;> simp [wrapHooks, hr, hm, SetStatus, view]

/-- A pass of the retry loop at a loop counter above 0, in terms of the
state it reaches before the RetryCondition is asked. -/
theorem attempt_retry (t : Task) (i : Int) (hi : i > 0) :
    t.attempt i =
      if (t.retryState i).vetoes i then (t.retryState i, [.setStatus .retry], true)
      else ((t.retryState i).handlerStep.1,
        .setStatus .retry :: ((t.retryState i).pause ++
          (if (t.retryState i).OnRetry = Hook.nil then []
           else (t.retryState i).OnRetry.call (.broadcast (t.retryState i).status)
            (.onRetry (t.retryState i).err i)) ++ (t.retryState i).handlerStep.2.1),
        (t.retryState i).handlerStep.2.2) := by
  unfold attempt
  simp only [hi, if_true]
  rfl

theorem retryState_spec (t : Task) (i : Int) :
    (t.retryState i).status = .retry ∧ (t.retryState i).err = t.err ∧
    (t.retryState i).OnRetry = t.OnRetry ∧ (t.retryState i).OnStart = t.OnStart ∧
    (t.retryState i).RetryDelay = t.RetryDelay ∧
    (t.retryState i).RetryCondition = t.RetryCondition := by
  unfold retryState
  rcases hm : t.RetryMessage with _ | f <;> simp [SetStatus, hm]

theorem wrapHooks_retryState (t : Task) (i : Int) :
    t.wrapHooks.retryState i = (t.retryState i).wrapHooks := by
  unfold retryState
  rcases hm : t.RetryMessage with _ | f <;> simp [SetStatus, hm, wrapHooks, view]

theorem wrapHooks_attempt (t : Task) (i : Int) (hR : t.OnRetry = .user) :
    t.wrapHooks.attempt i =
      ((t.attempt i).1.wrapHooks, wrapCalls (t.attempt i).2.1, (t.attempt i).2.2) := by
  by_cases hi : i > 0
  · obtain ⟨r1, r2, r3, _, r5, r6⟩ := retryState_spec t i
    have hp : wrapCalls (t.retryState i).pause = (t.retryState i).pause := by
      unfold pause; split <;> simp [wrapCalls, TEvent.wrapped]
    have hp2 : (t.retryState i).wrapHooks.pause = (t.retryState i).pause := rfl
    have hv : (t.retryState i).wrapHooks.vetoes i = (t.retryState i).vetoes i := rfl
    have ho : (t.retryState i).wrapHooks.OnRetry = .wrap .user := by
      simp [wrapHooks, r3, hR]
    have hst : (t.retryState i).wrapHooks.status = .retry := r1
    have her : (t.retryState i).wrapHooks.err = (t.retryState i).err := rfl
    rw [attempt_retry _ _ hi, attempt_retry _ _ hi, wrapHooks_retryState, hv]
    by_cases hveto : (t.retryState i).vetoes i = true
    · simp [hveto, wrapCalls, TEvent.wrapped]
    · simp only [hveto, if_false, Bool.false_eq_true]
      rw [wrapHooks_handlerStep, hp2, ho, hst, her, r3, hR, r1]
      simp [wrapCalls, wrapCalls_append, TEvent.wrapped, hp, Hook.call]
  · unfold attempt
    simp only [hi, if_false]
    exact wrapHooks_handlerStep { t with attempts := t.attempts + 1 }

theorem wrapHooks_loop : ∀ (n : Nat) (i : Int) (t : Task), t.OnRetry = .user →
    loop n i t.wrapHooks = ((loop n i t).1.wrapHooks, wrapCalls (loop n i t).2)
  | 0, _, _, _ => by simp [loop, wrapCalls]
  | n + 1, i, t, hR => by
    have ha := wrapHooks_attempt t i hR
    have hR1 : (t.attempt i).1.OnRetry = .user :=
      (attempt_same t i).2.2.2.2.2.2.2.2.2.2.1.trans hR
    rcases hb : (t.attempt i).2.2 with _ | _
    · have hb1 : (t.wrapHooks.attempt i).2.2 = false := by rw [ha]; exact hb
      rw [loop_continue n i t hb, loop_continue n i _ hb1, ha]
      simp only []
      rw [wrapHooks_loop n (i + 1) _ hR1, wrapCalls_append]
    · have hb1 : (t.wrapHooks.attempt i).2.2 = true := by rw [ha]; exact hb
      rw [loop_break n i t hb, loop_break n i _ hb1, ha]

/-- The calls of the last lines of Start: status assignments, broadcasts,
OnError and OnSuccess. -/
theorem epilogue_mem (t : Task) : ∀ e ∈ t.epilogue.2,
    (∃ st, e = .setStatus st) ∨ (∃ st, e = .broadcast st) ∨ (∃ x, e = .onError x) ∨
      e = .onSuccess := by
  unfold epilogue
  intro e
  rcases he : t.err with _ | x
  · by_cases ho : t.OnSuccess = Hook.nil
    · simp only [ho, if_true, List.nil_append, List.mem_singleton]
      rintro rfl; exact Or.inl ⟨_, rfl⟩
    · simp only [ho, if_false, List.mem_append, List.mem_singleton]
      rintro (h | rfl)
      · rcases Hook.call_mem _ _ _ e h with rfl | rfl
        · exact Or.inr (Or.inl ⟨_, rfl⟩)
        · exact Or.inr (Or.inr (Or.inr rfl))
      · exact Or.inl ⟨_, rfl⟩
  · by_cases ho : t.OnError = Hook.nil
    · simp only [ho, if_true, List.nil_append, List.mem_singleton]
      rintro rfl; exact Or.inl ⟨_, rfl⟩
    · simp only [ho, if_false, List.mem_append, List.mem_singleton]
      rintro (h | rfl)
      · rcases Hook.call_mem _ _ _ e h with rfl | rfl
        · exact Or.inr (Or.inl ⟨_, rfl⟩)
        · exact Or.inr (Or.inr (Or.inl ⟨_, rfl⟩))
      · exact Or.inl ⟨_, rfl⟩

theorem wrapHooks_epilogue (t : Task) :
    t.wrapHooks.epilogue = (t.epilogue.1.wrapHooks, wrapCalls t.epilogue.2) := by
  have hw : wrapCalls t.epilogue.2 = t.epilogue.2 := by
    apply wrapCalls_id
    intro e he
    rcases epilogue_mem t e he with ⟨st, rfl⟩ | ⟨st, rfl⟩ | ⟨x, rfl⟩ | rfl <;> simp
  rw [hw]
  unfold epilogue
  rcases he : t.err with _ | x
  · rcases hm : t.SuccessMessage with _ | f <;> simp [wrapHooks, he, hm, SetStatus, view]
  · rcases hm : t.ErrorMessage with _ | f <;> simp [wrapHooks, he, hm, SetStatus, view]

/-- Start on a Task that `Manager.Add` has wrapped, against Start on the
Task as the user made it: the same run, with the calls of OnStart and
OnRetry seen through the wrappers, and the end-of-run callback at the end. -/
theorem wrapHooks_Start (t : Task) (hs : t.status ≠ .success) (hS : t.OnStart = .user)
    (hR : t.OnRetry = .user) (hE : t.onRunEnd = false) :
    t.wrapHooks.Start.1 = t.Start.1.wrapHooks ∧
    t.wrapHooks.Start.2 = wrapCalls t.Start.2 ++ [.runEnd t.Start.1.status] := by
  have hs1 : t.wrapHooks.status ≠ .success := hs
  have hp := wrapHooks_prologue t hS
  have hR1 : t.prologue.1.OnRetry = .user := (prologue_hooks t).2.1.trans hR
  have hn : t.prologue.1.wrapHooks.Retries = t.prologue.1.Retries := rfl
  have hl := wrapHooks_loop t.prologue.1.Retries.toNat 0 t.prologue.1 hR1
  have he := wrapHooks_epilogue (loop t.prologue.1.Retries.toNat 0 t.prologue.1).1
  have hend : (loop t.prologue.1.Retries.toNat 0 t.prologue.1).1.epilogue.1.onTaskEnd = [] := by
    have h1 := epilogue_same (loop t.prologue.1.Retries.toNat 0 t.prologue.1).1
    have h2 := loop_same t.prologue.1.Retries.toNat 0 t.prologue.1
    have h3 := (prologue_kin t).1
    have : (loop t.prologue.1.Retries.toNat 0 t.prologue.1).1.epilogue.1.onRunEnd = false :=
      (h1.2.2.2.2.2.1.trans h2.2.2.2.2.2.1).trans (h3.2.2.2.2.2.1.trans hE)
    simp [onTaskEnd, this]
  rw [Start_eq _ hs1, Start_eq t hs, hp]
  simp only [hn, hl, he, hend, wrapCalls_append, List.append_nil]
  exact ⟨trivial, rfl⟩

end Task

/-! ## The chain, case by case -/

namespace Manager

/-- The call task.Start() on a Task object returns within the Tasks ahead,
and its run is a chain. -/
theorem startTask_chain : ∀ (fuel : Nat) (m : Manager) (p : Ptr) (t : Task),
    m.task? p = some t → m.ahead (t.index + 1) < fuel →
    ∃ m1 evs, m.startTask fuel p = some m1 ∧ Chain m p m1 evs
  | 0, _, _, _, _, hfuel => by omega
  | f + 1, m, p, t, ht, hfuel => by
    have hk := Task.Start_kin t
    by_cases hto : t.onRunEnd = true
    swap
    · have hto0 : t.onRunEnd = false := by simpa using hto
      have ho1 : t.Start.1.onRunEnd = false := by rw [hk.1.2.2.2.2.2.1]; exact hto0
      simp only [startTask, ht, ho1, Bool.false_eq_true, if_false]
      exact ⟨_, _, rfl, Chain.alone m p t ht hto0⟩
    rw [startTask_succ f m p t ht hto]
    have hE := ran_evolves m p t ht
    have ht2 := task?_ran_self m p t ht
    by_cases he : t.Start.1.err.isSome = true
    · simp only [he, if_true]
      exact ⟨_, _, rfl, Chain.failed m p t ht hto he⟩
    simp only [he, if_false]
    have he0 : t.Start.1.err = none := by
      rcases h : t.Start.1.err with _ | x
      · rfl
      · simp [h] at he
    by_cases hx : t.Start.1.executeNextTask = true
    swap
    · simp only [hx, Bool.not_false, if_true]
      exact ⟨_, _, rfl, Chain.single m p t ht hto he0 (by simpa using hx)⟩
    simp only [hx, Bool.not_true, if_false]
    have hidx : t.Start.1.index = t.index := hk.1.2.2.1
    rcases hs : (m.ran p t).isStarted with _ | _
    · rw [advance_stopped _ p _ ht2 he0 hs]
      exact ⟨_, _, rfl, Chain.stopped m p t ht hto he0 hx hs⟩
    rw [advance_ok _ p _ ht2 he0 hs, hidx]
    by_cases hc : t.index + 1 > ((m.ran p t).items.length : Int) - 1
    · simp only [hc, if_true]
      exact ⟨_, _, rfl, Chain.complete m p t ht hto he0 hx hs hc⟩
    simp only [hc, if_false]
    rcases hfind : (m.ran p t).items.find?
        (fun q => decide ((m.ran p t).indexOf q = some (t.index + 1))) with _ | q
    · exact ⟨_, _, rfl, Chain.lost m p t ht hto he0 hx hs hc hfind⟩
    simp only
    have hqi2 : (m.ran p t).indexOf q = some (t.index + 1) := by
      simpa using List.find?_some hfind
    have hqi : m.indexOf q = some (t.index + 1) := by rw [← hE.indexOf_eq q]; exact hqi2
    have hqmem : q ∈ m.items := by
      rw [← ran_items m p t]
      exact List.mem_of_find?_eq_some hfind
    have hE3 := next_evolves (m.ran p t) p q
    have hE03 : m.Evolves ((((m.ran p t).update q Task.reset).update p Task.reset).SetCurrent
        (some q)) := (evolves_trans hE hE3).frame _ rfl rfl rfl rfl rfl rfl rfl
    obtain ⟨tq, htq⟩ : ∃ tq, ((((m.ran p t).update q Task.reset).update p Task.reset).SetCurrent
        (some q)).task? q = some tq ∧ tq.index = t.index + 1 := by
      have h1 := hE03.indexOf_eq q
      rw [hqi] at h1
      unfold indexOf at h1
      rcases h2 : ((((m.ran p t).update q Task.reset).update p Task.reset).SetCurrent
        (some q)).task? q with _ | tq
      · rw [h2] at h1; cases h1
      · rw [h2] at h1
        exact ⟨tq, rfl, Option.some.inj h1⟩
    obtain ⟨m1, evs, hst, hch⟩ := startTask_chain f _ q tq htq.1
      (by
        rw [hE03.ahead_eq, htq.2]
        have := ahead_lt m q t.index hqmem hqi
        omega)
    exact ⟨m1, _, hst, Chain.next m p t q m1 evs ht hto he0 hx hs hc hfind hch⟩

/-- A chain appends its calls to the trace and keeps the configuration of
the manager and of every Task. -/
theorem Chain.sound {m m1 : Manager} {p : Ptr} {evs : List Event} (h : Chain m p m1 evs) :
    m1.trace = m.trace ++ evs ∧ m.Evolves m1 := by
  induction h with
  | alone m p t ht ho =>
    have hE : m.Evolves (m.update p (fun _ => t.Start.1)) :=
      evolves_update m p _ (fun u hu => by
        rw [ht] at hu
        rw [← Option.some.inj hu]
        exact (Task.Start_kin t).1)
    rw [absorb_eq]
    exact ⟨by simp [expand], hE.frame _ rfl rfl rfl rfl rfl rfl rfl⟩
  | failed m p t ht ho he =>
    exact ⟨by simp [ran_trace], (ran_evolves m p t ht).frame _ rfl rfl rfl rfl rfl rfl rfl⟩
  | single m p t ht ho he hx =>
    exact ⟨by simp [ran_trace], (ran_evolves m p t ht).frame _ rfl rfl rfl rfl rfl rfl rfl⟩
  | stopped m p t ht ho he hx hs =>
    exact ⟨ran_trace m p t, ran_evolves m p t ht⟩
  | complete m p t ht ho he hx hs hc =>
    exact ⟨by simp [ran_trace], (ran_evolves m p t ht).frame _ rfl rfl rfl rfl rfl rfl rfl⟩
  | lost m p t ht ho he hx hs hc hq =>
    exact ⟨by simp [ran_trace], (ran_evolves m p t ht).frame _ rfl rfl rfl rfl rfl rfl rfl⟩
  | next m p t q m1 evs ht ho he hx hs hc hq hrest ih =>
    have hE03 : m.Evolves ((((m.ran p t).update q Task.reset).update p Task.reset).SetCurrent
        (some q)) :=
      (evolves_trans (ran_evolves m p t ht) (next_evolves (m.ran p t) p q)).frame _
        rfl rfl rfl rfl rfl rfl rfl
    refine ⟨?_, evolves_trans hE03 ih.2⟩
    rw [ih.1]
    simp [SetCurrent, ran_trace, List.append_assoc]

/-- Start, case by case: the list is empty; or the current Task is
started; or the Task of index 0 is looked up, reset and started. -/
theorem Start_chain (srt : Sorter) (m : Manager) :
    ((m.sort srt).items.length = 0 ∧ m.Start srt = some (m.sort srt)) ∨
    ((m.sort srt).items.length ≠ 0 ∧
      ((∃ c, (m.sort srt).current = some c ∧
          (((m.sort srt).markStarted.task? c = none ∧
              m.Start srt = some (m.sort srt).markStarted) ∨
           ∃ m1 evs, m.Start srt = some m1 ∧ Chain (m.sort srt).markStarted c m1 evs)) ∨
       ((m.sort srt).current = none ∧
          (((m.sort srt).markStarted.items.find?
                (fun q => decide ((m.sort srt).markStarted.indexOf q = some 0)) = none ∧
              m.Start srt = some { (m.sort srt).markStarted with isStarted := false }) ∨
           ∃ q m1 evs, (m.sort srt).markStarted.items.find?
                (fun q => decide ((m.sort srt).markStarted.indexOf q = some 0)) = some q ∧
              m.Start srt = some m1 ∧
              Chain (((m.sort srt).markStarted.update q Task.reset).SetCurrent (some q))
                q m1 evs)))) := by
  unfold Start
  simp only
  by_cases hlen : (m.sort srt).items.length = 0
  · left
    simp [hlen]
  right
  refine ⟨hlen, ?_⟩
  simp only [hlen, if_false]
  have hcs : (m.sort srt).markStarted.current = (m.sort srt).current := rfl
  have hls : (m.sort srt).markStarted.items = (m.sort srt).items := rfl
  rw [hcs, hls]
  rcases hc : (m.sort srt).current with _ | c
  · right
    refine ⟨rfl, ?_⟩
    simp only
    unfold runNext
    rw [advance_none _ rfl (by rw [hls]; omega)]
    rcases hfind : (m.sort srt).markStarted.items.find?
        (fun q => decide ((m.sort srt).markStarted.indexOf q = some 0)) with _ | q
    · left
      have hcm : (m.sort srt).markStarted.current = none := hc
      rw [hls] at hfind
      simp [hls, hfind, hcm]
    right
    have hqi : (m.sort srt).markStarted.indexOf q = some 0 := by
      simpa using List.find?_some hfind
    have hE : (m.sort srt).markStarted.Evolves
        (((m.sort srt).markStarted.update q Task.reset).SetCurrent (some q)) :=
      (evolves_update _ q Task.reset (fun t _ => Task.reset_kin t)).frame _
        rfl rfl rfl rfl rfl rfl rfl
    obtain ⟨tq, htq, hti⟩ : ∃ tq,
        (((m.sort srt).markStarted.update q Task.reset).SetCurrent (some q)).task? q = some tq ∧
        tq.index = 0 := by
      have h1 := hE.indexOf_eq q
      rw [hqi] at h1
      unfold indexOf at h1
      rcases h2 : (((m.sort srt).markStarted.update q Task.reset).SetCurrent
        (some q)).task? q with _ | tq
      · rw [h2] at h1; cases h1
      · rw [h2] at h1
        exact ⟨tq, rfl, Option.some.inj h1⟩
    obtain ⟨m1, evs, hst, hch⟩ := startTask_chain
      ((m.sort srt).items.length + 1) _ q tq htq
      (by
        have h1 := ahead_le_length
          (((m.sort srt).markStarted.update q Task.reset).SetCurrent (some q)) (tq.index + 1)
        have h2 : (((m.sort srt).markStarted.update q Task.reset).SetCurrent
            (some q)).items.length = (m.sort srt).items.length := by
          simp [SetCurrent, hls]
        omega)
    rw [hls] at hfind
    simp only [hls, hfind]
    exact ⟨q, m1, evs, rfl, hst, hch⟩
  · left
    refine ⟨c, rfl, ?_⟩
    simp only
    rcases htc : (m.sort srt).markStarted.task? c with _ | tc
    · left
      simp [startTask, htc]
    · right
      obtain ⟨m1, evs, hst, hch⟩ := startTask_chain
        ((m.sort srt).items.length + 1) (m.sort srt).markStarted c tc htc
        (by
          have := ahead_le_length (m.sort srt).markStarted (tc.index + 1)
          rw [hls] at this
          omega)
      exact ⟨m1, evs, hst, hch⟩

end Manager

/-! ## What every chain satisfies -/

namespace Manager

theorem task_mem_expand (m : Manager) (p q : Ptr) (evs : List TEvent) (e : TEvent)
    (h : Event.task q e ∈ m.expand p evs) : q = p ∧ e ∈ evs := by
  rcases mem_expandWith _ _ p _ _ h with ⟨e1, h1, h2⟩ | ⟨o, st, h2⟩ | h2
  · injection h2 with h3 h4
    subst h3 h4
    exact ⟨rfl, h1⟩
  · cases h2
  · cases h2

theorem task_mem_ranEvents (m : Manager) (p q : Ptr) (t : Task) (e : TEvent)
    (h : Event.task q e ∈ m.ranEvents p t) : q = p ∧ e ∈ t.Start.2 := by
  rcases mem_ranEvents m p t _ h with ⟨e1, h1, h2⟩ | ⟨o, st, h2⟩ | h2
  · injection h2 with h3 h4
    subst h3 h4
    exact ⟨rfl, h1⟩
  · cases h2
  · cases h2

theorem handlerRuns_completion (m : Manager) : handlerRuns m.completion = [] := by
  unfold completion; split <;> rfl

theorem task_not_mem_completion (m : Manager) (q : Ptr) (e : TEvent) :
    Event.task q e ∉ m.completion := by
  unfold completion; split <;> simp

end Manager
namespace Manager

theorem Chain.Last.task_mem {m : Manager} {p : Ptr} {t : Task} {evs : List Event}
    (h : Chain.Last m p t evs) (q : Ptr) (e : TEvent) (hq : Event.task q e ∈ evs) :
    q = p ∧ e ∈ t.Start.2 := by
  rcases h with rfl | rfl | rfl
  · exact task_mem_expand m p q _ e hq
  · exact task_mem_ranEvents m p q t e hq
  · rcases List.mem_append.1 hq with hq | hq
    · exact task_mem_ranEvents m p q t e hq
    · exact absurd hq (task_not_mem_completion _ q e)

theorem Chain.Last.handlerRuns_eq {m : Manager} {p : Ptr} {t : Task} {evs : List Event}
    (h : Chain.Last m p t evs) : handlerRuns evs = List.replicate (handlerCount t.Start.2) p := by
  rcases h with rfl | rfl | rfl
  · exact handlerRuns_expandWith _ _ p _
  · exact handlerRuns_ranEvents m p t
  · rw [handlerRuns_append, handlerRuns_ranEvents, handlerRuns_completion, List.append_nil]

/-- A chain either ends with the Task it began with, or goes on to the Task
with the next index. -/
theorem Chain.cases {m m1 : Manager} {p : Ptr} {evs : List Event} (h : Chain m p m1 evs) :
    ∃ t, m.task? p = some t ∧
      (Chain.Last m p t evs ∨
       ∃ q m3 rest, t.onRunEnd = true ∧ t.Start.1.err = none ∧
         t.Start.1.executeNextTask = true ∧ (m.ran p t).isStarted = true ∧
         q ∈ m.items ∧ m.indexOf q = some (t.index + 1) ∧
         m3 = (((m.ran p t).update q Task.reset).update p Task.reset).SetCurrent (some q) ∧
         m.Evolves m3 ∧ m3.trace = m.trace ++ m.ranEvents p t ∧ m3.isStarted = true ∧
         Chain m3 q m1 rest ∧ evs = m.ranEvents p t ++ rest) := by
  induction h with
  | alone m p t ht ho => exact ⟨t, ht, Or.inl (Or.inl rfl)⟩
  | failed m p t ht ho he => exact ⟨t, ht, Or.inl (Or.inr (Or.inl rfl))⟩
  | single m p t ht ho he hx => exact ⟨t, ht, Or.inl (Or.inr (Or.inl rfl))⟩
  | stopped m p t ht ho he hx hs => exact ⟨t, ht, Or.inl (Or.inr (Or.inl rfl))⟩
  | complete m p t ht ho he hx hs hc => exact ⟨t, ht, Or.inl (Or.inr (Or.inr rfl))⟩
  | lost m p t ht ho he hx hs hc hq => exact ⟨t, ht, Or.inl (Or.inr (Or.inl rfl))⟩
  | next m p t q m1 evs ht ho he hx hs hc hq hrest _ =>
    have hE := ran_evolves m p t ht
    have hqi2 : (m.ran p t).indexOf q = some (t.index + 1) := by
      simpa using List.find?_some hq
    have hqi : m.indexOf q = some (t.index + 1) := by rw [← hE.indexOf_eq q]; exact hqi2
    have hqmem : q ∈ m.items := by
      rw [← ran_items m p t]
      exact List.mem_of_find?_eq_some hq
    have hE03 : m.Evolves ((((m.ran p t).update q Task.reset).update p Task.reset).SetCurrent
        (some q)) :=
      (evolves_trans hE (next_evolves (m.ran p t) p q)).frame _ rfl rfl rfl rfl rfl rfl rfl
    exact ⟨t, ht, Or.inr ⟨q, _, evs, ho, he, hx, hs, hqmem, hqi, rfl, hE03,
      by simp [SetCurrent, ran_trace], by simp [SetCurrent, hs], hrest, rfl⟩⟩

/-- The state in which the Task with the next index is started. -/
theorem next_facts (m : Manager) (p q : Ptr) (t : Task) (ht : m.task? p = some t)
    (hq : (m.ran p t).items.find?
      (fun q => decide ((m.ran p t).indexOf q = some (t.index + 1))) = some q) :
    m.Evolves ((((m.ran p t).update q Task.reset).update p Task.reset).SetCurrent (some q)) ∧
    m.indexOf q = some (t.index + 1) ∧ q ∈ m.items ∧ q ≠ p ∧
    ∃ u, m.task? q = some u ∧
      ((((m.ran p t).update q Task.reset).update p Task.reset).SetCurrent (some q)).task? q =
        some u.reset := by
  have hE := ran_evolves m p t ht
  have hqi2 : (m.ran p t).indexOf q = some (t.index + 1) := by
    simpa using List.find?_some hq
  have hqi : m.indexOf q = some (t.index + 1) := by rw [← hE.indexOf_eq q]; exact hqi2
  have hqmem : q ∈ m.items := by
    rw [← ran_items m p t]
    exact List.mem_of_find?_eq_some hq
  have hE03 : m.Evolves ((((m.ran p t).update q Task.reset).update p Task.reset).SetCurrent
      (some q)) :=
    (evolves_trans hE (next_evolves (m.ran p t) p q)).frame _ rfl rfl rfl rfl rfl rfl rfl
  have hqp : q ≠ p := by
    intro h
    rw [h] at hqi
    simp [indexOf, ht] at hqi
  obtain ⟨u, hu⟩ : ∃ u, m.task? q = some u := by
    unfold indexOf at hqi
    rcases h : m.task? q with _ | u
    · rw [h] at hqi; cases hqi
    · exact ⟨u, rfl⟩
  refine ⟨hE03, hqi, hqmem, hqp, u, hu, ?_⟩
  have h1 : ((((m.ran p t).update q Task.reset).update p Task.reset).SetCurrent (some q)).task? q
      = ((m.ran p t).update q Task.reset).task? q := by
    have h2 : (((m.ran p t).update q Task.reset).update p Task.reset).task? q =
        ((m.ran p t).update q Task.reset).task? q := by
      rw [task?_update]; simp [hqp]
    exact h2
  rw [h1, task?_update, task?_ran, task?_update]
  simp [hqp, hu]

theorem last_ordered {m : Manager} {p : Ptr} {t : Task} {evs : List Event}
    (ht : m.task? p = some t) (hl : Chain.Last m p t evs) :
    (∀ q e, Event.task q e ∈ evs → ∃ k, m.indexOf q = some k ∧ t.index ≤ k) ∧
    (handlerRuns evs).Pairwise
      (fun a b => ∃ i j, m.indexOf a = some i ∧ m.indexOf b = some j ∧ i ≤ j) := by
  have hip : m.indexOf p = some t.index := by simp [indexOf, ht]
  constructor
  · intro q e h
    obtain ⟨rfl, _⟩ := hl.task_mem q e h
    exact ⟨t.index, hip, le_refl _⟩
  · rw [hl.handlerRuns_eq, List.pairwise_replicate]
    exact Or.inr ⟨t.index, t.index, hip, hip, le_refl _⟩

/-- Every Task call of a chain is a call of a Task whose index is at least
that of the Task it began with, and the Handlers are invoked in the order of
the indices. -/
theorem Chain.ordered {m m1 : Manager} {p : Ptr} {evs : List Event} (h : Chain m p m1 evs) :
    ∃ t, m.task? p = some t ∧
      (∀ q e, Event.task q e ∈ evs → ∃ k, m.indexOf q = some k ∧ t.index ≤ k) ∧
      (handlerRuns evs).Pairwise
        (fun a b => ∃ i j, m.indexOf a = some i ∧ m.indexOf b = some j ∧ i ≤ j) := by
  induction h with
  | alone m p t ht ho => exact ⟨t, ht, last_ordered ht (Or.inl rfl)⟩
  | failed m p t ht ho he => exact ⟨t, ht, last_ordered ht (Or.inr (Or.inl rfl))⟩
  | single m p t ht ho he hx => exact ⟨t, ht, last_ordered ht (Or.inr (Or.inl rfl))⟩
  | stopped m p t ht ho he hx hs => exact ⟨t, ht, last_ordered ht (Or.inr (Or.inl rfl))⟩
  | complete m p t ht ho he hx hs hc => exact ⟨t, ht, last_ordered ht (Or.inr (Or.inr rfl))⟩
  | lost m p t ht ho he hx hs hc hq => exact ⟨t, ht, last_ordered ht (Or.inr (Or.inl rfl))⟩
  | next m p t q m1 evs ht ho he hx hs hc hq hrest ih =>
    obtain ⟨hE03, hqi, _, _, u, hu, hu3⟩ := next_facts m p q t ht hq
    obtain ⟨tq, htq, h1, h2⟩ := ih
    have hidx : tq.index = t.index + 1 := by
      rw [hu3] at htq
      rw [← Option.some.inj htq]
      simp only [indexOf, hu, Option.map_some', Option.some.injEq] at hqi
      simpa [Task.reset] using hqi
    simp only [hE03.indexOf_eq, hidx] at h1 h2
    have hip : m.indexOf p = some t.index := by simp [indexOf, ht]
    have hl := last_ordered ht (Or.inr (Or.inl (rfl : m.ranEvents p t = m.ranEvents p t)))
    refine ⟨t, ht, ?_, ?_⟩
    · intro r e h
      rcases List.mem_append.1 h with h | h
      · exact hl.1 r e h
      · obtain ⟨k, hk1, hk2⟩ := h1 r e h
        exact ⟨k, hk1, by omega⟩
    · rw [handlerRuns_append, List.pairwise_append]
      refine ⟨hl.2, h2, ?_⟩
      intro a ha b hb
      rw [handlerRuns_ranEvents] at ha
      rw [List.eq_of_mem_replicate ha]
      obtain ⟨c, hc⟩ := (mem_handlerRuns _ b).1 hb
      obtain ⟨k, hk1, hk2⟩ := h1 b _ hc
      exact ⟨t.index, k, hip, hk1, by omega⟩

theorem Task.runEnd_status (t : Task) (st : Status) (h : TEvent.runEnd st ∈ t.Start.2) :
    st = t.Start.1.status ∧ t.onRunEnd = true := by
  rcases Task.Start_events t _ h with h1 | ⟨c, h1⟩ | ⟨h1, _⟩ | ⟨h1, h2⟩
  · simp [TEvent.isHook] at h1
  · cases h1
  · cases h1
  · injection h1 with h3
    exact ⟨h3, h2⟩

theorem ran_stopped (m : Manager) (p : Ptr) (t : Task) (h : TEvent.callStop ∈ t.Start.2) :
    (m.ran p t).isStarted = false := by
  rw [ran_isStarted]
  simp [h]

/-- When a running Task calls Stop(), the chain ends with that Task: no
Handler of a Task with a greater index is invoked, onComplete is not called,
the manager is stopped, and the Task keeps the status with which it ended. -/
theorem Chain.stop_ends {m m1 : Manager} {p : Ptr} {evs : List Event} (h : Chain m p m1 evs) :
    ∀ (q : Ptr) (i : Int), m.indexOf q = some i → Event.task q .callStop ∈ evs →
      (∀ r ∈ handlerRuns evs, ∃ k, m.indexOf r = some k ∧ k ≤ i) ∧
      Event.onComplete ∉ evs ∧ m1.isStarted = false ∧
      (∀ st, Event.task q (.runEnd st) ∈ evs → (m1.task? q).map Task.status = some st) := by
  have last : ∀ (m m1 : Manager) (p : Ptr) (t : Task) (evs : List Event),
      m.task? p = some t → Chain.Last m p t evs → Event.onComplete ∉ m.ranEvents p t ++ [] →
      (TEvent.callStop ∈ t.Start.2 → Event.onComplete ∉ evs ∧ m1.isStarted = false) →
      m1.task? p = some t.Start.1 →
      ∀ (q : Ptr) (i : Int), m.indexOf q = some i → Event.task q .callStop ∈ evs →
        (∀ r ∈ handlerRuns evs, ∃ k, m.indexOf r = some k ∧ k ≤ i) ∧
        Event.onComplete ∉ evs ∧ m1.isStarted = false ∧
        (∀ st, Event.task q (.runEnd st) ∈ evs → (m1.task? q).map Task.status = some st) := by
    intro m m1 p t evs ht hl _ hstop hself q i hi hq
    obtain ⟨rfl, hcs⟩ := hl.task_mem q _ hq
    obtain ⟨g1, g2⟩ := hstop hcs
    refine ⟨?_, g1, g2, ?_⟩
    · intro r hr
      rw [hl.handlerRuns_eq] at hr
      rw [List.eq_of_mem_replicate hr]
      exact ⟨i, hi, le_refl _⟩
    · intro st hst
      obtain ⟨_, hst2⟩ := hl.task_mem _ _ hst
      rw [hself, (Task.runEnd_status t st hst2).1]
      rfl
  have hnc : ∀ (m : Manager) (p : Ptr) (t : Task), Event.onComplete ∉ m.ranEvents p t := by
    intro m p t h
    rcases mem_ranEvents m p t _ h with ⟨e1, _, h2⟩ | ⟨o, st, h2⟩ | h2 <;> cases h2
  induction h with
  | alone m p t ht ho =>
    refine last m _ p t _ ht (Or.inl rfl) (by simpa using hnc m p t) ?_ ?_
    · intro hcs
      constructor
      · intro h
        rcases mem_expandWith _ _ p _ _ h with ⟨e1, _, h2⟩ | ⟨o, st, h2⟩ | h2 <;> cases h2
      · rw [absorb_eq]
        simp [hcs]
    · rw [absorb_eq]
      have : (m.update p (fun _ => t.Start.1)).task? p = some t.Start.1 := by
        rw [task?_update]; simp [ht]
      exact this
  | failed m p t ht ho he =>
    exact last m _ p t _ ht (Or.inr (Or.inl rfl)) (by simpa using hnc m p t)
      (fun _ => ⟨hnc m p t, rfl⟩) (task?_ran_self m p t ht)
  | single m p t ht ho he hx =>
    exact last m _ p t _ ht (Or.inr (Or.inl rfl)) (by simpa using hnc m p t)
      (fun _ => ⟨hnc m p t, rfl⟩) (task?_ran_self m p t ht)
  | stopped m p t ht ho he hx hs =>
    exact last m _ p t _ ht (Or.inr (Or.inl rfl)) (by simpa using hnc m p t)
      (fun _ => ⟨hnc m p t, hs⟩) (task?_ran_self m p t ht)
  | complete m p t ht ho he hx hs hc =>
    refine last m _ p t _ ht (Or.inr (Or.inr rfl)) (by simpa using hnc m p t) ?_
      (task?_ran_self m p t ht)
    intro hcs
    rw [ran_stopped m p t hcs] at hs
    cases hs
  | lost m p t ht ho he hx hs hc hq =>
    exact last m _ p t _ ht (Or.inr (Or.inl rfl)) (by simpa using hnc m p t)
      (fun _ => ⟨hnc m p t, rfl⟩) (task?_ran_self m p t ht)
  | next m p t q m1 evs ht ho he hx hs hc hq hrest ih =>
    intro r i hi hr
    obtain ⟨hE03, hqi, _, _, u, hu, hu3⟩ := next_facts m p q t ht hq
    have hip : m.indexOf p = some t.index := by simp [indexOf, ht]
    rcases List.mem_append.1 hr with hr | hr
    · have hcs := (task_mem_ranEvents m p r t _ hr).2
      rw [ran_stopped m p t hcs] at hs
      cases hs
    · obtain ⟨tq, htq, h1, _⟩ := hrest.ordered
      have hidx : tq.index = t.index + 1 := by
        rw [hu3] at htq
        rw [← Option.some.inj htq]
        simp only [indexOf, hu, Option.map_some', Option.some.injEq] at hqi
        simpa [Task.reset] using hqi
      obtain ⟨k, hk1, hk2⟩ := h1 r _ hr
      rw [hE03.indexOf_eq, hi] at hk1
      have hik : i = k := Option.some.inj hk1
      obtain ⟨g1, g2, g3, g4⟩ := ih r i (by rw [hE03.indexOf_eq]; exact hi) hr
      simp only [hE03.indexOf_eq] at g1
      refine ⟨?_, ?_, g3, ?_⟩
      · intro r1 hr1
        rw [handlerRuns_append] at hr1
        rcases List.mem_append.1 hr1 with hr1 | hr1
        · rw [handlerRuns_ranEvents] at hr1
          rw [List.eq_of_mem_replicate hr1]
          exact ⟨t.index, hip, by omega⟩
        · exact g1 r1 hr1
      · intro h1
        rcases List.mem_append.1 h1 with h1 | h1
        · exact hnc m p t h1
        · exact g2 h1
      · intro st hst
        rcases List.mem_append.1 hst with hst | hst
        · obtain ⟨rfl, _⟩ := task_mem_ranEvents m p r t _ hst
          rw [hip] at hi
          have := Option.some.inj hi
          omega
        · exact g4 st hst

/-- Every Task whose calls a chain records is the Task it began with or a
Task of Items. -/
theorem Chain.tasks_mem {m m1 : Manager} {p : Ptr} {evs : List Event} (h : Chain m p m1 evs) :
    ∀ q e, Event.task q e ∈ evs → q = p ∨ q ∈ m.items := by
  induction h with
  | alone m p t ht ho => exact fun q e h => Or.inl (task_mem_expand m p q _ e h).1
  | failed m p t ht ho he => exact fun q e h => Or.inl (task_mem_ranEvents m p q t e h).1
  | single m p t ht ho he hx => exact fun q e h => Or.inl (task_mem_ranEvents m p q t e h).1
  | stopped m p t ht ho he hx hs =>
    exact fun q e h => Or.inl (task_mem_ranEvents m p q t e h).1
  | complete m p t ht ho he hx hs hc =>
    intro q e h
    rcases List.mem_append.1 h with h | h
    · exact Or.inl (task_mem_ranEvents m p q t e h).1
    · exact absurd h (task_not_mem_completion _ q e)
  | lost m p t ht ho he hx hs hc hq =>
    exact fun q e h => Or.inl (task_mem_ranEvents m p q t e h).1
  | next m p t q m1 evs ht ho he hx hs hc hq hrest ih =>
    obtain ⟨hE03, _, hqm, _⟩ := next_facts m p q t ht hq
    intro r e h
    rcases List.mem_append.1 h with h | h
    · exact Or.inl (task_mem_ranEvents m p r t e h).1
    · rcases ih r e h with rfl | h1
      · exact Or.inr hqm
      · rw [hE03.1] at h1
        exact Or.inr h1

/-- Start returns. Either no Task is started, and it records at most the
call of onStart; or it records the call of onStart and then the calls of a
chain, which begins with the current Task, or else with the Task of index 0,
which is then reset and made current. -/
theorem Start_shape (srt : Sorter) (m : Manager) :
    ∃ m1 evs, m.Start srt = some m1 ∧ m1.trace = m.trace ++ evs ∧ (m.sort srt).Evolves m1 ∧
      (((evs = [] ∨ evs = (m.sort srt).starting) ∧
        ((m.sort srt).items = [] ∨
         (∃ c, (m.sort srt).current = some c ∧ (m.sort srt).task? c = none) ∨
         ((m.sort srt).current = none ∧ (m.sort srt).items.find?
            (fun q => decide ((m.sort srt).indexOf q = some 0)) = none))) ∨
       ∃ m0 c body, (m.sort srt).items ≠ [] ∧ evs = (m.sort srt).starting ++ body ∧
         Chain m0 c m1 body ∧ (m.sort srt).Evolves m0 ∧ m0.isStarted = true ∧
         m0.current = some c ∧
         (((m.sort srt).current = some c ∧ m0 = (m.sort srt).markStarted) ∨
          ((m.sort srt).current = none ∧
           (m.sort srt).items.find? (fun q => decide ((m.sort srt).indexOf q = some 0)) = some c ∧
           m0 = ((m.sort srt).markStarted.update c Task.reset).SetCurrent (some c)))) := by
  have str := sort_trace srt m
  have htr2 : (m.sort srt).markStarted.trace = m.trace ++ (m.sort srt).starting := by
    simp [markStarted, starting, str]
  have hE0 : (m.sort srt).Evolves (m.sort srt).markStarted :=
    (evolves_refl _).frame _ rfl rfl rfl rfl rfl rfl rfl
  rcases Start_chain srt m with ⟨hlen, hst⟩ | ⟨hlen, ⟨c, hc, h⟩ | ⟨hc, h⟩⟩
  · exact ⟨_, [], hst, by simp [str], evolves_refl _,
      Or.inl ⟨Or.inl rfl, Or.inl (List.length_eq_zero.1 hlen)⟩⟩
  · rcases h with ⟨htc, hst⟩ | ⟨m1, body, hst, hch⟩
    · exact ⟨_, _, hst, htr2, hE0, Or.inl ⟨Or.inr rfl, Or.inr (Or.inl ⟨c, hc, htc⟩)⟩⟩
    · refine ⟨m1, (m.sort srt).starting ++ body, hst, ?_, evolves_trans hE0 hch.sound.2,
        Or.inr ⟨_, c, body, fun h => hlen (by rw [h]; rfl), rfl, hch, hE0, rfl, hc,
          Or.inl ⟨hc, rfl⟩⟩⟩
      rw [hch.sound.1, htr2, List.append_assoc]
  · rcases h with ⟨hf, hst⟩ | ⟨q, m1, body, hf, hst, hch⟩
    · exact ⟨_, _, hst, htr2, hE0.frame _ rfl rfl rfl rfl rfl rfl rfl,
        Or.inl ⟨Or.inr rfl, Or.inr (Or.inr ⟨hc, hf⟩)⟩⟩
    · have hE : (m.sort srt).Evolves
          (((m.sort srt).markStarted.update q Task.reset).SetCurrent (some q)) :=
        (evolves_trans hE0 (evolves_update _ q Task.reset (fun t _ => Task.reset_kin t))).frame _
          rfl rfl rfl rfl rfl rfl rfl
      refine ⟨m1, (m.sort srt).starting ++ body, hst, ?_, evolves_trans hE hch.sound.2,
        Or.inr ⟨_, q, body, fun h => hlen (by rw [h]; rfl), rfl, hch, hE, ?_, rfl,
          Or.inr ⟨hc, hf, rfl⟩⟩⟩
      · rw [hch.sound.1]
        simp [SetCurrent, htr2, List.append_assoc]
      · simp [SetCurrent, markStarted]

theorem starting_no_task (m : Manager) (q : Ptr) (e : TEvent) :
    Event.task q e ∉ m.starting := by
  unfold starting; split <;> simp

theorem handlerRuns_starting (m : Manager) : handlerRuns m.starting = [] := by
  unfold starting; split <;> rfl

theorem onComplete_not_mem_starting (m : Manager) : Event.onComplete ∉ m.starting := by
  unfold starting; split <;> simp

/-- Start, when a running Task calls Stop(): no Handler of a Task with a
greater index is invoked, onComplete is not called, the manager is stopped
when Start returns, and the Task keeps the status with which it ended. -/
theorem Start_stop_ends (srt : Sorter) (m m1 : Manager) (evs : List Event)
    (hst : m.Start srt = some m1) (htr : m1.trace = m.trace ++ evs) :
    ∀ (p : Ptr) (i : Int), m1.indexOf p = some i → Event.task p .callStop ∈ evs →
      (∀ r ∈ handlerRuns evs, ∃ k, m1.indexOf r = some k ∧ k ≤ i) ∧
      Event.onComplete ∉ evs ∧ m1.isStarted = false ∧
      (∀ st, Event.task p (.runEnd st) ∈ evs → (m1.task? p).map Task.status = some st) := by
  obtain ⟨m2, evs2, hst2, htr2, _, hcase⟩ := Start_shape srt m
  rw [hst] at hst2
  have hm12 : m1 = m2 := Option.some.inj hst2
  subst hm12
  have hev : evs = evs2 := List.append_cancel_left (htr.symm.trans htr2)
  subst hev
  intro p i hi hp
  rcases hcase with ⟨h | h, _⟩ | ⟨m0, c, body, _, hev, hch, _, _, _, _⟩
  · rw [h] at hp; simp at hp
  · rw [h] at hp; exact absurd hp (starting_no_task _ p _)
  · have hE := hch.sound.2
    rw [hev] at hp ⊢
    have hp1 : Event.task p .callStop ∈ body := by
      rcases List.mem_append.1 hp with h | h
      · exact absurd h (starting_no_task _ p _)
      · exact h
    obtain ⟨g1, g2, g3, g4⟩ := hch.stop_ends p i (by rw [← hE.indexOf_eq]; exact hi) hp1
    refine ⟨?_, ?_, g3, ?_⟩
    · intro r hr
      rw [handlerRuns_append, handlerRuns_starting, List.nil_append] at hr
      obtain ⟨k, hk1, hk2⟩ := g1 r hr
      exact ⟨k, by rw [hE.indexOf_eq]; exact hk1, hk2⟩
    · intro h
      rcases List.mem_append.1 h with h | h
      · exact onComplete_not_mem_starting _ h
      · exact g2 h
    · intro st h
      rcases List.mem_append.1 h with h | h
      · exact absurd h (starting_no_task _ p _)
      · exact g4 st h

/-- Start records Task calls of Tasks of Items only, when the current Task,
if designated, is one of them. -/
theorem Start_tasks_mem (srt : Sorter) (m m1 : Manager) (evs : List Event)
    (hcur : ∀ c, (m.sort srt).current = some c → c ∈ (m.sort srt).items)
    (hst : m.Start srt = some m1) (htr : m1.trace = m.trace ++ evs) :
    ∀ q e, Event.task q e ∈ evs → q ∈ m1.items := by
  obtain ⟨m2, evs2, hst2, htr2, hEv, hcase⟩ := Start_shape srt m
  rw [hst] at hst2
  have hm12 : m1 = m2 := Option.some.inj hst2
  subst hm12
  have hev : evs = evs2 := List.append_cancel_left (htr.symm.trans htr2)
  subst hev
  intro q e hq
  rcases hcase with ⟨h | h, _⟩ | ⟨m0, c, body, _, hev, hch, hE0, _, _, hc⟩
  · rw [h] at hq; simp at hq
  · rw [h] at hq; exact absurd hq (starting_no_task _ q _)
  · rw [hev] at hq
    rw [hEv.1]
    have hcm : c ∈ (m.sort srt).items := by
      rcases hc with ⟨hc, _⟩ | ⟨_, hf, _⟩
      · exact hcur c hc
      · exact List.mem_of_find?_eq_some hf
    rcases List.mem_append.1 hq with h | h
    · exact absurd h (starting_no_task _ q _)
    · rcases hch.tasks_mem q e h with rfl | h1
      · exact hcm
      · rw [hE0.1] at h1; exact h1

theorem Indexed.indexOf_position {m : Manager} (hI : m.Indexed) {i : Nat} {p : Ptr}
    (h : m.items[i]? = some p) : m.indexOf p = some (i : Int) := by
  obtain ⟨t, ht, hi, _⟩ := hI i p h
  simp [indexOf, ht, hi]

theorem Indexed.position_of_index {m : Manager} (hI : m.Indexed) {r : Ptr} {k : Int}
    (hr : r ∈ m.items) (hk : m.indexOf r = some k) :
    ∃ j : Nat, (j : Int) = k ∧ m.items[j]? = some r := by
  obtain ⟨j, hj⟩ := List.mem_iff_getElem?.1 hr
  have := hI.indexOf_position hj
  rw [hk] at this
  exact ⟨j, (Option.some.inj this).symm, hj⟩

/-- Start leaves every Task of Items with its position as index, on a
manager whose Items are distinct Tasks added with Add, none of them after
the sort. -/
theorem Start_indexed (srt : Sorter) (hsrt : srt.Valid) (m m1 : Manager)
    (hm : m.Managed) (hidx : m.isSorted = true → m.Indexed)
    (hst : m.Start srt = some m1) : m1.Indexed := by
  obtain ⟨m2, _, hst2, _, hEv, _⟩ := Start_shape srt m
  rw [hst] at hst2
  have hm12 : m1 = m2 := Option.some.inj hst2
  subst hm12
  exact (sort_spec srt hsrt m hm hidx).1.of_evolves hEv

theorem sort_current_mem (srt : Sorter) (hsrt : srt.Valid) (m : Manager)
    (hm : m.Managed) (hidx : m.isSorted = true → m.Indexed)
    (hcur : ∀ c, m.current = some c → c ∈ m.items) :
    ∀ c, (m.sort srt).current = some c → c ∈ (m.sort srt).items := by
  obtain ⟨_, _, scur, _, _, sperm, _⟩ := sort_spec srt hsrt m hm hidx
  intro c hc
  rw [scur] at hc
  exact sperm.mem_iff.2 (hcur c hc)

end Manager

/-! ## The order of Items and of the Handler invocations -/

theorem orderedInsert_keeps_ties (key : Ptr → Int) (a : Ptr) :
    ∀ s : List Ptr, (∀ b ∈ s, a < b) → s.Pairwise (fun x y => key x = key y → x < y) →
      (s.orderedInsert (fun x y => key x ≤ key y) a).Pairwise (fun x y => key x = key y → x < y)
  | [], _, _ => by simp
  | b :: s, hlt, hp => by
    rw [List.orderedInsert]
    split
    · refine List.Pairwise.cons ?_ hp
      intro c hc _
      exact hlt c hc
    · rename_i hab
      have hp' := List.pairwise_cons.1 hp
      refine List.Pairwise.cons ?_ (orderedInsert_keeps_ties key a s
        (fun c hc => hlt c (List.mem_cons_of_mem _ hc)) hp'.2)
      intro c hc
      rcases (List.mem_orderedInsert _).1 hc with rfl | hc
      · intro h
        exact absurd (le_of_eq h.symm) hab
      · exact hp'.1 c hc

theorem Examples.insertionSorter_keepsTies : Examples.insertionSorter.KeepsTies := by
  intro key l
  induction l with
  | nil => intro _; simp [Examples.insertionSorter]
  | cons a l ih =>
    intro h
    have h' := List.pairwise_cons.1 h
    have ih' := ih h'.2
    unfold Examples.insertionSorter at ih' ⊢
    rw [List.insertionSort]
    refine orderedInsert_keeps_ties key a _ ?_ ih'
    intro b hb
    exact h'.1 b ((List.perm_insertionSort _ l).mem_iff.1 hb)

namespace Manager

/-- Start invokes the Handlers in the order of the indices of their Tasks. -/
theorem Start_handlers_ordered (srt : Sorter) (m m1 : Manager) (evs : List Event)
    (hst : m.Start srt = some m1) (htr : m1.trace = m.trace ++ evs) :
    (handlerRuns evs).Pairwise
      (fun a b => ∃ i j, m1.indexOf a = some i ∧ m1.indexOf b = some j ∧ i ≤ j) := by
  obtain ⟨m2, evs2, hst2, htr2, _, hcase⟩ := Start_shape srt m
  rw [hst] at hst2
  have hm12 : m1 = m2 := Option.some.inj hst2
  subst hm12
  have hev : evs = evs2 := List.append_cancel_left (htr.symm.trans htr2)
  subst hev
  rcases hcase with ⟨h | h, _⟩ | ⟨m0, c, body, _, hev, hch, _, _, _, _⟩
  · rw [h]; simp [handlerRuns]
  · rw [h, handlerRuns_starting]; simp
  · have hE := hch.sound.2
    obtain ⟨_, _, _, h2⟩ := hch.ordered
    rw [hev, handlerRuns_append, handlerRuns_starting, List.nil_append]
    simp only [hE.indexOf_eq]
    exact h2

end Manager

/-! ## sort.Sort on a short slice, and on thirteen Tasks -/

/-- On a slice of 2 to 12 elements sort.Sort is insertionSort. -/
theorem GoSort.sort_small (key : Ptr → Int) (d : List Ptr) (h2 : 2 ≤ d.length)
    (h12 : d.length ≤ 12) : GoSort.sort key d = some (GoSort.insertionSort key d 0 d.length) := by
  unfold GoSort.sort
  have h1 : ¬ d.length ≤ 1 := by omega
  simp only [h1, if_false]
  unfold GoSort.pdqsort
  simp [h12]

set_option maxRecDepth 100000 in
/-- sort.Sort on the thirteen Tasks: the Task at position 6 is taken as
pivot and swapped to the front, where it stays. -/
theorem Examples.thirteen_sorted :
    GoSort.sort Examples.thirteen.orderKey Examples.thirteen.Items =
      some [6, 1, 2, 3, 4, 5, 7, 8, 9, 10, 11, 12, 0] := by
  decide

set_option maxRecDepth 100000 in
/-- Start on the thirteen Tasks with sort.Sort: Items() and the Handler
invocations. -/
theorem Examples.thirteen_run :
    (Examples.thirteen.Start goSorter).map (fun m => (m.Items, handlerRuns m.trace)) =
      some ([6, 1, 2, 3, 4, 5, 7, 8, 9, 10, 11, 12, 0],
        [6, 1, 2, 3, 4, 5, 7, 8, 9, 10, 11, 12, 0]) := by
  decide

/-- Start on two Tasks of Order 1 with sort.Sort, which runs its insertion
sort on them: they stay in insertion order. -/
theorem Examples.twoEqual_run :
    ((New.addAll [Examples.okTask 1 1, Examples.okTask 1 1]).Start goSorter).map
      (fun m => (m.Items, handlerRuns m.trace)) = some ([0, 1], [0, 1]) := by
  decide

/-! ## A chain that runs to completion -/

theorem endStatuses_append (a b : List TEvent) :
    endStatuses (a ++ b) = endStatuses a ++ endStatuses b := by
  simp [endStatuses]

theorem runEnds_append (a b : List Event) : runEnds (a ++ b) = runEnds a ++ runEnds b := by
  simp [runEnds]

theorem endStatuses_nil_of (ev : List TEvent) (h : ∀ e ∈ ev, ∀ st, e ≠ .runEnd st) :
    endStatuses ev = [] := by
  unfold endStatuses
  rw [List.filterMap_eq_nil_iff]
  intro e he
  cases e with
  | runEnd st => exact absurd rfl (h _ he st)
  | _ => rfl

namespace Task

/-- Start hands the final status to the end-of-run callback, once, when the
callback is set. -/
theorem Start_endStatuses (t : Task) :
    endStatuses t.Start.2 = if t.onRunEnd then [t.Start.1.status] else [] := by
  by_cases hs : t.status = .success
  · simp only [Start, IsSuccess, hs, decide_True, if_true, onTaskEnd]
    split <;> simp [endStatuses, hs]
  · have h1 : endStatuses t.prologue.2 = [] := endStatuses_nil_of _ (fun e he st h => by
      have := prologue_inPrologue t e he
      rw [h] at this; simp [TEvent.inPrologue] at this)
    have h2 : endStatuses (loop t.prologue.1.Retries.toNat 0 t.prologue.1).2 = [] :=
      endStatuses_nil_of _ (fun e he st h => by
        have := loop_inLoop _ _ _ e he
        rw [h] at this; simp [TEvent.inLoop] at this)
    have h3 : endStatuses (loop t.prologue.1.Retries.toNat 0 t.prologue.1).1.epilogue.2 = [] :=
      endStatuses_nil_of _ (fun e he st h => by
        rcases epilogue_mem _ e he with ⟨x, hx⟩ | ⟨x, hx⟩ | ⟨x, hx⟩ | hx <;>
          rw [h] at hx <;> cases hx)
    have hk : (loop t.prologue.1.Retries.toNat 0 t.prologue.1).1.epilogue.1.onRunEnd =
        t.onRunEnd := by
      have := (Start_kin t).1.2.2.2.2.2.1
      rw [Start_eq t hs] at this
      exact this
    rw [Start_eq t hs]
    simp only [endStatuses_append, h1, h2, h3, List.nil_append, onTaskEnd, hk]
    split <;> simp [endStatuses]

/-- A Task that has been reset and whose Handler succeeds whenever it is
invoked ends without error, and Stop() is not called. -/
theorem Succeeds.run_clean {t : Task} (h : t.Succeeds) (hs : t.status ≠ .success)
    (he : t.err = none) : t.Start.1.err = none ∧ TEvent.callStop ∉ t.Start.2 := by
  constructor
  · obtain ⟨pH, pc, _, _, pe, _, _⟩ := prologue_spec t
    obtain ⟨e1, _⟩ := epilogue_spec (loop t.prologue.1.Retries.toNat 0 t.prologue.1).1
    rw [Start_eq t hs]
    simp only [e1]
    rcases hn : t.prologue.1.Retries.toNat with _ | n
    · simp [loop, pe, he]
    · obtain ⟨a1, a2, _⟩ := attempt_first_ok t.prologue.1 (by rw [pH, pc, h t.calls])
      rw [loop_break _ _ _ a1]
      exact a2
  · intro hc
    rcases Start_events t _ hc with h1 | ⟨c, h1⟩ | ⟨_, c, h1⟩ | ⟨h1, _⟩
    · simp [TEvent.isHook] at h1
    · cases h1
    · rw [h c] at h1; cases h1
    · cases h1

theorem Succeeds.congr_kin {a b : Task} (h : b.Succeeds) (k : Kin a b) : a.Succeeds := by
  intro n; rw [k.1]; exact h n

end Task

namespace Manager

theorem runEnds_statusChange (p : Ptr) (st : Status) : ∀ obs : List Nat,
    runEnds (obs.map (fun o => Event.statusChange o p st)) = []
  | [] => rfl
  | o :: os => by
    have ih := runEnds_statusChange p st os
    simp only [runEnds, List.map_cons, List.filterMap_cons] at ih ⊢
    exact ih

theorem runEnds_cons_task (p : Ptr) (e : TEvent) (tr : List Event) :
    runEnds (Event.task p e :: tr) = (endStatuses [e]).map (fun st => (p, st)) ++ runEnds tr := by
  cases e <;> simp [runEnds, endStatuses]

theorem runEnds_expandWith (obs : List Nat) (onStop : Bool) (p : Ptr) :
    ∀ evs : List TEvent,
      runEnds (expandWith obs onStop p evs) = (endStatuses evs).map (fun st => (p, st))
  | [] => rfl
  | e :: es => by
    have ih := runEnds_expandWith obs onStop p es
    have hends : endStatuses (e :: es) = endStatuses [e] ++ endStatuses es :=
      endStatuses_append [e] es
    rw [hends, List.map_append, ← ih]
    cases onStop <;> cases e <;>
      simp only [expandWith, List.cons_append, List.nil_append, runEnds_cons_task,
        runEnds_append, runEnds_statusChange, if_true, if_false, Bool.false_eq_true]
    all_goals rfl

/-- The run of a managed Task ends with one call of the end-of-run callback. -/
theorem runEnds_ranEvents (m : Manager) (p : Ptr) (t : Task) (ho : t.onRunEnd = true) :
    runEnds (m.ranEvents p t) = [(p, t.Start.1.status)] := by
  unfold ranEvents expand
  rw [runEnds_append, runEnds_expandWith, runEnds_statusChange, Task.Start_endStatuses]
  simp [ho]

theorem Task.Start_ok_status (t : Task) (he : t.Start.1.err = none) :
    t.Start.1.status = .success := by
  by_cases hs : t.status = .success
  · simp [Task.Start, Task.IsSuccess, hs]
  · rcases Task.Start_outcome t hs with ⟨a, _⟩ | ⟨_, b⟩
    · exact a
    · rw [he] at b; cases b

theorem completion_eq_of_evolves {m m1 : Manager} (h : m.Evolves m1) :
    m1.completion = m.completion := by
  unfold completion; rw [h.2.2.2.2.1]

theorem onStart_not_mem_ranEvents (m : Manager) (p : Ptr) (t : Task) :
    Event.onStart ∉ m.ranEvents p t := by
  intro h
  rcases mem_ranEvents m p t _ h with ⟨e1, _, h2⟩ | ⟨o, st, h2⟩ | h2 <;> cases h2

theorem onComplete_not_mem_ranEvents (m : Manager) (p : Ptr) (t : Task) :
    Event.onComplete ∉ m.ranEvents p t := by
  intro h
  rcases mem_ranEvents m p t _ h with ⟨e1, _, h2⟩ | ⟨o, st, h2⟩ | h2 <;> cases h2

/-- A chain from the Task at position `j`, on a started manager whose
current Task it is: when the run of that Task ends without error and without
a call of Stop(), and the Handlers of the Tasks at the later positions
succeed, every Task from position `j` on runs to its end, in the order of
Items and with status success, onComplete is called at the very end, the
manager is no longer started and the current Task is the last of Items. -/
theorem Chain.completes {m m1 : Manager} {p : Ptr} {evs : List Event} (h : Chain m p m1 evs) :
    ∀ j : Nat, m.Indexed → m.items[j]? = some p → m.isStarted = true → m.current = some p →
      (∀ t, m.task? p = some t →
        t.Start.1.err = none ∧ t.executeNextTask = true ∧ TEvent.callStop ∉ t.Start.2) →
      (∀ (k : Nat) (q : Ptr) (u : Task), j < k → m.items[k]? = some q → m.task? q = some u →
        u.Succeeds) →
      ∃ body, evs = body ++ m.completion ∧ Event.onComplete ∉ body ∧ Event.onStart ∉ body ∧
        (runEnds body).map Prod.fst = m.items.drop j ∧
        (∀ x ∈ runEnds body, x.2 = Status.success) ∧
        m1.isStarted = false ∧ m1.current = m.items.getLast? ∧
        ∃ t tail, m.task? p = some t ∧ body = m.ranEvents p t ++ tail := by
  induction h with
  | alone m p t ht ho =>
    intro j hI hj _ _ _ _
    obtain ⟨t1, ht1, _, hr⟩ := hI j p hj
    rw [ht] at ht1
    rw [← Option.some.inj ht1, ho] at hr
    cases hr
  | failed m p t ht ho he =>
    intro j _ _ _ _ hclean _
    rw [(hclean t ht).1] at he
    cases he
  | single m p t ht ho he hx =>
    intro j _ _ _ _ hclean _
    rw [(Task.Start_kin t).2, (hclean t ht).2.1] at hx
    cases hx
  | stopped m p t ht ho he hx hs =>
    intro j _ _ hst _ hclean _
    rw [ran_isStarted, hst] at hs
    have := (hclean t ht).2.2
    simp [this] at hs
  | complete m p t ht ho he hx hs hc =>
    intro j hI hj hst hcur _ _
    obtain ⟨t1, ht1, hidx, _⟩ := hI j p hj
    rw [ht] at ht1
    have hti : t.index = (j : Int) := by rw [Option.some.inj ht1]; exact hidx
    have hjlt : j < m.items.length := by
      rcases Nat.lt_or_ge j m.items.length with h1 | h1
      · exact h1
      · rw [List.getElem?_eq_none h1] at hj; cases hj
    rw [ran_items, hti] at hc
    have hjl : j = m.items.length - 1 := by omega
    refine ⟨m.ranEvents p t, ?_, onComplete_not_mem_ranEvents m p t,
      onStart_not_mem_ranEvents m p t, ?_, ?_, rfl, ?_⟩
    · rw [completion_eq_of_evolves (ran_evolves m p t ht)]
    · rw [runEnds_ranEvents m p t ho, List.drop_eq_getElem_cons hjlt,
        List.drop_eq_nil_of_le (by omega)]
      have : m.items[j] = p := by
        have h1 := List.getElem?_eq_getElem hjlt
        rw [hj] at h1
        exact (Option.some.inj h1).symm
      simp [this]
    · rw [runEnds_ranEvents m p t ho]
      intro x hx
      rw [List.mem_singleton.1 hx]
      exact Task.Start_ok_status t he
    · refine ⟨?_, t, [], ht, by simp⟩
      show (m.ran p t).current = _
      rw [ran_current, hcur, List.getLast?_eq_getElem?, ← hjl, hj]
  | lost m p t ht ho he hx hs hc hq =>
    intro j hI hj _ _ _ _
    exfalso
    obtain ⟨t1, ht1, hidx, _⟩ := hI j p hj
    rw [ht] at ht1
    have hti : t.index = (j : Int) := by rw [Option.some.inj ht1]; exact hidx
    rw [ran_items, hti] at hc
    obtain ⟨q, hq1⟩ : ∃ q, m.items[j + 1]? = some q := exists_getElem?_of_lt (by omega)
    rw [List.find?_eq_none] at hq
    have hmem : q ∈ (m.ran p t).items := by
      rw [ran_items]; exact List.mem_iff_getElem?.2 ⟨_, hq1⟩
    apply hq q hmem
    rw [(ran_evolves m p t ht).indexOf_eq, hI.indexOf_position hq1, hti]
    simp
  | next m p t q m1 evs ht ho he hx hs hc hq hrest ih =>
    intro j hI hj hst hcur hclean hlater
    obtain ⟨hE03, hqi, hqm, hqp, u, hu, hu3⟩ := next_facts m p q t ht hq
    obtain ⟨t1, ht1, hidx, _⟩ := hI j p hj
    rw [ht] at ht1
    have hti : t.index = (j : Int) := by rw [Option.some.inj ht1]; exact hidx
    obtain ⟨j', hj1, hj2⟩ := hI.position_of_index hqm hqi
    have hjj : j' = j + 1 := by omega
    subst hjj
    have hsu : u.Succeeds := hlater (j + 1) q u (by omega) hj2 hu
    obtain ⟨body, hev, hnc, hns, hends, hall, hstop, hlast, _⟩ := ih (j + 1)
      (hI.of_evolves hE03) (by rw [hE03.1]; exact hj2) (by simp [SetCurrent, hs]) rfl
      (by
        intro tq htq
        rw [hu3] at htq
        rw [← Option.some.inj htq]
        have hr : u.reset.Succeeds := fun n => hsu n
        obtain ⟨r1, r2⟩ := hr.run_clean (by simp [Task.reset]) rfl
        exact ⟨r1, rfl, r2⟩)
      (by
        intro k q' u' hk hq' hu'
        obtain ⟨u0, hu0, kin⟩ := hE03.back hu'
        rw [hE03.1] at hq'
        exact (hlater k q' u0 (by omega) hq' hu0).congr_kin kin)
    have hjlt : j < m.items.length := by
      rcases Nat.lt_or_ge j m.items.length with h1 | h1
      · exact h1
      · rw [List.getElem?_eq_none h1] at hj; cases hj
    have hpj : m.items[j] = p := by
      have h1 := List.getElem?_eq_getElem hjlt
      rw [hj] at h1
      exact (Option.some.inj h1).symm
    refine ⟨m.ranEvents p t ++ body, ?_, ?_, ?_, ?_, ?_, hstop, ?_⟩
    · rw [hev, completion_eq_of_evolves hE03, List.append_assoc]
    · intro h1
      rcases List.mem_append.1 h1 with h1 | h1
      · exact onComplete_not_mem_ranEvents m p t h1
      · exact hnc h1
    · intro h1
      rcases List.mem_append.1 h1 with h1 | h1
      · exact onStart_not_mem_ranEvents m p t h1
      · exact hns h1
    · rw [runEnds_append, List.map_append, hends, runEnds_ranEvents m p t ho, hE03.1,
        List.drop_eq_getElem_cons hjlt, hpj]
      rfl
    · rw [runEnds_append, runEnds_ranEvents m p t ho]
      intro x hx
      rcases List.mem_append.1 hx with hx | hx
      · rw [List.mem_singleton.1 hx]
        exact Task.Start_ok_status t he
      · exact hall x hx
    · exact ⟨by rw [hlast, hE03.1], t, body, ht, rfl⟩

/-- Start on a sorted manager with a current Task: when the run of that
Task ends without error and without a call of Stop(), and the Handlers of
the Tasks at the later positions succeed, the chain runs from the current
Task to the last one. -/
theorem Start_completes_resume (srt : Sorter) (m m1 : Manager) (evs : List Event)
    (hst : m.Start srt = some m1) (htr : m1.trace = m.trace ++ evs)
    (hI : (m.sort srt).Indexed) (j : Nat) (c : Ptr) (hj : (m.sort srt).items[j]? = some c)
    (hc : (m.sort srt).current = some c)
    (hclean : ∀ t, (m.sort srt).task? c = some t →
      t.Start.1.err = none ∧ t.executeNextTask = true ∧ TEvent.callStop ∉ t.Start.2)
    (hlater : ∀ (k : Nat) (q : Ptr) (u : Task), j < k → (m.sort srt).items[k]? = some q →
      (m.sort srt).task? q = some u → u.Succeeds) :
    ∃ body, evs = (m.sort srt).starting ++ body ++ (m.sort srt).completion ∧
      Event.onComplete ∉ body ∧ Event.onStart ∉ body ∧
      (runEnds body).map Prod.fst = (m.sort srt).items.drop j ∧
      (∀ x ∈ runEnds body, x.2 = Status.success) ∧
      m1.isStarted = false ∧ m1.current = (m.sort srt).items.getLast? ∧
      ∃ t tail, (m.sort srt).task? c = some t ∧ body = (m.sort srt).ranEvents c t ++ tail := by
  obtain ⟨m2, evs2, hst2, htr2, _, hcase⟩ := Start_shape srt m
  rw [hst] at hst2
  have hm12 : m1 = m2 := Option.some.inj hst2
  subst hm12
  have hev : evs = evs2 := List.append_cancel_left (htr.symm.trans htr2)
  subst hev
  obtain ⟨t, ht, _, _⟩ := hI j c hj
  rcases hcase with ⟨_, h | ⟨c', h1, h2⟩ | ⟨h, _⟩⟩ | ⟨m0, c', body, _, hev, hch, _, _, _, hc'⟩
  · rw [h] at hj; simp at hj
  · rw [hc] at h1
    rw [← Option.some.inj h1, ht] at h2
    cases h2
  · rw [hc] at h; cases h
  · rcases hc' with ⟨h1, h2⟩ | ⟨h1, _⟩
    swap
    · rw [hc] at h1; cases h1
    rw [hc] at h1
    have hcc : c = c' := Option.some.inj h1
    subst hcc
    subst h2
    obtain ⟨b, hb, g1, g2, g3, g4, g5, g6, g7⟩ := hch.completes j (hI.congr rfl rfl) hj rfl hc
      hclean hlater
    refine ⟨b, ?_, g1, g2, g3, g4, g5, g6, g7⟩
    rw [hev, hb, List.append_assoc]
    rfl

/-- Start on a sorted manager without current Task and whose Handlers all
succeed: the chain runs from the first Task of Items to the last one. -/
theorem Start_completes_fresh (srt : Sorter) (m m1 : Manager) (evs : List Event)
    (hst : m.Start srt = some m1) (htr : m1.trace = m.trace ++ evs)
    (hI : (m.sort srt).Indexed) (hne : (m.sort srt).items ≠ [])
    (hc : (m.sort srt).current = none)
    (hall : ∀ (q : Ptr) (u : Task), (m.sort srt).task? q = some u → u.Succeeds) :
    ∃ body, evs = (m.sort srt).starting ++ body ++ (m.sort srt).completion ∧
      Event.onComplete ∉ body ∧ Event.onStart ∉ body ∧
      (runEnds body).map Prod.fst = (m.sort srt).items ∧
      (∀ x ∈ runEnds body, x.2 = Status.success) ∧
      m1.isStarted = false ∧ m1.current = (m.sort srt).items.getLast? := by
  obtain ⟨m2, evs2, hst2, htr2, _, hcase⟩ := Start_shape srt m
  rw [hst] at hst2
  have hm12 : m1 = m2 := Option.some.inj hst2
  subst hm12
  have hev : evs = evs2 := List.append_cancel_left (htr.symm.trans htr2)
  subst hev
  obtain ⟨q0, hq0⟩ : ∃ q, (m.sort srt).items[0]? = some q :=
    exists_getElem?_of_lt (List.length_pos.2 hne)
  rcases hcase with ⟨_, h | ⟨c', h1, _⟩ | ⟨_, h⟩⟩ | ⟨m0, c, body, _, hev, hch, hE0, hs0, hc0, hc'⟩
  · exact absurd h hne
  · rw [hc] at h1; cases h1
  · exfalso
    rw [List.find?_eq_none] at h
    apply h q0 (List.mem_iff_getElem?.2 ⟨_, hq0⟩)
    rw [hI.indexOf_position hq0]
    simp
  · rcases hc' with ⟨h1, _⟩ | ⟨_, hf, h2⟩
    · rw [hc] at h1; cases h1
    have hci : (m.sort srt).indexOf c = some 0 := by simpa using List.find?_some hf
    obtain ⟨j, hj1, hj2⟩ := hI.position_of_index (List.mem_of_find?_eq_some hf) hci
    have hj0 : j = 0 := by omega
    subst hj0
    obtain ⟨t, ht, _, _⟩ := hI 0 c hj2
    have htc : m0.task? c = some t.reset := by
      rw [h2]
      have : ((m.sort srt).markStarted.update c Task.reset).task? c = some t.reset := by
        rw [task?_update]
        simp only [if_true]
        have : (m.sort srt).markStarted.task? c = some t := ht
        rw [this]; rfl
      exact this
    obtain ⟨b, hb, g1, g2, g3, g4, g5, g6, _⟩ := hch.completes 0 (hI.of_evolves hE0)
      (by rw [hE0.1]; exact hj2) hs0 hc0
      (by
        intro tq htq
        rw [htc] at htq
        rw [← Option.some.inj htq]
        have hr : t.reset.Succeeds := fun n => hall c t ht n
        obtain ⟨r1, r2⟩ := hr.run_clean (by simp [Task.reset]) rfl
        exact ⟨r1, rfl, r2⟩)
      (by
        intro k q' u' _ _ hu'
        obtain ⟨u0, hu0, kin⟩ := hE0.back hu'
        exact (hall q' u0 hu0).congr_kin kin)
    refine ⟨b, ?_, g1, g2, ?_, g4, g5, ?_⟩
    · rw [hev, hb, List.append_assoc, completion_eq_of_evolves hE0]
    · rw [g3, hE0.1]; rfl
    · rw [g6, hE0.1]

end Manager

/-! ## Resuming a chain -/

namespace Manager

/-- A chain that begins with a managed Task records the run of that Task
first; what follows are calls of Tasks with a greater index. -/
theorem Chain.head {m m1 : Manager} {p : Ptr} {evs : List Event} (h : Chain m p m1 evs) :
    ∀ t, m.task? p = some t → t.onRunEnd = true →
      ∃ rest, evs = m.ranEvents p t ++ rest ∧
        ∀ q e, Event.task q e ∈ rest → ∃ k, m.indexOf q = some k ∧ t.index < k := by
  have same : ∀ {m : Manager} {p : Ptr} {t t' : Task}, m.task? p = some t →
      m.task? p = some t' → t = t' := by
    intro m p t t' h1 h2
    rw [h1] at h2
    exact Option.some.inj h2
  induction h with
  | alone m p t ht ho =>
    intro t' ht' ho'
    rw [← same ht ht', ho] at ho'
    cases ho'
  | failed m p t ht ho he =>
    intro t' ht' _
    rw [← same ht ht']
    exact ⟨[], by simp, by simp⟩
  | single m p t ht ho he hx =>
    intro t' ht' _
    rw [← same ht ht']
    exact ⟨[], by simp, by simp⟩
  | stopped m p t ht ho he hx hs =>
    intro t' ht' _
    rw [← same ht ht']
    exact ⟨[], by simp, by simp⟩
  | complete m p t ht ho he hx hs hc =>
    intro t' ht' _
    rw [← same ht ht']
    exact ⟨_, rfl, fun q e h => absurd h (task_not_mem_completion _ q e)⟩
  | lost m p t ht ho he hx hs hc hq =>
    intro t' ht' _
    rw [← same ht ht']
    exact ⟨[], by simp, by simp⟩
  | next m p t q m1 evs ht ho he hx hs hc hq hrest _ =>
    intro t' ht' _
    rw [← same ht ht']
    obtain ⟨hE03, hqi, _, _, u, hu, hu3⟩ := next_facts m p q t ht hq
    obtain ⟨tq, htq, h1, _⟩ := hrest.ordered
    have hidx : tq.index = t.index + 1 := by
      rw [hu3] at htq
      rw [← Option.some.inj htq]
      simp only [indexOf, hu, Option.map_some', Option.some.injEq] at hqi
      simpa [Task.reset] using hqi
    refine ⟨evs, rfl, ?_⟩
    intro r e h
    obtain ⟨k, hk1, hk2⟩ := h1 r e h
    rw [hE03.indexOf_eq] at hk1
    exact ⟨k, hk1, by omega⟩

/-- A chain in which a Task ends in fail, begun with the current Task, whose
executeNextTask is set: the failed Task is the current Task afterwards, its
status is fail and its executeNextTask is set. -/
theorem Chain.fail_state {m m1 : Manager} {p0 : Ptr} {evs : List Event}
    (h : Chain m p0 m1 evs) :
    m.current = some p0 → (∀ t, m.task? p0 = some t → t.executeNextTask = true) →
    ∀ p, Event.task p (.runEnd .fail) ∈ evs →
      m1.current = some p ∧
      ∃ u, m1.task? p = some u ∧ u.executeNextTask = true ∧ u.status = .fail := by
  have last : ∀ (m m1 : Manager) (p0 : Ptr) (t : Task) (evs : List Event),
      m.task? p0 = some t → Chain.Last m p0 t evs → m1.current = m.current →
      m1.task? p0 = some t.Start.1 →
      m.current = some p0 → (∀ t, m.task? p0 = some t → t.executeNextTask = true) →
      ∀ p, Event.task p (.runEnd .fail) ∈ evs →
        m1.current = some p ∧
        ∃ u, m1.task? p = some u ∧ u.executeNextTask = true ∧ u.status = .fail := by
    intro m m1 p0 t evs ht hl hcur hself hc hx p hp
    obtain ⟨rfl, hp2⟩ := hl.task_mem p _ hp
    refine ⟨hcur.trans hc, t.Start.1, hself, ?_, ?_⟩
    · rw [(Task.Start_kin t).2]; exact hx t ht
    · exact (Task.runEnd_status t _ hp2).1.symm
  induction h with
  | alone m p t ht ho =>
    refine last m _ p t _ ht (Or.inl rfl) ?_ ?_
    · rw [absorb_eq]; simp
    · rw [absorb_eq]
      have : (m.update p (fun _ => t.Start.1)).task? p = some t.Start.1 := by
        rw [task?_update]; simp [ht]
      exact this
  | failed m p t ht ho he =>
    exact last m _ p t _ ht (Or.inr (Or.inl rfl)) (ran_current m p t) (task?_ran_self m p t ht)
  | single m p t ht ho he hx =>
    exact last m _ p t _ ht (Or.inr (Or.inl rfl)) (ran_current m p t) (task?_ran_self m p t ht)
  | stopped m p t ht ho he hx hs =>
    exact last m _ p t _ ht (Or.inr (Or.inl rfl)) (ran_current m p t) (task?_ran_self m p t ht)
  | complete m p t ht ho he hx hs hc =>
    exact last m _ p t _ ht (Or.inr (Or.inr rfl)) (ran_current m p t) (task?_ran_self m p t ht)
  | lost m p t ht ho he hx hs hc hq =>
    exact last m _ p t _ ht (Or.inr (Or.inl rfl)) (ran_current m p t) (task?_ran_self m p t ht)
  | next m p t q m1 evs ht ho he hx hs hc hq hrest ih =>
    intro _ _ r hr
    obtain ⟨_, _, _, _, u, hu, hu3⟩ := next_facts m p q t ht hq
    rcases List.mem_append.1 hr with hr | hr
    · have h1 := Task.Start_runEnd_fail t (task_mem_ranEvents m p r t _ hr).2
      rw [he] at h1
      cases h1
    · refine ih rfl ?_ r hr
      intro tq htq
      rw [hu3] at htq
      rw [← Option.some.inj htq]
      rfl

theorem sort_isSorted (srt : Sorter) (m : Manager) : (m.sort srt).isSorted = true := by
  by_cases hs : m.isSorted = true
  · rw [sort_sorted srt m hs]; exact hs
  · rw [sort_unsorted srt m (by simpa using hs)]

/-- Start, when a Task ends in fail, on a manager whose current Task, if
designated, has executeNextTask set: afterwards the failed Task is the
current Task, its status is fail and its executeNextTask is set. -/
theorem Start_fail_state (srt : Sorter) (m m1 : Manager) (evs : List Event)
    (hst : m.Start srt = some m1) (htr : m1.trace = m.trace ++ evs)
    (hx : ∀ c t, (m.sort srt).current = some c → (m.sort srt).task? c = some t →
      t.executeNextTask = true) :
    ∀ p, Event.task p (.runEnd .fail) ∈ evs →
      m1.current = some p ∧
      ∃ u, m1.task? p = some u ∧ u.executeNextTask = true ∧ u.status = .fail := by
  obtain ⟨m2, evs2, hst2, htr2, _, hcase⟩ := Start_shape srt m
  rw [hst] at hst2
  have hm12 : m1 = m2 := Option.some.inj hst2
  subst hm12
  have hev : evs = evs2 := List.append_cancel_left (htr.symm.trans htr2)
  subst hev
  intro p hp
  rcases hcase with ⟨h | h, _⟩ | ⟨m0, c, body, _, hev, hch, _, _, hc0, hc'⟩
  · rw [h] at hp; simp at hp
  · rw [h] at hp; exact absurd hp (starting_no_task _ p _)
  · rw [hev] at hp
    have hp1 : Event.task p (.runEnd .fail) ∈ body := by
      rcases List.mem_append.1 hp with h | h
      · exact absurd h (starting_no_task _ p _)
      · exact h
    refine hch.fail_state hc0 ?_ p hp1
    intro t ht
    rcases hc' with ⟨h1, h2⟩ | ⟨_, _, h2⟩
    · subst h2
      exact hx c t h1 ht
    · subst h2
      have h3 : ((m.sort srt).markStarted.update c Task.reset).task? c = some t := ht
      rw [task?_update] at h3
      simp only [if_true] at h3
      obtain ⟨w, _, rfl⟩ := Option.map_eq_some'.1 h3
      rfl

/-- Start on a sorted manager with a current Task records onStart, then the
run of the current Task, then calls of Tasks at later positions only. -/
theorem Start_resume_head (srt : Sorter) (m m1 : Manager) (evs : List Event)
    (hst : m.Start srt = some m1) (htr : m1.trace = m.trace ++ evs)
    (hI : (m.sort srt).Indexed) (j : Nat) (c : Ptr) (hj : (m.sort srt).items[j]? = some c)
    (hc : (m.sort srt).current = some c) (t : Task) (ht : (m.sort srt).task? c = some t) :
    ∃ rest, evs = (m.sort srt).starting ++ (m.sort srt).ranEvents c t ++ rest ∧
      ∀ q e, Event.task q e ∈ rest → ∃ k, j < k ∧ (m.sort srt).items[k]? = some q := by
  obtain ⟨m2, evs2, hst2, htr2, _, hcase⟩ := Start_shape srt m
  rw [hst] at hst2
  have hm12 : m1 = m2 := Option.some.inj hst2
  subst hm12
  have hev : evs = evs2 := List.append_cancel_left (htr.symm.trans htr2)
  subst hev
  obtain ⟨t1, ht1, hidx, hrun⟩ := hI j c hj
  rw [ht] at ht1
  have ht1' : t = t1 := Option.some.inj ht1
  subst ht1'
  rcases hcase with ⟨_, h | ⟨c', h1, h2⟩ | ⟨h, _⟩⟩ | ⟨m0, c', body, _, hev, hch, hE0, _, _, hc'⟩
  · rw [h] at hj; simp at hj
  · rw [hc] at h1
    rw [← Option.some.inj h1, ht] at h2
    cases h2
  · rw [hc] at h; cases h
  · rcases hc' with ⟨h1, h2⟩ | ⟨h1, _⟩
    swap
    · rw [hc] at h1; cases h1
    rw [hc] at h1
    have hcc : c = c' := Option.some.inj h1
    subst hcc
    subst h2
    obtain ⟨rest, hr1, hr2⟩ := hch.head t ht hrun
    refine ⟨rest, ?_, ?_⟩
    · rw [hev, hr1, List.append_assoc]
      rfl
    · intro q e hq
      obtain ⟨k, hk1, hk2⟩ := hr2 q e hq
      have hqm : q ∈ (m.sort srt).items := by
        rcases hch.tasks_mem q e (by rw [hr1]; exact List.mem_append_right _ hq) with rfl | h
        · exact List.mem_iff_getElem?.2 ⟨_, hj⟩
        · exact h
      obtain ⟨k', hk3, hk4⟩ := hI.position_of_index hqm hk1
      exact ⟨k', by omega, hk4⟩

/-- The Task objects of the sorted manager are those of the manager, each
with an index assigned. -/
theorem sort_task_back (srt : Sorter) (hsrt : srt.Valid) (m : Manager)
    (hm : m.Managed) (hidx : m.isSorted = true → m.Indexed) (p : Ptr) (u : Task)
    (hu : (m.sort srt).task? p = some u) :
    ∃ t i, m.task? p = some t ∧ u = { t with index := i } := by
  obtain ⟨_, _, _, _, _, _, _, slen, stask⟩ := sort_spec srt hsrt m hm hidx
  have hlt : p < m.heap.length := by
    rw [← slen]
    rcases Nat.lt_or_ge p (m.sort srt).heap.length with h | h
    · exact h
    · unfold task? at hu
      rw [List.getElem?_eq_none h] at hu; cases hu
  have h0 : m.task? p = some m.heap[p] := by
    unfold task?
    exact List.getElem?_eq_getElem hlt
  obtain ⟨i, hi⟩ := stask p _ h0
  rw [hu] at hi
  exact ⟨_, i, h0, Option.some.inj hi⟩

end Manager

/-! ## The claims -/

/-- C1 at a Task with Retries = -1: Orders 3, 1, 2 are added in that order
and all Handlers succeed; Start sorts the Tasks as 1, 2, 3 but invokes only
the Handlers of Orders 2 and 3, never the one of the Task of Order 1 (its
Handler has 0 invocations), whose run it ends with status success. -/
theorem C1_negative_retries_handler_not_invoked :
    (Examples.chainNegative.Start Examples.insertionSorter).map
      (fun m => (m.Items.map (orderAt [Examples.okTask 3 1, Examples.okTask 1 (-1),
          Examples.okTask 2 1]),
        (handlerRuns m.trace).map (orderAt [Examples.okTask 3 1, Examples.okTask 1 (-1),
          Examples.okTask 2 1]),
        (m.task? 1).map Task.calls,
        decide (Event.task 1 (.runEnd .success) ∈ m.trace))) =
      some ([1, 2, 3], [2, 3], some 0, true) := by
  decide

/-- C2: Start returns from every manager state. If a Task ends in fail
during the call, every Handler invoked in the call belongs to a Task whose
index (the sorted position by which the chain advances) is at most that of
the failed Task, so no Task after it is started; onComplete is not called;
and IsStarted() is false when Start returns. When Items holds distinct
Tasks added with Add, none of them after the sort, and the current Task is
one of them, the index of every Task is its position in Items(), and the
same holds by position: the Task at position i ends in fail, and no Handler
of a Task at a position greater than i is invoked. -/
theorem C2_failed_task_stops_chain (srt : Sorter) (m : Manager) :
    ∃ m1 evs, m.Start srt = some m1 ∧ m1.trace = m.trace ++ evs ∧
      (∀ (p : Ptr) (i : Int), m1.indexOf p = some i →
        Event.task p (.runEnd .fail) ∈ evs →
        (∀ r ∈ handlerRuns evs, ∃ k, m1.indexOf r = some k ∧ k ≤ i) ∧
        Event.onComplete ∉ evs ∧ m1.IsStarted = false) ∧
      (srt.Valid → m.Managed → (m.isSorted = true → m.Indexed) →
        (∀ c, m.current = some c → c ∈ m.items) →
        m1.Indexed ∧
        ∀ (i : Nat) (p : Ptr), m1.Items[i]? = some p →
          Event.task p (.runEnd .fail) ∈ evs →
          (∀ r ∈ handlerRuns evs, ∃ k, k ≤ i ∧ m1.Items[k]? = some r) ∧
          Event.onComplete ∉ evs ∧ m1.IsStarted = false) := by
  obtain ⟨m1, evs, hst, htr, hany⟩ := Manager.Start_failure_any srt m
  refine ⟨m1, evs, hst, htr, hany, ?_⟩
  intro hsrt hm hidx hcur
  obtain ⟨m2, evs2, hst2, htr2, hI, hpos⟩ := Start_failure_by_position srt hsrt m hm hidx hcur
  rw [hst] at hst2
  have hm12 : m1 = m2 := Option.some.inj hst2
  subst hm12
  have hev : evs = evs2 := List.append_cancel_left (htr.symm.trans htr2)
  subst hev
  exact ⟨hI, hpos⟩

/-- C2, instance: Orders 3, 1, 2 where the Task of Order 2 (sorted position
1) fails: the Handlers invoked are those of positions 0 and 1, onComplete is
not called and the manager is stopped. -/
theorem C2_witness :
    (Examples.chainFailing.Start Examples.insertionSorter).map
      (fun m => (m.Items, handlerRuns m.trace,
        decide (Event.task 2 (.runEnd .fail) ∈ m.trace),
        decide (Event.onComplete ∈ m.trace), m.IsStarted)) =
      some ([1, 2, 0], [1, 2, 2], true, false, false) ∧
    ∃ m1 evs, Examples.chainFailing.Start Examples.insertionSorter = some m1 ∧
      m1.trace = Examples.chainFailing.trace ++ evs ∧ m1.Indexed ∧
      ∀ (i : Nat) (p : Ptr), m1.Items[i]? = some p →
        Event.task p (.runEnd .fail) ∈ evs →
        (∀ r ∈ handlerRuns evs, ∃ k, k ≤ i ∧ m1.Items[k]? = some r) ∧
        Event.onComplete ∉ evs ∧ m1.IsStarted = false :=
  ⟨by decide, by
    obtain ⟨m1, evs, hst, htr, _, hpos⟩ :=
      C2_failed_task_stops_chain Examples.insertionSorter Examples.chainFailing
    obtain ⟨hI, h⟩ := hpos Examples.insertionSorter_valid
      (by unfold Manager.Managed; decide) (fun h => absurd h (by decide))
      (fun c h => Option.noConfusion (h : (none : Option Ptr) = some c))
    exact ⟨m1, evs, hst, htr, hI, h⟩⟩

/-- C3: a Task that is not in status success, has no RetryCondition and
whose Handler fails on its next k invocations (k < Retries) and succeeds on
the one after: Start invokes the Handler exactly k+1 times and ends with
status success, Error() nil and Attempts() = k+1. -/
theorem C3_succeeds_after_k_failures (t : Task) (k : Nat) (hs : t.status ≠ .success)
    (hc : t.RetryCondition = none) (hk : (k : Int) < t.Retries)
    (hfail : ∀ j < k, (t.Handler (t.calls + j)).result ≠ none)
    (hok : (t.Handler (t.calls + k)).result = none) :
    handlerCount t.Start.2 = k + 1 ∧ t.Start.1.Status = .success ∧
    t.Start.1.Error = none ∧ t.Start.1.Attempts = k + 1 := by
  rw [Task.Start_eq t hs]
  obtain ⟨pH, pc, pC, pa, _, pR, ph⟩ := Task.prologue_spec t
  have hR : t.prologue.1.Retries = t.Retries := by
    rw [pR]; split <;> omega
  obtain ⟨l1, l2, _, l4⟩ := Task.loop_succeeds_after k t.prologue.1.Retries.toNat 0
    t.prologue.1 (by rw [pC, hc]) (by omega) (by simpa [pH, pc] using hfail)
    (by simpa [pH, pc] using hok)
  obtain ⟨e1, e2, _, e4, e5⟩ :=
    Task.epilogue_spec (Task.loop t.prologue.1.Retries.toNat 0 t.prologue.1).1
  simp only [Task.Status, Task.Error, Task.Attempts, handlerCount_append, ph, l4, e5,
    Task.handlerCount_onTaskEnd, e1, l1, e2, l2, pa, e4]
  simp

/-- C3, instance: Retries = 3 and a Handler that fails twice, then succeeds. -/
theorem C3_witness :
    handlerCount Examples.failTwice.Start.2 = 3 ∧
    Examples.failTwice.Start.1.Status = .success ∧
    Examples.failTwice.Start.1.Error = none ∧ Examples.failTwice.Start.1.Attempts = 3 :=
  C3_succeeds_after_k_failures Examples.failTwice 2 (by decide) rfl (by decide) (by decide)
    (by decide)

/-- C4 as stated fails: with Retries = 3, a Handler that fails and a
RetryCondition that refuses, Attempts() is 2 when Start returns, not 1. -/
theorem C4_counterexample :
    Examples.vetoed.status ≠ .success ∧ 2 ≤ Examples.vetoed.Retries ∧
    (Examples.vetoed.Handler Examples.vetoed.calls).result = some "boom" ∧
    (∃ rc, Examples.vetoed.RetryCondition = some rc ∧ rc "boom" 1 = false) ∧
    handlerCount Examples.vetoed.Start.2 = 1 ∧
    Examples.vetoed.Start.1.Attempts = 2 ∧ ¬ Examples.vetoed.Start.1.Attempts = 1 :=
  ⟨by decide, by decide, by decide, ⟨fun _ _ => false, rfl, rfl⟩, by decide, by decide,
    by decide⟩

/-- C4, amended: a Task that is not in status success with Retries >= 2,
whose Handler fails on its next invocation and whose RetryCondition refuses
that error: Start invokes the Handler exactly once and ends with status fail,
Error() the first error and Attempts() = 2 (the refused pass is counted). -/
theorem C4_veto_after_first_failure (t : Task) (e : Err) (rc : Err → Int → Bool)
    (hs : t.status ≠ .success) (hR : 2 ≤ t.Retries)
    (hfail : (t.Handler t.calls).result = some e)
    (hrc : t.RetryCondition = some rc) (hveto : rc e 1 = false) :
    handlerCount t.Start.2 = 1 ∧ t.Start.1.Status = .fail ∧
    t.Start.1.Error = some e ∧ t.Start.1.Attempts = 2 := by
  rw [Task.Start_eq t hs]
  obtain ⟨pH, pc, pC, pa, _, pR, ph⟩ := Task.prologue_spec t
  have hR' : t.prologue.1.Retries = t.Retries := by
    rw [pR]; split <;> omega
  obtain ⟨n, hn⟩ : ∃ n, t.prologue.1.Retries.toNat = n + 2 :=
    ⟨t.prologue.1.Retries.toNat - 2, by omega⟩
  rw [hn]
  obtain ⟨f1, f2, f3, _, f5⟩ := Task.attempt_first_fail t.prologue.1 e (by rw [pH, pc]; exact hfail)
  have hs0 := Task.attempt_same t.prologue.1 0
  obtain ⟨v1, v2, v3, _, v5⟩ := Task.attempt_veto (t.prologue.1.attempt 0).1 (0 + 1) e rc
    (by omega) (by rw [hs0.2.1, pC, hrc]) f2 (by simpa using hveto)
  rw [Task.loop_continue _ _ _ f1, Task.loop_break _ _ _ v1]
  obtain ⟨e1, e2, _, e4, e5⟩ :=
    Task.epilogue_spec ((t.prologue.1.attempt 0).1.attempt (0 + 1)).1
  simp only [Task.Status, Task.Error, Task.Attempts, handlerCount_append, ph, e5,
    Task.handlerCount_onTaskEnd, e1, e2, e4, v2, v3, v5, f3, f5, pa]
  simp

/-- C4 amended, instance: the refusing Task of the counterexample. -/
theorem C4_witness :
    handlerCount Examples.vetoed.Start.2 = 1 ∧ Examples.vetoed.Start.1.Status = .fail ∧
    Examples.vetoed.Start.1.Error = some "boom" ∧ Examples.vetoed.Start.1.Attempts = 2 :=
  C4_veto_after_first_failure Examples.vetoed "boom" (fun _ _ => false) (by decide)
    (by decide) (by decide) rfl rfl

/-- C5, at Retries = -1: Start leaves Retries at -1, never invokes the
Handler, reports status success and Attempts() is 0, below the claimed 1. -/
theorem C5_negative_retries :
    Examples.negativeRetries.status ≠ .success ∧ Examples.negativeRetries.Retries = -1 ∧
    Examples.negativeRetries.Start.1.Retries = -1 ∧
    Examples.negativeRetries.Start.1.Attempts = 0 ∧
    handlerCount Examples.negativeRetries.Start.2 = 0 ∧
    Examples.negativeRetries.Start.1.Status = .success := by
  decide

/-- C6: a Task that is not in status success, has no RetryCondition,
Retries = R >= 1 and a Handler that fails on each of its next R invocations:
Start invokes the Handler exactly R times and ends with Attempts() = R,
status fail and Error() the error of the last invocation. -/
theorem C6_retries_exhausted (t : Task) (hs : t.status ≠ .success)
    (hc : t.RetryCondition = none) (hR : 1 ≤ t.Retries)
    (hfail : ∀ j < t.Retries.toNat, (t.Handler (t.calls + j)).result ≠ none) :
    handlerCount t.Start.2 = t.Retries.toNat ∧ t.Start.1.Attempts = t.Retries ∧
    t.Start.1.Status = .fail ∧
    t.Start.1.Error = (t.Handler (t.calls + (t.Retries.toNat - 1))).result ∧
    t.Start.1.Error ≠ none := by
  rw [Task.Start_eq t hs]
  obtain ⟨pH, pc, pC, pa, _, pR, ph⟩ := Task.prologue_spec t
  have hR' : t.prologue.1.Retries = t.Retries := by
    rw [pR]; split <;> omega
  obtain ⟨l1, _, l3, l4⟩ := Task.loop_always_fails t.prologue.1.Retries.toNat 0
    t.prologue.1 (by rw [pC, hc]) (by simpa [pH, pc, hR'] using hfail)
  have l4' := l4 (by omega)
  obtain ⟨e1, e2, _, e4, e5⟩ :=
    Task.epilogue_spec (Task.loop t.prologue.1.Retries.toNat 0 t.prologue.1).1
  have hne : (t.Handler (t.calls + (t.Retries.toNat - 1))).result ≠ none :=
    hfail _ (by omega)
  simp only [Task.Status, Task.Error, Task.Attempts, handlerCount_append, ph, l3, e5,
    Task.handlerCount_onTaskEnd, e1, e2, l1, pa, e4, l4', pH, pc]
  rw [hR']
  refine ⟨by simp, by omega, ?_, rfl, hne⟩
  simp [hne]

/-- C6, instance: Retries = 3 and a Handler whose third error is "last". -/
theorem C6_witness :
    handlerCount Examples.alwaysFail.Start.2 = 3 ∧ Examples.alwaysFail.Start.1.Attempts = 3 ∧
    Examples.alwaysFail.Start.1.Status = .fail ∧
    Examples.alwaysFail.Start.1.Error = some "last" :=
  have h := C6_retries_exhausted Examples.alwaysFail (by decide) rfl (by decide) (by decide)
  ⟨h.1, h.2.1, h.2.2.1, h.2.2.2.1⟩

/-- C7: when Once(name) finds a Task, it returns; the only Handler
invoked is that of the Task found, every other Task object is exactly as
before, Items() is unchanged and Current() is the same as before the call
(whether the isolated Task succeeds or fails). -/
theorem C7_once_runs_only_the_named_task (m : Manager) (name : String) (p : Ptr)
    (hp : m.Get name = some p) :
    ∃ m1 err evs, m.Once name = some (m1, err) ∧ m1.Current = m.Current ∧
      m1.trace = m.trace ++ evs ∧ (∀ r ∈ handlerRuns evs, r = p) ∧
      Event.onComplete ∉ evs ∧ m1.Items = m.Items ∧
      (∀ q, q ≠ p → m1.task? q = m.task? q) := by
  obtain ⟨t, ht⟩ : ∃ t, m.task? p = some t := by
    have h1 := List.find?_some hp
    rcases h : m.task? p with _ | t
    · simp [h] at h1
    · exact ⟨t, rfl⟩
  have ht2 : ((m.update p Task.reset).update p
      (fun t => { t with executeNextTask := false })).task? p =
      some { t.reset with executeNextTask := false } := by
    rw [Manager.task?_update, Manager.task?_update]
    simp [ht]
  obtain ⟨m3, evs, hst, htr, hcur, hit, hruns, hnc, hoth, _, _⟩ :=
    Manager.startTask_isolated 0 _ p _ ht2 rfl
  simp only [Manager.Once, hp, hst]
  refine ⟨_, _, evs, rfl, ?_, ?_, hruns, hnc, ?_, ?_⟩
  · simp [Manager.Current, hcur]
  · simp [htr]
  · simp [Manager.Items, hit]
  · intro q hq
    have h1 : ∀ (m0 : Manager) (f : Task → Task), (m0.update p f).task? q = m0.task? q := by
      intro m0 f
      rw [Manager.task?_update]
      simp [hq]
    rw [h1, hoth q hq, h1, h1]

/-- C7, instance: Tasks "a", "b", "c" with "b" current; Once("c") invokes
the Handler of "c" only and "b" is still current. -/
theorem C7_witness :
    (Examples.chainNamed.Once "c").map
      (fun r => (r.1.Current, handlerRuns r.1.trace, r.2)) = some (some 1, [2], none) ∧
    ∃ m1 err evs, Examples.chainNamed.Once "c" = some (m1, err) ∧
      m1.Current = Examples.chainNamed.Current ∧
      m1.trace = Examples.chainNamed.trace ++ evs ∧ (∀ r ∈ handlerRuns evs, r = 2) ∧
      Event.onComplete ∉ evs ∧ m1.Items = Examples.chainNamed.Items ∧
      (∀ q, q ≠ 2 → m1.task? q = Examples.chainNamed.task? q) :=
  ⟨by decide, C7_once_runs_only_the_named_task Examples.chainNamed "c" 2 (by decide)⟩

namespace Workman

/-- C8: Add fails without touching the registry or the event bus whenever
no factory is registered, Init returns an error, the ID returned by Init is
the GetID() of a registered Worker, or Boot returns an error: it returns an
error, and the workers (content, order, size) and the dispatched events are
as before. -/
theorem C8_add_is_atomic_on_failure (m : Manager) (index : Int) (data : Config)
    (fileName : List String)
    (hfail : m.workerBuilder = none ∨
      ∃ builder, m.workerBuilder = some builder ∧
        (((builder m.built).InitResult data fileName).2 ≠ none ∨
         (∃ w ∈ m.workers, w.GetID = ((builder m.built).InitResult data fileName).1) ∨
         (builder m.built).BootResult ≠ none)) :
    (∃ err, (m.Add index data fileName).2 = .error err) ∧
    (m.Add index data fileName).1.workers = m.workers ∧
    (m.Add index data fileName).1.workers.length = m.workers.length ∧
    (m.Add index data fileName).1.events = m.events := by
  have hinitEq : ∀ w : Worker, (w.Init data fileName).2 = w.InitResult data fileName :=
    fun _ => rfl
  rcases hfail with hb | ⟨builder, hb, hcase⟩
  · simp [Manager.Add, hb]
  · rcases hinit : ((builder m.built).InitResult data fileName).2 with _ | e
    swap
    · simp [Manager.Add, hb, hinitEq, hinit]
    by_cases hdup : (m.workers.find?
        (fun wk => decide (wk.GetID = ((builder m.built).InitResult data fileName).1))).isSome
          = true
    · simp [Manager.Add, Manager.Get, hb, hinitEq, hinit, hdup]
    rcases hboot : (builder m.built).BootResult with _ | e
    swap
    · simp [Manager.Add, Manager.Get, hb, hinitEq, hinit, hdup, Worker.Boot,
        Worker.RegisterListeners, Worker.SetLogger, Worker.SetCache, Worker.SetClient,
        Worker.SetTaskManager, Worker.SetIndex, Worker.Init, hboot]
    exfalso
    rcases hcase with h | ⟨w, hw, hid⟩ | h
    · exact h hinit
    · apply hdup
      rcases hg : m.workers.find?
          (fun wk => decide (wk.GetID = ((builder m.built).InitResult data fileName).1)) with _ | x
      · rw [List.find?_eq_none] at hg
        exact absurd (by simpa using hid) (hg w hw)
      · rw [hg]; rfl
    · exact h hboot

/-- C8, instance: the factory makes a worker whose Init yields the id of
the registered worker. -/
theorem C8_witness :
    (∃ err, (Examples.duplicating.Add 5 [] ["w1.json"]).2 = .error err) ∧
    (Examples.duplicating.Add 5 [] ["w1.json"]).1.workers = Examples.duplicating.workers ∧
    (Examples.duplicating.Add 5 [] ["w1.json"]).1.workers.length =
      Examples.duplicating.workers.length ∧
    (Examples.duplicating.Add 5 [] ["w1.json"]).1.events = Examples.duplicating.events :=
  C8_add_is_atomic_on_failure Examples.duplicating 5 [] ["w1.json"]
    (Or.inr ⟨fun _ => Examples.worker "w1", rfl,
      Or.inr (Or.inl ⟨Examples.worker "w1", by simp [Examples.duplicating], rfl⟩)⟩)

/-- C9: when the glob of the workers directory yields no file, Load returns
an error and the manager is as before: same registry, the factory has not
been called, no event has been dispatched. -/
theorem C9_load_without_files (fs : FS) (wsort : WSorter) (m : Manager)
    (hglob : fs.glob (pathJoin [m.rootPath, m.workersDir, "*" ++ m.workersExt]) = .ok []) :
    (m.Load fs wsort).2 = some ("no worker file found at " ++ m.RootPath) ∧
    (m.Load fs wsort).1 = m ∧
    (m.Load fs wsort).1.workers = m.workers ∧ (m.Load fs wsort).1.built = m.built ∧
    (m.Load fs wsort).1.events = m.events := by
  simp [Manager.Load, hglob]

/-- C9, instance: a registry of one worker and an empty directory. -/
theorem C9_witness :
    (Examples.duplicating.Load Examples.emptyDir Examples.workerSorter).2 =
      some ("no worker file found at " ++ Examples.duplicating.RootPath) ∧
    (Examples.duplicating.Load Examples.emptyDir Examples.workerSorter).1 =
      Examples.duplicating ∧
    (Examples.duplicating.Load Examples.emptyDir Examples.workerSorter).1.workers =
      Examples.duplicating.workers ∧
    (Examples.duplicating.Load Examples.emptyDir Examples.workerSorter).1.built =
      Examples.duplicating.built ∧
    (Examples.duplicating.Load Examples.emptyDir Examples.workerSorter).1.events =
      Examples.duplicating.events :=
  C9_load_without_files Examples.emptyDir Examples.workerSorter Examples.duplicating rfl


end Workman

/-- C10: Start on a Task whose status is success only invokes the
end-of-run callback: the Task is as before (status, Error(), Attempts(),
Message, Retries and every other field), and the calls made are those of
the callback, one call when a manager has set it; no Handler, OnStart,
OnRetry, OnError or OnSuccess is invoked. -/
theorem C10_start_on_success_is_noop (t : Task) (hs : t.status = .success) :
    t.Start = (t, t.onTaskEnd) ∧
    (t.onRunEnd = true → t.Start.2 = [TEvent.runEnd .success]) ∧
    (t.onRunEnd = false → t.Start.2 = []) ∧
    (∀ e ∈ t.Start.2, e = TEvent.runEnd .success) ∧
    t.Start.1.Start = t.Start := by
  have h : t.Start = (t, t.onTaskEnd) := by simp [Task.Start, Task.IsSuccess, hs]
  rw [h]
  refine ⟨rfl, ?_, ?_, ?_, h⟩
  · intro ho; simp [Task.onTaskEnd, ho, hs]
  · intro ho; simp [Task.onTaskEnd, ho]
  · intro e he
    unfold Task.onTaskEnd at he
    split at he <;> simp_all

/-- C10, instance: a Task in status success with the callback set. -/
theorem C10_witness :
    Examples.done.Start.1.status = .success ∧ Examples.done.Start.1.attempts = 1 ∧
    Examples.done.Start.2 = [TEvent.runEnd .success] :=
  have h := C10_start_on_success_is_noop Examples.done rfl
  ⟨by rw [h.1]; rfl, by rw [h.1]; rfl, h.2.1 rfl⟩

/-- C11: For every Task that is not in status success, when Start()
returns the status is success if and only if Error() is nil, and fail
otherwise, so IsDone() holds and IsSuccess() = !IsError(). Of the hooks
OnSuccess and OnError, the one that matches the outcome has been called
exactly once when the user set it (once per user function behind the field,
which is none for nil), OnError with the final error, and the other one has
not been called. -/
theorem C11_final_status_and_outcome_hook (t : Task) (h : t.Status ≠ .success) :
    (t.Start.1.Status = .success ↔ t.Start.1.Error = none) ∧
    (t.Start.1.Error ≠ none → t.Start.1.Status = .fail) ∧
    t.Start.1.IsDone = true ∧ t.Start.1.IsSuccess = !t.Start.1.IsError ∧
    onSuccessCalls t.Start.2 = (if t.Start.1.Error = none then t.OnSuccess.users else 0) ∧
    onErrorCalls t.Start.2 =
      (match t.Start.1.Error with
        | some e => List.replicate t.OnError.users e
        | none => []) := by
  have hs : t.status ≠ .success := h
  obtain ⟨h1, h2⟩ := Task.Start_outcome_hooks t hs
  refine ⟨?_, ?_, ?_, ?_, h2, h1⟩ <;>
    rcases Task.Start_outcome t hs with ⟨a, b⟩ | ⟨a, b⟩ <;>
    simp_all [Task.Status, Task.Error, Task.IsDone, Task.IsSuccess, Task.IsError]
  all_goals
    intro hn; rw [hn] at b; cases b

/-- C11 at a Task whose Handler fails three times and whose OnError and
OnSuccess are set: status fail, OnError called once with the last error,
OnSuccess not called. -/
theorem C11_witness :
    Examples.alwaysFailHooked.Start.1.Status = .fail ∧
    Examples.alwaysFailHooked.Start.1.Error = some "last" ∧
    onSuccessCalls Examples.alwaysFailHooked.Start.2 = 0 ∧
    onErrorCalls Examples.alwaysFailHooked.Start.2 = ["last"] :=
  have h := C11_final_status_and_outcome_hook Examples.alwaysFailHooked (by decide)
  have he : Examples.alwaysFailHooked.Start.1.Error = some "last" := by decide
  ⟨h.2.1 (by rw [he]; simp), he, by rw [h.2.2.2.2.1, he]; rfl, by rw [h.2.2.2.2.2, he]; rfl⟩

namespace Workman

/-- C19: When a factory is registered, Init succeeds with an ID that no
registered Worker has, and Boot succeeds, Add(index, cfg, path) returns the
Worker with a nil error. The registry is the old one with that Worker
appended, exactly one EventWorkerAddRemove event is dispatched, with Added
set and carrying that Worker, its Index() is `index`, it holds a fresh
TaskManager, a client, and a cache and a logger rooted under the cache path,
and the calls it received are Init, the setters, RegisterListeners and then
Boot, in that order. -/
theorem C19_add_registers_worker (m : Manager) (builder : Nat → Worker) (index : Int)
    (data : Config) (fileName : List String)
    (hb : m.workerBuilder = some builder)
    (hinit : ((builder m.built).InitResult data fileName).2 = none)
    (hnew : ∀ w ∈ m.workers, w.GetID ≠ ((builder m.built).InitResult data fileName).1)
    (hboot : (builder m.built).BootResult = none) :
    ∃ w, (m.Add index data fileName).2 = .ok w ∧
      (m.Add index data fileName).1.workers = m.workers ++ [w] ∧
      (m.Add index data fileName).1.events = m.events ++ [.addRemove true false w] ∧
      w.GetID = (builder m.built).GetID ∧ w.Index = index ∧
      w.taskManager = some Simpkg.New ∧ w.client = true ∧
      w.cache = some (pathJoin [m.CachePath, "_workers", w.GetID]) ∧
      w.logger = some (pathJoin [m.CachePath, "_workers", w.GetID]) ∧
      w.log = (builder m.built).log ++
        [.Init data fileName, .SetIndex index, .SetTaskManager, .SetClient,
         .SetCache (pathJoin [m.CachePath, "_workers", w.GetID]),
         .SetLogger (pathJoin [m.CachePath, "_workers", w.GetID]),
         .RegisterListeners, .Boot] := by
  have hinitEq : ∀ w : Worker, (w.Init data fileName).2 = w.InitResult data fileName :=
    fun _ => rfl
  have hdup : ¬ ∃ x ∈ m.workers, x.ID = ((builder m.built).InitResult data fileName).1 := by
    rintro ⟨x, hx, h⟩
    exact hnew x hx h
  simp [Manager.Add, Manager.Get, hb, hinitEq, hinit, hdup, Worker.Boot,
    Worker.RegisterListeners, Worker.SetLogger, Worker.SetCache, Worker.SetClient,
    Worker.SetTaskManager, Worker.SetIndex, Worker.Init, hboot, Worker.GetID, Worker.Index,
    Manager.CachePath, Manager.RootPath]

/-- C19 at a registry holding "w1" whose factory makes "w2" and whose root
path is "/srv/": the registry becomes "w1", "w2", one event is dispatched,
and the cache and the logger of the new Worker are rooted at
"/srv/cache/_workers/w2". -/
theorem C19_witness :
    ((Examples.registry.Add 4 [] ["w2.json"]).1.workers.map Worker.GetID = ["w1", "w2"]) ∧
    (Examples.registry.Add 4 [] ["w2.json"]).1.events.length = 1 ∧
    Examples.registry.RootPath = "/srv/" ∧
    (Examples.registry.Add 4 [] ["w2.json"]).1.workers.map Worker.cache =
      [none, some "/srv/cache/_workers/w2"] ∧
    (Examples.registry.Add 4 [] ["w2.json"]).1.workers.map Worker.logger =
      [none, some "/srv/cache/_workers/w2"] :=
  match C19_add_registers_worker Examples.registry (fun _ => Examples.worker "w2") 4 []
      ["w2.json"] rfl rfl (by simp [Examples.registry, Examples.worker, Worker.GetID]) rfl with
  | ⟨w, _, h2, h3, h4, _, _, _, h8, h9, _⟩ =>
    have hp : pathJoin [Examples.registry.CachePath, "_workers", w.GetID] =
        "/srv/cache/_workers/w2" := by
      rw [h4]; decide
    ⟨by rw [h2]; simp [h4, Examples.registry]; exact ⟨rfl, rfl⟩,
     by rw [h3]; simp [Examples.registry],
     rfl,
     by
      rw [hp] at h8
      rw [h2]
      simp [h8, Examples.registry, Examples.worker],
     by
      rw [hp] at h9
      rw [h2]
      simp [h9, Examples.registry, Examples.worker]⟩

/-- C20: Remove(id) returns true for every id. If some registered Worker
has GetID() = id, the first such Worker receives Stop() once and is taken
out, the other Workers keep their relative order, and exactly one
EventWorkerAddRemove event is dispatched, with Removed set and carrying it;
if no Worker has that id, the manager is as before: same registry, no
event. -/
theorem C20_remove_first_match (m : Manager) (id : String) :
    (m.Remove id).2 = true ∧
    (∀ (front back : List Worker) (w : Worker), m.workers = front ++ w :: back →
      (∀ a ∈ front, a.GetID ≠ id) → w.GetID = id →
        (m.Remove id).1 = { m with workers := front ++ back,
                                   events := m.events ++ [.addRemove false true w.Stop] } ∧
        w.Stop.log = w.log ++ [.Stop]) ∧
    ((∀ w ∈ m.workers, w.GetID ≠ id) → (m.Remove id).1 = m) := by
  refine ⟨?_, ?_, ?_⟩
  · unfold Manager.Remove
    rcases hr : Manager.removeFirst id m.workers with ⟨ws, _ | wk⟩ <;> rfl
  · intro front back w hm hfront hw
    have := removeFirst_found id w back hw front hfront
    rw [← hm] at this
    simp [Manager.Remove, this, Worker.Stop]
  · intro h
    simp [Manager.Remove, removeFirst_absent id m.workers h]

/-- C20 at a registry "w1", "w2", "w1": Remove("w1") takes out the first
one only. -/
theorem C20_witness :
    (Examples.threeWorkers.Remove "w1").2 = true ∧
    (Examples.threeWorkers.Remove "w1").1.workers.map Worker.Index = [0, 9] ∧
    (Examples.threeWorkers.Remove "w1").1.events.length = 1 :=
  have h := C20_remove_first_match Examples.threeWorkers "w1"
  have h2 := h.2.1 [] [Examples.worker "w2", { Examples.worker "w1" with index := 9 }]
    (Examples.worker "w1") rfl (by simp) rfl
  ⟨h.1, by rw [h2.1]; rfl, by rw [h2.1]; rfl⟩

end Workman

/-- C17: When no Task of Items() has the name, Once(name) returns the
error "task not found" and the manager and its Tasks are as before (no call
is recorded). Otherwise it resets the first Task in list order whose Name is
the name, runs it, and returns that Task's Error() after the run: nil exactly
when the Task ended in status success, and else the result of the last
Handler invocation of that run. -/
theorem C17_once_result (m : Manager) (name : String) :
    ((∀ q ∈ m.Items, (m.task? q).map (fun u => u.Name) ≠ some name) →
      m.Once name = some (m, some "task not found")) ∧
    (∀ (front back : List Ptr) (p : Ptr) (t : Task), m.Items = front ++ p :: back →
      (∀ q ∈ front, (m.task? q).map (fun u => u.Name) ≠ some name) →
      m.task? p = some t → t.Name = name →
      ∃ m1 err ran, m.Once name = some (m1, err) ∧
        ran = ({ t.reset with executeNextTask := false } : Task).Start.1 ∧
        m1.task? p = some { ran with executeNextTask := true } ∧
        err = ran.Error ∧
        (err = none ↔ ran.Status = .success) ∧
        (∀ e, err = some e → ran.Status = .fail ∧ t.calls < ran.calls ∧
          (t.Handler (ran.calls - 1)).result = some e)) := by
  refine ⟨fun h => ?_, ?_⟩
  · simp [Manager.Once, Manager.Get_none m name h]
  · intro front back p t hi hf ht hn
    have hp := Manager.Get_first m name front back p t hi hf ht hn
    have ht2 : ((m.update p Task.reset).update p
        (fun t => { t with executeNextTask := false })).task? p =
        some { t.reset with executeNextTask := false } := by
      rw [Manager.task?_update, Manager.task?_update]
      simp [ht]
    obtain ⟨m3, evs, hst, _, _, _, _, _, _, hself, _⟩ :=
      Manager.startTask_isolated 0 _ p _ ht2 rfl
    have hs : ({ t.reset with executeNextTask := false } : Task).status ≠ .success := by
      simp [Task.reset]
    have hout := Task.Start_outcome _ hs
    have hlast := Task.Start_last_error _ hs rfl
    obtain ⟨ran, hran⟩ : ∃ ran, ran = ({ t.reset with executeNextTask := false } : Task).Start.1 :=
      ⟨_, rfl⟩
    rw [← hran] at hself hout hlast
    have hm4 : (m3.update p (fun t => { t with executeNextTask := true })).task? p =
        some { ran with executeNextTask := true } := by
      rw [Manager.task?_update]; simp [hself]
    refine ⟨m3.update p (fun t => { t with executeNextTask := true }), ran.err, ran, ?_, hran,
      hm4, rfl, ?_, ?_⟩
    · simp only [Manager.Once, hp, hst, hm4]
      rfl
    · rcases hout with ⟨a, b⟩ | ⟨a, b⟩
      · simp [a, b, Task.Status]
      · simp only [Task.Status, a]
        constructor
        · intro h; rw [h] at b; cases b
        · intro h; cases h
    · intro e he
      refine ⟨?_, hlast e he⟩
      rcases hout with ⟨a, b⟩ | ⟨a, b⟩
      · rw [b] at he; cases he
      · exact a

/-- C17 at Tasks "a", "b", "b" whose first "b" fails with "first" and then
with "second": Once("b") runs the first "b" and returns "second";
Once("z") returns "task not found". -/
theorem C17_witness :
    Examples.chainDuplicateName.Once "z" =
      some (Examples.chainDuplicateName, some "task not found") ∧
    (Examples.chainDuplicateName.Once "b").map (fun r => (r.2, handlerRuns r.1.trace)) =
      some (some "second", [1, 1]) ∧
    ∃ m1 err ran, Examples.chainDuplicateName.Once "b" = some (m1, err) ∧
        ran = ({ (Examples.namedFailing "b").added.reset with
                  executeNextTask := false } : Task).Start.1 ∧
        m1.task? 1 = some { ran with executeNextTask := true } ∧
        err = ran.Error ∧
        (err = none ↔ ran.Status = .success) ∧
        (∀ e, err = some e → ran.Status = .fail ∧
          (Examples.namedFailing "b").added.calls < ran.calls ∧
          ((Examples.namedFailing "b").added.Handler (ran.calls - 1)).result = some e) :=
  ⟨(C17_once_result Examples.chainDuplicateName "z").1 (by decide), by decide,
   (C17_once_result Examples.chainDuplicateName "b").2 [0] [2] 1
     (Examples.namedFailing "b").added rfl (by decide) rfl rfl⟩

/-- C14: Start() on a fresh manager, whose list is empty, fires no
callback and leaves items, current and isStarted as they were, but it sets
isSorted. With Tasks of Order 2 and of Order 1 added afterwards, the next
Start() leaves Items() in insertion order (Orders 2, 1), invokes the Handler
of the first Task only, does not fire onComplete, and returns with
IsStarted() = false. -/
theorem C14_empty_start_marks_sorted :
    New.isSorted = false ∧
    (New.Start Examples.insertionSorter).map
      (fun m => (m.isSorted, m.Items, m.Current, m.IsStarted, m.trace)) =
      some (true, [], none, false, []) ∧
    (Examples.addedAfterEmptyStart.bind (Manager.Start Examples.insertionSorter)).map
      (fun m => (m.Items, m.Items.map m.orderKey, handlerRuns m.trace,
        decide (Event.onComplete ∈ m.trace), m.IsStarted)) =
      some ([0, 1], [2, 1], [0], false, false) := by
  refine ⟨by decide, by decide, by decide⟩

/-- C18: Add composes the Task's OnStart and OnRetry with the broadcast
to the status observers, it does not replace them. For every Task that is
not yet managed and whose OnStart and OnRetry the user set, the Task added
to a manager makes, when started, the calls of the Task alone, in the same
order and with the same arguments, every call of OnStart and of OnRetry(err,
index) being preceded by a broadcast, and at the end the end-of-run
callback; the manager records a broadcast as one call of every observer
with the Task, in registration order; and the run begins with the status
start, the broadcast and the user's OnStart, which is called once. -/
theorem C18_add_composes_hooks (u : Task) (hS : u.OnStart = .user) (hR : u.OnRetry = .user)
    (hE : u.onRunEnd = false) (obs : List Nat) (onStop : Bool) (p : Ptr) :
    u.added.Start.2 = wrapCalls ({ u with status := .pending } : Task).Start.2 ++
      [.runEnd u.added.Start.1.status] ∧
    expandWith obs onStop p (TEvent.wrapped .onStart) =
      Event.task p (.broadcast .start) ::
        (obs.map (fun o => Event.statusChange o p .start) ++ [Event.task p .onStart]) ∧
    (∀ err index, expandWith obs onStop p (TEvent.wrapped (.onRetry err index)) =
      Event.task p (.broadcast .retry) ::
        (obs.map (fun o => Event.statusChange o p .retry) ++
          [Event.task p (.onRetry err index)])) ∧
    (∃ rest, u.added.Start.2 = .setStatus .start :: .broadcast .start :: .onStart :: rest ∧
      TEvent.onStart ∉ rest) := by
  have hadd : u.added = ({ u with status := .pending } : Task).wrapHooks := rfl
  have hs : ({ u with status := .pending } : Task).status ≠ .success := by simp
  obtain ⟨h1, h2⟩ := Task.wrapHooks_Start { u with status := .pending } hs hS hR hE
  refine ⟨?_, by simp [expandWith, TEvent.wrapped], fun err index => by
    simp [expandWith, TEvent.wrapped], ?_⟩
  · rw [hadd, h2, h1]; rfl
  · have hs2 : u.added.status ≠ .success := by simp [Task.added]
    have hpro : u.added.prologue.2 = [.setStatus .start, .broadcast .start, .onStart] := by
      unfold Task.prologue
      rcases hm : u.StartMessage with _ | f <;>
        simp [Task.added, hS, hm, Task.SetStatus, Hook.call]
    rw [Task.Start_eq _ hs2, hpro]
    refine ⟨(Task.loop u.added.prologue.1.Retries.toNat 0 u.added.prologue.1).2 ++
      ((Task.loop u.added.prologue.1.Retries.toNat 0 u.added.prologue.1).1.epilogue.2 ++
       (Task.loop u.added.prologue.1.Retries.toNat 0 u.added.prologue.1).1.epilogue.1.onTaskEnd),
      by simp, ?_⟩
    intro h
    simp only [List.mem_append] at h
    rcases h with h | h | h
    · have := Task.loop_inLoop _ _ _ _ h
      simp [TEvent.inLoop] at this
    · rcases Task.epilogue_mem _ _ h with ⟨st, h⟩ | ⟨st, h⟩ | ⟨x, h⟩ | h <;> cases h
    · unfold Task.onTaskEnd at h
      split at h <;> simp at h

/-- C18 at a Task whose Handler fails twice and then succeeds, with
observers 7 and 8: the calls of the managed Task, and what the manager
records for the wrapped OnStart. -/
theorem C18_witness :
    Examples.failTwiceHooked.added.Start.2 =
      [.setStatus .start, .broadcast .start, .onStart, .handler 0, .setStatus .fail,
       .setStatus .retry, .broadcast .retry, .onRetry (some "boom") 1, .handler 1,
       .setStatus .fail, .setStatus .retry, .broadcast .retry, .onRetry (some "boom") 2,
       .handler 2, .setStatus .success, .runEnd .success] ∧
    expandWith [7, 8] false 0 (TEvent.wrapped .onStart) =
      [Event.task 0 (.broadcast .start), Event.statusChange 7 0 .start,
       Event.statusChange 8 0 .start, Event.task 0 .onStart] :=
  have h := C18_add_composes_hooks Examples.failTwiceHooked rfl rfl rfl [7, 8] false 0
  ⟨by rw [h.1]; decide, h.2.1⟩

/-- C16: Start returns from every manager state. If Stop() is called
while a Task is running (in the model: by its Handler), every Handler
invoked in the call belongs to a Task whose index is at most that of this
Task, so no Task after it is started; onComplete is not called; IsStarted()
is false when Start returns; and if the Task ended in status success, it
still has that status. When Items holds distinct Tasks added with Add, none
of them after the sort, and the current Task is one of them, the same holds
by position: no Handler of a Task at a position greater than that of the
Task that called Stop() is invoked. -/
theorem C16_stop_while_running (srt : Sorter) (m : Manager) :
    ∃ m1 evs, m.Start srt = some m1 ∧ m1.trace = m.trace ++ evs ∧
      (∀ (p : Ptr) (i : Int), m1.indexOf p = some i → Event.task p .callStop ∈ evs →
        (∀ r ∈ handlerRuns evs, ∃ k, m1.indexOf r = some k ∧ k ≤ i) ∧
        Event.onComplete ∉ evs ∧ m1.IsStarted = false ∧
        (Event.task p (.runEnd .success) ∈ evs →
          (m1.task? p).map Task.Status = some .success)) ∧
      (srt.Valid → m.Managed → (m.isSorted = true → m.Indexed) →
        (∀ c, m.current = some c → c ∈ m.items) →
        m1.Indexed ∧
        ∀ (i : Nat) (p : Ptr), m1.Items[i]? = some p → Event.task p .callStop ∈ evs →
          (∀ r ∈ handlerRuns evs, ∃ k, k ≤ i ∧ m1.Items[k]? = some r) ∧
          Event.onComplete ∉ evs ∧ m1.IsStarted = false ∧
          (Event.task p (.runEnd .success) ∈ evs →
            (m1.task? p).map Task.Status = some .success)) := by
  obtain ⟨m1, evs, hst, htr, _, _⟩ := Manager.Start_shape srt m
  have key := Manager.Start_stop_ends srt m m1 evs hst htr
  refine ⟨m1, evs, hst, htr, ?_, ?_⟩
  · intro p i hi hp
    obtain ⟨g1, g2, g3, g4⟩ := key p i hi hp
    exact ⟨g1, g2, g3, g4 .success⟩
  · intro hsrt hm hidx hcur
    have hI := Manager.Start_indexed srt hsrt m m1 hm hidx hst
    have hmem := Manager.Start_tasks_mem srt m m1 evs
      (Manager.sort_current_mem srt hsrt m hm hidx hcur) hst htr
    refine ⟨hI, ?_⟩
    intro i p hi hp
    obtain ⟨g1, g2, g3, g4⟩ := key p i (hI.indexOf_position hi) hp
    refine ⟨?_, g2, g3, g4 .success⟩
    intro r hr
    obtain ⟨c, hc⟩ := (mem_handlerRuns _ r).1 hr
    obtain ⟨k, hk1, hk2⟩ := g1 r hr
    obtain ⟨j, hj1, hj2⟩ := hI.position_of_index (hmem r _ hc) hk1
    exact ⟨j, by omega, hj2⟩

/-- C16 at Orders 1, 2, 3 where the Handler of the Task of Order 2 calls
Stop(): the Handlers of positions 0 and 1 are invoked, that of position 2 is
not, onStop is called, onComplete is not, the manager is stopped and the
Task of Order 2 has status success. -/
theorem C16_witness :
    (Examples.chainStopped.Start Examples.insertionSorter).map
      (fun m => (m.Items, handlerRuns m.trace, decide (Event.onStop ∈ m.trace),
        decide (Event.onComplete ∈ m.trace), m.IsStarted)) =
      some ([0, 1, 2], [0, 1], true, false, false) ∧
    (Examples.chainStopped.Start Examples.insertionSorter).map
      (fun m => (m.task? 1).map (fun t => t.Status)) = some (some Status.success) ∧
    ∃ m1 evs, Examples.chainStopped.Start Examples.insertionSorter = some m1 ∧
      m1.trace = Examples.chainStopped.trace ++ evs ∧ m1.Indexed ∧
      ∀ (i : Nat) (p : Ptr), m1.Items[i]? = some p → Event.task p .callStop ∈ evs →
        (∀ r ∈ handlerRuns evs, ∃ k, k ≤ i ∧ m1.Items[k]? = some r) ∧
        Event.onComplete ∉ evs ∧ m1.IsStarted = false ∧
        (Event.task p (.runEnd .success) ∈ evs →
          (m1.task? p).map Task.Status = some .success) :=
  ⟨by decide, by decide, by
    obtain ⟨m1, evs, hst, htr, _, hpos⟩ :=
      C16_stop_while_running Examples.insertionSorter Examples.chainStopped
    exact ⟨m1, evs, hst, htr,
      hpos Examples.insertionSorter_valid
        (by
          have h := Manager.managed_addAll
            [Examples.okTask 1 1, Examples.stopTask 2, Examples.okTask 3 1]
          exact h)
        (fun h => by cases h) (fun c h => by cases h)⟩⟩

/-- C13, as stated, fails from 13 Tasks on, where sort.Sort no longer runs
an insertion sort: with a Task of Order 2 added first and twelve Tasks of
Order 1 added after it, sort.Sort takes the Task at position 6 as pivot and
swaps it to the front, so that after Start() Items() holds the seventh Task
added before the second to the sixth, which have the same Order, and its
Handler is invoked before theirs. -/
theorem C13_counterexample :
    Examples.thirteen.Items = List.range 13 ∧
    Examples.thirteen.Items.map Examples.thirteen.orderKey =
      [2, 1, 1, 1, 1, 1, 1, 1, 1, 1, 1, 1, 1] ∧
    GoSort.sort Examples.thirteen.orderKey Examples.thirteen.Items =
      some [6, 1, 2, 3, 4, 5, 7, 8, 9, 10, 11, 12, 0] ∧
    (Examples.thirteen.Start goSorter).map (fun m => (m.Items, handlerRuns m.trace)) =
      some ([6, 1, 2, 3, 4, 5, 7, 8, 9, 10, 11, 12, 0],
        [6, 1, 2, 3, 4, 5, 7, 8, 9, 10, 11, 12, 0]) :=
  ⟨by decide, by decide, Examples.thirteen_sorted, Examples.thirteen_run⟩

/-- C13, amended: For every list of Tasks added to a fresh manager and
every sort.Sort within its contract, Start() returns with Items() holding
the added Tasks in non-decreasing Order, each with its position as index,
and the Handlers are invoked in the order of Items(). Tasks with equal Order
keep their insertion order when the sort keeps ties in place, which the
contract of sort.Sort does not promise. -/
theorem C13_sorted_by_order (srt : Sorter) (hsrt : srt.Valid) (ts : List Task) :
    ∃ m1, (New.addAll ts).Start srt = some m1 ∧
      m1.Items.Perm (List.range ts.length) ∧
      m1.Items.Pairwise (fun a b => orderAt ts a ≤ orderAt ts b) ∧
      m1.Indexed ∧
      (handlerRuns m1.trace).Pairwise
        (fun a b => ∃ i j : Nat, i ≤ j ∧ m1.Items[i]? = some a ∧ m1.Items[j]? = some b) ∧
      (srt.KeepsTies →
        m1.Items.Pairwise (fun a b => orderAt ts a = orderAt ts b → a < b)) := by
  have hm := Manager.managed_addAll ts
  have hunsorted : (New.addAll ts).isSorted = false := by rw [Manager.addAll_eq]
  have hidx : (New.addAll ts).isSorted = true → (New.addAll ts).Indexed := by
    intro h; rw [hunsorted] at h; cases h
  have hcur : ∀ c, (New.addAll ts).current = some c → c ∈ (New.addAll ts).items := by
    intro c h; rw [Manager.addAll_eq] at h; cases h
  have htrace : (New.addAll ts).trace = [] := by rw [Manager.addAll_eq]
  have hitems : (New.addAll ts).items = List.range ts.length := by rw [Manager.addAll_eq]
  obtain ⟨_, _, _, _, _, sperm, sitems, _, _⟩ :=
    Manager.sort_spec srt hsrt (New.addAll ts) hm hidx
  obtain ⟨m1, evs, hst, htr, hEv, _⟩ := Manager.Start_shape srt (New.addAll ts)
  have hI := Manager.Start_indexed srt hsrt _ m1 hm hidx hst
  have hmem := Manager.Start_tasks_mem srt _ m1 evs
    (Manager.sort_current_mem srt hsrt _ hm hidx hcur) hst htr
  have hord := Manager.Start_handlers_ordered srt _ m1 evs hst htr
  have hit : m1.Items = srt (orderAt ts) (List.range ts.length) := by
    show m1.items = _
    rw [hEv.1, sitems hunsorted, Manager.orderKey_addAll, hitems]
  rw [htrace, List.nil_append] at htr
  refine ⟨m1, hst, ?_, ?_, hI, ?_, ?_⟩
  · rw [hit]; exact (hsrt _ _).1
  · rw [hit]; exact (hsrt _ _).2
  · rw [htr]
    refine hord.imp_of_mem ?_
    intro a b ha hb ⟨i, j, hi, hj, hij⟩
    obtain ⟨ca, hca⟩ := (mem_handlerRuns _ a).1 ha
    obtain ⟨cb, hcb⟩ := (mem_handlerRuns _ b).1 hb
    obtain ⟨i', hi1, hi2⟩ := hI.position_of_index (hmem a _ hca) hi
    obtain ⟨j', hj1, hj2⟩ := hI.position_of_index (hmem b _ hcb) hj
    exact ⟨i', j', by omega, hi2, hj2⟩
  · intro hk
    rw [hit]
    exact hk (orderAt ts) (List.range ts.length) (List.pairwise_lt_range _)

/-- C13, amended, at Orders 2, 1, 1, 2 with insertion sort, which keeps
ties in place: Items() and the Handler invocations are in the order of the
Tasks 1, 2, 0, 3. -/
theorem C13_witness :
    ((New.addAll [Examples.okTask 2 1, Examples.okTask 1 1, Examples.okTask 1 1,
        Examples.okTask 2 1]).Start Examples.insertionSorter).map
      (fun m => (m.Items, handlerRuns m.trace)) = some ([1, 2, 0, 3], [1, 2, 0, 3]) ∧
    ∃ m1, (New.addAll [Examples.okTask 2 1, Examples.okTask 1 1, Examples.okTask 1 1,
        Examples.okTask 2 1]).Start Examples.insertionSorter = some m1 ∧
      m1.Items.Pairwise (fun a b =>
        orderAt [Examples.okTask 2 1, Examples.okTask 1 1, Examples.okTask 1 1,
          Examples.okTask 2 1] a =
        orderAt [Examples.okTask 2 1, Examples.okTask 1 1, Examples.okTask 1 1,
          Examples.okTask 2 1] b → a < b) :=
  ⟨by decide, by
    obtain ⟨m1, hst, _, _, _, _, hk⟩ := C13_sorted_by_order Examples.insertionSorter
      Examples.insertionSorter_valid
      [Examples.okTask 2 1, Examples.okTask 1 1, Examples.okTask 1 1, Examples.okTask 2 1]
    exact ⟨m1, hst, hk Examples.insertionSorter_keepsTies⟩⟩

/-- C12: For every non-empty list of Tasks whose Handlers succeed
whenever they are invoked (and do not call Stop()), added to a fresh manager
on which any observers and callbacks are registered, Start() returns, and
what it records is: onStart when it is registered, then the calls of the
Tasks, none of which is onStart or onComplete, then onComplete when it is
registered. Every Task of Items() runs to its end, in the order of Items(),
with status success; IsStarted() is false and Current() is the Task at the
last position of Items(), which holds the added Tasks in non-decreasing
Order. -/
theorem C12_chain_runs_to_completion (srt : Sorter) (hsrt : srt.Valid) (ts : List Task)
    (hne : ts ≠ []) (hok : ∀ t ∈ ts, t.Succeeds) (obs : List Nat)
    (onStart onStop onComplete : Bool) :
    ∃ m1 body, ((New.addAll ts).configure obs onStart onStop onComplete).Start srt = some m1 ∧
      m1.trace = (if onStart then [Event.onStart] else []) ++ body ++
        (if onComplete then [Event.onComplete] else []) ∧
      Event.onStart ∉ body ∧ Event.onComplete ∉ body ∧
      (runEnds body).map Prod.fst = m1.Items ∧ (∀ x ∈ runEnds body, x.2 = Status.success) ∧
      m1.IsStarted = false ∧ m1.Current = m1.Items.getLast? ∧
      m1.Items.Perm (List.range ts.length) ∧
      m1.Items.Pairwise (fun a b => orderAt ts a ≤ orderAt ts b) := by
  have hm : ((New.addAll ts).configure obs onStart onStop onComplete).Managed :=
    Manager.managed_addAll ts
  have hunsorted : ((New.addAll ts).configure obs onStart onStop onComplete).isSorted = false := by
    show (New.addAll ts).isSorted = false
    rw [Manager.addAll_eq]
  have hitems0 : ((New.addAll ts).configure obs onStart onStop onComplete).items =
      List.range ts.length := by
    show (New.addAll ts).items = _
    rw [Manager.addAll_eq]
  have htr0 : ((New.addAll ts).configure obs onStart onStop onComplete).trace = [] := by
    show (New.addAll ts).trace = _
    rw [Manager.addAll_eq]
  have hcur0 : ((New.addAll ts).configure obs onStart onStop onComplete).current = none := by
    show (New.addAll ts).current = _
    rw [Manager.addAll_eq]
  have hkey : ((New.addAll ts).configure obs onStart onStop onComplete).orderKey = orderAt ts :=
    Manager.orderKey_addAll ts
  obtain ⟨sI, _, scur, son, sonc, sperm, sitems, slen, stask⟩ :=
    Manager.sort_spec srt hsrt _ hm (fun h => by rw [hunsorted] at h; cases h)
  have sitems' := sitems hunsorted
  rw [hkey, hitems0] at sitems'
  rw [hitems0] at sperm
  have hne2 : (Manager.sort srt
      ((New.addAll ts).configure obs onStart onStop onComplete)).items ≠ [] := by
    intro h
    have := sperm.length_eq
    rw [h, List.length_range] at this
    exact hne (List.length_eq_zero.1 this.symm)
  have hall : ∀ q u, (Manager.sort srt
      ((New.addAll ts).configure obs onStart onStop onComplete)).task? q = some u →
      u.Succeeds := by
    intro q u hu
    have hq : q < ts.length := by
      have h1 : q < (Manager.sort srt
          ((New.addAll ts).configure obs onStart onStop onComplete)).heap.length := by
        rcases Nat.lt_or_ge q (Manager.sort srt
          ((New.addAll ts).configure obs onStart onStop onComplete)).heap.length with h | h
        · exact h
        · unfold Manager.task? at hu
          rw [List.getElem?_eq_none h] at hu; cases hu
      have h2 : ((New.addAll ts).configure obs onStart onStop onComplete).heap.length =
          ts.length := by
        show (New.addAll ts).heap.length = _
        rw [Manager.addAll_eq]; simp
      rw [slen, h2] at h1
      exact h1
    have h0 : ((New.addAll ts).configure obs onStart onStop onComplete).task? q =
        some (Task.added ts[q]) := by
      show (New.addAll ts).task? q = _
      rw [Manager.task?_addAll, List.getElem?_eq_getElem hq]; rfl
    obtain ⟨i, hi⟩ := stask q _ h0
    rw [hu] at hi
    rw [Option.some.inj hi]
    exact hok ts[q] (List.getElem_mem hq)
  obtain ⟨m1, evs, hst, htr, hEv, _⟩ := Manager.Start_shape srt
    ((New.addAll ts).configure obs onStart onStop onComplete)
  obtain ⟨body, hev, g1, g2, g3, g4, g5, g6⟩ := Manager.Start_completes_fresh srt _ m1 evs
    hst htr sI hne2 (by rw [scur, hcur0]) hall
  have hit : m1.Items = srt (orderAt ts) (List.range ts.length) := by
    show m1.items = _
    rw [hEv.1, sitems']
  refine ⟨m1, body, hst, ?_, g2, g1, ?_, g4, g5, ?_, ?_, ?_⟩
  · rw [htr, htr0, List.nil_append, hev]
    simp only [Manager.starting, Manager.completion, son, sonc]
    rfl
  · rw [g3]; exact hEv.1.symm
  · show m1.current = m1.items.getLast?
    rw [g6, hEv.1]
  · rw [hit]; exact (hsrt _ _).1
  · rw [hit]; exact (hsrt _ _).2

/-- C12 at Orders 3, 1, 2 with one observer and every callback registered:
the trace begins with the only onStart and ends with the only onComplete,
the Handlers run in the order of Items(), and the Task of Order 3 is
current at the end. -/
theorem C12_witness :
    (Examples.chainConfigured.Start Examples.insertionSorter).map
      (fun m => (m.trace.head?, m.trace.getLast?, m.trace.count Event.onStart,
        m.trace.count Event.onComplete)) =
      some (some Event.onStart, some Event.onComplete, 1, 1) ∧
    (Examples.chainConfigured.Start Examples.insertionSorter).map
      (fun m => (m.Items, handlerRuns m.trace, m.IsStarted, m.Current)) =
      some ([1, 2, 0], [1, 2, 0], false, some 0) ∧
    ∃ m1 body, Examples.chainConfigured.Start Examples.insertionSorter = some m1 ∧
      m1.trace = [Event.onStart] ++ body ++ [Event.onComplete] ∧
      Event.onStart ∉ body ∧ Event.onComplete ∉ body ∧
      m1.IsStarted = false ∧ m1.Current = m1.Items.getLast? :=
  ⟨by decide, by decide, by
    obtain ⟨m1, body, hst, htr, h1, h2, _, _, h5, h6, _⟩ :=
      C12_chain_runs_to_completion Examples.insertionSorter Examples.insertionSorter_valid
        [Examples.okTask 3 1, Examples.okTask 1 1, Examples.okTask 2 1] (by simp)
        (by
          intro t ht
          simp only [List.mem_cons, List.mem_singleton, List.not_mem_nil, or_false] at ht
          rcases ht with rfl | rfl | rfl <;> exact fun _ => rfl)
        [7] true true true
    exact ⟨m1, body, hst, htr, h1, h2, h5, h6⟩⟩

/-- C15: Start() resumes the current Task. On a manager whose Items are
distinct Tasks added with Add, none of them after the sort, and whose
current Task, if designated, has executeNextTask set (as every Task that a
chain made current has): when a call of Start() ends with
the failure of the Task at position i, that Task is the current Task, and the
next Start() records onStart, then the run of that Task, then calls of Tasks
at positions greater than i only, so that no Handler of a Task at a position
below i is invoked. If that run ends without error and without a call of
Stop(), and the Handlers of the Tasks at positions greater than i succeed,
every Task from position i on runs to its end, in the order of Items() and
with status success, onComplete is called at the very end, IsStarted() is
false and Current() is the last Task of Items(). -/
theorem C15_start_resumes_current_task (srt : Sorter) (hsrt : srt.Valid) (m : Manager)
    (hm : m.Managed) (hidx : m.isSorted = true → m.Indexed)
    (hx : ∀ c t, m.current = some c → m.task? c = some t → t.executeNextTask = true) :
    ∃ m1 evs, m.Start srt = some m1 ∧ m1.trace = m.trace ++ evs ∧
      ∀ (i : Nat) (p : Ptr), m1.Items[i]? = some p → Event.task p (.runEnd .fail) ∈ evs →
        ∃ t m2 rest, m1.task? p = some t ∧ m1.Current = some p ∧
          m1.Start srt = some m2 ∧ m2.Items = m1.Items ∧
          m2.trace = m1.trace ++ (m1.starting ++ m1.ranEvents p t ++ rest) ∧
          (∀ q e, Event.task q e ∈ rest → ∃ k, i < k ∧ m1.Items[k]? = some q) ∧
          (∀ r ∈ handlerRuns (m1.starting ++ m1.ranEvents p t ++ rest),
            ∃ k, i ≤ k ∧ m1.Items[k]? = some r) ∧
          (t.Start.1.Error = none → TEvent.callStop ∉ t.Start.2 →
            (∀ (k : Nat) (q : Ptr) (u : Task), i < k → m1.Items[k]? = some q →
              m1.task? q = some u → u.Succeeds) →
            ∃ body, rest = body ++ m1.completion ∧ Event.onComplete ∉ body ∧
              (runEnds (m1.ranEvents p t ++ body)).map Prod.fst = m1.Items.drop i ∧
              (∀ x ∈ runEnds (m1.ranEvents p t ++ body), x.2 = Status.success) ∧
              m2.IsStarted = false ∧ m2.Current = m1.Items.getLast?) := by
  obtain ⟨_, _, scur, _⟩ := Manager.sort_spec srt hsrt m hm hidx
  obtain ⟨m1, evs, hst, htr, hEv, _⟩ := Manager.Start_shape srt m
  refine ⟨m1, evs, hst, htr, ?_⟩
  intro i p hp hfail
  have hI1 : m1.Indexed := Manager.Start_indexed srt hsrt m m1 hm hidx hst
  have hsorted1 : m1.isSorted = true := hEv.2.2.2.2.2.1.trans (Manager.sort_isSorted srt m)
  have hs1 : m1.sort srt = m1 := Manager.sort_sorted srt m1 hsorted1
  obtain ⟨hcur1, u, hu, hux, _⟩ := Manager.Start_fail_state srt m m1 evs hst htr
    (by
      intro c t' hc ht'
      obtain ⟨t0, j, ht0, rfl⟩ := Manager.sort_task_back srt hsrt m hm hidx c t' ht'
      rw [scur] at hc
      exact hx c t0 hc ht0)
    p hfail
  obtain ⟨m2, evs2, hst2, htr2, hEv2, _⟩ := Manager.Start_shape srt m1
  rw [hs1] at hEv2
  have hI1' : (m1.sort srt).Indexed := by rw [hs1]; exact hI1
  have hp' : (m1.sort srt).items[i]? = some p := by rw [hs1]; exact hp
  have hc' : (m1.sort srt).current = some p := by rw [hs1]; exact hcur1
  have hu' : (m1.sort srt).task? p = some u := by rw [hs1]; exact hu
  obtain ⟨rest, hr1, hr2⟩ := Manager.Start_resume_head srt m1 m2 evs2 hst2 htr2 hI1' i p hp'
    hc' u hu'
  rw [hs1] at hr1 hr2
  refine ⟨u, m2, rest, hu, hcur1, hst2, hEv2.1, by rw [htr2, hr1], hr2, ?_, ?_⟩
  · intro r hr
    rw [List.append_assoc, handlerRuns_append, Manager.handlerRuns_starting, List.nil_append,
      handlerRuns_append] at hr
    rcases List.mem_append.1 hr with hr | hr
    · rw [Manager.handlerRuns_ranEvents] at hr
      rw [List.eq_of_mem_replicate hr]
      exact ⟨i, le_refl _, hp⟩
    · obtain ⟨c, hc⟩ := (mem_handlerRuns _ r).1 hr
      obtain ⟨k, hk1, hk2⟩ := hr2 r _ hc
      exact ⟨k, by omega, hk2⟩
  · intro he hns hlater
    obtain ⟨body, hb, g1, _, g3, g4, g5, g6, t', tail, ht', hbt⟩ :=
      Manager.Start_completes_resume srt m1 m2 evs2 hst2 htr2 hI1' i p hp' hc'
        (by
          intro t ht
          rw [hu'] at ht
          rw [← Option.some.inj ht]
          exact ⟨he, hux, hns⟩)
        (by
          intro k q w hk hq hw
          rw [hs1] at hq hw
          exact hlater k q w hk hq hw)
    rw [hs1] at hb g3 g6 ht' hbt
    rw [hu] at ht'
    have htt : u = t' := Option.some.inj ht'
    subst htt
    have hrest : rest = tail ++ m1.completion := by
      have h1 : m1.starting ++ m1.ranEvents p u ++ rest =
          m1.starting ++ m1.ranEvents p u ++ (tail ++ m1.completion) := by
        rw [← hr1, hb, hbt]
        simp only [List.append_assoc]
      exact List.append_cancel_left h1
    refine ⟨tail, hrest, ?_, ?_, ?_, g5, g6⟩
    · intro h
      exact g1 (by rw [hbt]; exact List.mem_append_right _ h)
    · rw [← hbt]; exact g3
    · rw [← hbt]; exact g4

/-- C15 at Orders 1, 2, 3 where the Handler of the Task of Order 2 fails
twice and then succeeds: the first Start() invokes the Handlers of
positions 0 and 1 and stops without onComplete; the second Start() invokes
those of positions 1 and 2 only, calls onComplete and leaves the Task at
position 2 current. -/
theorem C15_witness :
    (Examples.chainFlaky.Start Examples.insertionSorter).map
      (fun m => (handlerRuns m.trace, m.trace.count Event.onComplete, m.Current)) =
      some ([0, 1, 1], 0, some 1) ∧
    ((Examples.chainFlaky.Start Examples.insertionSorter).bind
      (Manager.Start Examples.insertionSorter)).map
      (fun m => (handlerRuns m.trace, m.trace.count Event.onComplete, m.IsStarted,
        m.Current)) = some ([0, 1, 1, 1, 2], 1, false, some 2) ∧
    ∃ m1 evs, Examples.chainFlaky.Start Examples.insertionSorter = some m1 ∧
      m1.trace = Examples.chainFlaky.trace ++ evs ∧
      ∀ (i : Nat) (p : Ptr), m1.Items[i]? = some p → Event.task p (.runEnd .fail) ∈ evs →
        ∃ t m2 rest, m1.task? p = some t ∧ m1.Current = some p ∧
          m1.Start Examples.insertionSorter = some m2 ∧ m2.Items = m1.Items ∧
          m2.trace = m1.trace ++ (m1.starting ++ m1.ranEvents p t ++ rest) ∧
          (∀ q e, Event.task q e ∈ rest → ∃ k, i < k ∧ m1.Items[k]? = some q) :=
  ⟨by decide, by decide, by
    obtain ⟨m1, evs, hst, htr, h⟩ :=
      C15_start_resumes_current_task Examples.insertionSorter Examples.insertionSorter_valid
        Examples.chainFlaky
        (Manager.managed_addAll
          [Examples.okTask 1 1, Examples.flakyTask 2, Examples.okTask 3 1])
        (fun h => absurd h (by decide))
        (fun c _ h _ => Option.noConfusion (h : (none : Option Ptr) = some c))
    refine ⟨m1, evs, hst, htr, ?_⟩
    intro i p hp hf
    obtain ⟨t, m2, rest, h1, h2, h3, h4, h5, h6, _⟩ := h i p hp hf
    exact ⟨t, m2, rest, h1, h2, h3, h4, h5, h6⟩⟩

/-! ## workman: what Add, Remove and Load keep -/

namespace Workman

/-- The fields of the manager that tell where the files are and which
Worker is selected. -/
theorem Add_keeps (m : Manager) (index : Int) (data : Config) (fileName : List String) :
    (m.Add index data fileName).1.selectedWorker = m.selectedWorker ∧
    (m.Add index data fileName).1.rootPath = m.rootPath ∧
    (m.Add index data fileName).1.workersDir = m.workersDir ∧
    (m.Add index data fileName).1.workersExt = m.workersExt ∧
    (m.Add index data fileName).1.workerBuilder = m.workerBuilder := by
  unfold Manager.Add
  rcases hb : m.workerBuilder with _ | builder
  · simp [hb]
  · simp only []
    split
    · simp [hb]
    · split
      · simp [hb]
      · split <;> simp [hb]

/-- Add either fails and leaves the registry and the events as they were, or
appends the Worker it returns and dispatches one event. -/
theorem Add_cases (m : Manager) (index : Int) (data : Config) (fileName : List String) :
    (∃ e, (m.Add index data fileName).2 = .error e ∧
      (m.Add index data fileName).1.workers = m.workers ∧
      (m.Add index data fileName).1.events = m.events) ∨
    (∃ w, (m.Add index data fileName).2 = .ok w ∧
      (m.Add index data fileName).1.workers = m.workers ++ [w] ∧
      (m.Add index data fileName).1.events = m.events ++ [.addRemove true false w] ∧
      (m.Add index data fileName).1.built = m.built + 1 ∧
      w.Index = index ∧
      ∃ builder, m.workerBuilder = some builder ∧ w.GetID = (builder m.built).GetID ∧
        ((builder m.built).InitResult data fileName).2 = none ∧
        (∀ x ∈ m.workers, x.GetID ≠ ((builder m.built).InitResult data fileName).1)) := by
  unfold Manager.Add
  rcases hb : m.workerBuilder with _ | builder
  · left; exact ⟨_, rfl, rfl, rfl⟩
  · simp only []
    split
    · left; exact ⟨_, rfl, rfl, rfl⟩
    · rename_i hinit
      split
      · left; exact ⟨_, rfl, rfl, rfl⟩
      · rename_i hdup
        split
        · left; exact ⟨_, rfl, rfl, rfl⟩
        · right
          refine ⟨_, rfl, rfl, rfl, rfl, rfl, builder, rfl, rfl, hinit, ?_⟩
          intro x hx hid
          apply hdup
          have : (m.workers.find? (fun wk => decide (wk.GetID =
              ((builder m.built).InitResult data fileName).1))).isSome = true := by
            rw [List.find?_isSome]
            exact ⟨x, hx, by simpa using hid⟩
          exact this


/-- Add calls the factory at most once. -/
theorem Add_built (m : Manager) (index : Int) (data : Config) (fileName : List String) :
    m.built ≤ (m.Add index data fileName).1.built ∧
    (m.Add index data fileName).1.built ≤ m.built + 1 := by
  unfold Manager.Add
  rcases hb : m.workerBuilder with _ | builder
  · simp
  · simp only []
    split
    · simp
    · split
      · simp
      · split <;> simp

/-- The Worker that Add returns has received Init with the payload and the
file name. -/
theorem Add_log (m : Manager) (index : Int) (data : Config) (fileName : List String)
    (w : Worker) (h : (m.Add index data fileName).2 = .ok w) :
    WCall.Init data fileName ∈ w.log := by
  unfold Manager.Add at h
  rcases hb : m.workerBuilder with _ | builder
  · simp [hb] at h
  · simp only [hb] at h
    split at h
    · simp at h
    · split at h
      · simp at h
      · split at h
        · simp at h
        · simp only [Except.ok.injEq] at h
          subst h
          simp [Worker.Boot, Worker.RegisterListeners, Worker.SetLogger, Worker.SetCache,
            Worker.SetClient, Worker.SetTaskManager, Worker.SetIndex, Worker.Init]

/-- Remove keeps the selected Worker. -/
theorem Remove_selected (m : Manager) (id : String) :
    (m.Remove id).1.selectedWorker = m.selectedWorker := by
  unfold Manager.Remove
  rcases hr : Manager.removeFirst id m.workers with ⟨ws, _ | wk⟩ <;> rfl

/-- The loop of Load keeps the fields that tell where the files are and
which Worker is selected. -/
theorem loadFiles_keeps (fs : FS) : ∀ (files : List String) (m : Manager) (i : Nat),
    (Manager.loadFiles fs m files i).1.selectedWorker = m.selectedWorker ∧
    (Manager.loadFiles fs m files i).1.rootPath = m.rootPath ∧
    (Manager.loadFiles fs m files i).1.workersDir = m.workersDir ∧
    (Manager.loadFiles fs m files i).1.workersExt = m.workersExt ∧
    (Manager.loadFiles fs m files i).1.workerBuilder = m.workerBuilder
  | [], m, i => ⟨rfl, rfl, rfl, rfl, rfl⟩
  | file :: files, m, i => by
    unfold Manager.loadFiles
    rcases hr : fs.read file with err | content
    · exact ⟨rfl, rfl, rfl, rfl, rfl⟩
    · have hk := Add_keeps m i content [file]
      rcases ha : m.Add i content [file] with ⟨m1, err | w⟩
      · rw [ha] at hk; simp only [ha]; exact hk
      · rw [ha] at hk
        have ih := loadFiles_keeps fs files m1 (i + 1)
        simp only [ha]
        exact ⟨ih.1.trans hk.1, ih.2.1.trans hk.2.1, ih.2.2.1.trans hk.2.2.1,
          ih.2.2.2.1.trans hk.2.2.2.1, ih.2.2.2.2.trans hk.2.2.2.2⟩

/-- Load keeps the fields that tell where the files are and which Worker is
selected. -/
theorem Load_keeps (fs : FS) (wsort : WSorter) (m : Manager) :
    (m.Load fs wsort).1.selectedWorker = m.selectedWorker ∧
    (m.Load fs wsort).1.rootPath = m.rootPath ∧
    (m.Load fs wsort).1.workersDir = m.workersDir ∧
    (m.Load fs wsort).1.workersExt = m.workersExt ∧
    (m.Load fs wsort).1.workerBuilder = m.workerBuilder := by
  unfold Manager.Load
  simp only []
  rcases hg : fs.glob (pathJoin [m.rootPath, m.workersDir, "*" ++ m.workersExt]) with err | files
  · exact ⟨rfl, rfl, rfl, rfl, rfl⟩
  · simp only []
    split
    · exact ⟨rfl, rfl, rfl, rfl, rfl⟩
    · have hk := loadFiles_keeps fs files m 0
      rcases hl : Manager.loadFiles fs m files 0 with ⟨m1, _ | err⟩
      · rw [hl] at hk
        simp only []
        split
        · exact hk
        · exact hk
      · rw [hl] at hk
        exact hk

/-- The loop of Load over a list of files in two parts: the second part is
reached only when the first part ended without error. -/
theorem loadFiles_append (fs : FS) (post : List String) :
    ∀ (pre : List String) (m : Manager) (i : Nat),
      Manager.loadFiles fs m (pre ++ post) i =
        match Manager.loadFiles fs m pre i with
        | (m1, some err) => (m1, some err)
        | (m1, none) => Manager.loadFiles fs m1 post (i + pre.length)
  | [], m, i => by simp [Manager.loadFiles]
  | file :: pre, m, i => by
    simp only [List.cons_append, Manager.loadFiles, List.length_cons]
    rcases hr : fs.read file with err | content
    · rfl
    · simp only []
      rcases ha : m.Add i content [file] with ⟨m1, err | w⟩
      · rfl
      · simp only []
        have ih := loadFiles_append fs post pre m1 (i + 1)
        have : i + 1 + pre.length = i + (pre.length + 1) := by omega
        rw [this] at ih
        exact ih

/-- When the loop of Load ends without error, every file has been read and
its Worker appended, in the order of the files, with the position of the
file as index, and one event was dispatched for each. -/
theorem loadFiles_ok (fs : FS) : ∀ (files : List String) (m m1 : Manager) (i : Nat),
    Manager.loadFiles fs m files i = (m1, none) →
    ∃ ws : List Worker, m1.workers = m.workers ++ ws ∧
      m1.events = m.events ++ ws.map (fun w => WEvent.addRemove true false w) ∧
      m1.built = m.built + files.length ∧
      ws.map Worker.Index = (List.range files.length).map (fun j => ((i + j : Nat) : Int)) ∧
      List.Forall₂ (fun file w => ∃ content, fs.read file = .ok content ∧
        WCall.Init content [file] ∈ w.log) files ws
  | [], m, m1, i, h => by
    simp only [Manager.loadFiles, Prod.mk.injEq, and_true] at h
    subst h
    exact ⟨[], by simp⟩
  | file :: files, m, m1, i, h => by
    unfold Manager.loadFiles at h
    rcases hr : fs.read file with err | content
    · simp [hr] at h
    · simp only [hr] at h
      have hc := Add_cases m i content [file]
      have hlog := Add_log m i content [file]
      rcases ha : m.Add i content [file] with ⟨m2, err | w⟩
      · simp [ha] at h
      · simp only [ha] at h hc hlog
        rcases hc with ⟨e, he, _⟩ | ⟨w', hw', hws, hevs, hbuilt, hidx, _⟩
        · cases he
        · cases hw'
          obtain ⟨ws, h1, h2, h3, h4, h5⟩ := loadFiles_ok fs files m2 m1 (i + 1) h
          refine ⟨w :: ws, ?_, ?_, ?_, ?_, ?_⟩
          · rw [h1, hws]; simp
          · rw [h2, hevs]; simp
          · rw [h3, hbuilt]; simp; omega
          · simp only [List.map_cons, List.length_cons, List.range_succ_eq_map, h4, hidx,
              List.map_map]
            simp only [Nat.add_zero, List.cons.injEq, true_and]
            apply List.map_congr_left
            intro j _
            simp only [Function.comp]
            congr 1
            omega
          · exact List.Forall₂.cons ⟨content, hr, hlog w rfl⟩ h5


/-- Add is its first part followed, when the check passed, by its second
part. -/
theorem Add_split (m : Manager) (index : Int) (data : Config) (fileName : List String) :
    m.Add index data fileName =
      match m.addCheck data fileName with
      | (m1, .error e) => (m1, .error e)
      | (m1, .ok w) => m1.addRegister index w := by
  unfold Manager.Add Manager.addCheck
  rcases hb : m.workerBuilder with _ | builder
  · rfl
  · simp only []
    rcases hi : ((builder m.built).Init data fileName).2.2 with _ | err
    · simp only []
      split
      · rfl
      · rfl
    · rfl

/-- No call of the registry interface selects a Worker. -/
theorem apply_selected (m : Manager) (c : Call) :
    (m.apply c).selectedWorker = m.selectedWorker := by
  cases c with
  | add index data fileName => exact (Add_keeps m index data fileName).1
  | remove id => exact Remove_selected m id
  | load fs wsort => exact (Load_keeps fs wsort m).1
  | reload fs wsort => exact (Load_keeps fs wsort m).1
  | next => rfl
  | selectedWorker => rfl

theorem applyAll_selected (calls : List Call) : ∀ m : Manager,
    (m.applyAll calls).selectedWorker = m.selectedWorker := by
  induction calls with
  | nil => intro m; rfl
  | cons c cs ih =>
    intro m
    show ((m.apply c).applyAll cs).selectedWorker = _
    rw [ih, apply_selected]

end Workman

theorem Examples.workerSorter_valid : Workman.WSorter.Valid Examples.workerSorter := by
  intro key l
  haveI : IsTotal Workman.Worker (fun a b => key a ≤ key b) :=
    ⟨fun a b => le_total (key a) (key b)⟩
  haveI : IsTrans Workman.Worker (fun a b => key a ≤ key b) :=
    ⟨fun a b c h1 h2 => le_trans h1 h2⟩
  exact ⟨List.perm_insertionSort _ l, List.sorted_insertionSort _ l⟩

/-! ## The statuses set by one Start -/

theorem statusesSet_append (a b : List TEvent) :
    statusesSet (a ++ b) = statusesSet a ++ statusesSet b := by
  simp [statusesSet, List.filterMap_append]

theorem statusesSet_hook (st : Status) (ue : TEvent) (hu : statusesSet [ue] = []) :
    ∀ h : Hook, statusesSet (Hook.call (.broadcast st) ue h) = []
  | .nil => rfl
  | .user => hu
  | .wrap inner => by
    have ih := statusesSet_hook st ue hu inner
    simpa [Hook.call, statusesSet] using ih

theorem alternation_shift (a b : Status) : ∀ k : Nat,
    a :: alternation b a k = alternation a b k ++ [a]
  | 0 => rfl
  | k + 1 => by
    have ih := alternation_shift a b k
    simp only [alternation, List.replicate_succ, List.flatten_cons, List.cons_append,
      List.nil_append] at ih ⊢
    rw [ih]

theorem alternation_succ (a b : Status) (k : Nat) :
    alternation a b k ++ [a, b] = alternation a b (k + 1) := by
  induction k with
  | zero => rfl
  | succ k ih =>
    simp only [alternation, List.replicate_succ, List.flatten_cons, List.cons_append,
      List.nil_append, List.append_assoc] at ih ⊢
    rw [ih]

namespace Task

theorem prologue_statuses (t : Task) :
    statusesSet t.prologue.2 = if t.OnStart = Hook.nil then [] else [.start] := by
  unfold prologue
  by_cases h : t.OnStart = Hook.nil
  · simp [h, statusesSet]
  · simp only [h, if_false]
    rw [show ∀ (x : TEvent) (l : List TEvent), x :: l = [x] ++ l from fun _ _ => rfl,
      statusesSet_append, statusesSet_hook _ TEvent.onStart rfl]
    rfl

theorem pause_statuses (t : Task) : statusesSet t.pause = [] := by
  unfold pause; split <;> rfl

theorem onTaskEnd_statuses (t : Task) : statusesSet t.onTaskEnd = [] := by
  unfold onTaskEnd; split <;> rfl

theorem handlerStep_statuses (t : Task) :
    (t.handlerStep.2.2 = true ∧ statusesSet t.handlerStep.2.1 = [] ∧
      t.handlerStep.1.err = none) ∨
    (t.handlerStep.2.2 = false ∧ statusesSet t.handlerStep.2.1 = [.fail] ∧
      t.handlerStep.1.err ≠ none) := by
  unfold handlerStep
  rcases hr : (t.Handler t.calls).result with _ | e
  · left
    simp only [hr]
    cases (t.Handler t.calls).stop <;> simp [statusesSet]
  · right
    simp only [hr]
    cases (t.Handler t.calls).stop <;> cases t.ErrorMessage <;> simp [statusesSet, SetStatus]

theorem epilogue_statuses (t : Task) :
    statusesSet t.epilogue.2 = [t.epilogue.1.status] ∧
    t.epilogue.1.status = (if t.err = none then Status.success else Status.fail) := by
  refine ⟨?_, (epilogue_spec t).2.2.2.1⟩
  unfold epilogue
  rcases he : t.err with _ | e
  · simp only []
    rw [statusesSet_append]
    have : statusesSet (if t.OnSuccess = Hook.nil then []
        else t.OnSuccess.call (.broadcast t.status) .onSuccess) = [] := by
      split
      · rfl
      · exact statusesSet_hook _ TEvent.onSuccess rfl _
    rw [this]
    rcases hm : t.SuccessMessage with _ | f <;> simp [statusesSet, SetStatus, hm]
  · simp only []
    rw [statusesSet_append]
    have : statusesSet (if t.OnError = Hook.nil then []
        else t.OnError.call (.broadcast t.status) (.onError e)) = [] := by
      split
      · rfl
      · exact statusesSet_hook _ (TEvent.onError e) rfl _
    rw [this]
    rcases hm : t.ErrorMessage with _ | f <;> simp [statusesSet, SetStatus, hm]

/-- A pass of the loop after the first one: it sets retry, and then fail
when the Handler was invoked and failed. -/
theorem attempt_statuses (t : Task) (i : Int) (hi : i > 0) :
    ((t.attempt i).2.2 = true ∧ statusesSet (t.attempt i).2.1 = [.retry]) ∨
    ((t.attempt i).2.2 = false ∧ statusesSet (t.attempt i).2.1 = [.retry, .fail] ∧
      (t.attempt i).1.err ≠ none) := by
  rw [attempt_retry t i hi]
  by_cases hv : (t.retryState i).vetoes i = true
  · left
    simp [hv, statusesSet]
  · simp only [hv, if_false, Bool.false_eq_true]
    have hhook : statusesSet (if (t.retryState i).OnRetry = Hook.nil then []
        else (t.retryState i).OnRetry.call (.broadcast (t.retryState i).status)
          (.onRetry (t.retryState i).err i)) = [] := by
      split
      · rfl
      · exact statusesSet_hook _ (TEvent.onRetry (t.retryState i).err i) rfl _
    have hev : ∀ l : List TEvent, statusesSet (.setStatus .retry :: ((t.retryState i).pause ++
        (if (t.retryState i).OnRetry = Hook.nil then []
          else (t.retryState i).OnRetry.call (.broadcast (t.retryState i).status)
            (.onRetry (t.retryState i).err i)) ++ l)) = .retry :: statusesSet l := by
      intro l
      rw [show ∀ (x : TEvent) (l : List TEvent), x :: l = [x] ++ l from fun _ _ => rfl,
        statusesSet_append, statusesSet_append, statusesSet_append, hhook, pause_statuses]
      rfl
    rw [hev]
    rcases handlerStep_statuses (t.retryState i) with ⟨h1, h2, _⟩ | ⟨h1, h2, h3⟩
    · left; exact ⟨h1, by rw [h2]⟩
    · right; exact ⟨h1, by rw [h2], h3⟩

/-- The passes after the first one set retry, fail, retry, fail, and so on,
and either end on a fail, with the error kept, or on a retry. -/
theorem loop_statuses_retry : ∀ (n : Nat) (i : Int) (t : Task), i > 0 → t.err ≠ none →
    ∃ k : Nat,
      (statusesSet (loop n i t).2 = alternation .retry .fail k ∧ (loop n i t).1.err ≠ none) ∨
      statusesSet (loop n i t).2 = alternation .retry .fail k ++ [.retry]
  | 0, _, t, _, he => ⟨0, Or.inl ⟨rfl, he⟩⟩
  | n + 1, i, t, hi, he => by
    rcases attempt_statuses t i hi with ⟨hb, hs⟩ | ⟨hb, hs, he'⟩
    · rw [loop_break n i t hb]
      exact ⟨0, Or.inr (by simpa [alternation] using hs)⟩
    · rw [loop_continue n i t hb]
      obtain ⟨k, h⟩ := loop_statuses_retry n (i + 1) (t.attempt i).1 (by omega) he'
      refine ⟨k + 1, ?_⟩
      simp only [statusesSet_append, hs]
      rcases h with ⟨h1, h2⟩ | h1
      · left
        refine ⟨?_, h2⟩
        rw [h1]
        simp [alternation, List.replicate_succ]
      · right
        rw [h1]
        simp [alternation, List.replicate_succ]

/-- The whole loop: nothing is set when there is no pass or the first
Handler invocation succeeds; otherwise fail, retry, fail, and so on. -/
theorem loop_statuses (n : Nat) (t : Task) :
    statusesSet (loop n 0 t).2 = [] ∨
    ∃ k : Nat,
      (statusesSet (loop n 0 t).2 = alternation .fail .retry k ++ [.fail] ∧
        (loop n 0 t).1.err ≠ none) ∨
      statusesSet (loop n 0 t).2 = alternation .fail .retry (k + 1) := by
  rcases n with _ | n
  · left; rfl
  · have hatt : t.attempt 0 = ({ t with attempts := t.attempts + 1 } : Task).handlerStep := by
      unfold attempt
      simp
    rcases handlerStep_statuses ({ t with attempts := t.attempts + 1 } : Task) with
      ⟨h1, h2, _⟩ | ⟨h1, h2, h3⟩
    · left
      rw [loop_break n 0 t (by rw [hatt]; exact h1), hatt]
      exact h2
    · right
      rw [loop_continue n 0 t (by rw [hatt]; exact h1)]
      obtain ⟨k, h⟩ := loop_statuses_retry n (0 + 1) (t.attempt 0).1 (by omega)
        (by rw [hatt]; exact h3)
      refine ⟨k, ?_⟩
      simp only [statusesSet_append]
      rw [hatt] at h ⊢
      rw [h2]
      rcases h with ⟨h4, h5⟩ | h4
      · left
        refine ⟨?_, h5⟩
        rw [h4]
        exact alternation_shift .fail .retry k
      · right
        rw [h4, ← alternation_succ, ← List.append_assoc]
        show (Status.fail :: alternation .retry .fail k) ++ [.retry] = _
        rw [alternation_shift]
        simp

end Task

/-! ## A Task that does not chain -/

namespace Manager

/-- A manager that is not started does not go on to another Task. -/
theorem advance_idle (m : Manager) (h : m.isStarted = false) (c : Option Ptr) :
    (m.advance c).2 = none ∧ (m.advance c).1.isStarted = false := by
  unfold advance
  split
  · exact ⟨rfl, rfl⟩
  · simp [h]

/-- The chain of a Task that the manager added and whose executeNextTask
is unset: it is the run of that Task, and the manager is stopped. -/
theorem Chain.unchained {m m1 : Manager} {p : Ptr} {evs : List Event} (h : Chain m p m1 evs)
    (t : Task) (ht : m.task? p = some t) (ho : t.onRunEnd = true)
    (hx : t.executeNextTask = false) :
    evs = m.ranEvents p t ∧ m1 = { (m.ran p t) with isStarted := false } := by
  have key : ∀ u : Task, m.task? p = some u → u = t := fun u hu =>
    Option.some.inj (hu.symm.trans ht)
  have hx1 : t.Start.1.executeNextTask = false := (Task.Start_kin t).2.trans hx
  induction h with
  | alone m p t' ht' ho' =>
    cases key t' ht'
    rw [ho] at ho'; cases ho'
  | failed m p t' ht' ho' he =>
    cases key t' ht'
    exact ⟨rfl, rfl⟩
  | single m p t' ht' ho' he hx' =>
    cases key t' ht'
    exact ⟨rfl, rfl⟩
  | stopped m p t' ht' ho' he hx' hs =>
    cases key t' ht'
    rw [hx1] at hx'; cases hx'
  | complete m p t' ht' ho' he hx' hs hc =>
    cases key t' ht'
    rw [hx1] at hx'; cases hx'
  | lost m p t' ht' ho' he hx' hs hc hq =>
    cases key t' ht'
    rw [hx1] at hx'; cases hx'
  | next m p t' q m1 evs ht' ho' he hx' hs hc hq hrest _ =>
    cases key t' ht'
    rw [hx1] at hx'; cases hx'

end Manager

/-- With Retries of at least 0, Start on a Task that is not in status
success invokes the Handler. -/
theorem Task.Start_invokes (t : Task) (hs : t.status ≠ .success) (hR : 0 ≤ t.Retries) :
    TEvent.handler t.calls ∈ t.Start.2 := by
  rw [Task.Start_eq t hs]
  obtain ⟨_, pc, _, _, _, pR, _⟩ := Task.prologue_spec t
  have hpos : 0 < t.prologue.1.Retries := by
    rw [pR]; split <;> omega
  obtain ⟨n, hn⟩ : ∃ n, t.prologue.1.Retries.toNat = n + 1 :=
    ⟨t.prologue.1.Retries.toNat - 1, by omega⟩
  rw [hn]
  have hatt : TEvent.handler t.calls ∈ (t.prologue.1.attempt 0).2.1 := by
    unfold Task.attempt Task.handlerStep
    simp only [lt_self_iff_false, gt_iff_lt, if_false]
    rw [← pc]
    split <;> simp
  have hloop : TEvent.handler t.calls ∈ (Task.loop (n + 1) 0 t.prologue.1).2 := by
    rcases hb : (t.prologue.1.attempt 0).2.2 with _ | _
    · rw [Task.loop_continue n 0 _ hb]
      exact List.mem_append_left _ hatt
    · rw [Task.loop_break n 0 _ hb]
      exact hatt
  simp only [List.mem_append]
  exact Or.inl (Or.inl (Or.inr hloop))

namespace Manager

/-- Start on a manager whose current Task was added but never reset, so
that its executeNextTask is unset: Start records onStart and the run of
that Task and nothing else, so that no other Handler is invoked and
onComplete is not called, and the manager is stopped. The Handler of the
current Task is invoked when its Retries is at least 0. -/
theorem Start_designated_unchained (srt : Sorter) (hsrt : srt.Valid) (m : Manager)
    (hm : m.Managed) (hidx : m.isSorted = true → m.Indexed) (c : Ptr) (t : Task)
    (hc : m.current = some c) (hmem : c ∈ m.items) (ht : m.task? c = some t)
    (hx : t.executeNextTask = false) :
    ∃ m1 evs, m.Start srt = some m1 ∧ m1.trace = m.trace ++ evs ∧
      (∀ r ∈ handlerRuns evs, r = c) ∧ Event.onComplete ∉ evs ∧ m1.IsStarted = false ∧
      (Event.onStart ∈ evs ↔ m.onStart = true) ∧
      (0 ≤ t.Retries → t.status ≠ .success → c ∈ handlerRuns evs) := by
  obtain ⟨_, _, scur, sos, _, sperm, _, _, stask⟩ := sort_spec srt hsrt m hm hidx
  obtain ⟨i, hu⟩ := stask c t ht
  have ho : t.onRunEnd = true := by
    have := hm.2 c hmem
    rw [ht] at this
    simpa using this
  obtain ⟨m1, evs, hst, htr, _, hshape⟩ := Start_shape srt m
  refine ⟨m1, evs, hst, htr, ?_⟩
  have hc2 : (m.sort srt).current = some c := scur.trans hc
  rcases hshape with ⟨_, h | ⟨c', h1, h2⟩ | ⟨h1, _⟩⟩ | ⟨m0, c', body, _, hevs, hch, _, _, _, h⟩
  · exfalso
    have : c ∈ (m.sort srt).items := sperm.mem_iff.2 hmem
    rw [h] at this
    cases this
  · exfalso
    rw [hc2] at h1
    cases h1
    rw [hu] at h2
    cases h2
  · exfalso
    rw [hc2] at h1
    cases h1
  · rcases h with ⟨h1, h2⟩ | ⟨h1, _⟩
    · rw [hc2] at h1
      cases h1
      subst h2
      have hu0 : (m.sort srt).markStarted.task? c = some { t with index := i } := hu
      obtain ⟨hb, hm1⟩ := hch.unchained _ hu0 ho hx
      have hruns : handlerRuns evs =
          List.replicate (handlerCount ({ t with index := i } : Task).Start.2) c := by
        rw [hevs, handlerRuns_append, handlerRuns_starting, hb, handlerRuns_ranEvents,
          List.nil_append]
      refine ⟨?_, ?_, ?_, ?_, ?_⟩
      · intro r hr
        rw [hruns] at hr
        exact (List.mem_replicate.1 hr).2
      · rw [hevs, hb]
        intro h
        rcases List.mem_append.1 h with h | h
        · exact onComplete_not_mem_starting _ h
        · exact onComplete_not_mem_ranEvents _ _ _ h
      · rw [hm1]; rfl
      · rw [hevs, hb, ← sos]
        constructor
        · intro h
          rcases List.mem_append.1 h with h | h
          · unfold starting at h
            split at h
            · assumption
            · cases h
          · exact absurd h (onStart_not_mem_ranEvents _ _ _)
        · intro h
          apply List.mem_append_left
          simp [starting, h]
      · intro hR hs
        rw [hruns]
        have hin := Task.Start_invokes ({ t with index := i } : Task) hs hR
        have hpos : 0 < handlerCount ({ t with index := i } : Task).Start.2 :=
          List.countP_pos_iff.2 ⟨_, hin, rfl⟩
        exact List.mem_replicate.2 ⟨by omega, rfl⟩
    · rw [hc2] at h1
      cases h1

end Manager

/-- A designated Task with Retries = 1 that was only added: Start invokes
its Handler and no other, onComplete is not called and the manager is
stopped. -/
theorem Examples.designated_runs_alone :
    (Examples.designated.Start Examples.insertionSorter).map
      (fun m => (handlerRuns m.trace, decide (Event.onComplete ∈ m.trace), m.IsStarted)) =
      some ([0], false, false) := by
  decide

/-! ## Stop, Reset and a later Start keep Items and every index -/

namespace Manager

theorem Stop_evolves (m : Manager) : m.Evolves m.Stop :=
  (evolves_refl m).frame _ rfl rfl rfl rfl rfl rfl rfl

/-- The loop of Reset keeps everything but the Task objects it resets. -/
theorem resetAll_spec : ∀ (l : List Ptr) (m : Manager),
    m.Evolves (l.foldl (fun acc p => acc.update p Task.reset) m) ∧
    (l.foldl (fun acc p => acc.update p Task.reset) m).isStarted = m.isStarted ∧
    (l.foldl (fun acc p => acc.update p Task.reset) m).current = m.current ∧
    (l.foldl (fun acc p => acc.update p Task.reset) m).trace = m.trace
  | [], m => ⟨evolves_refl m, rfl, rfl, rfl⟩
  | p :: l, m => by
    obtain ⟨h1, h2, h3, h4⟩ := resetAll_spec l (m.update p Task.reset)
    simp only [List.foldl_cons]
    refine ⟨evolves_trans (evolves_update m p Task.reset (fun t _ => Task.reset_kin t)) h1,
      ?_, ?_, ?_⟩
    · rw [h2, update_isStarted]
    · rw [h3, update_current]
    · rw [h4, update_trace]

/-- Reset keeps Items, the callbacks, the sort mark and the configuration
of every Task; it clears the started mark and the current Task and records
no call. -/
theorem Reset_spec (m : Manager) :
    m.Evolves m.Reset ∧ m.Reset.isStarted = false ∧ m.Reset.current = none ∧
    m.Reset.trace = m.trace := by
  obtain ⟨h1, h2, h3, h4⟩ := resetAll_spec m.items { m with isStarted := false, current := none }
  have h0 : m.Evolves { m with isStarted := false, current := none } :=
    (evolves_refl m).frame _ rfl rfl rfl rfl rfl rfl rfl
  exact ⟨evolves_trans h0 h1, h2, h3, h4⟩

/-- Start on a manager that is already sorted keeps Items, the callbacks,
the sort mark and the configuration of every Task. -/
theorem Start_evolves_sorted (srt : Sorter) (m : Manager) (hs : m.isSorted = true) :
    ∃ m1, m.Start srt = some m1 ∧ m.Evolves m1 := by
  obtain ⟨m1, _, hst, _, hEv, _⟩ := Start_shape srt m
  rw [sort_sorted srt m hs] at hEv
  exact ⟨m1, hst, hEv⟩

/-- Every sequence of Start, Stop and Reset calls on a sorted manager
returns and keeps Items, the callbacks, the sort mark and the configuration
of every Task. -/
theorem steps_evolves (srt : Sorter) : ∀ (ops : List Op) (m : Manager), m.isSorted = true →
    ∃ m1, m.steps srt ops = some m1 ∧ m.Evolves m1
  | [], m, _ => ⟨m, rfl, evolves_refl m⟩
  | o :: ops, m, hs => by
    obtain ⟨m1, hst, hEv⟩ : ∃ m1, m.step srt o = some m1 ∧ m.Evolves m1 := by
      cases o with
      | start => exact Start_evolves_sorted srt m hs
      | stop => exact ⟨_, rfl, Stop_evolves m⟩
      | reset => exact ⟨_, rfl, (Reset_spec m).1⟩
    obtain ⟨m2, hst2, hEv2⟩ := steps_evolves srt ops m1 (hEv.2.2.2.2.2.1.trans hs)
    refine ⟨m2, ?_, evolves_trans hEv hEv2⟩
    simp only [steps, hst, Option.some_bind]
    exact hst2

/-- The sort key of a Task is the same in two states of one manager. -/
theorem Evolves.orderKey_eq {m m1 : Manager} (h : m.Evolves m1) (q : Ptr) :
    m1.orderKey q = m.orderKey q := by
  unfold orderKey
  rcases h1 : m1.task? q with _ | u
  · rcases h0 : m.task? q with _ | t
    · rfl
    · obtain ⟨t1, ht1, _⟩ := h.2.2.2.2.2.2.2 q t h0
      rw [h1] at ht1; cases ht1
  · obtain ⟨t, ht, kin⟩ := h.back h1
    rw [ht]
    exact kin.2.2.2.1

/-- The sort keeps the sort key of every Task. -/
theorem sort_orderKey (srt : Sorter) (hsrt : srt.Valid) (m : Manager) (hm : m.Managed)
    (hidx : m.isSorted = true → m.Indexed) (q : Ptr) :
    (m.sort srt).orderKey q = m.orderKey q := by
  obtain ⟨_, _, _, _, _, _, _, hlen, stask⟩ := sort_spec srt hsrt m hm hidx
  unfold orderKey
  rcases h0 : m.task? q with _ | t
  · have : (m.sort srt).task? q = none := by
      unfold task? at h0 ⊢
      rw [List.getElem?_eq_none_iff] at h0 ⊢
      omega
    rw [this]
  · obtain ⟨i, hi⟩ := stask q t h0
    rw [hi]

end Manager

/-! ## A Task added after the sort -/

namespace Manager

/-- AddNew in closed form: the Task object as Add leaves it is put at the
end of the heap, and its pointer at the end of Items. -/
theorem AddNew_eq (m : Manager) (t : Task) :
    m.AddNew t = { m with heap := m.heap ++ [t.added], items := m.items ++ [m.heap.length] } := by
  have hget : (m.heap ++ [t])[m.heap.length]? = some t := by simp
  simp only [AddNew, alloc, Add, update, hget]
  simp

theorem Late.carried {m m1 : Manager} {front : List Ptr} {pt : Ptr} (h : m.Late front pt)
    (hE : m.Evolves m1) : m1.Late front pt := by
  obtain ⟨h1, h2, h3, h4⟩ := h
  refine ⟨hE.1.trans h1, h2, (hE.indexOf_eq pt).trans h3, ?_⟩
  intro k p hk
  obtain ⟨u, hu, hi, ho⟩ := h4 k p hk
  obtain ⟨u1, hu1, kin⟩ := hE.2.2.2.2.2.2.2 p u hu
  exact ⟨u1, hu1, kin.2.2.1.trans hi, kin.2.2.2.2.2.1.trans ho⟩

/-- A chain that begins with a sorted Task never reaches the Task that was
added after the sort: it makes no call of that Task, does not call
onComplete, and leaves the manager stopped. -/
theorem Chain.skips_late {m m1 : Manager} {p : Ptr} {evs : List Event} (h : Chain m p m1 evs) :
    ∀ (front : List Ptr) (pt : Ptr), m.Late front pt → p ∈ front →
      (∀ e, Event.task pt e ∉ evs) ∧ Event.onComplete ∉ evs ∧ m1.isStarted = false := by
  have hran : ∀ (m : Manager) (p : Ptr) (t : Task) (front : List Ptr) (pt : Ptr),
      m.Late front pt → p ∈ front →
      (∀ e, Event.task pt e ∉ m.ranEvents p t) ∧ Event.onComplete ∉ m.ranEvents p t := by
    intro m p t front pt hL hp
    refine ⟨?_, onComplete_not_mem_ranEvents m p t⟩
    intro e he
    obtain ⟨rfl, _⟩ := task_mem_ranEvents m p pt t e he
    exact hL.2.1 hp
  induction h with
  | alone m p t ht ho =>
    intro front pt hL hp
    obtain ⟨k, hk⟩ := List.mem_iff_getElem?.1 hp
    obtain ⟨u, hu, _, hou⟩ := hL.2.2.2 k p hk
    rw [ht] at hu
    cases hu
    rw [ho] at hou; cases hou
  | failed m p t ht ho he =>
    intro front pt hL hp
    exact ⟨(hran m p t front pt hL hp).1, (hran m p t front pt hL hp).2, rfl⟩
  | single m p t ht ho he hx =>
    intro front pt hL hp
    exact ⟨(hran m p t front pt hL hp).1, (hran m p t front pt hL hp).2, rfl⟩
  | stopped m p t ht ho he hx hs =>
    intro front pt hL hp
    exact ⟨(hran m p t front pt hL hp).1, (hran m p t front pt hL hp).2, hs⟩
  | complete m p t ht ho he hx hs hc =>
    intro front pt hL hp
    exfalso
    obtain ⟨k, hk⟩ := List.mem_iff_getElem?.1 hp
    obtain ⟨u, hu, hi, _⟩ := hL.2.2.2 k p hk
    rw [ht] at hu
    cases hu
    have hklt : k < front.length := by
      rcases Nat.lt_or_ge k front.length with h | h
      · exact h
      · rw [List.getElem?_eq_none h] at hk; cases hk
    rw [ran_items, hL.1] at hc
    simp only [List.length_append, List.length_singleton, Nat.cast_add, Nat.cast_one] at hc
    omega
  | lost m p t ht ho he hx hs hc hq =>
    intro front pt hL hp
    exact ⟨(hran m p t front pt hL hp).1, (hran m p t front pt hL hp).2, rfl⟩
  | next m p t q m1 evs ht ho he hx hs hc hq hrest ih =>
    intro front pt hL hp
    obtain ⟨hE, hqi, hqmem, _, _⟩ := next_facts m p q t ht hq
    obtain ⟨k, hk⟩ := List.mem_iff_getElem?.1 hp
    obtain ⟨u, hu, hi, _⟩ := hL.2.2.2 k p hk
    rw [ht] at hu
    cases hu
    have hqf : q ∈ front := by
      rw [hL.1] at hqmem
      rcases List.mem_append.1 hqmem with h | h
      · exact h
      · exfalso
        have hqpt : q = pt := by simpa using h
        rw [hqpt, hL.2.2.1] at hqi
        have := Option.some.inj hqi
        omega
    obtain ⟨g1, g2, g3⟩ := ih front pt (hL.carried hE) hqf
    refine ⟨?_, ?_, g3⟩
    · intro e he'
      rcases List.mem_append.1 he' with h | h
      · exact (hran m p t front pt hL hp).1 e h
      · exact g1 e h
    · intro he'
      rcases List.mem_append.1 he' with h | h
      · exact (hran m p t front pt hL hp).2 h
      · exact g2 h

/-- Start on a manager that was sorted before a Task was added, and that
has no current Task: the Task added after the sort makes no call,
onComplete is not called, and the manager is stopped when Start returns. -/
theorem Start_skips_late (srt : Sorter) (m : Manager) (front : List Ptr) (pt : Ptr)
    (hL : m.Late front pt) (hne : front ≠ []) (hs : m.isSorted = true)
    (hc : m.current = none) :
    ∃ m1 evs, m.Start srt = some m1 ∧ m1.trace = m.trace ++ evs ∧ m.Evolves m1 ∧
      (∀ e, Event.task pt e ∉ evs) ∧ Event.onComplete ∉ evs ∧ m1.isStarted = false := by
  obtain ⟨m1, evs, hst, htr, hEv, hshape⟩ := Start_shape srt m
  rw [sort_sorted srt m hs] at hEv hshape
  refine ⟨m1, evs, hst, htr, hEv, ?_⟩
  obtain ⟨f0, rest, hfr⟩ := List.exists_cons_of_ne_nil hne
  obtain ⟨u0, hu0, hi0, _⟩ := hL.2.2.2 0 f0 (by rw [hfr]; simp)
  have hfind : m.items.find? (fun q => decide (m.indexOf q = some 0)) = some f0 := by
    rw [hL.1, hfr]
    simp [indexOf, hu0, hi0]
  rcases hshape with ⟨_, h | ⟨c', h1, _⟩ | ⟨_, h⟩⟩ | ⟨m0, c, body, _, hevs, hch, hE0, _, _, h⟩
  · rw [hL.1] at h; simp at h
  · rw [hc] at h1; cases h1
  · rw [hfind] at h; cases h
  · rcases h with ⟨h1, _⟩ | ⟨_, hf, _⟩
    · rw [hc] at h1; cases h1
    rw [hfind] at hf
    cases hf
    obtain ⟨g1, g2, g3⟩ := hch.skips_late front pt (hL.carried hE0)
      (by rw [hfr]; exact List.mem_cons_self _ _)
    rw [hevs]
    refine ⟨?_, ?_, g3⟩
    · intro e he
      rcases List.mem_append.1 he with h | h
      · exact starting_no_task m pt e h
      · exact g1 e h
    · intro he
      rcases List.mem_append.1 he with h | h
      · exact onComplete_not_mem_starting m h
      · exact g2 h

/-- A Task object created and added to a manager whose Tasks have their
position as index is late. -/
theorem AddNew_late (m : Manager) (hI : m.Indexed) (t : Task) (ht : t.index = 0) :
    (m.AddNew t).Late m.items m.heap.length := by
  have hlt : ∀ (k : Nat) (p : Ptr), m.items[k]? = some p → p < m.heap.length := by
    intro k p hk
    obtain ⟨u, hu, _⟩ := hI k p hk
    rcases Nat.lt_or_ge p m.heap.length with h | h
    · exact h
    · unfold task? at hu
      rw [List.getElem?_eq_none h] at hu; cases hu
  rw [AddNew_eq]
  refine ⟨rfl, ?_, ?_, ?_⟩
  · intro h
    obtain ⟨k, hk⟩ := List.mem_iff_getElem?.1 h
    exact absurd (hlt k _ hk) (lt_irrefl _)
  · simp [indexOf, task?, Task.added, ht]
  · intro k p hk
    obtain ⟨u, hu, hi, ho⟩ := hI k p hk
    refine ⟨u, ?_, hi, ho⟩
    unfold task? at hu ⊢
    simp only []
    rw [List.getElem?_append_left (hlt k p hk)]
    exact hu

end Manager

/-! ## The state a completed chain leaves, and the next Start -/

/-- Start on a Task in status success makes no call but the end-of-run
callback. -/
theorem Task.Start_done (t : Task) (hs : t.status = .success) :
    t.Start = (t, t.onTaskEnd) := by
  simp [Task.Start, Task.IsSuccess, hs]

namespace Manager

/-- The state a completed chain leaves: every Task from position `j` on
but the last one is reset, the last one is in status success, and the Tasks
before position `j` are as they were. -/
theorem Chain.completes_state {m m1 : Manager} {p : Ptr} {evs : List Event}
    (h : Chain m p m1 evs) :
    ∀ j : Nat, m.Indexed → m.items[j]? = some p → m.isStarted = true → m.current = some p →
      (∀ t, m.task? p = some t →
        t.Start.1.err = none ∧ t.executeNextTask = true ∧ TEvent.callStop ∉ t.Start.2) →
      (∀ (k : Nat) (q : Ptr) (u : Task), j < k → m.items[k]? = some q → m.task? q = some u →
        u.Succeeds) →
      (∀ (k : Nat) (q : Ptr), j ≤ k → m.items[k]? = some q → k + 1 < m.items.length →
        ∃ u, m1.task? q = some u ∧ u.status = .pending ∧ u.attempts = 0 ∧ u.err = none) ∧
      (∀ q, m.items.getLast? = some q →
        ∃ u, m1.task? q = some u ∧ u.status = .success ∧ u.err = none ∧
          u.executeNextTask = true) ∧
      (∀ (k : Nat) (q : Ptr), k < j → m.items[k]? = some q → m1.task? q = m.task? q) := by
  induction h with
  | alone m p t ht ho =>
    intro j hI hj _ _ _ _
    obtain ⟨t1, ht1, _, hr⟩ := hI j p hj
    rw [ht] at ht1
    rw [← Option.some.inj ht1, ho] at hr
    cases hr
  | failed m p t ht ho he =>
    intro j _ _ _ _ hclean _
    rw [(hclean t ht).1] at he
    cases he
  | single m p t ht ho he hx =>
    intro j _ _ _ _ hclean _
    rw [(Task.Start_kin t).2, (hclean t ht).2.1] at hx
    cases hx
  | stopped m p t ht ho he hx hs =>
    intro j _ _ hst _ hclean _
    rw [ran_isStarted, hst] at hs
    have := (hclean t ht).2.2
    simp [this] at hs
  | complete m p t ht ho he hx hs hc =>
    intro j hI hj hst hcur _ _
    obtain ⟨t1, ht1, hidx, _⟩ := hI j p hj
    rw [ht] at ht1
    have hti : t.index = (j : Int) := by rw [Option.some.inj ht1]; exact hidx
    have hjlt : j < m.items.length := by
      rcases Nat.lt_or_ge j m.items.length with h1 | h1
      · exact h1
      · rw [List.getElem?_eq_none h1] at hj; cases hj
    rw [ran_items, hti] at hc
    have hjl : j = m.items.length - 1 := by omega
    refine ⟨?_, ?_, ?_⟩
    · intro k q hk _ hlt
      omega
    · intro q hq
      rw [List.getLast?_eq_getElem?, ← hjl, hj] at hq
      cases hq
      exact ⟨t.Start.1, task?_ran_self m p t ht, Task.Start_ok_status t he, he, hx⟩
    · intro k q hk hq
      have hqp : q ≠ p := by
        intro h
        rw [h] at hq
        have := hI.position_unique hq hj
        omega
      have : (m.ran p t).task? q = m.task? q := by
        rw [task?_ran, task?_update]
        simp [hqp]
      exact this
  | lost m p t ht ho he hx hs hc hq =>
    intro j hI hj _ _ _ _
    exfalso
    obtain ⟨t1, ht1, hidx, _⟩ := hI j p hj
    rw [ht] at ht1
    have hti : t.index = (j : Int) := by rw [Option.some.inj ht1]; exact hidx
    rw [ran_items, hti] at hc
    obtain ⟨q, hq1⟩ : ∃ q, m.items[j + 1]? = some q := exists_getElem?_of_lt (by omega)
    rw [List.find?_eq_none] at hq
    have hmem : q ∈ (m.ran p t).items := by
      rw [ran_items]; exact List.mem_iff_getElem?.2 ⟨_, hq1⟩
    apply hq q hmem
    rw [(ran_evolves m p t ht).indexOf_eq, hI.indexOf_position hq1, hti]
    simp
  | next m p t q m1 evs ht ho he hx hs hc hq hrest ih =>
    intro j hI hj hst hcur hclean hlater
    obtain ⟨hE03, hqi, hqm, hqp, u, hu, hu3⟩ := next_facts m p q t ht hq
    obtain ⟨t1, ht1, hidx, _⟩ := hI j p hj
    rw [ht] at ht1
    have hti : t.index = (j : Int) := by rw [Option.some.inj ht1]; exact hidx
    obtain ⟨j', hj1, hj2⟩ := hI.position_of_index hqm hqi
    have hjj : j' = j + 1 := by omega
    subst hjj
    have hsu : u.Succeeds := hlater (j + 1) q u (by omega) hj2 hu
    obtain ⟨gA, gB, gC⟩ := ih (j + 1)
      (hI.of_evolves hE03) (by rw [hE03.1]; exact hj2) (by simp [SetCurrent, hs]) rfl
      (by
        intro tq htq
        rw [hu3] at htq
        rw [← Option.some.inj htq]
        have hr : u.reset.Succeeds := fun n => hsu n
        obtain ⟨r1, r2⟩ := hr.run_clean (by simp [Task.reset]) rfl
        exact ⟨r1, rfl, r2⟩)
      (by
        intro k q' u' hk hq' hu'
        obtain ⟨u0, hu0, kin⟩ := hE03.back hu'
        rw [hE03.1] at hq'
        exact (hlater k q' u0 (by omega) hq' hu0).congr_kin kin)
    rw [hE03.1] at gA gB gC
    -- the Task objects in the state in which the next Task is started
    have hnext : ∀ r, r ≠ q → ((((m.ran p t).update q Task.reset).update p Task.reset).SetCurrent
        (some q)).task? r = if r = p then some t.Start.1.reset else m.task? r := by
      intro r hr
      have h1 : ((((m.ran p t).update q Task.reset).update p Task.reset).SetCurrent
          (some q)).task? r = (((m.ran p t).update q Task.reset).update p Task.reset).task? r :=
        rfl
      rw [h1, task?_update]
      by_cases hrp : r = p
      · subst hrp
        simp only [if_true]
        rw [task?_update]
        simp only [hqp.symm, if_false]
        rw [task?_ran_self m r t ht]
        rfl
      · simp only [hrp, if_false]
        rw [task?_update]
        simp only [hr, if_false]
        rw [task?_ran, task?_update]
        simp [hrp]
    refine ⟨?_, gB, ?_⟩
    · intro k r hk hr hlt
      rcases Nat.lt_or_ge j k with h1 | h1
      · exact gA k r (by omega) hr hlt
      · have hkj : k = j := by omega
        subst hkj
        rw [hj] at hr
        cases hr
        refine ⟨t.Start.1.reset, ?_, rfl, rfl, rfl⟩
        rw [gC k p (by omega) hj, hnext p hqp.symm]
        simp
    · intro k r hk hr
      have hrp : r ≠ p := by
        intro h
        rw [h] at hr
        have := hI.position_unique hr hj
        omega
      have hrq : r ≠ q := by
        intro h
        rw [h] at hr
        have := hI.position_unique hr hj2
        omega
      rw [gC k r (by omega) hr, hnext r hrq]
      simp [hrp]

/-- Start on a sorted manager without current Task and whose Handlers all
succeed leaves every Task but the last one reset, and the last one in
status success. -/
theorem Start_completes_state (srt : Sorter) (m m1 : Manager)
    (hst : m.Start srt = some m1)
    (hI : (m.sort srt).Indexed) (hne : (m.sort srt).items ≠ [])
    (hc : (m.sort srt).current = none)
    (hall : ∀ (q : Ptr) (u : Task), (m.sort srt).task? q = some u → u.Succeeds) :
    (∀ (k : Nat) (q : Ptr), m1.items[k]? = some q → k + 1 < m1.items.length →
      ∃ u, m1.task? q = some u ∧ u.status = .pending ∧ u.attempts = 0 ∧ u.err = none) ∧
    (∀ q, m1.items.getLast? = some q →
      ∃ u, m1.task? q = some u ∧ u.status = .success ∧ u.err = none ∧
        u.executeNextTask = true) := by
  obtain ⟨m2, evs2, hst2, _, hEv, hcase⟩ := Start_shape srt m
  rw [hst] at hst2
  have hm12 : m1 = m2 := Option.some.inj hst2
  subst hm12
  obtain ⟨q0, hq0⟩ : ∃ q, (m.sort srt).items[0]? = some q :=
    exists_getElem?_of_lt (List.length_pos.2 hne)
  rcases hcase with ⟨_, h | ⟨c', h1, _⟩ | ⟨_, h⟩⟩ | ⟨m0, c, body, _, hev, hch, hE0, hs0, hc0, hc'⟩
  · exact absurd h hne
  · rw [hc] at h1; cases h1
  · exfalso
    rw [List.find?_eq_none] at h
    apply h q0 (List.mem_iff_getElem?.2 ⟨_, hq0⟩)
    rw [hI.indexOf_position hq0]
    simp
  · rcases hc' with ⟨h1, _⟩ | ⟨_, hf, h2⟩
    · rw [hc] at h1; cases h1
    have hci : (m.sort srt).indexOf c = some 0 := by simpa using List.find?_some hf
    obtain ⟨j, hj1, hj2⟩ := hI.position_of_index (List.mem_of_find?_eq_some hf) hci
    have hj0 : j = 0 := by omega
    subst hj0
    obtain ⟨t, ht, _, _⟩ := hI 0 c hj2
    have htc : m0.task? c = some t.reset := by
      rw [h2]
      have : ((m.sort srt).markStarted.update c Task.reset).task? c = some t.reset := by
        rw [task?_update]
        simp only [if_true]
        have : (m.sort srt).markStarted.task? c = some t := ht
        rw [this]; rfl
      exact this
    obtain ⟨gA, gB, _⟩ := hch.completes_state 0 (hI.of_evolves hE0)
      (by rw [hE0.1]; exact hj2) hs0 hc0
      (by
        intro tq htq
        rw [htc] at htq
        rw [← Option.some.inj htq]
        have hr : t.reset.Succeeds := fun n => hall c t ht n
        obtain ⟨r1, r2⟩ := hr.run_clean (by simp [Task.reset]) rfl
        exact ⟨r1, rfl, r2⟩)
      (by
        intro k q' u' _ _ hu'
        obtain ⟨u0, hu0, kin⟩ := hE0.back hu'
        exact (hall q' u0 hu0).congr_kin kin)
    rw [hE0.1, ← hEv.1] at gA gB
    exact ⟨fun k q hq hlt => gA k q (Nat.zero_le _) hq hlt, gB⟩

/-- The chain of a Task that is already in status success and sits at the
last position: the end-of-run callback is called with status success, the
observers and then onComplete are called, and the manager is stopped. -/
theorem Chain.last_done {m m1 : Manager} {p : Ptr} {evs : List Event} (h : Chain m p m1 evs)
    (t : Task) (ht : m.task? p = some t) (ho : t.onRunEnd = true)
    (hs : t.status = .success) (he : t.err = none) (hx : t.executeNextTask = true)
    (hst : m.isStarted = true) (hi : t.index + 1 > (m.items.length : Int) - 1) :
    evs = Event.task p (.runEnd .success) ::
        m.onTaskStatusChange.map (fun o => Event.statusChange o p .success) ++ m.completion ∧
      m1.isStarted = false := by
  have key : ∀ u : Task, m.task? p = some u → u = t := fun u hu =>
    Option.some.inj (hu.symm.trans ht)
  have hS : t.Start = (t, [TEvent.runEnd .success]) := by
    rw [Task.Start_done t hs]
    simp [Task.onTaskEnd, ho, hs]
  have hran : m.ranEvents p t = Event.task p (.runEnd .success) ::
      m.onTaskStatusChange.map (fun o => Event.statusChange o p .success) := by
    unfold ranEvents expand
    rw [hS]
    simp [expandWith, hs]
  induction h with
  | alone m p t' ht' ho' =>
    cases key t' ht'
    rw [ho] at ho'; cases ho'
  | failed m p t' ht' ho' he' =>
    cases key t' ht'
    rw [hS] at he'
    simp [he] at he'
  | single m p t' ht' ho' he' hx' =>
    cases key t' ht'
    rw [hS] at hx'
    simp [hx] at hx'
  | stopped m p t' ht' ho' he' hx' hs' =>
    cases key t' ht'
    rw [ran_isStarted, hst, hS] at hs'
    simp at hs'
  | complete m p t' ht' ho' he' hx' hs' hc =>
    cases key t' ht'
    refine ⟨?_, rfl⟩
    rw [hran, completion_eq_of_evolves (ran_evolves m p t ht)]
  | lost m p t' ht' ho' he' hx' hs' hc hq =>
    cases key t' ht'
    rw [ran_items] at hc
    exact absurd hi hc
  | next m p t' q m1 evs ht' ho' he' hx' hs' hc hq hrest _ =>
    cases key t' ht'
    rw [ran_items] at hc
    exact absurd hi hc

theorem handlerRuns_nil_of (tr : List Event) (h : ∀ q c, Event.task q (.handler c) ∉ tr) :
    handlerRuns tr = [] := by
  apply List.eq_nil_iff_forall_not_mem.2
  intro q hq
  obtain ⟨c, hc⟩ := (mem_handlerRuns tr q).1 hq
  exact h q c hc

end Manager

namespace Workman

/-- C23: Next() and SelectedWorker() never rotate. After every sequence of
Add, Remove, Load, Reload, Next and SelectedWorker calls on a manager built
by NewManager, whatever the factory, the files and the payloads, Next()
leaves the manager as it is, and Next() and SelectedWorker() both return
nil. -/
theorem C23_selected_worker_never_rotates (builder : Option (Nat → Worker))
    (calls : List Call) :
    ((NewManager builder).applyAll calls).Next.1 = (NewManager builder).applyAll calls ∧
    ((NewManager builder).applyAll calls).Next.2 = none ∧
    ((NewManager builder).applyAll calls).SelectedWorker = none :=
  ⟨rfl, applyAll_selected calls (NewManager builder),
    applyAll_selected calls (NewManager builder)⟩

/-- C21: Load() is not transactional. When the files 0..k-1 of the glob
were read and added without error and file k fails, by a read error or by
an error of Add (Init, duplicate ID or Boot), Load returns that error; the
Workers of the files 0..k-1 stay registered, appended after the Workers
registered before in glob order, Worker j carrying index j and having
received Init with the content and the name of file j; the registry is
left in that order, the only events dispatched are the add events of
these Workers, so no load event, and the factory was called at most k+1
times, so no later file was processed. -/
theorem C21_load_not_transactional (fs : FS) (wsort : WSorter) (m : Manager)
    (pre post : List String) (file : String) (e : Err)
    (hglob : fs.glob (pathJoin [m.rootPath, m.workersDir, "*" ++ m.workersExt]) =
      .ok (pre ++ file :: post))
    (hpre : (Manager.loadFiles fs m pre 0).2 = none)
    (hfail : fs.read file = .error e ∨
      ∃ content, fs.read file = .ok content ∧
        ((Manager.loadFiles fs m pre 0).1.Add pre.length content [file]).2 = .error e) :
    ∃ ws : List Worker,
      (m.Load fs wsort).2 = some e ∧
      (m.Load fs wsort).1.workers = m.workers ++ ws ∧
      (m.Load fs wsort).1.events =
        m.events ++ ws.map (fun w => WEvent.addRemove true false w) ∧
      ws.map Worker.Index = (List.range pre.length).map (fun j : Nat => (j : Int)) ∧
      List.Forall₂ (fun f w => ∃ content, fs.read f = .ok content ∧
        WCall.Init content [f] ∈ w.log) pre ws ∧
      (m.Load fs wsort).1.built ≤ m.built + pre.length + 1 := by
  obtain ⟨mk, hmk⟩ : ∃ mk, Manager.loadFiles fs m pre 0 = (mk, none) :=
    ⟨(Manager.loadFiles fs m pre 0).1, Prod.ext rfl hpre⟩
  obtain ⟨ws, h1, h2, h3, h4, h5⟩ := loadFiles_ok fs pre m mk 0 hmk
  rw [hmk] at hfail
  have hlen : ¬ (pre ++ file :: post).length = 0 := by simp
  have happ := loadFiles_append fs (file :: post) pre m 0
  rw [hmk] at happ
  simp only [Nat.zero_add] at happ h4
  have hload : ∀ mf, Manager.loadFiles fs mk (file :: post) pre.length = (mf, some e) →
      m.Load fs wsort = (mf, some e) := by
    intro mf hmf
    unfold Manager.Load
    simp only [hglob, hlen, if_false, happ, hmf]
  refine ⟨ws, ?_⟩
  rcases hfail with hr | ⟨content, hr, hadd⟩
  · have hmf : Manager.loadFiles fs mk (file :: post) pre.length = (mk, some e) := by
      unfold Manager.loadFiles
      simp only [hr]
    rw [hload mk hmf]
    exact ⟨rfl, h1, h2, h4, h5, by show mk.built ≤ _; omega⟩
  · have hb := Add_built mk pre.length content [file]
    rcases ha : mk.Add pre.length content [file] with ⟨m2, err | w⟩
    · rw [ha] at hadd hb
      cases hadd
      have hmf : Manager.loadFiles fs mk (file :: post) pre.length = (m2, some e) := by
        unfold Manager.loadFiles
        simp only [hr, ha]
      rw [hload m2 hmf]
      rcases Add_cases mk pre.length content [file] with ⟨e', _, hw, hev⟩ | ⟨w, hw, _⟩
      · rw [ha] at hw hev
        exact ⟨rfl, hw.trans h1, hev.trans h2, h4, h5, by show m2.built ≤ _; simp only [] at hb; omega⟩
      · rw [ha] at hw
        cases hw
    · rw [ha] at hadd
      cases hadd

/-- C21 at a directory of three files whose second Worker fails to boot:
Load returns that error, the first Worker stays registered, no load event
is dispatched and the factory was not called for the third file. -/
theorem C21_witness :
    ∃ ws : List Worker,
      ((NewManager (some Examples.failingSecond)).Load Examples.threeFiles
        Examples.workerSorter).2 = some "boot failed" ∧
      ((NewManager (some Examples.failingSecond)).Load Examples.threeFiles
        Examples.workerSorter).1.workers = [] ++ ws ∧
      ((NewManager (some Examples.failingSecond)).Load Examples.threeFiles
        Examples.workerSorter).1.events =
          [] ++ ws.map (fun w => WEvent.addRemove true false w) ∧
      ws.map Worker.Index = (List.range 1).map (fun j : Nat => (j : Int)) ∧
      List.Forall₂ (fun f w => ∃ content, Examples.threeFiles.read f = .ok content ∧
        WCall.Init content [f] ∈ w.log) ["a.json"] ws ∧
      ((NewManager (some Examples.failingSecond)).Load Examples.threeFiles
        Examples.workerSorter).1.built ≤ 0 + 1 + 1 :=
  C21_load_not_transactional Examples.threeFiles Examples.workerSorter
    (NewManager (some Examples.failingSecond)) ["a.json"] ["c.json"] "b.json" "boot failed"
    rfl rfl (Or.inr ⟨[], rfl, rfl⟩)

/-- C22, as stated, fails for the Worker of worker.go, whose Init returns
the empty ID while GetID reports another string: after a Load() that
succeeded over one file, Reload() over the same file returns nil and the
registry holds two Workers. -/
theorem C22_counterexample :
    ((NewManager (some (fun _ => Examples.baseWorker))).Load Examples.oneFile
      Examples.workerSorter).2 = none ∧
    (((NewManager (some (fun _ => Examples.baseWorker))).Load Examples.oneFile
      Examples.workerSorter).1.Reload Examples.oneFile Examples.workerSorter).2 = none ∧
    (((NewManager (some (fun _ => Examples.baseWorker))).Load Examples.oneFile
      Examples.workerSorter).1.Reload Examples.oneFile Examples.workerSorter).1.workers.length
      = 2 := by
  refine ⟨?_, ?_, ?_⟩ <;> decide

/-- C22, amended: after a Load() that succeeded, if the Worker registered
for the first file reports as GetID() the ID its Init yielded, and Init
yields the same ID for that file again, Reload() over the same files
returns a non-nil error, registers no Worker and dispatches no event: the
registry and the events are those left by Load. -/
theorem C22_reload_fails (fs : FS) (wsort : WSorter) (m m1 : Manager)
    (builder : Nat → Worker) (file : String) (rest : List String) (content : Config)
    (hsort : wsort.Valid)
    (hb : m.workerBuilder = some builder)
    (hglob : fs.glob (pathJoin [m.rootPath, m.workersDir, "*" ++ m.workersExt]) =
      .ok (file :: rest))
    (hread : fs.read file = .ok content)
    (hload : m.Load fs wsort = (m1, none))
    (hget : (builder m.built).GetID = ((builder m.built).InitResult content [file]).1)
    (hsame : ((builder m1.built).InitResult content [file]).1 =
      ((builder m.built).InitResult content [file]).1) :
    (∃ e, (m1.Reload fs wsort).2 = some e) ∧
    (m1.Reload fs wsort).1.workers = m1.workers ∧
    (m1.Reload fs wsort).1.events = m1.events := by
  have hk := Load_keeps fs wsort m
  rw [hload] at hk
  obtain ⟨_, hk1, hk2, hk3, hk4⟩ := hk
  simp only [] at hk1 hk2 hk3 hk4
  -- the Worker of the first file is registered
  have hmem : ∃ w ∈ m1.workers, w.GetID = (builder m.built).GetID := by
    unfold Manager.Load at hload
    simp only [hglob, List.length_cons, Nat.add_one_ne_zero, if_false] at hload
    rcases hl : Manager.loadFiles fs m (file :: rest) 0 with ⟨m2, _ | err⟩
    · rw [hl] at hload
      simp only [] at hload
      split at hload
      · simp at hload
      · simp only [Prod.mk.injEq, and_true] at hload
        unfold Manager.loadFiles at hl
        simp only [hread] at hl
        rcases Add_cases m 0 content [file] with ⟨e, he, _⟩ | ⟨w, hw, hws, _, _, _, b, hb', hid, _⟩
        · rcases ha : m.Add 0 content [file] with ⟨m3, err | w⟩
          · rw [show ((0 : Nat) : Int) = 0 from rfl, ha] at hl
            simp at hl
          · rw [ha] at he
            cases he
        · rcases ha : m.Add 0 content [file] with ⟨m3, err | w'⟩
          · rw [ha] at hw
            cases hw
          · rw [ha] at hw hws
            cases hw
            rw [show ((0 : Nat) : Int) = 0 from rfl, ha] at hl
            simp only [] at hl hws
            obtain ⟨ws, h1, _⟩ := loadFiles_ok fs rest m3 m2 (0 + 1) hl
            rw [hb] at hb'
            cases hb'
            refine ⟨w, ?_, hid⟩
            rw [← hload]
            show w ∈ wsort Worker.Index m2.workers
            rw [((hsort Worker.Index m2.workers).1).mem_iff, h1, hws]
            simp
    · rw [hl] at hload
      simp at hload
  obtain ⟨w, hw, hwid⟩ := hmem
  -- Add of the first file fails on the reloaded manager
  have hadd : ∃ e, (m1.Add 0 content [file]).2 = .error e ∧
      (m1.Add 0 content [file]).1.workers = m1.workers ∧
      (m1.Add 0 content [file]).1.events = m1.events := by
    rcases Add_cases m1 0 content [file] with h | ⟨w', _, _, _, _, _, b, hb', _, _, hnew⟩
    · exact h
    · exfalso
      rw [hk4, hb] at hb'
      cases hb'
      exact hnew w hw (by rw [hwid, hget, hsame])
  obtain ⟨e, he, hws, hevs⟩ := hadd
  have hre : m1.Reload fs wsort = ((m1.Add 0 content [file]).1, some e) := by
    unfold Manager.Reload Manager.Load
    simp only [hk1, hk2, hk3, hglob, List.length_cons, Nat.add_one_ne_zero, if_false]
    unfold Manager.loadFiles
    simp only [hread]
    rcases ha : m1.Add 0 content [file] with ⟨m3, err | w'⟩
    · rw [ha] at he
      cases he
      rfl
    · rw [ha] at he
      cases he
  rw [hre]
  exact ⟨⟨e, rfl⟩, hws, hevs⟩

/-- C22 amended, at a Worker that takes the name of its file as ID: the
Reload after a Load of one file returns an error and the registry still
holds one Worker. -/
theorem C22_witness :
    (∃ e, (((NewManager (some Examples.fileBuilder)).Load Examples.oneFile
      Examples.workerSorter).1.Reload Examples.oneFile Examples.workerSorter).2 = some e) ∧
    (((NewManager (some Examples.fileBuilder)).Load Examples.oneFile
      Examples.workerSorter).1.Reload Examples.oneFile Examples.workerSorter).1.workers =
      ((NewManager (some Examples.fileBuilder)).Load Examples.oneFile
        Examples.workerSorter).1.workers ∧
    (((NewManager (some Examples.fileBuilder)).Load Examples.oneFile
      Examples.workerSorter).1.Reload Examples.oneFile Examples.workerSorter).1.events =
      ((NewManager (some Examples.fileBuilder)).Load Examples.oneFile
        Examples.workerSorter).1.events :=
  C22_reload_fails Examples.oneFile Examples.workerSorter
    (NewManager (some Examples.fileBuilder)) _ Examples.fileBuilder "a.json" [] []
    Examples.workerSorter_valid rfl rfl rfl (Prod.ext rfl (by decide)) rfl rfl

/-- C24: The duplicate check of Add and its append are two separate
critical sections. When two goroutines call Add with payloads whose Init
yields the same ID, which no registered Worker has, and the second runs its
check before the first appends, both calls return their Worker with a nil
error and the registry ends with both Workers appended, two Workers that
report the same GetID(). -/
theorem C24_concurrent_add_registers_both (m : Manager) (builder : Nat → Worker)
    (iA iB : Int) (dA dB : Config) (fA fB : List String) (id : String)
    (hb : m.workerBuilder = some builder)
    (hA : (builder m.built).InitResult dA fA = (id, none))
    (hB : (builder (m.built + 1)).InitResult dB fB = (id, none))
    (hgetA : (builder m.built).GetID = id)
    (hgetB : (builder (m.built + 1)).GetID = id)
    (hnew : ∀ w ∈ m.workers, w.GetID ≠ id)
    (hbootA : (builder m.built).BootResult = none)
    (hbootB : (builder (m.built + 1)).BootResult = none) :
    ∃ wA wB, (m.addRace iA iB dA dB fA fB).2.1 = .ok wA ∧
      (m.addRace iA iB dA dB fA fB).2.2 = .ok wB ∧
      (m.addRace iA iB dA dB fA fB).1.workers = m.workers ++ [wA, wB] ∧
      wA.GetID = id ∧ wB.GetID = id ∧
      WCall.Init dA fA ∈ wA.log ∧ WCall.Init dB fB ∈ wB.log := by
  have hdup : ¬ ∃ x ∈ m.workers, x.ID = id := by
    rintro ⟨x, hx, h⟩
    exact hnew x hx h
  have hgA : (builder m.built).ID = id := hgetA
  have hgB : (builder (m.built + 1)).ID = id := hgetB
  simp [Manager.addRace, Manager.addCheck, Manager.addRegister, Manager.Get, hb, hA, hB, hdup,
    Worker.Boot, Worker.RegisterListeners, Worker.SetLogger, Worker.SetCache, Worker.SetClient,
    Worker.SetTaskManager, Worker.SetIndex, Worker.Init, hbootA, hbootB, Worker.GetID, hgA, hgB]

/-- C24 at an empty registry whose factory makes Workers that Init names
"w1": the two racing calls of Add leave two Workers "w1" registered. -/
theorem C24_witness :
    ∃ wA wB, ((NewManager (some (fun _ => Examples.worker "w1"))).addRace 0 1 [] [] [] []).2.1
        = .ok wA ∧
      ((NewManager (some (fun _ => Examples.worker "w1"))).addRace 0 1 [] [] [] []).2.2
        = .ok wB ∧
      ((NewManager (some (fun _ => Examples.worker "w1"))).addRace 0 1 [] [] [] []).1.workers
        = [] ++ [wA, wB] ∧
      wA.GetID = "w1" ∧ wB.GetID = "w1" ∧
      WCall.Init [] [] ∈ wA.log ∧ WCall.Init [] [] ∈ wB.log :=
  C24_concurrent_add_registers_both (NewManager (some (fun _ => Examples.worker "w1")))
    (fun _ => Examples.worker "w1") 0 1 [] [] [] [] "w1" rfl rfl rfl rfl rfl
    (fun _ h => absurd h (List.not_mem_nil _)) rfl rfl

end Workman

/-- C25, as stated, fails: with Retries = 3 and a Handler that fails twice
and then succeeds, the statuses set by one Start() are fail, retry, fail,
retry, success, so that fail is followed by retry, twice. -/
theorem C25_counterexample :
    statusesSet Examples.failTwice.Start.2 = [.fail, .retry, .fail, .retry, .success] := by
  decide

/-- C25, amended: within one Start() on a Task that is not in status
success, for every Handler behaviour and every Retries value, the statuses
set are: start, first and once, exactly when OnStart is set; then fail,
retry, fail, retry, and so on, each failed pass setting fail before the
next pass sets retry; then an ending that is success, fail, or fail twice.
So start is never set after retry, pending is never set, success is only
ever the last status set, every retry directly follows a fail, and the last
status set is the Status() the Task has when Start returns, fail or
success. -/
theorem C25_status_sequence (t : Task) (hs : t.status ≠ .success) :
    ∃ (k : Nat) (ending : List Status),
      statusesSet t.Start.2 =
        (if t.OnStart = Hook.nil then [] else [.start]) ++
          alternation .fail .retry k ++ ending ∧
      (ending = [.success] ∨ ending = [.fail] ∨ ending = [.fail, .fail]) ∧
      ending.getLast? = some t.Start.1.Status := by
  rw [Task.Start_eq t hs]
  simp only [statusesSet_append, Task.prologue_statuses, Task.onTaskEnd_statuses,
    List.append_nil, Task.Status]
  obtain ⟨he1, he2⟩ := Task.epilogue_statuses
    (Task.loop t.prologue.1.Retries.toNat 0 t.prologue.1).1
  rw [he1]
  have hfin : (Task.loop t.prologue.1.Retries.toNat 0 t.prologue.1).1.epilogue.1.status
      = .success ∨ (Task.loop t.prologue.1.Retries.toNat 0 t.prologue.1).1.epilogue.1.status
      = .fail := by
    rw [he2]; split
    · exact Or.inl rfl
    · exact Or.inr rfl
  rcases Task.loop_statuses t.prologue.1.Retries.toNat t.prologue.1 with h | ⟨k, ⟨h, herr⟩ | h⟩
  · refine ⟨0, [_], ?_, ?_, rfl⟩
    · rw [h]; simp [alternation]
    · rcases hfin with h' | h' <;> simp [h']
  · refine ⟨k, [.fail, .fail], ?_, Or.inr (Or.inr rfl), ?_⟩
    · rw [h, he2, if_neg herr]; simp
    · rw [he2, if_neg herr]; rfl
  · refine ⟨k + 1, [_], ?_, ?_, rfl⟩
    · rw [h]
    · rcases hfin with h' | h' <;> simp [h']

/-- C25 amended, at Retries = 3 and a Handler that fails twice and then
succeeds. -/
theorem C25_witness :
    ∃ (k : Nat) (ending : List Status),
      statusesSet Examples.failTwice.Start.2 =
        (if Examples.failTwice.OnStart = Hook.nil then [] else [.start]) ++
          alternation .fail .retry k ++ ending ∧
      (ending = [.success] ∨ ending = [.fail] ∨ ending = [.fail, .fail]) ∧
      ending.getLast? = some Examples.failTwice.Start.1.Status :=
  C25_status_sequence Examples.failTwice (by decide)

/-- C28: Once(name) for an existing Task leaves the manager stopped. On a
manager whose Items were added with Add, for every prior state, started or
not, and whether the isolated Task succeeds or fails: when Once finds a Task
of that name it returns with IsStarted() = false, and from that state runNext
starts no Task, whatever Task it is called for, so that a chain that was
running does not go past its in-flight Task. -/
theorem C28_once_leaves_manager_stopped (m : Manager) (name : String) (p : Ptr)
    (hadded : ∀ q ∈ m.Items, (m.task? q).map Task.onRunEnd = some true)
    (hp : m.Get name = some p) :
    ∃ m1 err, m.Once name = some (m1, err) ∧ m1.IsStarted = false ∧
      ∀ c, (m1.advance c).2 = none ∧ (m1.advance c).1.IsStarted = false := by
  have hmem : p ∈ m.Items := List.mem_of_find?_eq_some hp
  obtain ⟨t, ht, ho⟩ : ∃ t, m.task? p = some t ∧ t.onRunEnd = true := by
    have := hadded p hmem
    rcases h : m.task? p with _ | t
    · rw [h] at this; cases this
    · rw [h] at this
      exact ⟨t, rfl, by simpa using this⟩
  have ht2 : ((m.update p Task.reset).update p
      (fun t => { t with executeNextTask := false })).task? p =
      some { t.reset with executeNextTask := false } := by
    rw [Manager.task?_update, Manager.task?_update]
    simp [ht]
  obtain ⟨m3, evs, hst, _, _, _, _, _, _, _, hstop⟩ :=
    Manager.startTask_isolated 0 _ p _ ht2 rfl
  have h3 : m3.isStarted = false := hstop (by simpa [Task.reset] using ho)
  have h4 : (m3.update p (fun t => { t with executeNextTask := true })).isStarted = false := by
    rw [Manager.update_isStarted]; exact h3
  refine ⟨m3.update p (fun t => { t with executeNextTask := true }),
    ((m3.update p (fun t => { t with executeNextTask := true })).task? p).bind Task.err,
    ?_, h4, ?_⟩
  · simp only [Manager.Once, hp, hst]
  · intro c
    exact Manager.advance_idle _ h4 c

/-- C28 at a running chain over Tasks "a", "b", "c" with "b" current:
Once("c") returns with IsStarted() = false. -/
theorem C28_witness :
    Examples.chainRunning.IsStarted = true ∧
    ∃ m1 err, Examples.chainRunning.Once "c" = some (m1, err) ∧ m1.IsStarted = false ∧
      ∀ c, (m1.advance c).2 = none ∧ (m1.advance c).1.IsStarted = false :=
  ⟨rfl, C28_once_leaves_manager_stopped Examples.chainRunning "c" 2 (by decide) (by decide)⟩

/-- C29 at a designated Task with Retries = -1: Orders 1 and 2 are added,
the first with Retries = -1, and the first is designated with SetCurrent.
Start invokes no Handler at all, not even that of the designated Task,
whose run ends with status success; onComplete is not called and
IsStarted() is false. -/
theorem C29_designated_negative_retries_not_run :
    (Examples.designatedNegative.Start Examples.insertionSorter).map
      (fun m => (handlerRuns m.trace, (m.task? 0).map Task.calls,
        decide (Event.task 0 (.runEnd .success) ∈ m.trace),
        decide (Event.onComplete ∈ m.trace), m.IsStarted)) =
      some ([], some 0, true, false, false) := by
  decide

/-- C26: On a manager whose Items are distinct Tasks added with Add and
that was not sorted yet, for every sort.Sort within its contract, the first
Start() returns with Items() a permutation of the added Tasks in
non-decreasing Order, each Task having its position in Items() as index.
From there every sequence of Start(), Stop() and Reset() calls returns and
leaves Items() and the index of every Task as they were, and the manager
stays marked as sorted. -/
theorem C26_sort_runs_once (srt : Sorter) (hsrt : srt.Valid) (m : Manager) (hm : m.Managed)
    (hs : m.isSorted = false) :
    ∃ m1, m.Start srt = some m1 ∧ m1.Items.Perm m.Items ∧
      m1.Items.Pairwise (fun a b => m1.orderKey a ≤ m1.orderKey b) ∧
      m1.Indexed ∧
      ∀ ops : List Manager.Op, ∃ m2, m1.steps srt ops = some m2 ∧ m2.Items = m1.Items ∧
        (∀ p, m2.indexOf p = m1.indexOf p) ∧ m2.Indexed ∧ m2.isSorted = true := by
  have hidx : m.isSorted = true → m.Indexed := by
    intro h; rw [hs] at h; cases h
  obtain ⟨sI, _, _, _, _, sperm, sitems, _, _⟩ := Manager.sort_spec srt hsrt m hm hidx
  obtain ⟨m1, _, hst, _, hEv, _⟩ := Manager.Start_shape srt m
  have hI1 : m1.Indexed := sI.of_evolves hEv
  have hs1 : m1.isSorted = true := hEv.2.2.2.2.2.1.trans (Manager.sort_isSorted srt m)
  refine ⟨m1, hst, ?_, ?_, hI1, ?_⟩
  · show m1.items.Perm m.items
    rw [hEv.1]; exact sperm
  · show m1.items.Pairwise _
    rw [hEv.1, sitems hs]
    refine (hsrt m.orderKey m.items).2.imp ?_
    intro a b hab
    rw [hEv.orderKey_eq, hEv.orderKey_eq, Manager.sort_orderKey srt hsrt m hm hidx,
      Manager.sort_orderKey srt hsrt m hm hidx]
    exact hab
  · intro ops
    obtain ⟨m2, hst2, hEv2⟩ := Manager.steps_evolves srt ops m1 hs1
    exact ⟨m2, hst2, hEv2.1, hEv2.indexOf_eq, hI1.of_evolves hEv2, hEv2.2.2.2.2.2.1.trans hs1⟩

/-- C26 at Tasks of Orders 3, 1, 2 added in that order. -/
theorem C26_witness :
    ∃ m1, Examples.chain312.Start Examples.insertionSorter = some m1 ∧
      m1.Items.Perm Examples.chain312.Items ∧
      m1.Items.Pairwise (fun a b => m1.orderKey a ≤ m1.orderKey b) ∧
      m1.Indexed ∧
      ∀ ops : List Manager.Op, ∃ m2, m1.steps Examples.insertionSorter ops = some m2 ∧
        m2.Items = m1.Items ∧ (∀ p, m2.indexOf p = m1.indexOf p) ∧ m2.Indexed ∧
        m2.isSorted = true :=
  C26_sort_runs_once Examples.insertionSorter Examples.insertionSorter_valid Examples.chain312
    (Manager.managed_addAll _) rfl

/-- C27: A Task added after the first Start() is never sorted or indexed.
On a manager whose Items are distinct Tasks added with Add, at least one,
for every sort.Sort within its contract and every behaviour of the Handlers:
after the first Start(), the Add of a new Task object t, Reset() and Start(),
the second Start() returns; no call of t is recorded, so its Handler is not
invoked, onComplete is not called, and IsStarted() is false. The Task t is
still the last of Items(), behind the sorted Tasks, and its index is still
0. -/
theorem C27_task_added_after_sort (srt : Sorter) (hsrt : srt.Valid) (m : Manager)
    (hm : m.Managed) (hidx : m.isSorted = true → m.Indexed) (hne : m.Items ≠ [])
    (t : Task) (ht : t.index = 0) :
    ∃ m1, m.Start srt = some m1 ∧
      ∃ m2 evs, (m1.AddNew t).Reset.Start srt = some m2 ∧
        m2.trace = (m1.AddNew t).Reset.trace ++ evs ∧
        (∀ e, Event.task m1.heap.length e ∉ evs) ∧
        m1.heap.length ∉ handlerRuns evs ∧
        Event.onComplete ∉ evs ∧ m2.IsStarted = false ∧
        m2.Items = m1.Items ++ [m1.heap.length] ∧
        m2.indexOf m1.heap.length = some 0 := by
  obtain ⟨sI, _, _, _, _, sperm, _⟩ := Manager.sort_spec srt hsrt m hm hidx
  obtain ⟨m1, _, hst, _, hEv, _⟩ := Manager.Start_shape srt m
  have hI1 : m1.Indexed := sI.of_evolves hEv
  have hs1 : m1.isSorted = true := hEv.2.2.2.2.2.1.trans (Manager.sort_isSorted srt m)
  have hne1 : m1.items ≠ [] := by
    rw [hEv.1]
    intro h
    rw [h] at sperm
    exact hne sperm.symm.eq_nil
  have hL := Manager.AddNew_late m1 hI1 t ht
  obtain ⟨hER, _, hcur, _⟩ := Manager.Reset_spec (m1.AddNew t)
  have hLR := hL.carried hER
  have hsR : (m1.AddNew t).Reset.isSorted = true := by
    rw [hER.2.2.2.2.2.1, Manager.AddNew_eq]; exact hs1
  obtain ⟨m2, evs, hst2, htr2, hEv2, g1, g2, g3⟩ :=
    Manager.Start_skips_late srt _ m1.items m1.heap.length hLR hne1 hsR hcur
  have hL2 := hLR.carried hEv2
  refine ⟨m1, hst, m2, evs, hst2, htr2, g1, ?_, g2, g3, hL2.1, hL2.2.2.1⟩
  intro h
  obtain ⟨c, hc⟩ := (mem_handlerRuns _ _).1 h
  exact g1 _ hc

/-- C27 at Tasks of Orders 3, 1, 2 and a Task of Order 0 added after the
first Start(). -/
theorem C27_witness :
    ∃ m1, Examples.chain312.Start Examples.insertionSorter = some m1 ∧
      ∃ m2 evs, (m1.AddNew (Examples.okTask 0 1)).Reset.Start Examples.insertionSorter
          = some m2 ∧
        m2.trace = (m1.AddNew (Examples.okTask 0 1)).Reset.trace ++ evs ∧
        (∀ e, Event.task m1.heap.length e ∉ evs) ∧
        m1.heap.length ∉ handlerRuns evs ∧
        Event.onComplete ∉ evs ∧ m2.IsStarted = false ∧
        m2.Items = m1.Items ++ [m1.heap.length] ∧
        m2.indexOf m1.heap.length = some 0 :=
  C27_task_added_after_sort Examples.insertionSorter Examples.insertionSorter_valid
    Examples.chain312 (Manager.managed_addAll _)
    (fun h => Bool.noConfusion (h : false = true)) (by decide) (Examples.okTask 0 1) rfl

/-- C30: On a manager whose Items are distinct Tasks added with Add, at
least one, none of them current, and whose Handlers succeed whenever they
are invoked, for every sort.Sort within its contract: the first Start()
returns with IsStarted() = false, the last Task of Items() current and in
status success, and every Task before it in status pending with
Attempts() = 0. A second Start() without Reset() then returns, and what it
records is onStart when it is registered, the end-of-run callback of the
last Task with status success, the observers called for it, and onComplete
when it is registered: no Handler is invoked, and IsStarted() is false. -/
theorem C30_second_start_runs_nothing (srt : Sorter) (hsrt : srt.Valid) (m : Manager)
    (hm : m.Managed) (hidx : m.isSorted = true → m.Indexed) (hne : m.Items ≠ [])
    (hcur : m.Current = none)
    (hall : ∀ (q : Ptr) (u : Task), m.task? q = some u → u.Succeeds) :
    ∃ m1 p, m.Start srt = some m1 ∧ m1.IsStarted = false ∧
      m1.Items.getLast? = some p ∧ m1.Current = some p ∧
      (∀ (k : Nat) (q : Ptr), m1.Items[k]? = some q → k + 1 < m1.Items.length →
        ∃ u, m1.task? q = some u ∧ u.Status = .pending ∧ u.Attempts = 0) ∧
      (∃ u, m1.task? p = some u ∧ u.Status = .success) ∧
      ∃ m2, m1.Start srt = some m2 ∧
        m2.trace = m1.trace ++ ((if m1.onStart then [Event.onStart] else []) ++
          Event.task p (.runEnd .success) ::
            m1.onTaskStatusChange.map (fun o => Event.statusChange o p .success) ++
          (if m1.onComplete then [Event.onComplete] else [])) ∧
        handlerRuns m2.trace = handlerRuns m1.trace ∧ m2.IsStarted = false := by
  obtain ⟨sI, _, scur, _, _, sperm, _, _, _⟩ := Manager.sort_spec srt hsrt m hm hidx
  have hne2 : (m.sort srt).items ≠ [] := by
    intro h
    rw [h] at sperm
    exact hne sperm.symm.eq_nil
  have hall2 : ∀ (q : Ptr) (u : Task), (m.sort srt).task? q = some u → u.Succeeds := by
    intro q u hu
    obtain ⟨t, i, ht, rfl⟩ := Manager.sort_task_back srt hsrt m hm hidx q u hu
    exact fun n => hall q t ht n
  obtain ⟨m1, evs, hst, htr, hEv, _⟩ := Manager.Start_shape srt m
  obtain ⟨_, _, _, _, _, _, hstop, hlast⟩ := Manager.Start_completes_fresh srt m m1 evs hst htr
    sI hne2 (scur.trans hcur) hall2
  obtain ⟨gA, gB⟩ := Manager.Start_completes_state srt m m1 hst sI hne2 (scur.trans hcur) hall2
  have hI1 : m1.Indexed := sI.of_evolves hEv
  have hs1 : m1.isSorted = true := hEv.2.2.2.2.2.1.trans (Manager.sort_isSorted srt m)
  have hne1 : m1.items ≠ [] := by rw [hEv.1]; exact hne2
  rw [← hEv.1] at hlast
  obtain ⟨p, hp⟩ : ∃ p, m1.items.getLast? = some p := by
    rcases h : m1.items.getLast? with _ | p
    · exact absurd (List.getLast?_eq_none_iff.1 h) hne1
    · exact ⟨p, rfl⟩
  obtain ⟨u, hu, hus, hue, hux⟩ := gB p hp
  have hpos : m1.items[m1.items.length - 1]? = some p := by
    rw [← List.getLast?_eq_getElem?]; exact hp
  obtain ⟨u', hu', hui, huo⟩ := hI1 _ p hpos
  rw [hu] at hu'
  cases hu'
  refine ⟨m1, p, hst, hstop, hp, hlast.trans hp, ?_, ⟨u, hu, hus⟩, ?_⟩
  · intro k q hq hlt
    obtain ⟨v, hv, h1, h2, _⟩ := gA k q hq hlt
    exact ⟨v, hv, h1, h2⟩
  · obtain ⟨m2, evs2, hst2, htr2, _, hshape⟩ := Manager.Start_shape srt m1
    rw [Manager.sort_sorted srt m1 hs1] at hshape
    have hc1 : m1.current = some p := hlast.trans hp
    have hlen : 0 < m1.items.length := List.length_pos.2 hne1
    rcases hshape with ⟨_, h | ⟨c', h1, h2⟩ | ⟨h1, _⟩⟩ | ⟨m0, c, body, _, hevs, hch, _, _, _, h⟩
    · exact absurd h hne1
    · rw [hc1] at h1
      cases h1
      rw [hu] at h2
      cases h2
    · rw [hc1] at h1; cases h1
    · rcases h with ⟨h1, h2⟩ | ⟨h1, _⟩
      swap
      · rw [hc1] at h1; cases h1
      rw [hc1] at h1
      cases h1
      subst h2
      obtain ⟨hb, hstop2⟩ := hch.last_done u hu huo hus hue hux rfl
        (by
          show u.index + 1 > (m1.items.length : Int) - 1
          rw [hui]
          have : ((m1.items.length - 1 : Nat) : Int) = (m1.items.length : Int) - 1 := by
            omega
          omega)
      have hevs2 : evs2 = (if m1.onStart then [Event.onStart] else []) ++
          Event.task p (.runEnd .success) ::
            m1.onTaskStatusChange.map (fun o => Event.statusChange o p .success) ++
          (if m1.onComplete then [Event.onComplete] else []) := by
        rw [hevs, hb]
        simp [Manager.starting, Manager.completion, Manager.markStarted]
      refine ⟨m2, hst2, by rw [htr2, hevs2], ?_, hstop2⟩
      rw [htr2, handlerRuns_append, hevs2]
      have : handlerRuns ((if m1.onStart then [Event.onStart] else []) ++
          Event.task p (.runEnd .success) ::
            m1.onTaskStatusChange.map (fun o => Event.statusChange o p .success) ++
          (if m1.onComplete then [Event.onComplete] else [])) = [] := by
        apply Manager.handlerRuns_nil_of
        intro q c hq
        simp only [List.mem_append, List.mem_cons, List.mem_map] at hq
        rcases hq with (hq | hq | ⟨o, _, hq⟩) | hq
        · split at hq <;> simp at hq
        · cases hq
        · cases hq
        · split at hq <;> simp at hq
      rw [this, List.append_nil]

/-- C30 at Tasks of Orders 3, 1, 2 with one observer and every callback
registered. -/
theorem C30_witness :
    ∃ m1 p, Examples.chainConfigured.Start Examples.insertionSorter = some m1 ∧
      m1.IsStarted = false ∧
      m1.Items.getLast? = some p ∧ m1.Current = some p ∧
      (∀ (k : Nat) (q : Ptr), m1.Items[k]? = some q → k + 1 < m1.Items.length →
        ∃ u, m1.task? q = some u ∧ u.Status = .pending ∧ u.Attempts = 0) ∧
      (∃ u, m1.task? p = some u ∧ u.Status = .success) ∧
      ∃ m2, m1.Start Examples.insertionSorter = some m2 ∧
        m2.trace = m1.trace ++ ((if m1.onStart then [Event.onStart] else []) ++
          Event.task p (.runEnd .success) ::
            m1.onTaskStatusChange.map (fun o => Event.statusChange o p .success) ++
          (if m1.onComplete then [Event.onComplete] else [])) ∧
        handlerRuns m2.trace = handlerRuns m1.trace ∧ m2.IsStarted = false :=
  C30_second_start_runs_nothing Examples.insertionSorter Examples.insertionSorter_valid
    Examples.chainConfigured
    (Manager.managed_addAll [Examples.okTask 3 1, Examples.okTask 1 1, Examples.okTask 2 1])
    (fun h => Bool.noConfusion (h : false = true)) (by decide) rfl
    (by
      intro q u hu
      have h : (New.addAll [Examples.okTask 3 1, Examples.okTask 1 1,
          Examples.okTask 2 1]).task? q = some u := hu
      rw [Manager.task?_addAll] at h
      rcases q with _ | _ | _ | q <;> simp at h <;> subst h <;> exact fun _ => rfl)


end Simpkg
